import Mathlib

/-!
# Witcher-Tracker: a shallow embedding of the command interpreter

The development follows `src/Witcher-Tracker/main.cpp` (and, where noted,
`main.c`).  Byte strings are lists of characters, the C `int` quantities are
integers with an explicit 32-bit wrap where an addition can overflow, and the
text written to standard output is the list of lines printed.
-/

set_option autoImplicit false

namespace WitcherTracker

/-- A byte string (`std::string`, `std::string_view`). -/
abbrev Str := List Char

namespace GameConstants

def MAX_NAME_LENGTH : Nat := 128
def MAX_ITEMS : Nat := 128
def MAX_RECIPE_INGREDIENTS : Nat := 64
def MAX_EFFECTIVE_ITEMS : Nat := 64

end GameConstants

/-! ## Character classes (`<cctype>`, "C" locale) -/

/-- The function `std::isspace`: space, `\t`, `\n`, `\v`, `\f`, `\r`. -/
def isspace (c : Char) : Bool :=
  c.toNat = 32 || (9 ≤ c.toNat && c.toNat ≤ 13)

/-- The function `std::isalpha`: `A`-`Z` and `a`-`z`. -/
def isalpha (c : Char) : Bool :=
  (65 ≤ c.toNat && c.toNat ≤ 90) || (97 ≤ c.toNat && c.toNat ≤ 122)

/-- The function `std::isdigit`: `0`-`9`. -/
def isdigit (c : Char) : Bool :=
  48 ≤ c.toNat && c.toNat ≤ 57

/-! ## Machine integers -/

/-- The value of a 32-bit two's-complement `int` holding `x` modulo `2^32`. -/
def wrapInt32 (x : Int) : Int :=
  (x + 2147483648) % 4294967296 - 2147483648

/-- The constant `INT_MAX`. -/
def INT_MAX : Int := 2147483647

/-! ## Parsed commands (`namespace Parsed`) -/

/-- The enum `CommandType`. -/
inductive CommandType where
  | LOOT
  | TRADE
  | BREW
  | LEARN_EFFECTIVENESS
  | LEARN_FORMULA
  | ENCOUNTER
  | QUERY_TOTAL_SPECIFIC
  | QUERY_TOTAL_ALL
  | QUERY_EFFECTIVE_AGAINST
  | QUERY_WHAT_IS_IN
  | EXIT
  | INVALID
  | EMPTY
  deriving DecidableEq

/-- The two kinds of effective item. -/
inductive EffectivenessType where
  | POTION
  | SIGN
  deriving DecidableEq

/-- The struct `Parsed::ItemInfo`. -/
structure ItemInfo where
  name : Str
  quantity : Int
  deriving DecidableEq

/-- The struct `Parsed::Command`: the command type together with the payload
the parser stores for it. -/
inductive Command where
  | LOOT (items : List ItemInfo)
  | TRADE (trophies_to_give : List ItemInfo) (ingredients_to_receive : List ItemInfo)
  | BREW (potion_name : Str)
  | LEARN_EFFECTIVENESS (item_name : Str) (item_type : EffectivenessType) (monster_name : Str)
  | LEARN_FORMULA (potion_name : Str) (requirements : List ItemInfo)
  | ENCOUNTER (monster_name : Str)
  | QUERY_TOTAL_SPECIFIC (category : Str) (item_name : Str)
  | QUERY_TOTAL_ALL (category : Str)
  | QUERY_EFFECTIVE_AGAINST (monster_name : Str)
  | QUERY_WHAT_IS_IN (potion_name : Str)
  | EXIT
  | INVALID
  | EMPTY
  deriving DecidableEq

/-- The member `type` of `Parsed::Command`. -/
def Command.type : Command → CommandType
  | .LOOT _ => .LOOT
  | .TRADE _ _ => .TRADE
  | .BREW _ => .BREW
  | .LEARN_EFFECTIVENESS _ _ _ => .LEARN_EFFECTIVENESS
  | .LEARN_FORMULA _ _ => .LEARN_FORMULA
  | .ENCOUNTER _ => .ENCOUNTER
  | .QUERY_TOTAL_SPECIFIC _ _ => .QUERY_TOTAL_SPECIFIC
  | .QUERY_TOTAL_ALL _ => .QUERY_TOTAL_ALL
  | .QUERY_EFFECTIVE_AGAINST _ => .QUERY_EFFECTIVE_AGAINST
  | .QUERY_WHAT_IS_IN _ => .QUERY_WHAT_IS_IN
  | .EXIT => .EXIT
  | .INVALID => .INVALID
  | .EMPTY => .EMPTY

/-! ## Domain model -/

/-- The class `InventoryItem`. -/
structure InventoryItem where
  name : Str
  quantity : Int
  deriving DecidableEq

/-- The class `IngredientRequirement`. -/
structure IngredientRequirement where
  ingredient_name : Str
  quantity : Int
  deriving DecidableEq

/-- The class `EffectiveItem`. -/
structure EffectiveItem where
  name : Str
  type : EffectivenessType
  deriving DecidableEq

/-- The class `PotionFormula`. -/
structure PotionFormula where
  potion_name : Str
  requirements : List IngredientRequirement
  deriving DecidableEq

/-- The class `BestiaryEntry`. -/
structure BestiaryEntry where
  monster_name : Str
  effective_items : List EffectiveItem
  deriving DecidableEq

/-- The class `Inventory`: three vectors of items. -/
structure Inventory where
  ingredients_ : List InventoryItem
  potions_ : List InventoryItem
  trophies_ : List InventoryItem
  deriving DecidableEq

/-- The class `AlchemyBase`. -/
structure AlchemyBase where
  formulae_ : List PotionFormula
  deriving DecidableEq

/-- The class `Bestiary`. -/
structure Bestiary where
  entries_ : List BestiaryEntry
  deriving DecidableEq

/-- The data members of `WitcherGame` that make up the session state. -/
structure WitcherGame where
  inventory_ : Inventory
  alchemy_base_ : AlchemyBase
  bestiary_ : Bestiary
  deriving DecidableEq

/-- The state of a freshly constructed `WitcherGame`. -/
def WitcherGame.init : WitcherGame :=
  ⟨⟨[], [], []⟩, ⟨[]⟩, ⟨[]⟩⟩

/-! ### Inventory internals -/

/-- `Inventory::findItemInternal`: the first item with the given name (the
item the returned pointer refers to), if any. -/
def findItemInternal : List InventoryItem → Str → Option InventoryItem
  | [], _ => none
  | item :: rest, name => if item.name = name then some item else findItemInternal rest name

/-- A write through the pointer returned by `findItemInternal`: the quantity of
the first item with the given name becomes `f` of its old value. -/
def writeItemInternal : List InventoryItem → Str → (Int → Int) → List InventoryItem
  | [], _, _ => []
  | item :: rest, name, f =>
    if item.name = name then { item with quantity := f item.quantity } :: rest
    else item :: writeItemInternal rest name f

/-- `Inventory::addOrUpdateItemInternal`.  The `+=` on `int` is taken modulo
`2^32`. -/
def addOrUpdateItemInternal (items : List InventoryItem) (name : Str) (quantity_change : Int) :
    List InventoryItem :=
  match findItemInternal items name with
  | some _ =>
    writeItemInternal items name (fun q =>
      let q1 := wrapInt32 (q + quantity_change)
      if q1 < 0 then 0 else q1)
  | none =>
    if quantity_change > 0 ∧ items.length < GameConstants.MAX_ITEMS then
      items ++ [⟨name, quantity_change⟩]
    else items

/-- `Inventory::getItemQuantityInternal`. -/
def getItemQuantityInternal (items : List InventoryItem) (name : Str) : Int :=
  match findItemInternal items name with
  | some item => item.quantity
  | none => 0

/-- `Inventory::useItemInternal`: the updated vector and the returned flag.
The `-=` is guarded by `0 < quantity_to_use ≤ quantity`, so it cannot leave the
range of `int` (see `wrapInt32_sub_guarded`). -/
def useItemInternal (items : List InventoryItem) (name : Str) (quantity_to_use : Int) :
    List InventoryItem × Bool :=
  if quantity_to_use ≤ 0 then (items, false)
  else
    match findItemInternal items name with
    | some item =>
      if item.quantity ≥ quantity_to_use then
        (writeItemInternal items name (fun q => q - quantity_to_use), true)
      else (items, false)
    | none => (items, false)

namespace Inventory

def addIngredient (inv : Inventory) (name : Str) (quantity : Int) : Inventory :=
  { inv with ingredients_ := addOrUpdateItemInternal inv.ingredients_ name quantity }

def getIngredientQuantity (inv : Inventory) (name : Str) : Int :=
  getItemQuantityInternal inv.ingredients_ name

def useIngredient (inv : Inventory) (name : Str) (quantity : Int) : Inventory × Bool :=
  let r := useItemInternal inv.ingredients_ name quantity
  ({ inv with ingredients_ := r.1 }, r.2)

def addPotion (inv : Inventory) (name : Str) (quantity : Int) : Inventory :=
  { inv with potions_ := addOrUpdateItemInternal inv.potions_ name quantity }

def getPotionQuantity (inv : Inventory) (name : Str) : Int :=
  getItemQuantityInternal inv.potions_ name

def usePotion (inv : Inventory) (name : Str) (quantity : Int) : Inventory × Bool :=
  let r := useItemInternal inv.potions_ name quantity
  ({ inv with potions_ := r.1 }, r.2)

def addTrophy (inv : Inventory) (name : Str) (quantity : Int) : Inventory :=
  { inv with trophies_ := addOrUpdateItemInternal inv.trophies_ name quantity }

def getTrophyQuantity (inv : Inventory) (name : Str) : Int :=
  getItemQuantityInternal inv.trophies_ name

def useTrophy (inv : Inventory) (name : Str) (quantity : Int) : Inventory × Bool :=
  let r := useItemInternal inv.trophies_ name quantity
  ({ inv with trophies_ := r.1 }, r.2)

end Inventory

/-- `AlchemyBase::findFormula`: the first formula with the given potion name. -/
def AlchemyBase.findFormula (ab : AlchemyBase) (potion_name : Str) : Option PotionFormula :=
  ab.formulae_.find? (fun formula => decide (formula.potion_name = potion_name))

/-! ## Command handlers

A handler returns the new session state and the lines it wrote to standard
output, in order. -/

/-- The loop of `handleTrade` that calls `useTrophy` for each trophy and
returns from the handler at the first failed call: the inventory reached and
whether every call succeeded. -/
def useTrophies : Inventory → List ItemInfo → Inventory × Bool
  | inv, [] => (inv, true)
  | inv, trophy_to_give :: rest =>
    let r := inv.useTrophy trophy_to_give.name trophy_to_give.quantity
    if r.2 then useTrophies r.1 rest else (r.1, false)

/-- The loop of `handleLoot` and `handleTrade` that calls `addIngredient` for
each item. -/
def addIngredients : Inventory → List ItemInfo → Inventory
  | inv, [] => inv
  | inv, item_info :: rest => addIngredients (inv.addIngredient item_info.name item_info.quantity) rest

/-- `WitcherGame::handleTrade`. -/
def handleTrade (g : WitcherGame) (cmd : Command) : WitcherGame × List Str :=
  match cmd with
  | .TRADE trophies_to_give ingredients_to_receive =>
    let can_trade := trophies_to_give.all (fun trophy_to_give =>
      !decide (g.inventory_.getTrophyQuantity trophy_to_give.name < trophy_to_give.quantity))
    if !can_trade then (g, ["Not enough trophies".toList])
    else
      let r := useTrophies g.inventory_ trophies_to_give
      if !r.2 then ({ g with inventory_ := r.1 }, [])
      else
        ({ g with inventory_ := addIngredients r.1 ingredients_to_receive },
          ["Trade successful".toList])
  | _ => (g, ["INVALID".toList])

/-- The loop of `handleBrew` that calls `useIngredient` for each requirement
and returns from the handler at the first failed call. -/
def useIngredients : Inventory → List IngredientRequirement → Inventory × Bool
  | inv, [] => (inv, true)
  | inv, req :: rest =>
    let r := inv.useIngredient req.ingredient_name req.quantity
    if r.2 then useIngredients r.1 rest else (r.1, false)

/-- `WitcherGame::handleBrew`. -/
def handleBrew (g : WitcherGame) (cmd : Command) : WitcherGame × List Str :=
  match cmd with
  | .BREW potion_name =>
    match g.alchemy_base_.findFormula potion_name with
    | none => (g, ["No formula for ".toList ++ potion_name])
    | some formula =>
      let has_ingredients := formula.requirements.all (fun req =>
        !decide (g.inventory_.getIngredientQuantity req.ingredient_name < req.quantity))
      if !has_ingredients then (g, ["Not enough ingredients".toList])
      else
        let r := useIngredients g.inventory_ formula.requirements
        if !r.2 then ({ g with inventory_ := r.1 }, [])
        else
          ({ g with inventory_ := r.1.addPotion potion_name 1 },
            ["Alchemy item created: ".toList ++ potion_name])
  | _ => (g, ["INVALID".toList])

/-! ## Parser utilities (`namespace ParserUtils`) -/

/-- `ParserUtils::trim_whitespace_in_place` / `trim_whitespace_str`: erase the
leading whitespace, then the trailing whitespace. -/
def trim_whitespace_str (s : Str) : Str :=
  ((s.dropWhile isspace).reverse.dropWhile isspace).reverse

/-- The outcome of `std::stol(str, &pos)`: one of the two exceptions, or the
value together with the number of characters consumed. -/
inductive StolResult where
  | invalid_argument
  | out_of_range
  | ok (val : Int) (pos : Nat)
  deriving DecidableEq

/-- The number written by a string of decimal digits. -/
def digitsValue (ds : Str) : Nat :=
  ds.foldl (fun acc c => 10 * acc + (c.toNat - 48)) 0

/-- The constant `LONG_MAX` of a 64-bit `long`. -/
def LONG_MAX : Int := 9223372036854775807

/-- The library function `std::stol` in base 10: skip leading whitespace, take
an optional sign, then the longest run of digits; no digit is
`invalid_argument`, a value outside `long` is `out_of_range`. -/
def stol (str : Str) : StolResult :=
  let ws := str.takeWhile isspace
  let r1 := str.dropWhile isspace
  let neg : Bool := r1.head? = some '-'
  let signLen : Nat := if r1.head? = some '-' ∨ r1.head? = some '+' then 1 else 0
  let r2 := r1.drop signLen
  let ds := r2.takeWhile isdigit
  if ds = [] then .invalid_argument
  else
    let val : Int := if neg then -(digitsValue ds : Int) else (digitsValue ds : Int)
    if val < -LONG_MAX - 1 ∨ val > LONG_MAX then .out_of_range
    else .ok val (ws.length + signLen + ds.length)

/-- `ParserUtils::parse_quantity`. -/
def parse_quantity (token_str : Str) : Option Int :=
  if token_str = [] then none
  else
    match stol token_str with
    | .ok val pos =>
      if pos ≠ token_str.length ∨ val ≤ 0 ∨ val > 2147483647 then none
      else some val
    | .invalid_argument => none
    | .out_of_range => none

/-- The loop of `parse_name` over the characters of the trimmed token, with
the flags `char_found` and `last_char_was_space`; `none` is the early
`return std::nullopt`, otherwise the final value of `char_found`. -/
def parse_name_loop (allow_spaces : Bool) : Str → Bool → Bool → Option Bool
  | [], char_found, _ => some char_found
  | c :: rest, char_found, last_char_was_space =>
    if isalpha c then parse_name_loop allow_spaces rest true false
    else if isspace c then
      if !allow_spaces then none
      else if last_char_was_space then none
      else parse_name_loop allow_spaces rest char_found true
    else none

/-- `ParserUtils::parse_name`. -/
def parse_name (token_str_in : Str) (allow_spaces : Bool) : Option Str :=
  let token_str := trim_whitespace_str token_str_in
  if token_str = [] ∨ token_str.length ≥ GameConstants.MAX_NAME_LENGTH then none
  else
    match parse_name_loop allow_spaces token_str false false with
    | none => none
    | some char_found => if !char_found then none else some token_str

/-- The `std::getline` loop of `split_string`, one character at a time: `cur`
holds (reversed) the characters extracted since the last delimiter.  A
delimiter ends the current token, also an empty one; at the end of the stream
a token is produced only if some character was extracted for it. -/
def split_string_loop (delimiter : Char) : Str → Str → List Str
  | cur, [] => if cur = [] then [] else [cur.reverse]
  | cur, c :: rest =>
    if c = delimiter then cur.reverse :: split_string_loop delimiter [] rest
    else split_string_loop delimiter (c :: cur) rest

/-- `ParserUtils::split_string`. -/
def split_string (s : Str) (delimiter : Char) : List Str :=
  split_string_loop delimiter [] s

/-- The body of the `for` loop of `parse_item_list` for one token, up to the
capacity check: the item the token denotes, or `none` for
`return std::nullopt`. -/
def parse_item_token (token_in : Str) (item_names_allow_spaces : Bool) : Option ItemInfo :=
  let token := trim_whitespace_str token_in
  if token = [] then none
  else
    let qty_str := token.takeWhile (fun c => c != ' ')
    -- `first_space_pos == npos` or `first_space_pos == 0`
    if qty_str.length = token.length ∨ qty_str.length = 0 then none
    else
      let name_str_raw := trim_whitespace_str (token.drop (qty_str.length + 1))
      if name_str_raw = [] then none
      else
        match parse_quantity qty_str, parse_name name_str_raw item_names_allow_spaces with
        | some quantity, some name => some ⟨name, quantity⟩
        | _, _ => none

/-- The `for` loop of `parse_item_list` over the tokens, with the vector
`parsed_items` built so far. -/
def parse_item_list_loop (item_names_allow_spaces : Bool) :
    List Str → List ItemInfo → Option (List ItemInfo)
  | [], parsed_items => some parsed_items
  | token :: rest, parsed_items =>
    match parse_item_token token item_names_allow_spaces with
    | none => none
    | some item =>
      if parsed_items.length ≥ GameConstants.MAX_RECIPE_INGREDIENTS then none
      else parse_item_list_loop item_names_allow_spaces rest (parsed_items ++ [item])

/-- `ParserUtils::parse_item_list`. -/
def parse_item_list (list_str_in : Str) (item_names_allow_spaces : Bool) :
    Option (List ItemInfo) :=
  let list_str := trim_whitespace_str list_str_in
  if list_str = [] then some []
  else
    let tokens := split_string list_str ','
    let tokens := if tokens = [] ∧ list_str ≠ [] then [list_str] else tokens
    parse_item_list_loop item_names_allow_spaces tokens []

/-! ## Text-matching primitives (`namespace ParserUtils`) -/

/-- The character `'\0'`. -/
def NUL : Char := Char.ofNat 0

/-- The scan of `std::string_view::find` through the suffix that starts at
offset `off`: the first offset at which `needle` is a prefix of what is left. -/
def sv_find_loop (needle : Str) : Str → Nat → Option Nat
  | [], off => if needle = [] then some off else none
  | c :: rest, off =>
    if needle.isPrefixOf (c :: rest) then some off else sv_find_loop needle rest (off + 1)

/-- `std::string_view::find(needle, pos)`; `none` is `npos`. -/
def sv_find (haystack needle : Str) (pos : Nat) : Option Nat :=
  if pos > haystack.length then none else sv_find_loop needle (haystack.drop pos) pos

/-- `ParserUtils::advance_past_whitespace`: the view after the call. -/
def advance_past_whitespace (sv : Str) : Str :=
  sv.dropWhile isspace

/-- `ParserUtils::match_and_advance`: the returned flag and the view `sv`
after the call.  The first statement advances `sv` itself past the leading
whitespace, before the keyword is compared. -/
def match_and_advance (sv keyword : Str) : Bool × Str :=
  let sv := advance_past_whitespace sv
  if keyword.isPrefixOf sv then
    if sv.length = keyword.length ∨ isspace (sv.getD keyword.length NUL) = true then
      (true, advance_past_whitespace (sv.drop keyword.length))
    else (false, sv)
  else (false, sv)

/-- The `while` loop of `find_standalone_substring`, from search offset
`current_search_offset`; every round moves the offset forward, so
`haystack.length + 1` rounds are enough. -/
def find_standalone_substring_loop (haystack needle : Str) : Nat → Nat → Option (Str × Nat)
  | 0, _ => none
  | fuel + 1, current_search_offset =>
    if current_search_offset < haystack.length then
      match sv_find haystack needle current_search_offset with
      | none => none
      | some found_pos =>
        let before_bad : Bool :=
          decide (found_pos > 0) && !isspace (haystack.getD (found_pos - 1) NUL)
        let char_after_needle : Char :=
          if found_pos + needle.length < haystack.length then
            haystack.getD (found_pos + needle.length) NUL
          else NUL
        let after_bad : Bool := decide (char_after_needle ≠ NUL) && !isspace char_after_needle
        if !before_bad && !after_bad then
          some (haystack.drop (found_pos + needle.length), found_pos)
        else find_standalone_substring_loop haystack needle fuel (found_pos + 1)
    else none

/-- `ParserUtils::find_standalone_substring`: the text after the needle and
the position of the needle, or `none`. -/
def find_standalone_substring (haystack needle : Str) : Option (Str × Nat) :=
  if needle = [] then none
  else find_standalone_substring_loop haystack needle (haystack.length + 1) 0

/-- The `for` loop of `find_keyword_sequence` over `keywords[1..]`: the segment
after the last matched keyword when `sequence_match` stays true, `none` when
it becomes false.  An empty keyword ends the loop. -/
def match_keywords_rest : List Str → Str → Option Str
  | [], current_segment => some current_segment
  | kw :: rest, current_segment =>
    if kw = [] then some current_segment
    else if kw.isPrefixOf current_segment then
      if current_segment.length = kw.length ∨
          isspace (current_segment.getD kw.length NUL) = true then
        match_keywords_rest rest (advance_past_whitespace (current_segment.drop kw.length))
      else none
    else none

/-- The `while` loop of `find_keyword_sequence`, with the view
`current_search_origin` and its offset in `text`; every round shortens the
view, so `text.length + 1` rounds are enough. -/
def find_keyword_sequence_loop (text kw0 : Str) (kws : List Str) :
    Nat → Str → Nat → Option (Str × Str)
  | 0, _, _ => none
  | fuel + 1, current_search_origin, total_offset_from_original_text =>
    if current_search_origin = [] then none
    else
      match find_standalone_substring current_search_origin kw0 with
      | none => none
      | some (after_kw0, kw0_start_in_search_origin) =>
        let after_kw0_in_search_origin := advance_past_whitespace after_kw0
        let text_before_kw0_sequence :=
          text.take (total_offset_from_original_text + kw0_start_in_search_origin)
        match match_keywords_rest kws after_kw0_in_search_origin with
        | some current_segment_after_matched_kw =>
          some (text_before_kw0_sequence, current_segment_after_matched_kw)
        | none =>
          let advance_in_search_origin := kw0_start_in_search_origin + 1
          if advance_in_search_origin ≥ current_search_origin.length then none
          else
            find_keyword_sequence_loop text kw0 kws fuel
              (current_search_origin.drop advance_in_search_origin)
              (total_offset_from_original_text + advance_in_search_origin)

/-- `ParserUtils::find_keyword_sequence`: the text before the first keyword
and the text after the last one, or `none` for the pair of `nullopt`. -/
def find_keyword_sequence (text : Str) (keywords : List Str) : Option (Str × Str) :=
  match keywords with
  | [] => none
  | kw0 :: kws =>
    if kw0 = [] then none
    else find_keyword_sequence_loop text kw0 kws (text.length + 1) text 0

/-- The smaller of the terminator position found so far and a new candidate
(`if (end_pos == npos || pos < end_pos) end_pos = pos`). -/
def update_end_pos (end_pos : Option Nat) (pos : Nat) : Option Nat :=
  match end_pos with
  | none => some pos
  | some e => if pos < e then some pos else some e

/-- One round of the loop of `parse_potion_name_complex` over the
terminators. -/
def potion_terminator_step (current_view : Str) (end_pos : Option Nat) (term_sv : Str) :
    Option Nat :=
  match sv_find term_sv "potion".toList 0 with
  | none => end_pos
  | some term_keyword_start =>
    let actual_term_to_find := term_sv.drop term_keyword_start
    match sv_find current_view actual_term_to_find 0 with
    | none => end_pos
    | some found_pos =>
      if found_pos = 0 ∨ isspace (current_view.getD (found_pos - 1) NUL) = true then
        update_end_pos end_pos found_pos
      else end_pos

/-- `ParserUtils::parse_potion_name_complex`: the parsed name (if any) and the
remaining view. -/
def parse_potion_name_complex (full_text : Str) : Option Str × Str :=
  let current_view := full_text.dropWhile isspace
  if current_view = [] then (none, [])
  else
    let terminators : List Str :=
      [" potion is effective against".toList, " potion consists of".toList]
    let end_pos := terminators.foldl (potion_terminator_step current_view) none
    let end_pos :=
      match sv_find current_view ['?'] 0 with
      | some q_mark_pos => update_end_pos end_pos q_mark_pos
      | none => end_pos
    let potion_name_str :=
      match end_pos with
      | none => current_view
      | some e => current_view.take e
    let remainder_view :=
      match end_pos with
      | none => []
      | some e => current_view.drop e
    match parse_name (trim_whitespace_str potion_name_str) true with
    | none => (none, full_text)
    | some validated_name =>
      if validated_name = [] then (none, full_text) else (some validated_name, remainder_view)

/-! ## The command parser (`parse_command_internal`) -/

/-- The `Geralt loots ...` block: `p` is the view after `loots`. -/
def parse_loots (p : Str) : Command :=
  match parse_item_list p false with
  | some items => if items ≠ [] then .LOOT items else .INVALID
  | none => .INVALID

/-- The `Geralt trades ... trophy for ...` block: `p` is the view after
`trades`. -/
def parse_trades (p : Str) : Command :=
  let trade_content_view := p
  match find_standalone_substring trade_content_view "trophy".toList with
  | none => .INVALID
  | some (after_trophy, trophy_kw_start_offset) =>
    let before_trophy_sv := trade_content_view.take trophy_kw_start_offset
    let after_trophy_kw_sv_temp := advance_past_whitespace after_trophy
    let temp_before_trophy_str := trim_whitespace_str before_trophy_sv
    if temp_before_trophy_str = [] then .INVALID
    else
      match find_standalone_substring after_trophy_kw_sv_temp "for".toList with
      | none => .INVALID
      | some (after_for, _) =>
        let trophies_str := temp_before_trophy_str
        let ingredients_str := advance_past_whitespace after_for
        match parse_item_list trophies_str false, parse_item_list ingredients_str false with
        | some trophies, some ingredients =>
          if trophies ≠ [] ∧ ingredients ≠ [] then .TRADE trophies ingredients else .INVALID
        | _, _ => .INVALID

/-- The `Geralt brews ...` block: `p` is the view after `brews`. -/
def parse_brews (p : Str) : Command :=
  let potion_name_str := trim_whitespace_str p
  match parse_name potion_name_str true with
  | some potion_name => if potion_name ≠ [] then .BREW potion_name else .INVALID
  | none => .INVALID

/-- The common tail of the two `... is effective against ...` shapes. -/
def parse_learns_effectiveness (before after : Str) (item_type : EffectivenessType)
    (item_allow_spaces : Bool) : Command :=
  let item_name_str := trim_whitespace_str before
  let monster_name_str := trim_whitespace_str after
  match parse_name item_name_str item_allow_spaces, parse_name monster_name_str false with
  | some item_name, some monster_name =>
    if item_name ≠ [] ∧ monster_name ≠ [] then
      .LEARN_EFFECTIVENESS item_name item_type monster_name
    else .INVALID
  | _, _ => .INVALID

/-- The `Geralt learns ...` block: `p` is the view after `learns`. -/
def parse_learns (p : Str) : Command :=
  let learn_content_start := p
  match find_keyword_sequence learn_content_start
      ["sign".toList, "is".toList, "effective".toList, "against".toList] with
  | some (before, after) => parse_learns_effectiveness before after .SIGN false
  | none =>
    match find_keyword_sequence learn_content_start
        ["potion".toList, "is".toList, "effective".toList, "against".toList] with
    | some (before, after) => parse_learns_effectiveness before after .POTION true
    | none =>
      match find_keyword_sequence learn_content_start
          ["potion".toList, "consists".toList, "of".toList] with
      | some (before, after) =>
        let potion_name_str := trim_whitespace_str before
        let ingredients_list_str := after
        match parse_name potion_name_str true, parse_item_list ingredients_list_str false with
        | some potion_name, some ingredients =>
          if potion_name ≠ [] ∧ ingredients ≠ [] then .LEARN_FORMULA potion_name ingredients
          else .INVALID
        | _, _ => .INVALID
      | none => .INVALID

/-- The `Geralt encounters a ...` block: `p` is the view after `encounters`. -/
def parse_encounters (p : Str) : Command :=
  let r := match_and_advance p "a".toList
  if r.1 then
    let monster_name_str := trim_whitespace_str r.2
    match parse_name monster_name_str false with
    | some monster_name => if monster_name ≠ [] then .ENCOUNTER monster_name else .INVALID
    | none => .INVALID
  else .INVALID

/-- The block after `Geralt`: `p_after_geralt` is the view after the keyword;
the cursor is reset to it before every further attempt. -/
def parse_geralt (p_after_geralt : Str) : Command :=
  let r := match_and_advance p_after_geralt "loots".toList
  if r.1 then parse_loots r.2
  else
    let r := match_and_advance p_after_geralt "trades".toList
    if r.1 then parse_trades r.2
    else
      let r := match_and_advance p_after_geralt "brews".toList
      if r.1 then parse_brews r.2
      else
        let r := match_and_advance p_after_geralt "learns".toList
        if r.1 then parse_learns r.2
        else
          let r := match_and_advance p_after_geralt "encounters".toList
          if r.1 then parse_encounters r.2
          else .INVALID

/-- The `Total ...` block: `p` is the view after `Total`. -/
def parse_total (p : Str) : Command :=
  let query_body := p
  if query_body ≠ [] ∧ query_body.getLast? = some '?' then
    let query_body := query_body.dropLast
    let query_content_str := trim_whitespace_str query_body
    if query_content_str = [] then .INVALID
    else
      let first_space := sv_find query_content_str [' '] 0
      let category_str :=
        match first_space with
        | none => query_content_str
        | some i => query_content_str.take i
      let item_name_str_query :=
        match first_space with
        | none => []
        | some i => trim_whitespace_str (query_content_str.drop (i + 1))
      let category_str := trim_whitespace_str category_str
      if category_str ≠ "ingredient".toList ∧ category_str ≠ "potion".toList ∧
          category_str ≠ "trophy".toList then .INVALID
      else if item_name_str_query ≠ [] then
        let name_allows_spaces : Bool := category_str = "potion".toList
        match parse_name item_name_str_query name_allows_spaces with
        | some item_name =>
          if item_name ≠ [] then .QUERY_TOTAL_SPECIFIC category_str item_name else .INVALID
        | none => .INVALID
      else if category_str ≠ [] then .QUERY_TOTAL_ALL category_str
      else .INVALID
  else .INVALID

/-- The body of the two `What is ...?` shapes once their keywords matched:
the segment must end with `?`, and what precedes it is the name. -/
def parse_question_name (segment : Str) (allow_spaces : Bool) (mk : Str → Command) : Command :=
  if segment ≠ [] ∧ segment.getLast? = some '?' then
    let name_str := trim_whitespace_str segment.dropLast
    match parse_name name_str allow_spaces with
    | some name => if name ≠ [] then mk name else .INVALID
    | none => .INVALID
  else .INVALID

/-- The `What is in ...?` attempt, from the view saved after `What is`. -/
def parse_what_in (p_after_what_is : Str) : Command :=
  let r := match_and_advance p_after_what_is "in".toList
  if r.1 then parse_question_name r.2 true .QUERY_WHAT_IS_IN
  else .INVALID

/-- The `What ...` block: `p` is the view after `What`. -/
def parse_what (p : Str) : Command :=
  let r := match_and_advance p "is".toList
  if r.1 then
    let p_after_what_is := r.2
    let r1 := match_and_advance p_after_what_is "effective".toList
    if r1.1 then
      let r2 := match_and_advance r1.2 "against".toList
      if r2.1 then parse_question_name r2.2 false .QUERY_EFFECTIVE_AGAINST
      else parse_what_in p_after_what_is
    else parse_what_in p_after_what_is
  else .INVALID

/-- `parse_command_internal`. -/
def parse_command_internal (original_line : Str) : Command :=
  let line_view := trim_whitespace_str original_line
  if line_view = [] then .EMPTY
  else if line_view = "Exit".toList then .EXIT
  else
    let r := match_and_advance line_view "Geralt".toList
    if r.1 then parse_geralt r.2
    else
      let r := match_and_advance line_view "Total".toList
      if r.1 then parse_total r.2
      else
        let r := match_and_advance line_view "What".toList
        if r.1 then parse_what r.2
        else .INVALID

/-! ## Sequences of inventory calls -/

/-- The three item categories of the public interface of `Inventory`. -/
inductive Category where
  | ingredient
  | potion
  | trophy
  deriving DecidableEq

/-- A call of the public interface of `Inventory` that can change it:
`addIngredient`/`addPotion`/`addTrophy` or
`useIngredient`/`usePotion`/`useTrophy`. -/
inductive InventoryCall where
  | add (category : Category) (name : Str) (quantity : Int)
  | use (category : Category) (name : Str) (quantity : Int)
  deriving DecidableEq

namespace Inventory

/-- The vector of a category. -/
def items (inv : Inventory) : Category → List InventoryItem
  | .ingredient => inv.ingredients_
  | .potion => inv.potions_
  | .trophy => inv.trophies_

/-- The inventory after one call. -/
def call (inv : Inventory) : InventoryCall → Inventory
  | .add .ingredient name quantity => inv.addIngredient name quantity
  | .add .potion name quantity => inv.addPotion name quantity
  | .add .trophy name quantity => inv.addTrophy name quantity
  | .use .ingredient name quantity => (inv.useIngredient name quantity).1
  | .use .potion name quantity => (inv.usePotion name quantity).1
  | .use .trophy name quantity => (inv.useTrophy name quantity).1

/-- The inventory reached from the empty one by a sequence of calls. -/
def run (calls : List InventoryCall) : Inventory :=
  calls.foldl call ⟨[], [], []⟩

end Inventory

/-! ## Specification-side notions for the parsers -/

/-- A token that is a plain decimal literal: one or more digits, nothing
else. -/
def IsDecimalLiteral (t : Str) : Prop :=
  t ≠ [] ∧ ∀ c ∈ t, isdigit c = true

instance (t : Str) : Decidable (IsDecimalLiteral t) := by
  unfold IsDecimalLiteral; infer_instance

/-- No two adjacent characters of the string are both separators. -/
def noAdjacent (sep : Char → Bool) : Str → Bool
  | [] => true
  | [_] => true
  | a :: b :: rest => !(sep a && sep b) && noAdjacent sep (b :: rest)

/-- The shape shared by both readings of a valid name: non-empty, shorter than
`MAX_NAME_LENGTH`, at least one letter, only letters and (when allowed)
separators `sep`, no separator first or last, no two separators in a row. -/
def IsNameWith (sep : Char → Bool) (t : Str) (allow_spaces : Bool) : Prop :=
  t ≠ [] ∧ t.length < GameConstants.MAX_NAME_LENGTH ∧
  (∃ c ∈ t, isalpha c = true) ∧
  (∀ c ∈ t, isalpha c = true ∨ (allow_spaces = true ∧ sep c = true)) ∧
  (∀ c, t.head? = some c → sep c = false) ∧
  (∀ c, t.getLast? = some c → sep c = false) ∧
  noAdjacent sep t = true

instance (sep : Char → Bool) (t : Str) (allow_spaces : Bool) :
    Decidable (IsNameWith sep t allow_spaces) := by
  unfold IsNameWith; infer_instance

/-- A Name as the specification words it: the separators are space characters
(`' '`) only. -/
def IsSpecName (t : Str) (allow_spaces : Bool) : Prop :=
  IsNameWith (fun c => c == ' ') t allow_spaces

instance (t : Str) (allow_spaces : Bool) : Decidable (IsSpecName t allow_spaces) := by
  unfold IsSpecName; infer_instance

/-- A name as `parse_name` accepts it: the separators are the whitespace
characters of `std::isspace`. -/
def IsValidName (t : Str) (allow_spaces : Bool) : Prop :=
  IsNameWith isspace t allow_spaces

instance (t : Str) (allow_spaces : Bool) : Decidable (IsValidName t allow_spaces) := by
  unfold IsValidName; infer_instance

/-- The character of a decimal digit. -/
def digitChar (d : Nat) : Char := Char.ofNat (48 + d)

/-- A natural number in plain decimal (`std::to_string`). -/
def decimal (n : Nat) : Str :=
  if n = 0 then ['0'] else (Nat.digits 10 n).reverse.map digitChar

/-- The canonical form `qty name` of one item. -/
def serializeItem (item : ItemInfo) : Str :=
  decimal item.quantity.toNat ++ ' ' :: item.name

/-- The canonical serialization of an item list: the items joined by `, `. -/
def serializeItems : List ItemInfo → Str
  | [] => []
  | [item] => serializeItem item
  | item :: rest => serializeItem item ++ ',' :: ' ' :: serializeItems rest

/-! ## Specification-side notions for the command grammar -/

/-- The text `t` consists of the word `w₁`, whitespace, the word `w₂` as a
whole word, and then `rest`. -/
def BeginsWithWords (w₁ w₂ t rest : Str) : Prop :=
  ∃ ws, t = w₁ ++ ws ++ w₂ ++ rest ∧ ws ≠ [] ∧ (∀ c ∈ ws, isspace c = true) ∧
    (∀ c, rest.head? = some c → isspace c = true)

/-- The text `t` consists of the whole word `w` and then `rest`. -/
def BeginsWithWord (w t rest : Str) : Prop :=
  t = w ++ rest ∧ (∀ c, rest.head? = some c → isspace c = true)

/-- A validated item list as a command carries it: non-empty, at most 64
items, every name a valid name without spaces, every quantity in
`[1, 2147483647]`. -/
def IsValidItemList (items : List ItemInfo) : Prop :=
  items ≠ [] ∧ items.length ≤ 64 ∧
  ∀ item ∈ items, IsValidName item.name false ∧ 1 ≤ item.quantity ∧ item.quantity ≤ 2147483647

/-- Every field a command carries is validated: item lists are valid item
lists, and names are valid names in which whitespace occurs only in potion
names. -/
def Command.FieldsValid : Command → Prop
  | .LOOT items => IsValidItemList items
  | .TRADE trophies_to_give ingredients_to_receive =>
    IsValidItemList trophies_to_give ∧ IsValidItemList ingredients_to_receive
  | .BREW potion_name => IsValidName potion_name true
  | .LEARN_EFFECTIVENESS item_name .SIGN monster_name =>
    IsValidName item_name false ∧ IsValidName monster_name false
  | .LEARN_EFFECTIVENESS item_name .POTION monster_name =>
    IsValidName item_name true ∧ IsValidName monster_name false
  | .LEARN_FORMULA potion_name requirements =>
    IsValidName potion_name true ∧ IsValidItemList requirements
  | .ENCOUNTER monster_name => IsValidName monster_name false
  | .QUERY_TOTAL_SPECIFIC category item_name =>
    IsValidName item_name (decide (category = "potion".toList))
  | .QUERY_TOTAL_ALL _ => True
  | .QUERY_EFFECTIVE_AGAINST monster_name => IsValidName monster_name false
  | .QUERY_WHAT_IS_IN potion_name => IsValidName potion_name true
  | .EXIT => True
  | .INVALID => True
  | .EMPTY => True

/-- The three category words of a `Total` query. -/
def IsCategory (c : Str) : Prop :=
  c = "ingredient".toList ∨ c = "potion".toList ∨ c = "trophy".toList

instance (c : Str) : Decidable (IsCategory c) := by
  unfold IsCategory; infer_instance

/-- The needle occurs in the view at position `p`, and at no smaller
position. -/
def IsFirstOccurrence (needle view : Str) (p : Nat) : Prop :=
  p ≤ view.length ∧ needle <+: view.drop p ∧ ∀ q < p, ¬ needle <+: view.drop q

/-- The first occurrence of a terminator phrase is at `p`, and it is at the
start of the view or preceded by whitespace. -/
def IsTerminatorAt (phrase view : Str) (p : Nat) : Prop :=
  IsFirstOccurrence phrase view p ∧ (p = 0 ∨ isspace (view.getD (p - 1) NUL) = true)

/-- A position at which `parse_potion_name_complex` may end the name. -/
def IsNameEndCandidate (view : Str) (p : Nat) : Prop :=
  IsTerminatorAt "potion is effective against".toList view p ∨
  IsTerminatorAt "potion consists of".toList view p ∨
  IsFirstOccurrence ['?'] view p

/-- The end of the potion name in the view: the smallest candidate position,
or the end of the view when there is no candidate. -/
def IsNameBoundary (view : Str) (b : Nat) : Prop :=
  (IsNameEndCandidate view b ∧ ∀ q, IsNameEndCandidate view q → b ≤ q) ∨
  (b = view.length ∧ ∀ q, ¬ IsNameEndCandidate view q)

/-- The position at which a terminator phrase ends the potion name, as
`parse_potion_name_complex` computes it: the first occurrence of the phrase,
kept only if it is at the start or preceded by whitespace. -/
def terminatorPosition (phrase view : Str) : Option Nat :=
  match sv_find view phrase 0 with
  | none => none
  | some found_pos =>
    if found_pos = 0 ∨ isspace (view.getD (found_pos - 1) NUL) = true then some found_pos
    else none

/-- Folding `update_end_pos` over three optional candidates. -/
def minCandidate (c₁ c₂ c₃ : Option Nat) : Option Nat :=
  [c₁, c₂, c₃].foldl (fun e c => match c with
    | none => e
    | some p => update_end_pos e p) none

/-- A standalone occurrence as the specification words it: the needle occurs
at position `p`, the character before it (if any) is whitespace and the
character after it (if any) is whitespace. -/
def IsStandaloneOccurrence (needle haystack : Str) (p : Nat) : Prop :=
  needle.isPrefixOf (haystack.drop p) = true ∧
  (p = 0 ∨ isspace (haystack.getD (p - 1) NUL) = true) ∧
  (haystack.length ≤ p + needle.length ∨
    isspace (haystack.getD (p + needle.length) NUL) = true)

instance (needle haystack : Str) (p : Nat) :
    Decidable (IsStandaloneOccurrence needle haystack p) := by
  unfold IsStandaloneOccurrence; infer_instance

/-- A standalone occurrence as `find_standalone_substring` tests it: as
`IsStandaloneOccurrence`, except that a character `'\0'` after the needle is
taken for the end of the haystack. -/
def IsStandaloneForCode (needle haystack : Str) (p : Nat) : Prop :=
  needle.isPrefixOf (haystack.drop p) = true ∧
  (p = 0 ∨ isspace (haystack.getD (p - 1) NUL) = true) ∧
  (haystack.length ≤ p + needle.length ∨ haystack.getD (p + needle.length) NUL = NUL ∨
    isspace (haystack.getD (p + needle.length) NUL) = true)

instance (needle haystack : Str) (p : Nat) :
    Decidable (IsStandaloneForCode needle haystack p) := by
  unfold IsStandaloneForCode; infer_instance

/-- A position at which the potion name ends as the specification words it: a
standalone occurrence of one of the two terminator phrases, or a `?`. -/
def IsSpecNameEnd (view : Str) (p : Nat) : Prop :=
  IsStandaloneOccurrence "potion is effective against".toList view p ∨
  IsStandaloneOccurrence "potion consists of".toList view p ∨
  ['?'].isPrefixOf (view.drop p) = true

instance (view : Str) (p : Nat) : Decidable (IsSpecNameEnd view p) := by
  unfold IsSpecNameEnd; infer_instance

/-- The keywords follow one another as whole words from the start of the
segment, each followed by whitespace (which is skipped) or the end; `out` is
what is left after the last one. -/
def FollowsWords : List Str → Str → Str → Prop
  | [], segment, out => out = segment
  | kw :: rest, segment, out =>
    ∃ r, segment = kw ++ r ∧ (∀ c, r.head? = some c → isspace c = true) ∧
      FollowsWords rest (advance_past_whitespace r) out

/-- The keyword sequence `kw₁, kws` is found at position `k` of the text: a
standalone occurrence of `kw₁` at `k` and, after the whitespace that follows
it, the other keywords as whole words; `out` is the text after the last
keyword with leading whitespace skipped. -/
def IsSequenceAt (text kw₁ : Str) (kws : List Str) (k : Nat) (out : Str) : Prop :=
  IsStandaloneOccurrence kw₁ text k ∧
  FollowsWords kws (advance_past_whitespace (text.drop (k + kw₁.length))) out

/-! ## Output formatting and sorting -/

/-- The stream insertion `operator<<` of an `int`: plain decimal, with a minus
sign for a negative value. -/
def ostream_int (value : Int) : Str :=
  if value < 0 then '-' :: decimal value.natAbs else decimal value.toNat

/-- The comparison `operator<` of `std::string`: lexicographic, character by
character; a proper prefix is smaller. -/
def string_lt : Str → Str → Bool
  | [], [] => false
  | [], _ :: _ => true
  | _ :: _, [] => false
  | a :: as, b :: bs =>
    if a.toNat < b.toNat then true
    else if b.toNat < a.toNat then false
    else string_lt as bs

/-- One element put into a sorted list, before the first element it is smaller
than. -/
def sort_insert {α : Type} (comp : α → α → Bool) (x : α) : List α → List α
  | [] => [x]
  | y :: ys => if comp x y then x :: y :: ys else y :: sort_insert comp x ys

/-- The call `std::sort(first, last, comp)`.  The standard fixes the result up
to the order of equivalent elements; this model is one such result, and the
theorems about it use only that it is a permutation in which no element is
smaller than an earlier one. -/
def std_sort {α : Type} (comp : α → α → Bool) : List α → List α
  | [] => []
  | x :: xs => sort_insert comp x (std_sort comp xs)

/-- The printing loops `if (i > 0) std::cout << ", "; std::cout << piece`: the
pieces separated by a comma and a space. -/
def join_comma : List Str → Str
  | [] => []
  | [piece] => piece
  | piece :: rest => piece ++ ',' :: ' ' :: join_comma rest

/-- `InventoryItem::compareByName`. -/
def InventoryItem.compareByName (a b : InventoryItem) : Bool :=
  string_lt a.name b.name

/-- `IngredientRequirement::compareForFormula`. -/
def IngredientRequirement.compareForFormula (a b : IngredientRequirement) : Bool :=
  if a.quantity ≠ b.quantity then decide (a.quantity > b.quantity)
  else string_lt a.ingredient_name b.ingredient_name

/-- `EffectiveItem::compareByName`. -/
def EffectiveItem.compareByName (a b : EffectiveItem) : Bool :=
  string_lt a.name b.name

/-- `Inventory::printAllItemsInternal`: the lines written. -/
def printAllItemsInternal (items_const : List InventoryItem) (none_message : Str) : List Str :=
  let items_to_print := items_const.filter (fun item => decide (item.quantity > 0))
  if items_to_print = [] then [none_message]
  else
    [join_comma ((std_sort InventoryItem.compareByName items_to_print).map
      (fun item => ostream_int item.quantity ++ ' ' :: item.name))]

namespace Inventory

def printAllIngredients (inv : Inventory) : List Str :=
  printAllItemsInternal inv.ingredients_ "None".toList

def printAllPotions (inv : Inventory) : List Str :=
  printAllItemsInternal inv.potions_ "None".toList

def printAllTrophies (inv : Inventory) : List Str :=
  printAllItemsInternal inv.trophies_ "None".toList

end Inventory

/-! ## Alchemy base and bestiary -/

/-- `PotionFormula::print`: the lines written (none for an empty requirement
list). -/
def PotionFormula.print (formula : PotionFormula) : List Str :=
  if formula.requirements = [] then []
  else
    [join_comma ((std_sort IngredientRequirement.compareForFormula formula.requirements).map
      (fun req => ostream_int req.quantity ++ ' ' :: req.ingredient_name))]

/-- `AlchemyBase::addFormula`: the new base and the returned flag. -/
def AlchemyBase.addFormula (ab : AlchemyBase) (potion_name : Str)
    (reqs : List IngredientRequirement) : AlchemyBase × Bool :=
  if ab.formulae_.length ≥ GameConstants.MAX_ITEMS then (ab, false)
  else if reqs = [] ∨ reqs.length > GameConstants.MAX_RECIPE_INGREDIENTS then (ab, false)
  else (⟨ab.formulae_ ++ [⟨potion_name, reqs⟩]⟩, true)

/-- `AlchemyBase::printFormulaForPotion`. -/
def AlchemyBase.printFormulaForPotion (ab : AlchemyBase) (potion_name : Str) : List Str :=
  match ab.findFormula potion_name with
  | some formula => formula.print
  | none => ["No formula for ".toList ++ potion_name]

/-- `BestiaryEntry::isEffectivenessKnown`. -/
def BestiaryEntry.isEffectivenessKnown (entry : BestiaryEntry) (item_name : Str) : Bool :=
  entry.effective_items.any (fun eff_item => decide (eff_item.name = item_name))

/-- `BestiaryEntry::addKnownEffectiveness`: the new entry and the returned
flag. -/
def BestiaryEntry.addKnownEffectiveness (entry : BestiaryEntry) (item_name : Str)
    (type : EffectivenessType) : BestiaryEntry × Bool :=
  if entry.isEffectivenessKnown item_name then (entry, false)
  else if entry.effective_items.length < GameConstants.MAX_EFFECTIVE_ITEMS then
    ({ entry with effective_items := entry.effective_items ++ [⟨item_name, type⟩] }, true)
  else (entry, false)

/-- `BestiaryEntry::printEffectiveness`: the lines written (none for an empty
list). -/
def BestiaryEntry.printEffectiveness (entry : BestiaryEntry) : List Str :=
  if entry.effective_items = [] then []
  else
    [join_comma ((std_sort EffectiveItem.compareByName entry.effective_items).map
      (fun eff_item => eff_item.name))]

/-- `Bestiary::findEntry` (`findEntryInternal`): the first entry with the given
monster name. -/
def Bestiary.findEntry (b : Bestiary) (monster_name : Str) : Option BestiaryEntry :=
  b.entries_.find? (fun entry => decide (entry.monster_name = monster_name))

/-- A write through the pointer returned by `findEntryInternal`: the first
entry with the given monster name is replaced. -/
def writeEntryInternal : List BestiaryEntry → Str → BestiaryEntry → List BestiaryEntry
  | [], _, _ => []
  | entry :: rest, monster_name, new_entry =>
    if entry.monster_name = monster_name then new_entry :: rest
    else entry :: writeEntryInternal rest monster_name new_entry

/-- `Bestiary::addOrUpdateEffectiveness`: the new bestiary and the result code
(2 new entry, 1 entry updated, 0 already known, -1 could not add). -/
def Bestiary.addOrUpdateEffectiveness (b : Bestiary) (monster_name item_name : Str)
    (type : EffectivenessType) : Bestiary × Int :=
  match b.findEntry monster_name with
  | some entry =>
    if entry.isEffectivenessKnown item_name then (b, 0)
    else
      let r := entry.addKnownEffectiveness item_name type
      if r.2 then (⟨writeEntryInternal b.entries_ monster_name r.1⟩, 1)
      else (⟨writeEntryInternal b.entries_ monster_name r.1⟩, -1)
  | none =>
    if b.entries_.length < GameConstants.MAX_ITEMS then
      let new_entry : BestiaryEntry := ⟨monster_name, []⟩
      let r := new_entry.addKnownEffectiveness item_name type
      if r.2 then (⟨b.entries_ ++ [r.1]⟩, 2)
      else (b, -1)
    else (b, -1)

/-- `Bestiary::printEffectivenessForMonster`. -/
def Bestiary.printEffectivenessForMonster (b : Bestiary) (monster_name : Str) : List Str :=
  match b.findEntry monster_name with
  | some entry =>
    if entry.effective_items ≠ [] then entry.printEffectiveness
    else ["No knowledge of ".toList ++ monster_name]
  | none => ["No knowledge of ".toList ++ monster_name]

/-! ## The remaining command handlers -/

/-- `WitcherGame::handleLoot`. -/
def handleLoot (g : WitcherGame) (cmd : Command) : WitcherGame × List Str :=
  match cmd with
  | .LOOT items =>
    ({ g with inventory_ := addIngredients g.inventory_ items },
      ["Alchemy ingredients obtained".toList])
  | _ => (g, ["INVALID".toList])

/-- `WitcherGame::handleLearnEffectiveness`. -/
def handleLearnEffectiveness (g : WitcherGame) (cmd : Command) : WitcherGame × List Str :=
  match cmd with
  | .LEARN_EFFECTIVENESS item_name type monster_name =>
    let r := g.bestiary_.addOrUpdateEffectiveness monster_name item_name type
    let result_code := r.2
    ({ g with bestiary_ := r.1 },
      if result_code = 2 then ["New bestiary entry added: ".toList ++ monster_name]
      else if result_code = 1 then ["Bestiary entry updated: ".toList ++ monster_name]
      else if result_code = 0 then ["Already known effectiveness".toList]
      else ["INVALID".toList])
  | _ => (g, ["INVALID".toList])

/-- `WitcherGame::handleLearnFormula`. -/
def handleLearnFormula (g : WitcherGame) (cmd : Command) : WitcherGame × List Str :=
  match cmd with
  | .LEARN_FORMULA potion_name requirements =>
    if (g.alchemy_base_.findFormula potion_name).isSome then
      (g, ["Already known formula".toList])
    else
      let reqs_cpp : List IngredientRequirement :=
        requirements.map (fun parsed_req => ⟨parsed_req.name, parsed_req.quantity⟩)
      let r := g.alchemy_base_.addFormula potion_name reqs_cpp
      if r.2 then
        ({ g with alchemy_base_ := r.1 },
          ["New alchemy formula obtained: ".toList ++ potion_name])
      else ({ g with alchemy_base_ := r.1 }, ["INVALID".toList])
  | _ => (g, ["INVALID".toList])

/-- The first loop of `handleEncounter`: some recorded item is a Sign. -/
def encounter_sign (entry : BestiaryEntry) : Bool :=
  entry.effective_items.any (fun eff_item => decide (eff_item.type = .SIGN))

/-- The second loop of `handleEncounter`: the first recorded Potion of which
the inventory holds a positive quantity. -/
def encounter_potion (inv : Inventory) (entry : BestiaryEntry) : Option EffectiveItem :=
  entry.effective_items.find? (fun eff_item =>
    decide (eff_item.type = .POTION) && decide (inv.getPotionQuantity eff_item.name > 0))

/-- `WitcherGame::handleEncounter`. -/
def handleEncounter (g : WitcherGame) (cmd : Command) : WitcherGame × List Str :=
  match cmd with
  | .ENCOUNTER monster_name =>
    let entry := g.bestiary_.findEntry monster_name
    let sign_found : Bool :=
      match entry with
      | some e => encounter_sign e
      | none => false
    let potion_found : Option EffectiveItem :=
      if sign_found then none
      else
        match entry with
        | some e => encounter_potion g.inventory_ e
        | none => none
    let success : Bool := sign_found || potion_found.isSome
    let potion_to_use_on_success : Bool := potion_found.isSome
    let effective_potion_name : Str :=
      match potion_found with
      | some eff_item => eff_item.name
      | none => []
    if success then
      let r : Inventory × Bool :=
        if potion_to_use_on_success ∧ effective_potion_name ≠ [] then
          g.inventory_.usePotion effective_potion_name 1
        else (g.inventory_, true)
      ({ g with inventory_ := r.1.addTrophy monster_name 1 },
        ("Geralt defeats ".toList ++ monster_name) ::
          (if r.2 then [] else ["INVALID".toList]))
    else (g, ["Geralt is unprepared and barely escapes with his life".toList])
  | _ => (g, ["INVALID".toList])

/-- `WitcherGame::handleQueryTotalSpecific`. -/
def handleQueryTotalSpecific (g : WitcherGame) (cmd : Command) : WitcherGame × List Str :=
  match cmd with
  | .QUERY_TOTAL_SPECIFIC category item_name =>
    if category = "ingredient".toList then
      (g, [ostream_int (g.inventory_.getIngredientQuantity item_name)])
    else if category = "potion".toList then
      (g, [ostream_int (g.inventory_.getPotionQuantity item_name)])
    else if category = "trophy".toList then
      (g, [ostream_int (g.inventory_.getTrophyQuantity item_name)])
    else (g, ["INVALID".toList])
  | _ => (g, ["INVALID".toList])

/-- `WitcherGame::handleQueryTotalAll`. -/
def handleQueryTotalAll (g : WitcherGame) (cmd : Command) : WitcherGame × List Str :=
  match cmd with
  | .QUERY_TOTAL_ALL category =>
    if category = "ingredient".toList then (g, g.inventory_.printAllIngredients)
    else if category = "potion".toList then (g, g.inventory_.printAllPotions)
    else if category = "trophy".toList then (g, g.inventory_.printAllTrophies)
    else (g, ["INVALID".toList])
  | _ => (g, ["INVALID".toList])

/-- `WitcherGame::handleQueryEffectiveAgainst`. -/
def handleQueryEffectiveAgainst (g : WitcherGame) (cmd : Command) : WitcherGame × List Str :=
  match cmd with
  | .QUERY_EFFECTIVE_AGAINST monster_name =>
    (g, g.bestiary_.printEffectivenessForMonster monster_name)
  | _ => (g, ["INVALID".toList])

/-- `WitcherGame::handleQueryWhatIsIn`. -/
def handleQueryWhatIsIn (g : WitcherGame) (cmd : Command) : WitcherGame × List Str :=
  match cmd with
  | .QUERY_WHAT_IS_IN potion_name =>
    (g, g.alchemy_base_.printFormulaForPotion potion_name)
  | _ => (g, ["INVALID".toList])

/-! ## The session loop (`WitcherGame::run`)

The prompt `>> ` written before each line is read is not part of the output
modelled here. -/

/-- The `switch` of `WitcherGame::run`: the handler for the command type. -/
def WitcherGame.dispatch (g : WitcherGame) (cmd : Command) : WitcherGame × List Str :=
  match cmd.type with
  | .LOOT => handleLoot g cmd
  | .TRADE => handleTrade g cmd
  | .BREW => handleBrew g cmd
  | .LEARN_EFFECTIVENESS => handleLearnEffectiveness g cmd
  | .LEARN_FORMULA => handleLearnFormula g cmd
  | .ENCOUNTER => handleEncounter g cmd
  | .QUERY_TOTAL_SPECIFIC => handleQueryTotalSpecific g cmd
  | .QUERY_TOTAL_ALL => handleQueryTotalAll g cmd
  | .QUERY_EFFECTIVE_AGAINST => handleQueryEffectiveAgainst g cmd
  | .QUERY_WHAT_IS_IN => handleQueryWhatIsIn g cmd
  | .EMPTY => (g, [])
  | _ => (g, ["INVALID".toList])

/-- One round of the loop of `WitcherGame::run` for a line that was read:
`none` when the loop is left on `Exit`, otherwise the new state and the lines
written. -/
def WitcherGame.step (g : WitcherGame) (line_str : Str) : Option (WitcherGame × List Str) :=
  let cmd := parse_command_internal line_str
  if cmd.type = .EXIT then none else some (g.dispatch cmd)

/-- The loop of `WitcherGame::run` over the lines of the input: it ends on
`Exit` or at the end of the input. -/
def WitcherGame.run_loop : WitcherGame → List Str → WitcherGame × List Str
  | g, [] => (g, [])
  | g, line_str :: rest =>
    match g.step line_str with
    | none => (g, [])
    | some r =>
      let r2 := WitcherGame.run_loop r.1 rest
      (r2.1, r.2 ++ r2.2)

/-- `WitcherGame::run` from a freshly constructed game. -/
def WitcherGame.run (lines : List Str) : WitcherGame × List Str :=
  WitcherGame.init.run_loop lines

/-! ## Specification-side notions for the handlers -/

/-- The word that names a category in a `Total` query. -/
def Category.word : Category → Str
  | .ingredient => "ingredient".toList
  | .potion => "potion".toList
  | .trophy => "trophy".toList

/-- The encounter with the monster is won: its bestiary entry records a Sign,
or records a Potion of which a positive quantity is held. -/
def EncounterWins (g : WitcherGame) (monster_name : Str) : Prop :=
  ∃ entry, g.bestiary_.findEntry monster_name = some entry ∧
    ((∃ eff_item ∈ entry.effective_items, eff_item.type = .SIGN) ∨
      (∃ eff_item ∈ entry.effective_items, eff_item.type = .POTION ∧
        g.inventory_.getPotionQuantity eff_item.name > 0))

/-- The sum of the quantities listed for the name `n` in an item list (0 when
the name is not listed). -/
def listedTotal (items : List ItemInfo) (n : Str) : Int :=
  ((items.filter (fun item => decide (item.name = n))).map (fun item => item.quantity)).sum

/-! ## Specification-side notions for the invariants -/

/-- A category holds at most one entry per name and at most 128 entries. -/
def UniqueNames (items : List InventoryItem) : Prop :=
  (items.map (fun item => item.name)).Nodup ∧ items.length ≤ 128

/-- The category a call of the public interface of `Inventory` works on. -/
def InventoryCall.category : InventoryCall → Category
  | .add category _ _ => category
  | .use category _ _ => category

/-- The alchemy base is keyed by potion name: no two formulas have the same
name, there are at most 128 formulas, and every formula has between 1 and 64
requirements. -/
def AlchemyBase.WellFormed (ab : AlchemyBase) : Prop :=
  (ab.formulae_.map (fun formula => formula.potion_name)).Nodup ∧
  ab.formulae_.length ≤ 128 ∧
  ∀ formula ∈ ab.formulae_,
    formula.requirements ≠ [] ∧ formula.requirements.length ≤ 64

/-- The bestiary is keyed by monster name: no two entries have the same name,
there are at most 128 entries, and every entry has between 1 and 64 effective
items, no two with the same name. -/
def Bestiary.WellFormed (b : Bestiary) : Prop :=
  (b.entries_.map (fun entry => entry.monster_name)).Nodup ∧
  b.entries_.length ≤ 128 ∧
  ∀ entry ∈ b.entries_,
    entry.effective_items ≠ [] ∧
    (entry.effective_items.map (fun eff_item => eff_item.name)).Nodup ∧
    entry.effective_items.length ≤ 64

/-- The invariants of the inventory with respect to an alchemy base and a
bestiary: unique names and non-negative quantities in every category, every
held potion is the potion of a known formula, and every held trophy is named
after a bestiary monster. -/
def Inventory.WellFormed (inv : Inventory) (ab : AlchemyBase) (b : Bestiary) : Prop :=
  (∀ category, UniqueNames (inv.items category)) ∧
  (∀ category, ∀ item ∈ inv.items category, 0 ≤ item.quantity) ∧
  (∀ n ∈ inv.potions_.map (fun item => item.name), (ab.findFormula n).isSome = true) ∧
  (∀ n ∈ inv.trophies_.map (fun item => item.name), (b.findEntry n).isSome = true)

/-- The invariants of a session state: those of the inventory, and the alchemy
base and the bestiary are keyed by name. -/
def WitcherGame.WellFormed (g : WitcherGame) : Prop :=
  g.inventory_.WellFormed g.alchemy_base_ g.bestiary_ ∧
  g.alchemy_base_.WellFormed ∧ g.bestiary_.WellFormed

/-- The items `1 xy` for `count` consecutive two-letter names `xy`, starting
with the name of number `start` (`aa`, `ab`, ..., `ap`, `ba`, ...): pairwise
distinct names for numbers below 256, used to fill a category. -/
def twoLetterItems (start count : Nat) : List ItemInfo :=
  (List.range count).map (fun i =>
    ⟨[Char.ofNat (97 + (start + i) / 16), Char.ofNat (97 + (start + i) % 16)], 1⟩)

/-! ## The C implementation (`main.c`): names, item lists and loot lines

A C string is modelled by the list of its characters before the terminating
`'\0'`; a buffer of `N` bytes filled by `strncpy(buf, s, N - 1)` and closed by
`buf[N - 1] = '\0'` holds the first `N - 1` characters of `s`. -/

namespace MainC

/-- The constant `MAX_LINE_LENGTH` of `main.c`. -/
def MAX_LINE_LENGTH : Nat := 1024

/-- The constant `MAX_NAME_LENGTH` of `main.c`. -/
def MAX_NAME_LENGTH : Nat := 128

/-- The constant `MAX_RECIPE_INGREDIENTS` of `main.c`. -/
def MAX_RECIPE_INGREDIENTS : Nat := 64

/-- `trim_whitespace` of `main.c`: the string left in the buffer. -/
def trim_whitespace (str : Str) : Str :=
  if str = [] then []
  else
    let start := str.dropWhile isspace
    if start = [] then []
    else (start.reverse.dropWhile isspace).reverse

/-- The library function `strtol` in base 10: the value returned (clamped to
the range of a 64-bit `long`) and the number of characters up to `endptr`,
which is 0 when no digit is found (`endptr == token`). -/
def strtol (token : Str) : Int × Nat :=
  let ws := token.takeWhile isspace
  let r1 := token.dropWhile isspace
  let neg : Bool := r1.head? = some '-'
  let signLen : Nat := if r1.head? = some '-' ∨ r1.head? = some '+' then 1 else 0
  let ds := (r1.drop signLen).takeWhile isdigit
  if ds = [] then (0, 0)
  else
    let val : Int := if neg then -(digitsValue ds : Int) else (digitsValue ds : Int)
    (if val > LONG_MAX then LONG_MAX else if val < -LONG_MAX - 1 then -LONG_MAX - 1 else val,
      ws.length + signLen + ds.length)

/-- `parse_quantity` of `main.c`: the quantity stored, or `none` for
`return 0`. -/
def parse_quantity (token : Str) : Option Int :=
  if token = [] then none
  else
    let r := strtol token
    if r.2 = 0 ∨ r.2 ≠ token.length ∨ r.1 ≤ 0 ∨ r.1 > 2147483647 then none
    else some r.1

/-- The `for` loop of `parse_name` of `main.c` over the characters of the
validation buffer, with the flags `char_found` and `last_char_was_space`;
`none` is the early `return 0`, otherwise the final value of `char_found`. -/
def parse_name_loop (allow_spaces : Bool) : Str → Bool → Bool → Option Bool
  | [], char_found, _ => some char_found
  | c :: rest, char_found, last_char_was_space =>
    if isalpha c then parse_name_loop allow_spaces rest true false
    else if isspace c then
      if !allow_spaces then none
      else if last_char_was_space then none
      else parse_name_loop allow_spaces rest char_found true
    else none

/-- `parse_name` of `main.c`: the name written to `dest`, or `none` for
`return 0`. The token is first copied to a buffer of `MAX_NAME_LENGTH` bytes,
and the length that is compared with `max_len` is the length of that copy. -/
def parse_name (token : Str) (max_len : Nat) (allow_spaces : Bool) : Option Str :=
  if token = [] then none
  else
    let temp_token_for_validation := token.take (MAX_NAME_LENGTH - 1)
    let len := temp_token_for_validation.length
    if len = 0 ∨ len ≥ max_len then none
    else if isspace (temp_token_for_validation.getD 0 NUL) ∨
        isspace (temp_token_for_validation.getD (len - 1) NUL) then none
    else
      match parse_name_loop allow_spaces temp_token_for_validation false false with
      | none => none
      | some char_found =>
        if !char_found then none else some (temp_token_for_validation.take (max_len - 1))

/-- The library function `strtok_r` with the single delimiter `delim`, applied
to the text that is left: `none` when only delimiters are left, otherwise the
next token (never empty) and the text after the delimiter that ends it. -/
def strtok_r (s : Str) (delim : Char) : Option (Str × Str) :=
  let s1 := s.dropWhile (fun c => c == delim)
  if s1 = [] then none
  else some (s1.takeWhile (fun c => c != delim), (s1.dropWhile (fun c => c != delim)).drop 1)

/-- The `while` loop of `parse_ingredient_list`, at most `fuel` rounds: `tok`
is the result of the last `strtok_r` call, `items` the items stored so far.
The outer `none` means that the rounds did not suffice; `some none` is
`return 0`, `some (some items)` is `return 1` with the items stored. -/
def parse_ingredient_list_loop (max_items : Nat) :
    Nat → Option (Str × Str) → List ItemInfo → Option (Option (List ItemInfo))
  | 0, _, _ => none
  | _ + 1, none, items => some (if items.length > 0 then some items else none)
  | fuel + 1, some (token_in, saveptr), items =>
    if items.length ≥ max_items then some none
    else
      let token := trim_whitespace token_in
      if token = [] then some none
      else
        -- `strchr(token, ' ')`
        let qty_str := token.takeWhile (fun c => c != ' ')
        if qty_str.length = token.length ∨ qty_str.length = 0 ∨
            token.drop (qty_str.length + 1) = [] then some none
        else
          let name_str := trim_whitespace (token.drop (qty_str.length + 1))
          match parse_quantity qty_str with
          | none => some none
          | some quantity =>
            match parse_name name_str MAX_NAME_LENGTH false with
            | none => some none
            | some name =>
              parse_ingredient_list_loop max_items fuel (strtok_r saveptr ',')
                (items ++ [⟨name, quantity⟩])

/-- `parse_ingredient_list` of `main.c`. -/
def parse_ingredient_list (tokens : Str) (max_items : Nat) : Option (Option (List ItemInfo)) :=
  parse_ingredient_list_loop max_items (tokens.length + 2) (strtok_r tokens ',') []

/-- `skip_whitespace_const` of `main.c`. -/
def skip_whitespace_const (p : Str) : Str :=
  p.dropWhile isspace

/-- `match_and_advance` of `main.c`: the new cursor when the keyword is
matched as a whole word, `none` (cursor unchanged) otherwise. -/
def match_and_advance (cursor keyword : Str) : Option Str :=
  let p_temp := skip_whitespace_const cursor
  if keyword.isPrefixOf p_temp then
    match (p_temp.drop keyword.length).head? with
    | none => some (skip_whitespace_const (p_temp.drop keyword.length))
    | some char_after_kw =>
      if isspace char_after_kw then some (skip_whitespace_const (p_temp.drop keyword.length))
      else none
  else none

/-- `parse_command` of `main.c`, for the lines it handles before and in the
branch `Geralt` `loots`: the empty line, `Exit` and loot lines. The result is
given as a `Command`; `none` stands for the other branches, which are not
modelled (and for a loop that did not finish, which does not happen: see
`parse_ingredient_list_loop_isSome`). -/
def parse_command (original_line_ptr : Str) : Option Command :=
  let line_copy := trim_whitespace (original_line_ptr.take (MAX_LINE_LENGTH - 1))
  if line_copy = [] then some .EMPTY
  else if line_copy = "Exit".toList then some .EXIT
  else
    match match_and_advance line_copy "Geralt".toList with
    | none => none
    | some p =>
      match match_and_advance p "loots".toList with
      | none => none
      | some p2 =>
        let list_part_for_strtok := p2.take (MAX_LINE_LENGTH - 1)
        match parse_ingredient_list list_part_for_strtok MAX_RECIPE_INGREDIENTS with
        | none => none
        | some none => some .INVALID
        | some (some items) => some (.LOOT items)

end MainC

/-! ## Inventory: theorems -/

/-- C1. Trade is atomic on insufficient trophies: when some item of the
give-list asks for more than the held quantity of that trophy, `handleTrade`
prints `Not enough trophies` and the state is exactly the state before. -/
theorem handleTrade_insufficient_atomic (g : WitcherGame) (give recv : List ItemInfo)
    (h : ∃ t ∈ give, g.inventory_.getTrophyQuantity t.name < t.quantity) :
    handleTrade g (.TRADE give recv) = (g, ["Not enough trophies".toList]) := by
  obtain ⟨t, ht, hlt⟩ := h
  have hall : give.all (fun trophy_to_give =>
      !decide (g.inventory_.getTrophyQuantity trophy_to_give.name < trophy_to_give.quantity))
      = false := by
    rw [List.all_eq_false]
    exact ⟨t, ht, by simp [hlt]⟩
  simp [handleTrade, hall]

/-- C2. Brew is atomic on failure: with no formula for the potion name
`handleBrew` prints `No formula for <name>`; with a formula one of whose
requirements exceeds the held ingredient quantity it prints
`Not enough ingredients`; in both cases the state is exactly the state
before. -/
theorem handleBrew_failure_atomic (g : WitcherGame) (potion_name : Str) :
    (g.alchemy_base_.findFormula potion_name = none →
      handleBrew g (.BREW potion_name) = (g, ["No formula for ".toList ++ potion_name])) ∧
    (∀ formula, g.alchemy_base_.findFormula potion_name = some formula →
      (∃ req ∈ formula.requirements,
        g.inventory_.getIngredientQuantity req.ingredient_name < req.quantity) →
      handleBrew g (.BREW potion_name) = (g, ["Not enough ingredients".toList])) := by
  constructor
  · intro hnone
    simp [handleBrew, hnone]
  · intro formula hsome ⟨req, hreq, hlt⟩
    have hall : formula.requirements.all (fun req =>
        !decide (g.inventory_.getIngredientQuantity req.ingredient_name < req.quantity))
        = false := by
      rw [List.all_eq_false]
      exact ⟨req, hreq, by simp [hlt]⟩
    simp [handleBrew, hsome, hall]

/-- C3. A trade whose give-list names one trophy twice passes the check of
`handleTrade` item by item, fails at the second `useTrophy`, and returns with
the first deduction kept, no ingredient credited and nothing printed: with 4
`Wolf` trophies, `Geralt trades 3 Wolf, 3 Wolf trophy for 1 Rebis` leaves 1
`Wolf` and no `Rebis`. -/
theorem handleTrade_duplicate_trophy_partial :
    parse_item_list "3 Wolf, 3 Wolf".toList false
      = some [⟨"Wolf".toList, 3⟩, ⟨"Wolf".toList, 3⟩] ∧
    parse_item_list "1 Rebis".toList false = some [⟨"Rebis".toList, 1⟩] ∧
    handleTrade ⟨⟨[], [], [⟨"Wolf".toList, 4⟩]⟩, ⟨[]⟩, ⟨[]⟩⟩
        (.TRADE [⟨"Wolf".toList, 3⟩, ⟨"Wolf".toList, 3⟩] [⟨"Rebis".toList, 1⟩])
      = (⟨⟨[], [], [⟨"Wolf".toList, 1⟩]⟩, ⟨[]⟩, ⟨[]⟩⟩, []) := by
  decide

/-- The item found by `findItemInternal` splits the vector: nothing before it
has the name, and a write through the pointer changes that item only. -/
theorem findItemInternal_split (items : List InventoryItem) (name : Str) (e : InventoryItem)
    (h : findItemInternal items name = some e) :
    ∃ pre post, items = pre ++ e :: post ∧ (∀ x ∈ pre, x.name ≠ name) ∧ e.name = name ∧
      ∀ f, writeItemInternal items name f = pre ++ ⟨e.name, f e.quantity⟩ :: post := by
  induction items with
  | nil => simp [findItemInternal] at h
  | cons item rest ih =>
    by_cases hn : item.name = name
    · simp only [findItemInternal, hn, if_true, Option.some.injEq] at h
      subst h
      exact ⟨[], rest, rfl, by simp, hn, fun f => by simp [writeItemInternal, hn]⟩
    · simp only [findItemInternal, hn, if_false] at h
      obtain ⟨pre, post, hsplit, hpre, hname, hwrite⟩ := ih h
      refine ⟨item :: pre, post, by simp [hsplit], ?_, hname, fun f => ?_⟩
      · intro x hx
        rcases List.mem_cons.mp hx with rfl | hx
        · exact hn
        · exact hpre x hx
      · simp [writeItemInternal, hn, hwrite f]

/-- The subtraction in `useItemInternal` stays within `int`: under its guard
the 32-bit result is the exact difference. -/
theorem wrapInt32_sub_guarded (q u : Int) (hu : 0 < u) (hq : u ≤ q) (hmax : q ≤ INT_MAX) :
    wrapInt32 (q - u) = q - u := by
  unfold wrapInt32
  unfold INT_MAX at hmax
  omega

/-- An addition whose exact result is a non-negative `int` is not changed by
the 32-bit wrap. -/
theorem wrapInt32_of_range (x : Int) (h0 : 0 ≤ x) (hmax : x ≤ INT_MAX) : wrapInt32 x = x := by
  unfold wrapInt32
  unfold INT_MAX at hmax
  omega

/-- `addOrUpdateItemInternal` keeps every quantity non-negative. -/
theorem addOrUpdateItemInternal_nonneg (items : List InventoryItem) (name : Str) (qc : Int)
    (h : ∀ x ∈ items, 0 ≤ x.quantity) :
    ∀ x ∈ addOrUpdateItemInternal items name qc, 0 ≤ x.quantity := by
  unfold addOrUpdateItemInternal
  cases hfind : findItemInternal items name with
  | none =>
    simp only
    split
    · rename_i hc
      intro x hx
      rcases List.mem_append.mp hx with hx | hx
      · exact h x hx
      · simp only [List.mem_singleton] at hx
        subst hx
        exact le_of_lt hc.1
    · exact h
  | some e =>
    obtain ⟨pre, post, hsplit, -, -, hwrite⟩ := findItemInternal_split items name e hfind
    simp only [hwrite]
    intro x hx
    have hmem : ∀ y, y ∈ pre ∨ y ∈ post → 0 ≤ y.quantity := by
      intro y hy
      apply h y
      rw [hsplit]
      rcases hy with hy | hy
      · exact List.mem_append_left _ hy
      · exact List.mem_append_right _ (List.mem_cons_of_mem _ hy)
    rcases List.mem_append.mp hx with hx | hx
    · exact hmem x (Or.inl hx)
    · rcases List.mem_cons.mp hx with rfl | hx
      · simp only
        split <;> omega
      · exact hmem x (Or.inr hx)

/-- `useItemInternal` keeps every quantity non-negative. -/
theorem useItemInternal_nonneg (items : List InventoryItem) (name : Str) (qu : Int)
    (h : ∀ x ∈ items, 0 ≤ x.quantity) :
    ∀ x ∈ (useItemInternal items name qu).1, 0 ≤ x.quantity := by
  unfold useItemInternal
  split
  · exact h
  · cases hfind : findItemInternal items name with
    | none => exact h
    | some e =>
      simp only
      split
      · rename_i hge
        obtain ⟨pre, post, hsplit, -, -, hwrite⟩ := findItemInternal_split items name e hfind
        simp only [hwrite]
        intro x hx
        have hmem : ∀ y, y ∈ pre ∨ y ∈ post → 0 ≤ y.quantity := by
          intro y hy
          apply h y
          rw [hsplit]
          rcases hy with hy | hy
          · exact List.mem_append_left _ hy
          · exact List.mem_append_right _ (List.mem_cons_of_mem _ hy)
        rcases List.mem_append.mp hx with hx | hx
        · exact hmem x (Or.inl hx)
        · rcases List.mem_cons.mp hx with rfl | hx
          · simp only
            omega
          · exact hmem x (Or.inr hx)
      · exact h

/-- One call of the public interface keeps every quantity of every category
non-negative. -/
theorem Inventory.call_nonneg (inv : Inventory) (c : InventoryCall)
    (h : ∀ cat, ∀ x ∈ inv.items cat, 0 ≤ x.quantity) :
    ∀ cat, ∀ x ∈ (inv.call c).items cat, 0 ≤ x.quantity := by
  have hi := h .ingredient
  have hp := h .potion
  have ht := h .trophy
  simp only [Inventory.items] at hi hp ht
  intro cat
  cases c with
  | add category name quantity =>
    cases category <;> cases cat <;>
      simp only [Inventory.call, Inventory.items, Inventory.addIngredient, Inventory.addPotion,
        Inventory.addTrophy] <;>
      first
        | assumption
        | exact addOrUpdateItemInternal_nonneg _ _ _ (by assumption)
  | use category name quantity =>
    cases category <;> cases cat <;>
      simp only [Inventory.call, Inventory.items, Inventory.useIngredient, Inventory.usePotion,
        Inventory.useTrophy] <;>
      first
        | assumption
        | exact useItemInternal_nonneg _ _ _ (by assumption)

/-- The invariant is kept along a sequence of calls from any inventory that
has it. -/
theorem Inventory.foldl_call_nonneg (calls : List InventoryCall) (inv : Inventory)
    (h : ∀ cat, ∀ x ∈ inv.items cat, 0 ≤ x.quantity) :
    ∀ cat, ∀ x ∈ (calls.foldl Inventory.call inv).items cat, 0 ≤ x.quantity := by
  induction calls generalizing inv with
  | nil => exact h
  | cons c rest ih => exact ih (inv.call c) (Inventory.call_nonneg inv c h)

/-- C4. Inventory quantities are never negative: after every finite sequence
of add and use calls from the empty inventory (any category, any name, any
quantity argument, the addition taken modulo `2^32`), every stored entry of
every category has quantity `≥ 0`. -/
theorem Inventory.run_quantity_nonneg (calls : List InventoryCall) (cat : Category) :
    ∀ x ∈ (Inventory.run calls).items cat, 0 ≤ x.quantity := by
  apply Inventory.foldl_call_nonneg
  intro cat x hx
  cases cat <;> simp [Inventory.items] at hx

/-- Witness of C1: with 1 `Wolf` trophy held, a trade giving 2 `Wolf` is
refused and nothing changes. -/
theorem handleTrade_insufficient_atomic_witness :
    handleTrade ⟨⟨[], [], [⟨"Wolf".toList, 1⟩]⟩, ⟨[]⟩, ⟨[]⟩⟩
        (.TRADE [⟨"Wolf".toList, 2⟩] [⟨"Rebis".toList, 1⟩])
      = (⟨⟨[], [], [⟨"Wolf".toList, 1⟩]⟩, ⟨[]⟩, ⟨[]⟩⟩, ["Not enough trophies".toList]) :=
  handleTrade_insufficient_atomic ⟨⟨[], [], [⟨"Wolf".toList, 1⟩]⟩, ⟨[]⟩, ⟨[]⟩⟩
    [⟨"Wolf".toList, 2⟩] [⟨"Rebis".toList, 1⟩] ⟨⟨"Wolf".toList, 2⟩, by decide, by decide⟩

/-- Witness of C2: an unknown potion, and a known formula `Swallow` = 2 `Rebis`
with only 1 `Rebis` held. -/
theorem handleBrew_failure_atomic_witness :
    handleBrew WitcherGame.init (.BREW "Swallow".toList)
      = (WitcherGame.init, ["No formula for ".toList ++ "Swallow".toList]) ∧
    handleBrew ⟨⟨[⟨"Rebis".toList, 1⟩], [], []⟩,
          ⟨[⟨"Swallow".toList, [⟨"Rebis".toList, 2⟩]⟩]⟩, ⟨[]⟩⟩ (.BREW "Swallow".toList)
      = (⟨⟨[⟨"Rebis".toList, 1⟩], [], []⟩,
          ⟨[⟨"Swallow".toList, [⟨"Rebis".toList, 2⟩]⟩]⟩, ⟨[]⟩⟩,
        ["Not enough ingredients".toList]) :=
  ⟨(handleBrew_failure_atomic WitcherGame.init "Swallow".toList).1 (by decide),
   (handleBrew_failure_atomic ⟨⟨[⟨"Rebis".toList, 1⟩], [], []⟩,
          ⟨[⟨"Swallow".toList, [⟨"Rebis".toList, 2⟩]⟩]⟩, ⟨[]⟩⟩ "Swallow".toList).2
      ⟨"Swallow".toList, [⟨"Rebis".toList, 2⟩]⟩ (by decide)
      ⟨⟨"Rebis".toList, 2⟩, by decide, by decide⟩⟩

/-- C5. `useItemInternal` returns success iff `quantity_to_use > 0`, an entry
with the name exists and its quantity is at least `quantity_to_use`; on
success exactly that entry's quantity decreases by `quantity_to_use`, every
other entry and the entry count are unchanged (an entry reaching 0 stays); on
failure the vector is unchanged. -/
theorem useItemInternal_spec (items : List InventoryItem) (name : Str) (qu : Int) :
    ((useItemInternal items name qu).2 = true ↔
      (0 < qu ∧ ∃ e, findItemInternal items name = some e ∧ qu ≤ e.quantity)) ∧
    ((useItemInternal items name qu).2 = true →
      ∃ pre e post, items = pre ++ e :: post ∧ (∀ x ∈ pre, x.name ≠ name) ∧ e.name = name ∧
        (useItemInternal items name qu).1 = pre ++ ⟨e.name, e.quantity - qu⟩ :: post ∧
        (useItemInternal items name qu).1.length = items.length) ∧
    ((useItemInternal items name qu).2 = false → (useItemInternal items name qu).1 = items) := by
  unfold useItemInternal
  by_cases hq : qu ≤ 0
  · simp only [hq, if_true]
    refine ⟨⟨fun h => by simp at h, fun h => by omega⟩, fun h => by simp at h, by simp⟩
  · simp only [hq, if_false]
    cases hfind : findItemInternal items name with
    | none =>
      simp only
      refine ⟨⟨fun h => by simp at h, fun h => ?_⟩, fun h => by simp at h, by simp⟩
      obtain ⟨-, e, he, -⟩ := h
      simp at he
    | some e =>
      simp only
      by_cases hge : e.quantity ≥ qu
      · simp only [hge, if_true]
        obtain ⟨pre, post, hsplit, hpre, hname, hwrite⟩ := findItemInternal_split items name e hfind
        refine ⟨⟨fun _ => ⟨by omega, e, rfl, hge⟩, by simp⟩, fun _ => ?_, fun h => by simp at h⟩
        refine ⟨pre, e, post, hsplit, hpre, hname, hwrite _, ?_⟩
        rw [hwrite, hsplit]
        simp
      · simp only [hge, if_false]
        refine ⟨⟨fun h => by simp at h, fun h => ?_⟩, fun h => by simp at h, by simp⟩
        obtain ⟨-, e2, he, hle⟩ := h
        simp only [Option.some.injEq] at he
        subst he
        exact absurd hle hge

/-- Witness of C5: using 2 of 5 `Rebis` succeeds and leaves 3; using 6 fails
and changes nothing. -/
theorem useItemInternal_spec_witness :
    (∃ pre e post, [(⟨"Vitriol".toList, 1⟩ : InventoryItem), ⟨"Rebis".toList, 5⟩]
        = pre ++ e :: post ∧ (∀ x ∈ pre, x.name ≠ "Rebis".toList) ∧ e.name = "Rebis".toList ∧
      (useItemInternal [⟨"Vitriol".toList, 1⟩, ⟨"Rebis".toList, 5⟩] "Rebis".toList 2).1
        = pre ++ ⟨e.name, e.quantity - 2⟩ :: post ∧
      (useItemInternal [⟨"Vitriol".toList, 1⟩, ⟨"Rebis".toList, 5⟩] "Rebis".toList 2).1.length
        = [(⟨"Vitriol".toList, 1⟩ : InventoryItem), ⟨"Rebis".toList, 5⟩].length) ∧
    (useItemInternal [⟨"Vitriol".toList, 1⟩, ⟨"Rebis".toList, 5⟩] "Rebis".toList 6).1
      = [⟨"Vitriol".toList, 1⟩, ⟨"Rebis".toList, 5⟩] :=
  ⟨(useItemInternal_spec [⟨"Vitriol".toList, 1⟩, ⟨"Rebis".toList, 5⟩] "Rebis".toList 2).2.1
      (by decide),
   (useItemInternal_spec [⟨"Vitriol".toList, 1⟩, ⟨"Rebis".toList, 5⟩] "Rebis".toList 6).2.2
      (by decide)⟩

/-- C6. `addOrUpdateItemInternal` with a quantity in `[1, 2147483647]`: an
existing entry (holding a quantity `q ≥ 0`, as every inventory entry does)
with `q + quantity ≤ 2147483647` afterwards holds `q + quantity` and every
other entry is unchanged; an absent name is appended as `(name, quantity)`
when the vector holds fewer than 128 entries, and the vector is unchanged when
it holds 128.  With a quantity `≤ 0` and the name absent it is a no-op. -/
theorem addOrUpdateItemInternal_spec (items : List InventoryItem) (name : Str) :
    (∀ qc : Int, 1 ≤ qc → qc ≤ INT_MAX →
      (∀ e, findItemInternal items name = some e → 0 ≤ e.quantity →
        e.quantity + qc ≤ INT_MAX →
        ∃ pre post, items = pre ++ e :: post ∧ (∀ x ∈ pre, x.name ≠ name) ∧ e.name = name ∧
          addOrUpdateItemInternal items name qc
            = pre ++ ⟨e.name, e.quantity + qc⟩ :: post) ∧
      (findItemInternal items name = none → items.length < 128 →
        addOrUpdateItemInternal items name qc = items ++ [⟨name, qc⟩]) ∧
      (findItemInternal items name = none → 128 ≤ items.length →
        addOrUpdateItemInternal items name qc = items)) ∧
    (∀ qc : Int, qc ≤ 0 → findItemInternal items name = none →
      addOrUpdateItemInternal items name qc = items) := by
  refine ⟨fun qc h1 hmax => ⟨fun e hfind h0 hsum => ?_, fun hnone hlen => ?_, fun hnone hlen => ?_⟩,
    fun qc h0 hnone => ?_⟩
  · obtain ⟨pre, post, hsplit, hpre, hname, hwrite⟩ := findItemInternal_split items name e hfind
    refine ⟨pre, post, hsplit, hpre, hname, ?_⟩
    unfold addOrUpdateItemInternal
    simp only [hfind, hwrite]
    have hw : wrapInt32 (e.quantity + qc) = e.quantity + qc :=
      wrapInt32_of_range _ (by omega) hsum
    have hnn : ¬ (e.quantity + qc < 0) := by omega
    simp [hw, hnn]
  · unfold addOrUpdateItemInternal
    have hc : qc > 0 ∧ items.length < GameConstants.MAX_ITEMS :=
      ⟨by omega, by simpa [GameConstants.MAX_ITEMS] using hlen⟩
    simp only [hnone, hc, and_self, if_true]
  · unfold addOrUpdateItemInternal
    have hc : ¬ (qc > 0 ∧ items.length < GameConstants.MAX_ITEMS) := by
      simp only [GameConstants.MAX_ITEMS]
      omega
    simp only [hnone, hc, if_false]
  · unfold addOrUpdateItemInternal
    have hc : ¬ (qc > 0 ∧ items.length < GameConstants.MAX_ITEMS) := by
      omega
    simp only [hnone, hc, if_false]

/-- Witness of C6: adding 3 `Rebis` to 5 gives 8 and leaves `Vitriol`; adding
a new name appends it; a non-positive quantity for a new name does nothing. -/
theorem addOrUpdateItemInternal_spec_witness :
    (∃ pre post, [(⟨"Vitriol".toList, 1⟩ : InventoryItem), ⟨"Rebis".toList, 5⟩]
        = pre ++ ⟨"Rebis".toList, 5⟩ :: post ∧ (∀ x ∈ pre, x.name ≠ "Rebis".toList) ∧
      (⟨"Rebis".toList, 5⟩ : InventoryItem).name = "Rebis".toList ∧
      addOrUpdateItemInternal [⟨"Vitriol".toList, 1⟩, ⟨"Rebis".toList, 5⟩] "Rebis".toList 3
        = pre ++ ⟨"Rebis".toList, 5 + 3⟩ :: post) ∧
    addOrUpdateItemInternal [⟨"Vitriol".toList, 1⟩, ⟨"Rebis".toList, 5⟩] "Quebrith".toList 3
      = [⟨"Vitriol".toList, 1⟩, ⟨"Rebis".toList, 5⟩] ++ [⟨"Quebrith".toList, 3⟩] ∧
    addOrUpdateItemInternal [⟨"Vitriol".toList, 1⟩, ⟨"Rebis".toList, 5⟩] "Quebrith".toList 0
      = [⟨"Vitriol".toList, 1⟩, ⟨"Rebis".toList, 5⟩] :=
  ⟨((addOrUpdateItemInternal_spec [⟨"Vitriol".toList, 1⟩, ⟨"Rebis".toList, 5⟩]
        "Rebis".toList).1 3 (by decide) (by decide)).1 ⟨"Rebis".toList, 5⟩
      (by decide) (by decide) (by decide),
   ((addOrUpdateItemInternal_spec [⟨"Vitriol".toList, 1⟩, ⟨"Rebis".toList, 5⟩]
        "Quebrith".toList).1 3 (by decide) (by decide)).2.1 (by decide) (by decide),
   (addOrUpdateItemInternal_spec [⟨"Vitriol".toList, 1⟩, ⟨"Rebis".toList, 5⟩]
        "Quebrith".toList).2 0 (by decide) (by decide)⟩

/-! ## Parser utilities: theorems -/

/-- A scan that accepts all of `l₁` and stops at the head of `l₂`. -/
theorem takeWhile_dropWhile_append_stop (p : Char → Bool) (l₁ l₂ : Str)
    (h₁ : ∀ a ∈ l₁, p a = true) (h₂ : ∀ c, l₂.head? = some c → p c = false) :
    (l₁ ++ l₂).takeWhile p = l₁ ∧ (l₁ ++ l₂).dropWhile p = l₂ := by
  induction l₁ with
  | nil =>
    cases l₂ with
    | nil => simp
    | cons c rest =>
      have hc : p c = false := h₂ c rfl
      simp [List.takeWhile, List.dropWhile, hc]
  | cons a rest ih =>
    have ha : p a = true := h₁ a (List.mem_cons_self _ _)
    have ih2 := ih (fun x hx => h₁ x (List.mem_cons_of_mem _ hx))
    simp [List.takeWhile, List.dropWhile, ha, ih2.1, ih2.2]

/-- A digit is neither a sign nor whitespace. -/
theorem isdigit_facts (c : Char) (h : isdigit c = true) :
    c ≠ '-' ∧ c ≠ '+' ∧ c ≠ ' ' ∧ c ≠ ',' ∧ isspace c = false := by
  simp only [isdigit, Bool.and_eq_true, decide_eq_true_eq] at h
  refine ⟨?_, ?_, ?_, ?_, ?_⟩
  · rintro rfl
    exact absurd h.1 (by decide)
  · rintro rfl
    exact absurd h.1 (by decide)
  · rintro rfl
    exact absurd h.1 (by decide)
  · rintro rfl
    exact absurd h.1 (by decide)
  · simp only [isspace, Bool.or_eq_false_iff, decide_eq_false_iff_not, Bool.and_eq_false_iff]
    omega

/-- The tokens `parse_quantity` accepts, one direction: optional whitespace,
an optional `+`, then digits whose value is in range. -/
theorem parse_quantity_of_shape (ws sign ds : Str)
    (hws : ∀ c ∈ ws, isspace c = true) (hsign : sign = [] ∨ sign = ['+'])
    (hne : ds ≠ []) (hds : ∀ c ∈ ds, isdigit c = true)
    (h1 : 1 ≤ digitsValue ds) (hmax : (digitsValue ds : Int) ≤ 2147483647) :
    parse_quantity (ws ++ sign ++ ds) = some (digitsValue ds : Int) := by
  obtain ⟨d, ds', rfl⟩ := List.exists_cons_of_ne_nil hne
  have hd := isdigit_facts d (hds d (List.mem_cons_self _ _))
  have htw : (d :: ds').takeWhile isdigit = d :: ds' :=
    List.takeWhile_eq_self_iff.mpr hds
  have hval : ¬ ((digitsValue (d :: ds') : Int) < -LONG_MAX - 1 ∨
      (digitsValue (d :: ds') : Int) > LONG_MAX) := by
    unfold LONG_MAX
    omega
  have hpos : ¬ ((digitsValue (d :: ds') : Int) ≤ 0) := by omega
  have hgt : ¬ ((digitsValue (d :: ds') : Int) > 2147483647) := by omega
  rcases hsign with rfl | rfl
  · have hstop := takeWhile_dropWhile_append_stop isspace ws (d :: ds') hws
      (by intro c hc; simp only [List.head?_cons, Option.some.injEq] at hc; subst hc; exact hd.2.2.2.2)
    have hstol : stol (ws ++ [] ++ d :: ds')
        = .ok (digitsValue (d :: ds')) (ws.length + 0 + (d :: ds').length) := by
      unfold stol
      simp only [List.append_nil, hstop.1, hstop.2, List.head?_cons, Option.some.injEq,
        hd.1, hd.2.1, or_self, if_false, List.drop_zero, htw, decide_False]
      simp [hval]
    unfold parse_quantity
    rw [hstol]
    simp [hpos, hgt]
  · have hstop := takeWhile_dropWhile_append_stop isspace ws ('+' :: d :: ds') hws
      (by intro c hc; simp only [List.head?_cons, Option.some.injEq] at hc; subst hc; decide)
    have hstol : stol (ws ++ ['+'] ++ d :: ds')
        = .ok (digitsValue (d :: ds')) (ws.length + 1 + (d :: ds').length) := by
      unfold stol
      simp only [List.append_assoc, List.singleton_append, hstop.1, hstop.2, List.head?_cons]
      simp [htw, hval]
    unfold parse_quantity
    rw [hstol]
    simp [hpos, hgt]
    omega

/-- What a successful `stol` has read. -/
theorem stol_ok_shape (str : Str) (val : Int) (pos : Nat) (h : stol str = .ok val pos) :
    ∃ sign ds rest, str = str.takeWhile isspace ++ sign ++ ds ++ rest ∧
      ((sign = [] ∧ val = (digitsValue ds : Int)) ∨ (sign = ['+'] ∧ val = (digitsValue ds : Int)) ∨
        (sign = ['-'] ∧ val = -(digitsValue ds : Int))) ∧
      ds ≠ [] ∧ (∀ c ∈ ds, isdigit c = true) ∧
      pos = (str.takeWhile isspace).length + sign.length + ds.length := by
  have hsplit : str = str.takeWhile isspace ++ str.dropWhile isspace :=
    (List.takeWhile_append_dropWhile isspace str).symm
  unfold stol at h
  generalize hr1 : str.dropWhile isspace = r1 at h hsplit
  have hdig : ∀ l : Str, ∀ c ∈ l.takeWhile isdigit, isdigit c = true :=
    fun l c hc => List.mem_takeWhile_imp hc
  have htd : ∀ l : Str, l = l.takeWhile isdigit ++ l.dropWhile isdigit :=
    fun l => (List.takeWhile_append_dropWhile isdigit l).symm
  cases r1 with
  | nil => simp [List.takeWhile] at h
  | cons c t =>
    by_cases hm : c = '-'
    · subst hm
      simp only [List.head?_cons, true_or, if_true, List.drop_succ_cons, List.drop_zero,
        decide_True] at h
      split at h
      · simp at h
      · rename_i hne
        split at h
        · simp at h
        · simp only [StolResult.ok.injEq] at h
          refine ⟨['-'], t.takeWhile isdigit, t.dropWhile isdigit, ?_, ?_, hne, hdig t, ?_⟩
          · rw [List.append_assoc, List.append_assoc, ← htd t]
            simpa using hsplit
          · exact Or.inr (Or.inr ⟨rfl, h.1.symm⟩)
          · simpa using h.2.symm
    · by_cases hp : c = '+'
      · subst hp
        simp only [List.head?_cons, Option.some.injEq, or_true, if_true, List.drop_succ_cons,
          List.drop_zero, hm, decide_False, Bool.false_eq_true, if_false] at h
        split at h
        · simp at h
        · rename_i hne
          split at h
          · simp at h
          · simp only [StolResult.ok.injEq] at h
            refine ⟨['+'], t.takeWhile isdigit, t.dropWhile isdigit, ?_, ?_, hne, hdig t, ?_⟩
            · rw [List.append_assoc, List.append_assoc, ← htd t]
              simpa using hsplit
            · refine Or.inr (Or.inl ⟨rfl, ?_⟩)
              simpa using h.1.symm
            · simpa using h.2.symm
      · simp only [List.head?_cons, Option.some.injEq, hm, hp, or_self, if_false,
          List.drop_zero, decide_False, Bool.false_eq_true] at h
        split at h
        · simp at h
        · rename_i hne
          split at h
          · simp at h
          · simp only [StolResult.ok.injEq] at h
            refine ⟨[], (c :: t).takeWhile isdigit, (c :: t).dropWhile isdigit, ?_, ?_, hne,
              hdig _, ?_⟩
            · rw [List.append_nil, List.append_assoc, ← htd (c :: t)]
              exact hsplit
            · refine Or.inl ⟨rfl, ?_⟩
              simpa [hm] using h.1.symm
            · simpa using h.2.symm

/-- The tokens `parse_quantity` accepts, the other direction. -/
theorem parse_quantity_shape (token : Str) (v : Int) (h : parse_quantity token = some v) :
    ∃ ws sign ds, token = ws ++ sign ++ ds ∧ (∀ c ∈ ws, isspace c = true) ∧
      (sign = [] ∨ sign = ['+']) ∧ ds ≠ [] ∧ (∀ c ∈ ds, isdigit c = true) ∧
      v = (digitsValue ds : Int) ∧ 1 ≤ v ∧ v ≤ 2147483647 := by
  unfold parse_quantity at h
  split at h
  · simp at h
  · split at h
    · rename_i val pos hstol
      split at h
      · simp at h
      · rename_i hcond
        simp only [Option.some.injEq] at h
        subst h
        simp only [not_or, not_le, not_lt, ne_eq, not_not] at hcond
        obtain ⟨hpos, hval0, hvalmax⟩ := hcond
        obtain ⟨sign, ds, rest, hstr, hsv, hne, hds, hp⟩ := stol_ok_shape token val pos hstol
        have hlen := congrArg List.length hstr
        simp only [List.length_append] at hlen
        have hrest : rest = [] := List.eq_nil_of_length_eq_zero (by omega)
        subst hrest
        refine ⟨token.takeWhile isspace, sign, ds, by simpa using hstr,
          fun c hc => List.mem_takeWhile_imp hc, ?_, hne, hds, ?_, by omega, by omega⟩
        · rcases hsv with h | h | h
          · exact Or.inl h.1
          · exact Or.inr h.1
          · omega
        · rcases hsv with h | h | h
          · exact h.2
          · exact h.2
          · omega
    · simp at h
    · simp at h

/-- C7, as the code has it. `parse_quantity` succeeds with `v` iff the token
is optional leading whitespace, an optional `+` sign, then one or more decimal
digits and nothing else, and the value `v` of the digits is in
`[1, 2147483647]`; every other token fails. -/
theorem parse_quantity_eq_some_iff (token : Str) (v : Int) :
    parse_quantity token = some v ↔
      ∃ ws sign ds, token = ws ++ sign ++ ds ∧ (∀ c ∈ ws, isspace c = true) ∧
        (sign = [] ∨ sign = ['+']) ∧ ds ≠ [] ∧ (∀ c ∈ ds, isdigit c = true) ∧
        v = (digitsValue ds : Int) ∧ 1 ≤ v ∧ v ≤ 2147483647 := by
  constructor
  · exact parse_quantity_shape token v
  · rintro ⟨ws, sign, ds, rfl, hws, hsign, hne, hds, rfl, h1, hmax⟩
    exact parse_quantity_of_shape ws sign ds hws hsign hne hds (by omega) hmax

/-- C7, counterexample. The tokens `+5` and ` 5` are not plain decimal
literals (a character precedes the digits), yet `parse_quantity` accepts both
with value 5. -/
theorem parse_quantity_accepts_sign_and_leading_space :
    parse_quantity "+5".toList = some 5 ∧ ¬ IsDecimalLiteral "+5".toList ∧
    parse_quantity " 5".toList = some 5 ∧ ¬ IsDecimalLiteral " 5".toList := by
  decide

/-- Trimming is dropping leading, then trailing whitespace. -/
theorem trim_whitespace_str_eq (s : Str) :
    trim_whitespace_str s = (s.dropWhile isspace).rdropWhile isspace := rfl

/-- A trimmed string does not start with whitespace. -/
theorem trim_whitespace_str_head (s : Str) (c : Char)
    (h : (trim_whitespace_str s).head? = some c) : isspace c = false := by
  rw [trim_whitespace_str_eq] at h
  obtain ⟨t, ht⟩ := List.rdropWhile_prefix isspace (l := s.dropWhile isspace)
  have hnot := List.head?_dropWhile_not isspace s
  cases hr : List.rdropWhile isspace (s.dropWhile isspace) with
  | nil => simp [hr] at h
  | cons a r =>
    rw [hr] at h ht
    simp only [List.head?_cons, Option.some.injEq] at h
    subst h
    rw [← ht] at hnot
    simpa using hnot

/-- A trimmed string does not end with whitespace. -/
theorem trim_whitespace_str_getLast (s : Str) (c : Char)
    (h : (trim_whitespace_str s).getLast? = some c) : isspace c = false := by
  rw [trim_whitespace_str_eq] at h
  have hne : List.rdropWhile isspace (s.dropWhile isspace) ≠ [] := by
    intro hnil
    simp [hnil] at h
  have hlast := List.rdropWhile_last_not isspace (s.dropWhile isspace) hne
  rw [List.getLast?_eq_getLast _ hne] at h
  simp only [Option.some.injEq] at h
  rw [h] at hlast
  simpa using hlast

/-- A string with no whitespace at either end is its own trimmed form. -/
theorem trim_whitespace_str_eq_self (s : Str)
    (hh : ∀ c, s.head? = some c → isspace c = false)
    (hl : ∀ c, s.getLast? = some c → isspace c = false) :
    trim_whitespace_str s = s := by
  have hd : s.dropWhile isspace = s := by
    cases s with
    | nil => rfl
    | cons a r =>
      have := hh a rfl
      simp [List.dropWhile, this]
  rw [trim_whitespace_str_eq, hd, List.rdropWhile_eq_self_iff]
  intro hne
  have := hl (s.getLast hne) (List.getLast?_eq_getLast _ hne)
  simp [this]

/-- Letters are not whitespace. -/
theorem isspace_of_isalpha (c : Char) (h : isalpha c = true) : isspace c = false := by
  simp only [isalpha, Bool.or_eq_true, Bool.and_eq_true, decide_eq_true_eq] at h
  simp only [isspace, Bool.or_eq_false_iff, decide_eq_false_iff_not, Bool.and_eq_false_iff]
  omega

/-- Unfolding `noAdjacent` at a cons. -/
theorem noAdjacent_cons (sep : Char → Bool) (a : Char) (l : Str) :
    noAdjacent sep (a :: l) = true ↔
      (sep a = true → ∀ c, l.head? = some c → sep c = false) ∧ noAdjacent sep l = true := by
  cases l with
  | nil => simp [noAdjacent]
  | cons b r =>
    simp only [noAdjacent, Bool.and_eq_true, Bool.not_eq_true', Bool.and_eq_false_iff,
      List.head?_cons, Option.some.injEq, forall_eq']
    constructor
    · rintro ⟨h1, h2⟩
      refine ⟨fun ha => ?_, h2⟩
      rcases h1 with h1 | h1
      · simp [ha] at h1
      · exact h1
    · rintro ⟨h1, h2⟩
      refine ⟨?_, h2⟩
      by_cases ha : sep a = true
      · exact Or.inr (h1 ha)
      · exact Or.inl (by simpa using ha)

/-- What the character loop of `parse_name` checks. -/
theorem parse_name_loop_eq_some (allow : Bool) (t : Str) (cf lws b : Bool) :
    parse_name_loop allow t cf lws = some b ↔
      (∀ c ∈ t, isalpha c = true ∨ (allow = true ∧ isspace c = true)) ∧
      (lws = true → ∀ c, t.head? = some c → isspace c = false) ∧
      noAdjacent isspace t = true ∧ b = (cf || t.any isalpha) := by
  induction t generalizing cf lws with
  | nil =>
    simp only [parse_name_loop, Option.some.injEq, List.not_mem_nil, false_imp_iff, implies_true,
      List.head?_nil, noAdjacent, List.any_nil, Bool.or_false, true_and]
    constructor
    · intro h
      exact ⟨fun _ c hc => by simp at hc, h.symm⟩
    · intro h
      exact h.2.symm
  | cons c rest ih =>
    rw [noAdjacent_cons]
    by_cases ha : isalpha c = true
    · have hs := isspace_of_isalpha c ha
      simp only [parse_name_loop, ha, if_true, ih, List.mem_cons, forall_eq_or_imp, true_or,
        true_and, List.head?_cons, Option.some.injEq, forall_eq', hs, implies_true,
        List.any_cons, Bool.true_or, Bool.or_true, Bool.false_eq_true, false_imp_iff]
    · have ha' : isalpha c = false := by simpa using ha
      by_cases hs : isspace c = true
      · cases allow with
        | false =>
          simp [parse_name_loop, ha', hs]
        | true =>
          cases lws with
          | true => simp [parse_name_loop, ha', hs]
          | false =>
            simp only [parse_name_loop, ha', hs, if_true, ih, List.mem_cons, forall_eq_or_imp,
              List.head?_cons, Option.some.injEq, forall_eq', List.any_cons, Bool.false_or,
              Bool.false_eq_true, false_imp_iff, true_and, and_self, or_true, if_false,
              Bool.not_true, forall_const]
            tauto
      · have hs' : isspace c = false := by simpa using hs
        simp [parse_name_loop, ha', hs']

/-- A token whose trimmed form is a valid name is accepted, as that form. -/
theorem parse_name_some_of_valid (token : Str) (allow : Bool)
    (h : IsValidName (trim_whitespace_str token) allow) :
    parse_name token allow = some (trim_whitespace_str token) := by
  obtain ⟨hne, hlen, ⟨c, hc, hca⟩, hall, -, -, hadj⟩ := h
  have hloop : parse_name_loop allow (trim_whitespace_str token) false false = some true := by
    rw [parse_name_loop_eq_some]
    refine ⟨hall, fun h => by simp at h, hadj, ?_⟩
    simp only [Bool.false_or]
    exact (List.any_eq_true.mpr ⟨c, hc, hca⟩).symm
  unfold parse_name
  have hcond : ¬ (trim_whitespace_str token = [] ∨
      (trim_whitespace_str token).length ≥ GameConstants.MAX_NAME_LENGTH) := by
    rintro (h | h)
    · exact hne h
    · omega
  simp only [hcond, if_false, hloop]
  simp

/-- An accepted token is returned trimmed, and its trimmed form is a valid
name. -/
theorem parse_name_valid_of_some (token : Str) (allow : Bool) (r : Str)
    (h : parse_name token allow = some r) :
    r = trim_whitespace_str token ∧ IsValidName (trim_whitespace_str token) allow := by
  unfold parse_name at h
  simp only at h
  split at h
  · simp at h
  · rename_i hcond
    simp only [not_or, ge_iff_le, not_le] at hcond
    cases hloop : parse_name_loop allow (trim_whitespace_str token) false false with
    | none => simp [hloop] at h
    | some b =>
      simp only [hloop] at h
      cases b with
      | false => simp at h
      | true =>
        simp only [Bool.not_true, Bool.false_eq_true, if_false, Option.some.injEq] at h
        rw [parse_name_loop_eq_some] at hloop
        obtain ⟨hall, -, hadj, hany⟩ := hloop
        simp only [Bool.false_or] at hany
        obtain ⟨c, hc, hca⟩ := List.any_eq_true.mp hany.symm
        exact ⟨h.symm, hcond.1, hcond.2, ⟨c, hc, hca⟩, hall,
          trim_whitespace_str_head token, trim_whitespace_str_getLast token, hadj⟩

/-- C8, as the code has it. `parse_name` succeeds iff the trimmed token `t` is
non-empty, shorter than 128 characters, contains a letter, and consists only
of letters and, only when `allow_spaces` is true, single interior whitespace
characters (any character of `std::isspace`; none first or last, no two in a
row); the returned name is exactly `t`. -/
theorem parse_name_eq_some_iff (token : Str) (allow_spaces : Bool) (r : Str) :
    parse_name token allow_spaces = some r ↔
      r = trim_whitespace_str token ∧ IsValidName (trim_whitespace_str token) allow_spaces := by
  constructor
  · exact parse_name_valid_of_some token allow_spaces r
  · rintro ⟨rfl, hv⟩
    exact parse_name_some_of_valid token allow_spaces hv

/-- C8, counterexample. The token `a<TAB>b` is accepted with `allow_spaces`
although the character between the letters is a tab, not a space. -/
theorem parse_name_accepts_tab :
    parse_name ['a', Char.ofNat 9, 'b'] true = some ['a', Char.ofNat 9, 'b'] ∧
    ¬ IsSpecName (trim_whitespace_str ['a', Char.ofNat 9, 'b']) true := by
  decide

/-- Fewer separators on the string keep `noAdjacent`. -/
theorem noAdjacent_of_imp (sep₁ sep₂ : Char → Bool) (t : Str)
    (himp : ∀ c ∈ t, sep₂ c = true → sep₁ c = true) (h : noAdjacent sep₁ t = true) :
    noAdjacent sep₂ t = true := by
  induction t with
  | nil => rfl
  | cons a l ih =>
    rw [noAdjacent_cons] at h ⊢
    refine ⟨fun ha c hc => ?_, ih (fun c hc => himp c (List.mem_cons_of_mem _ hc)) h.2⟩
    have h1 := h.1 (himp a (List.mem_cons_self _ _) ha) c hc
    have hmem : c ∈ a :: l := List.mem_cons_of_mem _ (List.mem_of_mem_head? hc)
    by_contra hcon
    have := himp c hmem (by simpa using hcon)
    simp [h1] at this

/-- A Name in the specification's sense is a name `parse_name` accepts. -/
theorem IsSpecName.isValidName (t : Str) (allow : Bool) (h : IsSpecName t allow) :
    IsValidName t allow := by
  obtain ⟨hne, hlen, hex, hall, hhead, hlast, hadj⟩ := h
  have hsp : ∀ c ∈ t, isspace c = true → (c == ' ') = true := by
    intro c hc hs
    rcases hall c hc with ha | ⟨-, hb⟩
    · rw [isspace_of_isalpha c ha] at hs
      simp at hs
    · exact hb
  refine ⟨hne, hlen, hex, fun c hc => ?_, fun c hc => ?_, fun c hc => ?_,
    noAdjacent_of_imp _ _ t hsp hadj⟩
  · rcases hall c hc with ha | ⟨hal, hb⟩
    · exact Or.inl ha
    · refine Or.inr ⟨hal, ?_⟩
      have : c = ' ' := by simpa using hb
      subst this
      decide
  · have h1 := hhead c hc
    by_contra hcon
    have := hsp c (List.mem_of_mem_head? hc) (by simpa using hcon)
    simp [h1] at this
  · have h1 := hlast c hc
    by_contra hcon
    have := hsp c (List.mem_of_mem_getLast? hc) (by simpa using hcon)
    simp [h1] at this

/-- The character of a digit below ten is a digit with that value. -/
theorem digitChar_facts (d : Nat) (h : d < 10) :
    isdigit (digitChar d) = true ∧ (digitChar d).toNat - 48 = d := by
  interval_cases d <;> exact ⟨by decide, by decide⟩

/-- Reading back the characters of a little-endian digit list. -/
theorem digitsValue_reverse_map (l : List Nat) (h : ∀ d ∈ l, d < 10) :
    digitsValue (l.reverse.map digitChar) = Nat.ofDigits 10 l := by
  induction l with
  | nil => rfl
  | cons d l ih =>
    have hd := (digitChar_facts d (h d (List.mem_cons_self _ _))).2
    have ih2 := ih (fun x hx => h x (List.mem_cons_of_mem _ hx))
    unfold digitsValue at ih2 ⊢
    rw [List.reverse_cons, List.map_append, List.foldl_append, ih2, Nat.ofDigits_cons]
    simp only [List.map_cons, List.map_nil, List.foldl_cons, List.foldl_nil, hd]
    omega

/-- The plain decimal form of a positive number: non-empty, digits only, and
read back as the number. -/
theorem decimal_facts (n : Nat) (hn : 1 ≤ n) :
    decimal n ≠ [] ∧ (∀ c ∈ decimal n, isdigit c = true) ∧ digitsValue (decimal n) = n := by
  have hne : n ≠ 0 := by omega
  have hlt : ∀ d ∈ Nat.digits 10 n, d < 10 := fun d hd => Nat.digits_lt_base (by norm_num) hd
  unfold decimal
  simp only [hne, if_false]
  refine ⟨?_, ?_, ?_⟩
  · simp [Nat.digits_ne_nil_iff_ne_zero, hne]
  · intro c hc
    simp only [List.mem_map, List.mem_reverse] at hc
    obtain ⟨d, hd, rfl⟩ := hc
    exact (digitChar_facts d (hlt d hd)).1
  · rw [digitsValue_reverse_map _ hlt, Nat.ofDigits_digits]

/-- Leading whitespace in front of a string with no whitespace at either end
is trimmed away, and nothing else. -/
theorem trim_whitespace_str_append_left (lead s : Str)
    (hlead : ∀ c ∈ lead, isspace c = true)
    (hh : ∀ c, s.head? = some c → isspace c = false)
    (hl : ∀ c, s.getLast? = some c → isspace c = false) :
    trim_whitespace_str (lead ++ s) = s := by
  have hd := (takeWhile_dropWhile_append_stop isspace lead s hlead hh).2
  have hs := trim_whitespace_str_eq_self s hh hl
  rw [trim_whitespace_str_eq] at hs ⊢
  rw [hd]
  have hd2 : s.dropWhile isspace = s := by
    have := (takeWhile_dropWhile_append_stop isspace [] s (by simp) hh).2
    simpa using this
  rw [hd2] at hs
  exact hs

/-- A character of a valid name is neither a comma nor a digit. -/
theorem IsValidName.not_comma (t : Str) (allow : Bool) (h : IsValidName t allow) :
    ∀ c ∈ t, c ≠ ',' := by
  obtain ⟨-, -, -, hall, -, -, -⟩ := h
  rintro c hc rfl
  rcases hall _ hc with ha | ⟨-, hb⟩
  · exact absurd ha (by decide)
  · exact absurd hb (by decide)

/-- The canonical form of a valid item (after any leading whitespace) is
parsed back to the item. -/
theorem parse_item_token_serializeItem (item : ItemInfo) (allow : Bool) (lead : Str)
    (hlead : ∀ c ∈ lead, isspace c = true)
    (hv : IsValidName item.name allow) (h1 : 1 ≤ item.quantity)
    (hmax : item.quantity ≤ 2147483647) :
    parse_item_token (lead ++ serializeItem item) allow = some item := by
  obtain ⟨name, q⟩ := item
  simp only at hv h1 hmax
  have hq : 1 ≤ q.toNat := by omega
  obtain ⟨hdne, hdig, hdval⟩ := decimal_facts q.toNat hq
  have hv' := hv
  obtain ⟨hne, -, -, -, hhead, hlast, -⟩ := hv'
  generalize hds : decimal q.toNat = ds at hdne hdig hdval
  have hser : serializeItem ⟨name, q⟩ = ds ++ ' ' :: name := by
    simp [serializeItem, hds]
  -- the serialized item has no whitespace at either end
  have htrim : trim_whitespace_str (lead ++ (ds ++ ' ' :: name)) = ds ++ ' ' :: name := by
    apply trim_whitespace_str_append_left _ _ hlead
    · intro c hc
      obtain ⟨d, ds', rfl⟩ := List.exists_cons_of_ne_nil hdne
      simp only [List.cons_append, List.head?_cons, Option.some.injEq] at hc
      subst hc
      exact (isdigit_facts d (hdig d (List.mem_cons_self _ _))).2.2.2.2
    · intro c hc
      rw [List.getLast?_append_of_ne_nil _ (by simp)] at hc
      obtain ⟨a, r, rfl⟩ := List.exists_cons_of_ne_nil hne
      rw [List.getLast?_cons_cons] at hc
      exact hlast c hc
  have hqty := takeWhile_dropWhile_append_stop (fun c => c != ' ') ds (' ' :: name)
    (fun c hc => by simpa using (isdigit_facts c (hdig c hc)).2.2.1)
    (fun c hc => by
      simp only [List.head?_cons, Option.some.injEq] at hc
      subst hc
      decide)
  have hpq : parse_quantity ds = some q := by
    have := parse_quantity_of_shape [] [] ds (by simp) (Or.inl rfl) hdne hdig
      (by omega) (by omega)
    simp only [List.nil_append] at this
    rw [this, hdval]
    congr 1
    omega
  have hpn : parse_name name allow = some name := by
    have htn := trim_whitespace_str_eq_self name hhead hlast
    have := parse_name_some_of_valid name allow (by rw [htn]; exact hv)
    rw [this, htn]
  have hlen0 : ds.length ≠ 0 := by
    intro h
    exact hdne (List.eq_nil_of_length_eq_zero h)
  have hdrop : List.drop (ds.length + 1) (ds ++ ' ' :: name) = name := by
    rw [List.drop_append_eq_append_drop]
    simp
  have htn := trim_whitespace_str_eq_self name hhead hlast
  unfold parse_item_token
  simp only [hser, htrim, hqty.1, hdrop, htn, hpq, hpn]
  simp [hlen0, hne, hdne]

/-- The `getline` loop reads a delimiter-free run up to the next delimiter. -/
theorem split_string_loop_append_delim (d : Char) (t rest cur : Str) (ht : ∀ c ∈ t, c ≠ d) :
    split_string_loop d cur (t ++ d :: rest)
      = (cur.reverse ++ t) :: split_string_loop d [] rest := by
  induction t generalizing cur with
  | nil => simp [split_string_loop]
  | cons a t ih =>
    have ha : a ≠ d := ht a (List.mem_cons_self _ _)
    simp only [List.cons_append, split_string_loop, ha, if_false, List.append_eq]
    rw [ih (a :: cur) (fun c hc => ht c (List.mem_cons_of_mem _ hc))]
    simp

/-- The `getline` loop reads a final non-empty delimiter-free run as one
token. -/
theorem split_string_loop_last (d : Char) (t cur : Str) (ht : ∀ c ∈ t, c ≠ d)
    (hne : cur ≠ [] ∨ t ≠ []) :
    split_string_loop d cur t = [cur.reverse ++ t] := by
  induction t generalizing cur with
  | nil =>
    have : cur ≠ [] := by
      rcases hne with h | h
      · exact h
      · exact absurd rfl h
    simp [split_string_loop, this]
  | cons a t ih =>
    have ha : a ≠ d := ht a (List.mem_cons_self _ _)
    simp only [split_string_loop, ha, if_false]
    rw [ih (a :: cur) (fun c hc => ht c (List.mem_cons_of_mem _ hc)) (Or.inl (by simp))]
    simp

/-- The canonical form of a valid item is non-empty and has no comma. -/
theorem serializeItem_facts (item : ItemInfo) (allow : Bool)
    (hv : IsValidName item.name allow) (h1 : 1 ≤ item.quantity) :
    serializeItem item ≠ [] ∧ (∀ c ∈ serializeItem item, c ≠ ',') ∧
    (∀ c, (serializeItem item).head? = some c → isspace c = false) ∧
    (∀ c, (serializeItem item).getLast? = some c → isspace c = false) := by
  obtain ⟨hdne, hdig, -⟩ := decimal_facts item.quantity.toNat (by omega)
  have hcomma := IsValidName.not_comma item.name allow hv
  obtain ⟨hne, -, -, -, -, hlast, -⟩ := hv
  unfold serializeItem
  refine ⟨by simp, ?_, ?_, ?_⟩
  · intro c hc
    rcases List.mem_append.mp hc with hc | hc
    · exact (isdigit_facts c (hdig c hc)).2.2.2.1
    · rcases List.mem_cons.mp hc with rfl | hc
      · decide
      · exact hcomma c hc
  · intro c hc
    obtain ⟨d, ds', hds⟩ := List.exists_cons_of_ne_nil hdne
    rw [hds] at hc hdig
    simp only [List.cons_append, List.head?_cons, Option.some.injEq] at hc
    subst hc
    exact (isdigit_facts d (hdig d (List.mem_cons_self _ _))).2.2.2.2
  · intro c hc
    rw [List.getLast?_append_of_ne_nil _ (by simp)] at hc
    obtain ⟨a, r, hn⟩ := List.exists_cons_of_ne_nil hne
    rw [hn, List.getLast?_cons_cons, ← hn] at hc
    exact hlast c hc

/-- The tokens `split_string` produces on a canonical serialization: the first
item, then every further item after one space. -/
theorem split_string_loop_serializeItems (allow : Bool) (item : ItemInfo) (rest : List ItemInfo)
    (cur : Str)
    (hv : ∀ it ∈ item :: rest, IsValidName it.name allow ∧ 1 ≤ it.quantity) :
    split_string_loop ',' cur (serializeItems (item :: rest))
      = (cur.reverse ++ serializeItem item) :: rest.map (fun it => ' ' :: serializeItem it) := by
  induction rest generalizing item cur with
  | nil =>
    have hf := serializeItem_facts item allow (hv item (List.mem_cons_self _ _)).1
      (hv item (List.mem_cons_self _ _)).2
    simp only [serializeItems, List.map_nil]
    exact split_string_loop_last ',' _ cur hf.2.1 (Or.inr hf.1)
  | cons r rs ih =>
    have hf := serializeItem_facts item allow (hv item (List.mem_cons_self _ _)).1
      (hv item (List.mem_cons_self _ _)).2
    have hrs : ∀ it ∈ r :: rs, IsValidName it.name allow ∧ 1 ≤ it.quantity :=
      fun it hit => hv it (List.mem_cons_of_mem _ hit)
    have hstep : serializeItems (item :: r :: rs)
        = serializeItem item ++ ',' :: ' ' :: serializeItems (r :: rs) := rfl
    rw [hstep, split_string_loop_append_delim ',' _ _ cur hf.2.1]
    have hsp : split_string_loop ',' [] (' ' :: serializeItems (r :: rs))
        = split_string_loop ',' [' '] (serializeItems (r :: rs)) := by
      simp [split_string_loop]
    rw [hsp, ih r [' '] hrs]
    simp

/-- The loop over tokens that each parse to the matching item appends these
items, as long as the capacity is not exceeded. -/
theorem parse_item_list_loop_forall₂ (allow : Bool) (tokens : List Str) (items acc : List ItemInfo)
    (h : List.Forall₂ (fun tok it => parse_item_token tok allow = some it) tokens items)
    (hcap : acc.length + items.length ≤ GameConstants.MAX_RECIPE_INGREDIENTS) :
    parse_item_list_loop allow tokens acc = some (acc ++ items) := by
  induction h generalizing acc with
  | nil => simp [parse_item_list_loop]
  | @cons tok it toks its hhead _ ih =>
    simp only [List.length_cons] at hcap
    have hlt : ¬ (acc.length ≥ GameConstants.MAX_RECIPE_INGREDIENTS) := by omega
    simp only [parse_item_list_loop, hhead, hlt, if_false]
    rw [ih (acc ++ [it]) (by simp only [List.length_append, List.length_singleton]; omega)]
    simp

/-- Round trip for every list of items whose names `parse_name` accepts. -/
theorem parse_item_list_serializeItems_valid (items : List ItemInfo) (allow : Bool)
    (hlen : items.length ≤ 64)
    (hv : ∀ it ∈ items, IsValidName it.name allow ∧ 1 ≤ it.quantity ∧
      it.quantity ≤ 2147483647) :
    parse_item_list (serializeItems items) allow = some items := by
  cases items with
  | nil => rfl
  | cons item rest =>
    have hv2 : ∀ it ∈ item :: rest, IsValidName it.name allow ∧ 1 ≤ it.quantity :=
      fun it hit => ⟨(hv it hit).1, (hv it hit).2.1⟩
    have hsplit := split_string_loop_serializeItems allow item rest [] hv2
    simp only [List.reverse_nil, List.nil_append] at hsplit
    -- the serialization has no whitespace at either end
    have hends : (∀ c, (serializeItems (item :: rest)).head? = some c → isspace c = false) ∧
        (∀ c, (serializeItems (item :: rest)).getLast? = some c → isspace c = false) ∧
        serializeItems (item :: rest) ≠ [] := by
      clear hsplit hlen hv
      induction rest generalizing item with
      | nil =>
        have hf := serializeItem_facts item allow (hv2 item (List.mem_cons_self _ _)).1
          (hv2 item (List.mem_cons_self _ _)).2
        exact ⟨hf.2.2.1, hf.2.2.2, hf.1⟩
      | cons r rs ih =>
        have hf := serializeItem_facts item allow (hv2 item (List.mem_cons_self _ _)).1
          (hv2 item (List.mem_cons_self _ _)).2
        have ih2 := ih r (fun it hit => hv2 it (List.mem_cons_of_mem _ hit))
        have hstep : serializeItems (item :: r :: rs)
            = serializeItem item ++ ',' :: ' ' :: serializeItems (r :: rs) := rfl
        rw [hstep]
        refine ⟨fun c hc => ?_, fun c hc => ?_, by simp⟩
        · obtain ⟨a, l, ha⟩ := List.exists_cons_of_ne_nil hf.1
          rw [ha] at hc
          apply hf.2.2.1 c
          rw [ha]
          simpa using hc
        · obtain ⟨a, l, ha⟩ := List.exists_cons_of_ne_nil ih2.2.2
          rw [List.getLast?_append_of_ne_nil _ (by simp), ha] at hc
          apply ih2.2.1 c
          rw [ha]
          simpa [List.getLast?_cons_cons] using hc
    have htrim := trim_whitespace_str_eq_self _ hends.1 hends.2.1
    have hall : List.Forall₂ (fun tok it => parse_item_token tok allow = some it)
        (serializeItem item :: rest.map (fun it => ' ' :: serializeItem it)) (item :: rest) := by
      refine List.Forall₂.cons ?_ ?_
      · have := parse_item_token_serializeItem item allow [] (by simp)
          (hv item (List.mem_cons_self _ _)).1 (hv item (List.mem_cons_self _ _)).2.1
          (hv item (List.mem_cons_self _ _)).2.2
        simpa using this
      · rw [List.forall₂_map_left_iff, List.forall₂_same]
        intro it hit
        have hit' := hv it (List.mem_cons_of_mem _ hit)
        have := parse_item_token_serializeItem it allow [' '] (by simp; decide)
          hit'.1 hit'.2.1 hit'.2.2
        simpa using this
    unfold parse_item_list
    simp only [htrim, hends.2.2, if_false, split_string, hsplit]
    have hloop := parse_item_list_loop_forall₂ allow _ _ [] hall
      (by simpa [GameConstants.MAX_RECIPE_INGREDIENTS] using hlen)
    simpa using hloop

/-- C9. Item-list round trip: for every list of at most 64 items whose names
are valid Names (without spaces when names may not contain spaces) and whose
quantities are in `[1, 2147483647]`, `parse_item_list` applied to the
canonical serialization (`qty name` joined by `, `, quantities in plain
decimal) succeeds and returns the same list, item for item in the same
order. -/
theorem parse_item_list_round_trip (items : List ItemInfo) (allow_spaces : Bool)
    (hlen : items.length ≤ 64)
    (hv : ∀ it ∈ items, IsSpecName it.name allow_spaces ∧ 1 ≤ it.quantity ∧
      it.quantity ≤ 2147483647) :
    parse_item_list (serializeItems items) allow_spaces = some items :=
  parse_item_list_serializeItems_valid items allow_spaces hlen
    (fun it hit => ⟨IsSpecName.isValidName _ _ (hv it hit).1, (hv it hit).2⟩)

/-- Witness of C9: the list `5 Rebis, 30 Vitriol` without spaces in names, and
a potion list with a two-word name. -/
theorem parse_item_list_round_trip_witness :
    parse_item_list (serializeItems [⟨"Rebis".toList, 5⟩, ⟨"Vitriol".toList, 30⟩]) false
      = some [⟨"Rebis".toList, 5⟩, ⟨"Vitriol".toList, 30⟩] ∧
    parse_item_list (serializeItems [⟨"Black Blood".toList, 2147483647⟩]) true
      = some [⟨"Black Blood".toList, 2147483647⟩] :=
  ⟨parse_item_list_round_trip [⟨"Rebis".toList, 5⟩, ⟨"Vitriol".toList, 30⟩] false
      (by decide) (by decide),
   parse_item_list_round_trip [⟨"Black Blood".toList, 2147483647⟩] true
      (by decide) (by decide)⟩

/-- C10. A trailing comma leaves an empty last segment, yet `parse_item_list`
accepts the text and returns the items before it, while the same empty segment
produced by a leading or a doubled comma is rejected: `split_string` yields no
token for it. -/
theorem parse_item_list_trailing_comma :
    split_string "1 Rebis,".toList ',' = ["1 Rebis".toList] ∧
    parse_item_list "1 Rebis,".toList false = some [⟨"Rebis".toList, 1⟩] ∧
    parse_item_list "1 Rebis, 2 Vitriol , ".toList false
      = some [⟨"Rebis".toList, 1⟩, ⟨"Vitriol".toList, 2⟩] ∧
    parse_item_list ",1 Rebis".toList false = none ∧
    parse_item_list "1 Rebis,,2 Vitriol".toList false = none := by
  decide

/-- The canonical serialization of `[(Rebis, 5), (Vitriol, 30)]`. -/
theorem serializeItems_example :
    serializeItems [⟨"Rebis".toList, 5⟩, ⟨"Vitriol".toList, 30⟩]
      = "5 Rebis, 30 Vitriol".toList := by
  simp [serializeItems, serializeItem, decimal, digitChar]

/-- Witness of C4: adding 1 to a `Rebis` entry holding 2147483647 wraps to a
negative sum, which is stored as 0; after a use of 1 `Vitriol` out of 3 the
entries are `Rebis` 0 and `Vitriol` 2. -/
theorem Inventory.run_quantity_nonneg_witness :
    (Inventory.run [.add .ingredient "Rebis".toList 2147483647,
        .add .ingredient "Vitriol".toList 3, .add .ingredient "Rebis".toList 1,
        .use .ingredient "Vitriol".toList 1]).items .ingredient
      = [⟨"Rebis".toList, 0⟩, ⟨"Vitriol".toList, 2⟩] ∧
    0 ≤ (⟨"Rebis".toList, 0⟩ : InventoryItem).quantity :=
  ⟨by decide,
   Inventory.run_quantity_nonneg [.add .ingredient "Rebis".toList 2147483647,
        .add .ingredient "Vitriol".toList 3, .add .ingredient "Rebis".toList 1,
        .use .ingredient "Vitriol".toList 1] .ingredient ⟨"Rebis".toList, 0⟩ (by decide)⟩

/-! ## Text-matching primitives: theorems -/

/-- A view that does not start with whitespace is not moved by
`advance_past_whitespace`. -/
theorem advance_past_whitespace_eq_self (sv : Str)
    (h : ∀ c, sv.head? = some c → isspace c = false) : advance_past_whitespace sv = sv := by
  cases sv with
  | nil => rfl
  | cons a r =>
    have := h a rfl
    simp [advance_past_whitespace, List.dropWhile, this]

/-- The view after `advance_past_whitespace` does not start with whitespace. -/
theorem advance_past_whitespace_head (sv : Str) (c : Char)
    (h : (advance_past_whitespace sv).head? = some c) : isspace c = false := by
  have hnot := List.head?_dropWhile_not isspace sv
  unfold advance_past_whitespace at h
  rw [h] at hnot
  simpa using hnot

/-- Skipping whitespace twice is skipping it once. -/
theorem advance_past_whitespace_idem (sv : Str) :
    advance_past_whitespace (advance_past_whitespace sv) = advance_past_whitespace sv :=
  advance_past_whitespace_eq_self _ (advance_past_whitespace_head sv)

/-- The character right after a prefix. -/
theorem getD_append_length (k r : Str) (a d : Char) : (k ++ a :: r).getD k.length d = a := by
  induction k with
  | nil => rfl
  | cons x k ih => simpa using ih

/-- On failure `match_and_advance` leaves the view advanced past its leading
whitespace. -/
theorem match_and_advance_false (sv keyword : Str) (h : (match_and_advance sv keyword).1 = false) :
    (match_and_advance sv keyword).2 = advance_past_whitespace sv := by
  unfold match_and_advance at h ⊢
  by_cases h1 : keyword.isPrefixOf (advance_past_whitespace sv) = true
  · by_cases h2 : (advance_past_whitespace sv).length = keyword.length ∨
        isspace ((advance_past_whitespace sv).getD keyword.length NUL) = true
    · simp only [h1, h2, if_true] at h
      simp at h
    · simp only [h1, h2, if_true, if_false]
  · simp only [h1, if_false]
    simp

/-- What a successful `match_and_advance` has seen: after the leading
whitespace the keyword, followed by whitespace or the end; the view is left
after the whitespace that follows the keyword. -/
theorem match_and_advance_true (sv keyword : Str) (h : (match_and_advance sv keyword).1 = true) :
    ∃ rest, advance_past_whitespace sv = keyword ++ rest ∧
      (∀ c, rest.head? = some c → isspace c = true) ∧
      (match_and_advance sv keyword).2 = advance_past_whitespace rest := by
  unfold match_and_advance at h ⊢
  simp only at h ⊢
  split at h
  · rename_i hpre
    split at h
    · rename_i hword
      obtain ⟨rest, hrest⟩ := List.isPrefixOf_iff_prefix.mp hpre
      refine ⟨rest, hrest.symm, ?_, ?_⟩
      · intro c hc
        rw [← hrest] at hword
        cases rest with
        | nil => simp at hc
        | cons a r =>
          simp only [List.head?_cons, Option.some.injEq] at hc
          subst hc
          rcases hword with hlen | hsp
          · simp at hlen
          · rwa [getD_append_length] at hsp
      · simp only [hpre, hword, if_true]
        rw [← hrest]
        simp
    · simp at h
  · simp at h

/-- A view that starts with the keyword as a whole word is matched. -/
theorem match_and_advance_of_word (keyword rest : Str)
    (hkw : ∀ c, keyword.head? = some c → isspace c = false) (hne : keyword ≠ [])
    (hrest : ∀ c, rest.head? = some c → isspace c = true) :
    match_and_advance (keyword ++ rest) keyword = (true, advance_past_whitespace rest) := by
  have hadv : advance_past_whitespace (keyword ++ rest) = keyword ++ rest := by
    apply advance_past_whitespace_eq_self
    intro c hc
    obtain ⟨k, ks, rfl⟩ := List.exists_cons_of_ne_nil hne
    exact hkw c (by simpa using hc)
  have hpre : keyword.isPrefixOf (keyword ++ rest) = true :=
    List.isPrefixOf_iff_prefix.mpr (List.prefix_append _ _)
  have hword : (keyword ++ rest).length = keyword.length ∨
      isspace ((keyword ++ rest).getD keyword.length NUL) = true := by
    cases rest with
    | nil => left; simp
    | cons a r =>
      right
      rw [getD_append_length]
      exact hrest a rfl
  unfold match_and_advance
  simp only [hadv, hpre, hword, if_true]
  simp

/-- C18. In main.cpp `match_and_advance` advances the view past leading
whitespace before it compares the keyword, and a failed match leaves it
there: for the view ` Geralt` and the keyword `Total` it returns false with the
view `Geralt`, not the view that was passed in. -/
theorem match_and_advance_failure_moves_cursor :
    match_and_advance " Geralt".toList "Total".toList = (false, "Geralt".toList) ∧
    (match_and_advance " Geralt".toList "Total".toList).2 ≠ " Geralt".toList := by
  decide

/-! ## The command parser: theorems -/

/-- The head of a non-empty word decides the head of the word followed by
anything. -/
theorem head?_append_of_ne_nil (w rest : Str) (c : Char) (hne : w ≠ [])
    (h : (w ++ rest).head? = some c) : w.head? = some c := by
  obtain ⟨a, r, rfl⟩ := List.exists_cons_of_ne_nil hne
  simpa using h

/-- A trimmed line that begins with the words `Geralt w₂` is dispatched to
the block after `Geralt`, with the cursor at `w₂`. -/
theorem parse_command_internal_geralt (line w₂ rest : Str)
    (hw : ∀ c, w₂.head? = some c → isspace c = false) (hne : w₂ ≠ [])
    (h : BeginsWithWords "Geralt".toList w₂ (trim_whitespace_str line) rest) :
    parse_command_internal line = parse_geralt (w₂ ++ rest) := by
  obtain ⟨ws, ht, hwsne, hws, -⟩ := h
  have hadv : advance_past_whitespace (ws ++ (w₂ ++ rest)) = w₂ ++ rest :=
    (takeWhile_dropWhile_append_stop isspace ws (w₂ ++ rest) hws
      (fun c hc => hw c (head?_append_of_ne_nil w₂ rest c hne hc))).2
  have hm := match_and_advance_of_word "Geralt".toList (ws ++ (w₂ ++ rest))
    (by decide) (by decide)
    (by
      intro c hc
      obtain ⟨a, r, rfl⟩ := List.exists_cons_of_ne_nil hwsne
      simp only [List.cons_append, List.head?_cons, Option.some.injEq] at hc
      subst hc
      exact hws _ (List.mem_cons_self _ _))
  rw [hadv] at hm
  have ht' : trim_whitespace_str line = "Geralt".toList ++ (ws ++ (w₂ ++ rest)) := by
    rw [ht]
    simp
  unfold parse_command_internal
  simp only [ht', hm]
  have h1 : ¬ ("Geralt".toList ++ (ws ++ (w₂ ++ rest)) = []) := by simp
  have h2 : ¬ ("Geralt".toList ++ (ws ++ (w₂ ++ rest)) = "Exit".toList) := by
    intro h
    have := congrArg List.head? h
    simp at this
  simp [h1, h2]

/-- After `Geralt`, the word `loots` selects the loot block. -/
theorem parse_geralt_loots (rest : Str) (hrest : ∀ c, rest.head? = some c → isspace c = true) :
    parse_geralt ("loots".toList ++ rest) = parse_loots (advance_past_whitespace rest) := by
  have h := match_and_advance_of_word "loots".toList rest (by decide) (by decide) hrest
  unfold parse_geralt
  simp only [h, if_true]

/-- After `Geralt`, the word `trades` selects the trade block. -/
theorem parse_geralt_trades (rest : Str) (hrest : ∀ c, rest.head? = some c → isspace c = true) :
    parse_geralt ("trades".toList ++ rest) = parse_trades (advance_past_whitespace rest) := by
  have h := match_and_advance_of_word "trades".toList rest (by decide) (by decide) hrest
  have h1 : match_and_advance ("trades".toList ++ rest) "loots".toList
      = (false, "trades".toList ++ rest) := rfl
  unfold parse_geralt
  simp only [h, h1, if_true, Bool.false_eq_true, if_false]

/-- After `Geralt`, the word `brews` selects the brew block. -/
theorem parse_geralt_brews (rest : Str) (hrest : ∀ c, rest.head? = some c → isspace c = true) :
    parse_geralt ("brews".toList ++ rest) = parse_brews (advance_past_whitespace rest) := by
  have h := match_and_advance_of_word "brews".toList rest (by decide) (by decide) hrest
  have h1 : match_and_advance ("brews".toList ++ rest) "loots".toList
      = (false, "brews".toList ++ rest) := rfl
  have h2 : match_and_advance ("brews".toList ++ rest) "trades".toList
      = (false, "brews".toList ++ rest) := rfl
  unfold parse_geralt
  simp only [h, h1, h2, if_true, Bool.false_eq_true, if_false]

/-- After `Geralt`, the word `learns` selects the learn block. -/
theorem parse_geralt_learns (rest : Str) (hrest : ∀ c, rest.head? = some c → isspace c = true) :
    parse_geralt ("learns".toList ++ rest) = parse_learns (advance_past_whitespace rest) := by
  have h := match_and_advance_of_word "learns".toList rest (by decide) (by decide) hrest
  have h1 : match_and_advance ("learns".toList ++ rest) "loots".toList
      = (false, "learns".toList ++ rest) := rfl
  have h2 : match_and_advance ("learns".toList ++ rest) "trades".toList
      = (false, "learns".toList ++ rest) := rfl
  have h3 : match_and_advance ("learns".toList ++ rest) "brews".toList
      = (false, "learns".toList ++ rest) := rfl
  unfold parse_geralt
  simp only [h, h1, h2, h3, if_true, Bool.false_eq_true, if_false]

/-- After `Geralt`, the word `encounters` selects the encounter block. -/
theorem parse_geralt_encounters (rest : Str)
    (hrest : ∀ c, rest.head? = some c → isspace c = true) :
    parse_geralt ("encounters".toList ++ rest) = parse_encounters (advance_past_whitespace rest) := by
  have h := match_and_advance_of_word "encounters".toList rest (by decide) (by decide) hrest
  have h1 : match_and_advance ("encounters".toList ++ rest) "loots".toList
      = (false, "encounters".toList ++ rest) := rfl
  have h2 : match_and_advance ("encounters".toList ++ rest) "trades".toList
      = (false, "encounters".toList ++ rest) := rfl
  have h3 : match_and_advance ("encounters".toList ++ rest) "brews".toList
      = (false, "encounters".toList ++ rest) := rfl
  have h4 : match_and_advance ("encounters".toList ++ rest) "learns".toList
      = (false, "encounters".toList ++ rest) := rfl
  unfold parse_geralt
  simp only [h, h1, h2, h3, h4, if_true, Bool.false_eq_true, if_false]

/-- A trimmed line that begins with the whole word `Total` is dispatched to
the `Total` block. -/
theorem parse_command_internal_total (line rest : Str)
    (h : BeginsWithWord "Total".toList (trim_whitespace_str line) rest) :
    parse_command_internal line = parse_total (advance_past_whitespace rest) := by
  obtain ⟨ht, hrest⟩ := h
  have hm := match_and_advance_of_word "Total".toList rest (by decide) (by decide) hrest
  have h1 : match_and_advance ("Total".toList ++ rest) "Geralt".toList
      = (false, "Total".toList ++ rest) := rfl
  have hne : ¬ ("Total".toList ++ rest = []) := by simp
  have hex : ¬ ("Total".toList ++ rest = "Exit".toList) := by
    intro h
    have := congrArg List.head? h
    simp at this
  unfold parse_command_internal
  simp only [ht, hm, h1, hne, hex, if_true, Bool.false_eq_true, if_false]

/-- A trimmed line that begins with the whole word `What` is dispatched to
the `What` block. -/
theorem parse_command_internal_what (line rest : Str)
    (h : BeginsWithWord "What".toList (trim_whitespace_str line) rest) :
    parse_command_internal line = parse_what (advance_past_whitespace rest) := by
  obtain ⟨ht, hrest⟩ := h
  have hm := match_and_advance_of_word "What".toList rest (by decide) (by decide) hrest
  have h1 : match_and_advance ("What".toList ++ rest) "Geralt".toList
      = (false, "What".toList ++ rest) := rfl
  have h2 : match_and_advance ("What".toList ++ rest) "Total".toList
      = (false, "What".toList ++ rest) := rfl
  have hne : ¬ ("What".toList ++ rest = []) := by simp
  have hex : ¬ ("What".toList ++ rest = "Exit".toList) := by
    intro h
    have := congrArg List.head? h
    simp at this
  unfold parse_command_internal
  simp only [ht, hm, h1, h2, hne, hex, if_true, Bool.false_eq_true, if_false]

/-- The loot block returns Loot or Invalid. -/
theorem parse_loots_type (p : Str) :
    (parse_loots p).type = .LOOT ∨ (parse_loots p).type = .INVALID := by
  unfold parse_loots
  split
  · split <;> simp [Command.type]
  · simp [Command.type]

/-- The trade block returns Trade or Invalid. -/
theorem parse_trades_type (p : Str) :
    (parse_trades p).type = .TRADE ∨ (parse_trades p).type = .INVALID := by
  unfold parse_trades
  simp only
  split
  · simp [Command.type]
  · split
    · simp [Command.type]
    · split
      · simp [Command.type]
      · split
        · split <;> simp [Command.type]
        · simp [Command.type]

/-- The brew block returns Brew or Invalid. -/
theorem parse_brews_type (p : Str) :
    (parse_brews p).type = .BREW ∨ (parse_brews p).type = .INVALID := by
  unfold parse_brews
  simp only
  split
  · split <;> simp [Command.type]
  · simp [Command.type]

/-- The common tail of the effectiveness shapes returns LearnEffectiveness of
the given kind or Invalid. -/
theorem parse_learns_effectiveness_cases (before after : Str) (ty : EffectivenessType)
    (allow : Bool) :
    (∃ item monster, parse_learns_effectiveness before after ty allow
        = .LEARN_EFFECTIVENESS item ty monster) ∨
    parse_learns_effectiveness before after ty allow = .INVALID := by
  unfold parse_learns_effectiveness
  simp only
  split
  · split
    · exact Or.inl ⟨_, _, rfl⟩
    · exact Or.inr rfl
  · exact Or.inr rfl

/-- The learn block returns LearnEffectiveness, LearnFormula or Invalid. -/
theorem parse_learns_type (p : Str) :
    (parse_learns p).type = .LEARN_EFFECTIVENESS ∨ (parse_learns p).type = .LEARN_FORMULA ∨
    (parse_learns p).type = .INVALID := by
  unfold parse_learns
  simp only
  split
  · rename_i before after _
    rcases parse_learns_effectiveness_cases before after .SIGN false with ⟨i, m, h⟩ | h <;>
      simp [h, Command.type]
  · split
    · rename_i before after _
      rcases parse_learns_effectiveness_cases before after .POTION true with ⟨i, m, h⟩ | h <;>
        simp [h, Command.type]
    · split
      · split
        · split <;> simp [Command.type]
        · simp [Command.type]
      · simp [Command.type]

/-- The encounter block returns Encounter or Invalid. -/
theorem parse_encounters_type (p : Str) :
    (parse_encounters p).type = .ENCOUNTER ∨ (parse_encounters p).type = .INVALID := by
  unfold parse_encounters
  simp only
  split
  · split
    · split <;> simp [Command.type]
    · simp [Command.type]
  · simp [Command.type]

/-- The `Total` block returns QueryTotalSpecific, QueryTotalAll or Invalid. -/
theorem parse_total_type (p : Str) :
    (parse_total p).type = .QUERY_TOTAL_SPECIFIC ∨ (parse_total p).type = .QUERY_TOTAL_ALL ∨
    (parse_total p).type = .INVALID := by
  unfold parse_total
  simp only
  split
  · split
    · simp [Command.type]
    · split
      · simp [Command.type]
      · split
        · split
          · split <;> simp [Command.type]
          · simp [Command.type]
        · split <;> simp [Command.type]
  · simp [Command.type]

/-- The body of a `What is ...?` shape returns the shape's command or
Invalid. -/
theorem parse_question_name_cases (segment : Str) (allow : Bool) (mk : Str → Command) :
    (∃ name, parse_question_name segment allow mk = mk name) ∨
    parse_question_name segment allow mk = .INVALID := by
  unfold parse_question_name
  split
  · simp only
    split
    · split
      · exact Or.inl ⟨_, rfl⟩
      · exact Or.inr rfl
    · exact Or.inr rfl
  · exact Or.inr rfl

/-- The `What` block returns QueryEffectiveAgainst, QueryWhatIsIn or
Invalid. -/
theorem parse_what_type (p : Str) :
    (parse_what p).type = .QUERY_EFFECTIVE_AGAINST ∨ (parse_what p).type = .QUERY_WHAT_IS_IN ∨
    (parse_what p).type = .INVALID := by
  have hin : ∀ q, (parse_what_in q).type = .QUERY_WHAT_IS_IN ∨
      (parse_what_in q).type = .INVALID := by
    intro q
    unfold parse_what_in
    simp only
    split
    · rcases parse_question_name_cases (match_and_advance q "in".toList).2 true
        .QUERY_WHAT_IS_IN with ⟨n, h⟩ | h <;> rw [h] <;> simp [Command.type]
    · simp [Command.type]
  unfold parse_what
  simp only
  split
  · split
    · split
      · rcases parse_question_name_cases
          (match_and_advance (match_and_advance (match_and_advance p "is".toList).2
            "effective".toList).2 "against".toList).2 false
          .QUERY_EFFECTIVE_AGAINST with ⟨n, h⟩ | h <;> rw [h] <;> simp [Command.type]
      · exact Or.inr (hin _)
    · exact Or.inr (hin _)
  · simp [Command.type]

/-- C12. The dispatcher commits to the first shape whose leading keywords
match: a line whose trimmed form begins with the whole words `Geralt loots`
gives Loot or Invalid; `Geralt trades` Trade or Invalid; `Geralt brews` Brew or
Invalid; `Geralt learns` LearnEffectiveness, LearnFormula or Invalid;
`Geralt encounters` Encounter or Invalid; `Total` QueryTotalSpecific,
QueryTotalAll or Invalid; `What` QueryEffectiveAgainst, QueryWhatIsIn or
Invalid. -/
theorem parse_command_internal_commits (line : Str) :
    (∀ rest, BeginsWithWords "Geralt".toList "loots".toList (trim_whitespace_str line) rest →
      (parse_command_internal line).type = .LOOT ∨
      (parse_command_internal line).type = .INVALID) ∧
    (∀ rest, BeginsWithWords "Geralt".toList "trades".toList (trim_whitespace_str line) rest →
      (parse_command_internal line).type = .TRADE ∨
      (parse_command_internal line).type = .INVALID) ∧
    (∀ rest, BeginsWithWords "Geralt".toList "brews".toList (trim_whitespace_str line) rest →
      (parse_command_internal line).type = .BREW ∨
      (parse_command_internal line).type = .INVALID) ∧
    (∀ rest, BeginsWithWords "Geralt".toList "learns".toList (trim_whitespace_str line) rest →
      (parse_command_internal line).type = .LEARN_EFFECTIVENESS ∨
      (parse_command_internal line).type = .LEARN_FORMULA ∨
      (parse_command_internal line).type = .INVALID) ∧
    (∀ rest, BeginsWithWords "Geralt".toList "encounters".toList (trim_whitespace_str line) rest →
      (parse_command_internal line).type = .ENCOUNTER ∨
      (parse_command_internal line).type = .INVALID) ∧
    (∀ rest, BeginsWithWord "Total".toList (trim_whitespace_str line) rest →
      (parse_command_internal line).type = .QUERY_TOTAL_SPECIFIC ∨
      (parse_command_internal line).type = .QUERY_TOTAL_ALL ∨
      (parse_command_internal line).type = .INVALID) ∧
    (∀ rest, BeginsWithWord "What".toList (trim_whitespace_str line) rest →
      (parse_command_internal line).type = .QUERY_EFFECTIVE_AGAINST ∨
      (parse_command_internal line).type = .QUERY_WHAT_IS_IN ∨
      (parse_command_internal line).type = .INVALID) := by
  refine ⟨fun rest h => ?_, fun rest h => ?_, fun rest h => ?_, fun rest h => ?_,
    fun rest h => ?_, fun rest h => ?_, fun rest h => ?_⟩
  · rw [parse_command_internal_geralt line _ rest (by decide) (by decide) h,
      parse_geralt_loots rest h.choose_spec.2.2.2]
    exact parse_loots_type _
  · rw [parse_command_internal_geralt line _ rest (by decide) (by decide) h,
      parse_geralt_trades rest h.choose_spec.2.2.2]
    exact parse_trades_type _
  · rw [parse_command_internal_geralt line _ rest (by decide) (by decide) h,
      parse_geralt_brews rest h.choose_spec.2.2.2]
    exact parse_brews_type _
  · rw [parse_command_internal_geralt line _ rest (by decide) (by decide) h,
      parse_geralt_learns rest h.choose_spec.2.2.2]
    exact parse_learns_type _
  · rw [parse_command_internal_geralt line _ rest (by decide) (by decide) h,
      parse_geralt_encounters rest h.choose_spec.2.2.2]
    exact parse_encounters_type _
  · rw [parse_command_internal_total line rest h]
    exact parse_total_type _
  · rw [parse_command_internal_what line rest h]
    exact parse_what_type _

/-- Witness of C12: `Geralt loots 5 Rebis xyz` begins with `Geralt loots` and
is Invalid, not another shape; `Total potion?` begins with `Total`. -/
theorem parse_command_internal_commits_witness :
    ((parse_command_internal "  Geralt  loots 5 Rebis xyz".toList).type = .LOOT ∨
      (parse_command_internal "  Geralt  loots 5 Rebis xyz".toList).type = .INVALID) ∧
    ((parse_command_internal "Total potion?".toList).type = .QUERY_TOTAL_SPECIFIC ∨
      (parse_command_internal "Total potion?".toList).type = .QUERY_TOTAL_ALL ∨
      (parse_command_internal "Total potion?".toList).type = .INVALID) :=
  ⟨(parse_command_internal_commits "  Geralt  loots 5 Rebis xyz".toList).1 " 5 Rebis xyz".toList
      ⟨"  ".toList, by decide, by decide, by decide, by decide⟩,
   (parse_command_internal_commits "Total potion?".toList).2.2.2.2.2.1 " potion?".toList
      ⟨by decide, by decide⟩⟩

/-- C13. Fixed order of the `learns` shapes, for a line `Geralt learns
<content>`: if the keyword sequence `sign is effective against` is found in
the content the result is LearnEffectiveness with kind Sign or Invalid;
otherwise, if `potion is effective against` is found, LearnEffectiveness with
kind Potion or Invalid; otherwise, if `potion consists of` is found,
LearnFormula or Invalid; otherwise Invalid.  Nothing is asked of the later
sequences when an earlier one is found. -/
theorem parse_learns_order (line rest : Str)
    (h : BeginsWithWords "Geralt".toList "learns".toList (trim_whitespace_str line) rest) :
    ((find_keyword_sequence (advance_past_whitespace rest)
          ["sign".toList, "is".toList, "effective".toList, "against".toList]).isSome = true →
      (∃ item monster, parse_command_internal line = .LEARN_EFFECTIVENESS item .SIGN monster) ∨
      parse_command_internal line = .INVALID) ∧
    (find_keyword_sequence (advance_past_whitespace rest)
          ["sign".toList, "is".toList, "effective".toList, "against".toList] = none →
      (find_keyword_sequence (advance_past_whitespace rest)
          ["potion".toList, "is".toList, "effective".toList, "against".toList]).isSome = true →
      (∃ item monster, parse_command_internal line = .LEARN_EFFECTIVENESS item .POTION monster) ∨
      parse_command_internal line = .INVALID) ∧
    (find_keyword_sequence (advance_past_whitespace rest)
          ["sign".toList, "is".toList, "effective".toList, "against".toList] = none →
      find_keyword_sequence (advance_past_whitespace rest)
          ["potion".toList, "is".toList, "effective".toList, "against".toList] = none →
      (find_keyword_sequence (advance_past_whitespace rest)
          ["potion".toList, "consists".toList, "of".toList]).isSome = true →
      (∃ potion requirements, parse_command_internal line = .LEARN_FORMULA potion requirements) ∨
      parse_command_internal line = .INVALID) ∧
    (find_keyword_sequence (advance_past_whitespace rest)
          ["sign".toList, "is".toList, "effective".toList, "against".toList] = none →
      find_keyword_sequence (advance_past_whitespace rest)
          ["potion".toList, "is".toList, "effective".toList, "against".toList] = none →
      find_keyword_sequence (advance_past_whitespace rest)
          ["potion".toList, "consists".toList, "of".toList] = none →
      parse_command_internal line = .INVALID) := by
  rw [parse_command_internal_geralt line _ rest (by decide) (by decide) h,
    parse_geralt_learns rest h.choose_spec.2.2.2]
  generalize advance_past_whitespace rest = content
  refine ⟨fun h1 => ?_, fun h1 h2 => ?_, fun h1 h2 h3 => ?_, fun h1 h2 h3 => ?_⟩
  · obtain ⟨⟨before, after⟩, hs⟩ := Option.isSome_iff_exists.mp h1
    unfold parse_learns
    simp only [hs]
    exact parse_learns_effectiveness_cases before after .SIGN false
  · obtain ⟨⟨before, after⟩, hs⟩ := Option.isSome_iff_exists.mp h2
    unfold parse_learns
    simp only [h1, hs]
    exact parse_learns_effectiveness_cases before after .POTION true
  · obtain ⟨⟨before, after⟩, hs⟩ := Option.isSome_iff_exists.mp h3
    unfold parse_learns
    simp only [h1, h2, hs]
    split
    · split
      · exact Or.inl ⟨_, _, rfl⟩
      · exact Or.inr rfl
    · exact Or.inr rfl
  · unfold parse_learns
    simp only [h1, h2, h3]

/-- Witness of C13: in `Geralt learns A potion consists of potion is effective
against M` both potion sequences occur; the effectiveness shape, tried first,
is used. -/
theorem parse_learns_order_witness :
    parse_command_internal
        "Geralt learns A potion consists of potion is effective against M".toList
      = .LEARN_EFFECTIVENESS "A potion consists of".toList .POTION "M".toList ∧
    ((∃ item monster, parse_command_internal
        "Geralt learns A potion consists of potion is effective against M".toList
        = .LEARN_EFFECTIVENESS item .POTION monster) ∨
      parse_command_internal
        "Geralt learns A potion consists of potion is effective against M".toList
        = .INVALID) :=
  ⟨by decide,
   (parse_learns_order "Geralt learns A potion consists of potion is effective against M".toList
      " A potion consists of potion is effective against M".toList
      ⟨" ".toList, by decide, by decide, by decide, by decide⟩).2.1 (by decide) (by decide)⟩

/-- Trimming a trimmed string changes nothing. -/
theorem trim_whitespace_str_idem (s : Str) :
    trim_whitespace_str (trim_whitespace_str s) = trim_whitespace_str s :=
  trim_whitespace_str_eq_self _ (trim_whitespace_str_head s) (trim_whitespace_str_getLast s)

/-- Trimming after skipping the leading whitespace is trimming. -/
theorem trim_whitespace_str_advance (s : Str) :
    trim_whitespace_str (advance_past_whitespace s) = trim_whitespace_str s := by
  have h : (advance_past_whitespace s).dropWhile isspace = s.dropWhile isspace :=
    advance_past_whitespace_idem s
  rw [trim_whitespace_str_eq, trim_whitespace_str_eq, h]

/-- `parse_name` looks at the trimmed token only. -/
theorem parse_name_trim (s : Str) (allow : Bool) :
    parse_name (trim_whitespace_str s) allow = parse_name s allow := by
  unfold parse_name
  simp only [trim_whitespace_str_idem]

/-- `parse_name` decided by the validity of the trimmed token. -/
theorem parse_name_eq_ite (s : Str) (allow : Bool) :
    (IsValidName (trim_whitespace_str s) allow →
      parse_name s allow = some (trim_whitespace_str s)) ∧
    (¬ IsValidName (trim_whitespace_str s) allow → parse_name s allow = none) := by
  refine ⟨parse_name_some_of_valid s allow, fun hn => ?_⟩
  cases hp : parse_name s allow with
  | none => rfl
  | some r => exact absurd (parse_name_valid_of_some s allow r hp).2 hn

/-- The brew block: Brew of the trimmed text when that is a valid name with
spaces allowed, Invalid otherwise. -/
theorem parse_brews_eq (p : Str) :
    (IsValidName (trim_whitespace_str p) true → parse_brews p = .BREW (trim_whitespace_str p)) ∧
    (¬ IsValidName (trim_whitespace_str p) true → parse_brews p = .INVALID) := by
  obtain ⟨h1, h2⟩ := parse_name_eq_ite p true
  unfold parse_brews
  simp only [parse_name_trim]
  refine ⟨fun hv => ?_, fun hn => ?_⟩
  · simp only [h1 hv]
    have : trim_whitespace_str p ≠ [] := hv.1
    simp [this]
  · simp only [h2 hn]

/-- C15, as the code has it. For a line `Geralt brews <text>` the result is
Brew(name) exactly when the trimmed text is a valid name with spaces allowed,
and then name is the whole trimmed text; otherwise the result is Invalid.
The terminator phrases of `parse_potion_name_complex` play no part. -/
theorem parse_command_internal_brews (line rest : Str)
    (h : BeginsWithWords "Geralt".toList "brews".toList (trim_whitespace_str line) rest) :
    (IsValidName (trim_whitespace_str rest) true →
      parse_command_internal line = .BREW (trim_whitespace_str rest)) ∧
    (¬ IsValidName (trim_whitespace_str rest) true →
      parse_command_internal line = .INVALID) := by
  rw [parse_command_internal_geralt line _ rest (by decide) (by decide) h,
    parse_geralt_brews rest h.choose_spec.2.2.2]
  have := parse_brews_eq (advance_past_whitespace rest)
  rwa [trim_whitespace_str_advance] at this

/-- Witness of C15 as the code has it: `Geralt brews Black Blood` is Brew of
`Black Blood`, and `Geralt brews Swallow?` is Invalid. -/
theorem parse_command_internal_brews_witness :
    parse_command_internal "Geralt brews Black Blood".toList
      = .BREW (trim_whitespace_str " Black Blood".toList) ∧
    parse_command_internal "Geralt brews Swallow?".toList = .INVALID :=
  ⟨(parse_command_internal_brews "Geralt brews Black Blood".toList " Black Blood".toList
      ⟨" ".toList, by decide, by decide, by decide, by decide⟩).1 (by decide),
   (parse_command_internal_brews "Geralt brews Swallow?".toList " Swallow?".toList
      ⟨" ".toList, by decide, by decide, by decide, by decide⟩).2 (by decide)⟩

/-- C15, counterexample. The text of `Geralt brews Swallow potion consists of`
contains the terminator phrase `potion consists of` after the name `Swallow`
(which is where `parse_potion_name_complex` ends the name, leaving a non-empty
remainder), yet the line is not Invalid: it is Brew with the whole text as the
name. -/
theorem parse_command_internal_brews_ignores_terminator :
    parse_command_internal "Geralt brews Swallow potion consists of".toList
      = .BREW "Swallow potion consists of".toList ∧
    parse_potion_name_complex "Swallow potion consists of".toList
      = (some "Swallow".toList, "potion consists of".toList) := by
  decide

/-- A name returned by `parse_name` is a valid name. -/
theorem parse_name_isValidName (s : Str) (allow : Bool) (n : Str)
    (h : parse_name s allow = some n) : IsValidName n allow := by
  obtain ⟨hn, hv⟩ := parse_name_valid_of_some s allow n h
  rw [hn]
  exact hv

/-- An item produced from a token has a valid name and a quantity in range. -/
theorem parse_item_token_valid (token : Str) (allow : Bool) (item : ItemInfo)
    (h : parse_item_token token allow = some item) :
    IsValidName item.name allow ∧ 1 ≤ item.quantity ∧ item.quantity ≤ 2147483647 := by
  unfold parse_item_token at h
  simp only at h
  split at h
  · simp at h
  · split at h
    · simp at h
    · split at h
      · simp at h
      · split at h
        · rename_i quantity name hq hn
          simp only [Option.some.injEq] at h
          subst h
          obtain ⟨ws, sign, ds, -, -, -, -, -, -, h1, hmax⟩ := parse_quantity_shape _ _ hq
          exact ⟨parse_name_isValidName _ _ _ hn, h1, hmax⟩
        · simp at h

/-- The items returned by the loop of `parse_item_list` are the ones it
started with and items produced from tokens, and they are at most 64 if it
started with at most 64. -/
theorem parse_item_list_loop_valid (allow : Bool) (tokens : List Str) (acc res : List ItemInfo)
    (h : parse_item_list_loop allow tokens acc = some res) :
    (acc.length ≤ 64 → res.length ≤ 64) ∧
    ∀ item ∈ res, item ∈ acc ∨
      (IsValidName item.name allow ∧ 1 ≤ item.quantity ∧ item.quantity ≤ 2147483647) := by
  induction tokens generalizing acc with
  | nil =>
    simp only [parse_item_list_loop, Option.some.injEq] at h
    subst h
    exact ⟨fun h => h, fun item hi => Or.inl hi⟩
  | cons tok rest ih =>
    simp only [parse_item_list_loop] at h
    split at h
    · simp at h
    · rename_i item hitem
      split at h
      · simp at h
      · rename_i hcap
        simp only [GameConstants.MAX_RECIPE_INGREDIENTS, ge_iff_le, not_le] at hcap
        obtain ⟨hlen, hmem⟩ := ih (acc ++ [item]) h
        refine ⟨fun _ => hlen (by simp only [List.length_append, List.length_singleton]; omega),
          fun x hx => ?_⟩
        rcases hmem x hx with hx | hx
        · rcases List.mem_append.mp hx with hx | hx
          · exact Or.inl hx
          · simp only [List.mem_singleton] at hx
            subst hx
            exact Or.inr (parse_item_token_valid tok allow x hitem)
        · exact Or.inr hx

/-- A list returned by `parse_item_list` has at most 64 items, each with a
valid name and a quantity in `[1, 2147483647]`. -/
theorem parse_item_list_valid (s : Str) (allow : Bool) (items : List ItemInfo)
    (h : parse_item_list s allow = some items) :
    items.length ≤ 64 ∧
    ∀ item ∈ items, IsValidName item.name allow ∧ 1 ≤ item.quantity ∧
      item.quantity ≤ 2147483647 := by
  unfold parse_item_list at h
  simp only at h
  split at h
  · simp only [Option.some.injEq] at h
    subst h
    simp
  · obtain ⟨hlen, hmem⟩ := parse_item_list_loop_valid allow _ [] items h
    refine ⟨hlen (by simp), fun item hi => ?_⟩
    rcases hmem item hi with hx | hx
    · simp at hx
    · exact hx

/-- A non-empty list returned by `parse_item_list` without spaces in names is
a valid item list. -/
theorem parse_item_list_isValidItemList (s : Str) (items : List ItemInfo)
    (h : parse_item_list s false = some items) (hne : items ≠ []) : IsValidItemList items :=
  ⟨hne, (parse_item_list_valid s false items h).1, (parse_item_list_valid s false items h).2⟩

/-- The loot block returns validated fields. -/
theorem parse_loots_fieldsValid (p : Str) : (parse_loots p).FieldsValid := by
  unfold parse_loots
  split
  · rename_i items hitems
    split
    · rename_i hne
      exact parse_item_list_isValidItemList p items hitems hne
    · trivial
  · trivial

/-- The trade block returns validated fields. -/
theorem parse_trades_fieldsValid (p : Str) : (parse_trades p).FieldsValid := by
  unfold parse_trades
  simp only
  split
  · trivial
  · split
    · trivial
    · split
      · trivial
      · split
        · rename_i trophies ingredients ht hi
          split
          · rename_i hne
            exact ⟨parse_item_list_isValidItemList _ trophies ht hne.1,
              parse_item_list_isValidItemList _ ingredients hi hne.2⟩
          · trivial
        · trivial

/-- The brew block returns validated fields. -/
theorem parse_brews_fieldsValid (p : Str) : (parse_brews p).FieldsValid := by
  unfold parse_brews
  simp only
  split
  · rename_i n hn
    split
    · exact parse_name_isValidName _ _ _ hn
    · trivial
  · trivial

/-- The learn block returns validated fields. -/
theorem parse_learns_fieldsValid (p : Str) : (parse_learns p).FieldsValid := by
  have heff : ∀ before after, (parse_learns_effectiveness before after .SIGN false).FieldsValid ∧
      (parse_learns_effectiveness before after .POTION true).FieldsValid := by
    intro before after
    unfold parse_learns_effectiveness
    simp only
    constructor
    · split
      · rename_i i m hi hm
        split
        · exact ⟨parse_name_isValidName _ _ _ hi, parse_name_isValidName _ _ _ hm⟩
        · trivial
      · trivial
    · split
      · rename_i i m hi hm
        split
        · exact ⟨parse_name_isValidName _ _ _ hi, parse_name_isValidName _ _ _ hm⟩
        · trivial
      · trivial
  unfold parse_learns
  simp only
  split
  · exact (heff _ _).1
  · split
    · exact (heff _ _).2
    · split
      · split
        · rename_i n items hn hitems
          split
          · rename_i hne
            exact ⟨parse_name_isValidName _ _ _ hn,
              parse_item_list_isValidItemList _ items hitems hne.2⟩
          · trivial
        · trivial
      · trivial

/-- The encounter block returns validated fields. -/
theorem parse_encounters_fieldsValid (p : Str) : (parse_encounters p).FieldsValid := by
  unfold parse_encounters
  simp only
  split
  · split
    · rename_i n hn
      split
      · exact parse_name_isValidName _ _ _ hn
      · trivial
    · trivial
  · trivial

/-- The block after `Geralt` returns validated fields. -/
theorem parse_geralt_fieldsValid (p : Str) : (parse_geralt p).FieldsValid := by
  unfold parse_geralt
  simp only
  split
  · exact parse_loots_fieldsValid _
  · split
    · exact parse_trades_fieldsValid _
    · split
      · exact parse_brews_fieldsValid _
      · split
        · exact parse_learns_fieldsValid _
        · split
          · exact parse_encounters_fieldsValid _
          · trivial

/-- The `Total` block returns validated fields. -/
theorem parse_total_fieldsValid (p : Str) : (parse_total p).FieldsValid := by
  unfold parse_total
  simp only
  split
  · split
    · trivial
    · split
      · trivial
      · split
        · split
          · rename_i n hn
            split
            · exact parse_name_isValidName _ _ _ hn
            · trivial
          · trivial
        · split <;> trivial
  · trivial

/-- The body of a `What is ...?` shape returns validated fields. -/
theorem parse_question_name_fieldsValid (segment : Str) (allow : Bool) (mk : Str → Command)
    (hmk : ∀ n, IsValidName n allow → (mk n).FieldsValid) :
    (parse_question_name segment allow mk).FieldsValid := by
  unfold parse_question_name
  split
  · simp only
    split
    · rename_i n hn
      split
      · exact hmk n (parse_name_isValidName _ _ _ hn)
      · trivial
    · trivial
  · trivial

/-- The `What` block returns validated fields. -/
theorem parse_what_fieldsValid (p : Str) : (parse_what p).FieldsValid := by
  have hin : ∀ q, (parse_what_in q).FieldsValid := by
    intro q
    unfold parse_what_in
    simp only
    split
    · exact parse_question_name_fieldsValid _ true _ (fun n hn => hn)
    · trivial
  unfold parse_what
  simp only
  split
  · split
    · split
      · exact parse_question_name_fieldsValid _ false _ (fun n hn => hn)
      · exact hin _
    · exact hin _
  · trivial

/-- C11, as the code has it. Parsed commands carry only validated fields:
every item list carried by a Loot, Trade or LearnFormula command is non-empty,
has at most 64 items, and each item has a name of letters only and a quantity
in `[1, 2147483647]`; every potion, sign, monster or item name carried by a
command is a name as `parse_name` accepts it, with separators (single interior
whitespace characters of `std::isspace`) only in potion names. -/
theorem parse_command_internal_fieldsValid (line : Str) :
    (parse_command_internal line).FieldsValid := by
  unfold parse_command_internal
  simp only
  split
  · trivial
  · split
    · trivial
    · split
      · exact parse_geralt_fieldsValid _
      · split
        · exact parse_total_fieldsValid _
        · split
          · exact parse_what_fieldsValid _
          · trivial

/-- `find` of a single character in the part that is left: found after the
characters that differ from it. -/
theorem sv_find_loop_char (ch : Char) (pre rest : Str) (off : Nat) (h : ch ∉ pre) :
    sv_find_loop [ch] (pre ++ ch :: rest) off = some (off + pre.length) := by
  induction pre generalizing off with
  | nil => simp [sv_find_loop, List.isPrefixOf]
  | cons a pre ih =>
    have ha : ¬ (ch = a) := fun e => h (e ▸ List.mem_cons_self _ _)
    have hpre : ch ∉ pre := fun hm => h (List.mem_cons_of_mem _ hm)
    have hb : (ch == a) = false := by simpa using ha
    simp only [List.cons_append, sv_find_loop, List.isPrefixOf, hb, List.append_eq,
      Bool.false_and, Bool.false_eq_true, if_false, ih (off + 1) hpre, List.length_cons,
      Option.some.injEq]
    omega

/-- `find` of a single character that does not occur. -/
theorem sv_find_loop_char_none (ch : Char) (s : Str) (off : Nat) (h : ch ∉ s) :
    sv_find_loop [ch] s off = none := by
  induction s generalizing off with
  | nil => simp [sv_find_loop]
  | cons a s ih =>
    have ha : ¬ (ch = a) := fun e => h (e ▸ List.mem_cons_self _ _)
    have hs : ch ∉ s := fun hm => h (List.mem_cons_of_mem _ hm)
    have hb : (ch == a) = false := by simpa using ha
    simp only [sv_find_loop, List.isPrefixOf, hb, Bool.false_and,
      Bool.false_eq_true, if_false, ih (off + 1) hs]

/-- `s.find(ch)` at the first occurrence of the character. -/
theorem sv_find_char (ch : Char) (pre rest : Str) (h : ch ∉ pre) :
    sv_find (pre ++ ch :: rest) [ch] 0 = some pre.length := by
  unfold sv_find
  simp [sv_find_loop_char ch pre rest 0 h]

/-- `s.find(ch)` when the character does not occur. -/
theorem sv_find_char_none (ch : Char) (s : Str) (h : ch ∉ s) : sv_find s [ch] 0 = none := by
  unfold sv_find
  simp [sv_find_loop_char_none ch s 0 h]

/-- A string in which a character occurs splits at its first occurrence. -/
theorem exists_first_split (ch : Char) (s : Str) (h : ch ∈ s) :
    ∃ pre rest, s = pre ++ ch :: rest ∧ ch ∉ pre := by
  induction s with
  | nil => simp at h
  | cons a s ih =>
    by_cases ha : ch = a
    · exact ⟨[], s, by simp [ha], by simp⟩
    · rcases List.mem_cons.mp h with h | h
      · exact absurd h ha
      · obtain ⟨pre, rest, hs, hpre⟩ := ih h
        refine ⟨a :: pre, rest, by simp [hs], ?_⟩
        intro hm
        rcases List.mem_cons.mp hm with hm | hm
        · exact ha hm
        · exact hpre hm

/-- The split at the first occurrence of a character is unique. -/
theorem first_split_unique (ch : Char) (p₁ r₁ p₂ r₂ : Str)
    (h : p₁ ++ ch :: r₁ = p₂ ++ ch :: r₂) (h₁ : ch ∉ p₁) (h₂ : ch ∉ p₂) :
    p₁ = p₂ ∧ r₁ = r₂ := by
  induction p₁ generalizing p₂ with
  | nil =>
    cases p₂ with
    | nil => simpa using h
    | cons b p₂ =>
      simp only [List.nil_append, List.cons_append, List.cons.injEq] at h
      exact absurd (h.1 ▸ List.mem_cons_self _ _) h₂
  | cons a p₁ ih =>
    cases p₂ with
    | nil =>
      simp only [List.nil_append, List.cons_append, List.cons.injEq] at h
      exact absurd (h.1 ▸ List.mem_cons_self _ _) h₁
    | cons b p₂ =>
      simp only [List.cons_append, List.cons.injEq] at h
      obtain ⟨hp, hr⟩ := ih p₂ h.2 (fun hm => h₁ (List.mem_cons_of_mem _ hm))
        (fun hm => h₂ (List.mem_cons_of_mem _ hm))
      exact ⟨by rw [h.1, hp], hr⟩

/-- A string whose trimmed form is empty is all whitespace. -/
theorem all_isspace_of_trim_eq_nil (s : Str) (h : trim_whitespace_str s = []) :
    ∀ c ∈ s, isspace c = true := by
  rw [trim_whitespace_str_eq, List.rdropWhile_eq_nil_iff] at h
  have hd : s.dropWhile isspace = [] := by
    cases hs : s.dropWhile isspace with
    | nil => rfl
    | cons a r =>
      have hnot := List.head?_dropWhile_not isspace s
      rw [hs] at hnot h
      have := h a (List.mem_cons_self _ _)
      simp only [List.head?_cons] at hnot
      rw [hnot] at this
      exact absurd this (by decide)
  exact List.dropWhile_eq_nil_iff.mp hd

/-- The three category words. -/
theorem category_no_space (c : Str)
    (h : c = "ingredient".toList ∨ c = "potion".toList ∨ c = "trophy".toList) :
    ' ' ∉ c ∧ c ≠ [] := by
  rcases h with rfl | rfl | rfl <;> decide

/-- The `Total` block on a body that does not end with `?`. -/
theorem parse_total_not_ends (qb : Str) (h : ¬ (qb ≠ [] ∧ qb.getLast? = some '?')) :
    parse_total qb = .INVALID := by
  unfold parse_total
  simp only []
  rw [if_neg h]

/-- The `Total` block when the trimmed content has no space: the content is
the category. -/
theorem parse_total_no_space (qb : Str) (hends : qb ≠ [] ∧ qb.getLast? = some '?')
    (hsp : ' ' ∉ trim_whitespace_str qb.dropLast) :
    (IsCategory (trim_whitespace_str qb.dropLast) →
      parse_total qb = .QUERY_TOTAL_ALL (trim_whitespace_str qb.dropLast)) ∧
    (¬ IsCategory (trim_whitespace_str qb.dropLast) → parse_total qb = .INVALID) := by
  have hfind := sv_find_char_none ' ' _ hsp
  unfold parse_total
  simp only []
  rw [if_pos hends]
  simp only [hfind, trim_whitespace_str_idem]
  constructor
  · intro hc
    have hne := (category_no_space _ hc).2
    unfold IsCategory at hc
    rw [if_neg hne, if_neg (by tauto), if_neg (by simp), if_pos hne]
  · intro hc
    unfold IsCategory at hc
    by_cases hne : trim_whitespace_str qb.dropLast = []
    · rw [if_pos hne]
    · rw [if_neg hne, if_pos (by tauto)]

/-- The `Total` block when the trimmed content has a space: the part before
the first space, trimmed, is the category, and the part after it, trimmed, is
the item name. -/
theorem parse_total_space (qb c' r : Str) (hends : qb ≠ [] ∧ qb.getLast? = some '?')
    (hsplit : trim_whitespace_str qb.dropLast = c' ++ ' ' :: r) (hc' : ' ' ∉ c') :
    (IsCategory (trim_whitespace_str c') →
      IsValidName (trim_whitespace_str r)
        (decide (trim_whitespace_str c' = "potion".toList)) →
      parse_total qb = .QUERY_TOTAL_SPECIFIC (trim_whitespace_str c') (trim_whitespace_str r)) ∧
    (¬ (IsCategory (trim_whitespace_str c') ∧
        IsValidName (trim_whitespace_str r)
          (decide (trim_whitespace_str c' = "potion".toList))) →
      parse_total qb = .INVALID) := by
  have hfind := sv_find_char ' ' c' r hc'
  -- the content is trimmed, so the part after the space has a non-whitespace end
  have hrne : trim_whitespace_str r ≠ [] := by
    intro hnil
    have hall := all_isspace_of_trim_eq_nil r hnil
    have hlast := trim_whitespace_str_getLast qb.dropLast
    rw [hsplit] at hlast
    cases hr : r.getLast? with
    | none =>
      have : r = [] := by simpa using hr
      subst this
      have := hlast ' ' (by simp)
      exact absurd this (by decide)
    | some z =>
      have hz : z ∈ r := List.mem_of_mem_getLast? hr
      have h1 := hall z hz
      have hne : r ≠ [] := List.ne_nil_of_mem hz
      obtain ⟨a, l, hal⟩ := List.exists_cons_of_ne_nil hne
      have h2 := hlast z (by
        rw [List.getLast?_append_of_ne_nil _ (by simp), hal, List.getLast?_cons_cons, ← hal]
        exact hr)
      rw [h1] at h2
      exact absurd h2 (by decide)
  have hcne : c' ++ ' ' :: r ≠ [] := by simp
  have htake : List.take c'.length (c' ++ ' ' :: r) = c' := by simp
  have hdrop : List.drop (c'.length + 1) (c' ++ ' ' :: r) = r := by
    rw [List.drop_append_eq_append_drop]
    simp
  have hp := parse_name_eq_ite r (decide (trim_whitespace_str c' = "potion".toList))
  unfold parse_total
  simp only []
  rw [if_pos hends]
  simp only [hsplit, hfind, htake, hdrop, parse_name_trim]
  rw [if_neg hcne]
  constructor
  · intro hc hv
    unfold IsCategory at hc
    rw [if_neg (by tauto), if_pos hrne]
    simp only [hp.1 hv]
    rw [if_pos hrne]
  · intro hn
    by_cases hc : IsCategory (trim_whitespace_str c')
    · have hv : ¬ IsValidName (trim_whitespace_str r)
          (decide (trim_whitespace_str c' = "potion".toList)) := fun hv => hn ⟨hc, hv⟩
      unfold IsCategory at hc
      rw [if_neg (by tauto), if_pos hrne]
      simp only [hp.2 hv]
    · unfold IsCategory at hc
      rw [if_pos (by tauto)]

/-- Leading whitespace does not change the trimmed form. -/
theorem trim_whitespace_str_append_ws (ws x : Str) (hws : ∀ c ∈ ws, isspace c = true) :
    trim_whitespace_str (ws ++ x) = trim_whitespace_str x := by
  induction ws with
  | nil => rfl
  | cons a l ih =>
    have ha := hws a (List.mem_cons_self _ _)
    have := ih (fun c hc => hws c (List.mem_cons_of_mem _ hc))
    rw [trim_whitespace_str_eq] at this ⊢
    simpa [List.dropWhile, ha] using this

/-- A text splits into its leading whitespace and the view after it. -/
theorem advance_past_whitespace_split (s : Str) :
    ∃ ws, s = ws ++ advance_past_whitespace s ∧ ∀ c ∈ ws, isspace c = true :=
  ⟨s.takeWhile isspace, (List.takeWhile_append_dropWhile isspace s).symm,
    fun _ hc => List.mem_takeWhile_imp hc⟩

/-- For a line `Total<rest>`: the body after `Total` ends with `?` exactly
when the line does, and then the text before that `?` has the same trimmed
form in the body and in `rest`. -/
theorem total_body_ends (t rest : Str) (ht : t = "Total".toList ++ rest) :
    ((advance_past_whitespace rest ≠ [] ∧ (advance_past_whitespace rest).getLast? = some '?') ↔
      t.getLast? = some '?') ∧
    (t.getLast? = some '?' →
      trim_whitespace_str (advance_past_whitespace rest).dropLast
        = trim_whitespace_str rest.dropLast) := by
  obtain ⟨ws, hsplit, hws⟩ := advance_past_whitespace_split rest
  generalize advance_past_whitespace rest = qb at hsplit
  have hq : t.getLast? = some '?' → qb ≠ [] ∧ qb.getLast? = some '?' := by
    intro hl
    by_cases hqb : qb = []
    · subst hqb
      rw [List.append_nil] at hsplit
      subst hsplit
      exfalso
      by_cases hr : rest = []
      · subst hr
        rw [ht] at hl
        exact absurd hl (by decide)
      · rw [ht, List.getLast?_append_of_ne_nil _ hr] at hl
        have := hws _ (List.mem_of_mem_getLast? hl)
        exact absurd this (by decide)
    · refine ⟨hqb, ?_⟩
      have hr : rest ≠ [] := by
        rw [hsplit]
        simp [hqb]
      rw [ht, List.getLast?_append_of_ne_nil _ hr, hsplit,
        List.getLast?_append_of_ne_nil _ hqb] at hl
      exact hl
  refine ⟨⟨fun ⟨hne, hl⟩ => ?_, hq⟩, fun hl => ?_⟩
  · have hr : rest ≠ [] := by
      rw [hsplit]
      simp [hne]
    rw [ht, List.getLast?_append_of_ne_nil _ hr, hsplit, List.getLast?_append_of_ne_nil _ hne]
    exact hl
  · have hne := (hq hl).1
    rw [hsplit, List.dropLast_append_of_ne_nil _ hne, trim_whitespace_str_append_ws _ _ hws]

/-- C14, as the code has it. For a line whose trimmed form starts with the
whole word `Total`, with body the text after it up to the final `?`, trimmed:
the result is QueryTotalAll(c) iff the line ends with `?` and the body is a
category word c; it is QueryTotalSpecific(c, n) iff the line ends with `?`,
the body splits at its first space into a part whose trimmed form is a
category word c and a rest whose trimmed form n is a valid name, with
separators allowed only if c is `potion`; in every other case it is Invalid. -/
theorem parse_command_internal_total_spec (line rest : Str)
    (h : BeginsWithWord "Total".toList (trim_whitespace_str line) rest) :
    (∀ c, parse_command_internal line = .QUERY_TOTAL_ALL c ↔
      ((trim_whitespace_str line).getLast? = some '?' ∧
        trim_whitespace_str rest.dropLast = c ∧ IsCategory c)) ∧
    (∀ c n, parse_command_internal line = .QUERY_TOTAL_SPECIFIC c n ↔
      ((trim_whitespace_str line).getLast? = some '?' ∧ IsCategory c ∧
        ∃ c' r, trim_whitespace_str rest.dropLast = c' ++ ' ' :: r ∧ ' ' ∉ c' ∧
          trim_whitespace_str c' = c ∧ n = trim_whitespace_str r ∧
          IsValidName n (decide (c = "potion".toList)))) ∧
    ((∃ c, parse_command_internal line = .QUERY_TOTAL_ALL c) ∨
      (∃ c n, parse_command_internal line = .QUERY_TOTAL_SPECIFIC c n) ∨
      parse_command_internal line = .INVALID) := by
  rw [parse_command_internal_total line rest h]
  obtain ⟨hends, hbody⟩ := total_body_ends _ rest h.1
  by_cases hl : (trim_whitespace_str line).getLast? = some '?'
  · have he := hends.mpr hl
    have hb := hbody hl
    by_cases hsp : ' ' ∈ trim_whitespace_str rest.dropLast
    · obtain ⟨c₀, r₀, hsplit, hc₀⟩ := exists_first_split ' ' _ hsp
      obtain ⟨hyes, hno⟩ := parse_total_space _ c₀ r₀ he (hb.trans hsplit) hc₀
      by_cases hv : IsCategory (trim_whitespace_str c₀) ∧
          IsValidName (trim_whitespace_str r₀)
            (decide (trim_whitespace_str c₀ = "potion".toList))
      · rw [hyes hv.1 hv.2]
        refine ⟨fun c => ⟨fun hc => by simp at hc, fun ⟨_, hbc, hcat⟩ => ?_⟩,
          fun c n => ⟨fun hc => ?_, fun ⟨_, hcat, c', r, hs, hc', hcc, hn, hval⟩ => ?_⟩,
          Or.inr (Or.inl ⟨_, _, rfl⟩)⟩
        · exact absurd (hbc ▸ hsp) (category_no_space c hcat).1
        · simp only [Command.QUERY_TOTAL_SPECIFIC.injEq] at hc
          obtain ⟨hc1, hc2⟩ := hc
          subst hc1 hc2
          exact ⟨hl, hv.1, c₀, r₀, hsplit, hc₀, rfl, rfl, hv.2⟩
        · obtain ⟨h1, h2⟩ := first_split_unique ' ' c₀ r₀ c' r (hsplit.symm.trans hs) hc₀ hc'
          subst h1 h2
          rw [hcc, hn]
      · rw [hno hv]
        refine ⟨fun c => ⟨fun hc => by simp at hc, fun ⟨_, hbc, hcat⟩ => ?_⟩,
          fun c n => ⟨fun hc => by simp at hc,
            fun ⟨_, hcat, c', r, hs, hc', hcc, hn, hval⟩ => ?_⟩,
          Or.inr (Or.inr rfl)⟩
        · exact absurd (hbc ▸ hsp) (category_no_space c hcat).1
        · obtain ⟨h1, h2⟩ := first_split_unique ' ' c₀ r₀ c' r (hsplit.symm.trans hs) hc₀ hc'
          subst h1 h2
          subst hcc hn
          exact absurd ⟨hcat, hval⟩ hv
    · rw [← hb] at hsp
      obtain ⟨hyes, hno⟩ := parse_total_no_space _ he hsp
      rw [hb] at hyes hno hsp
      by_cases hcat : IsCategory (trim_whitespace_str rest.dropLast)
      · rw [hyes hcat]
        refine ⟨fun c => ⟨fun hc => ?_, fun ⟨_, hbc, _⟩ => by rw [hbc]⟩,
          fun c n => ⟨fun hc => by simp at hc,
            fun ⟨_, _, c', r, hs, _⟩ => ?_⟩,
          Or.inl ⟨_, rfl⟩⟩
        · simp only [Command.QUERY_TOTAL_ALL.injEq] at hc
          subst hc
          exact ⟨hl, rfl, hcat⟩
        · exact absurd (by rw [hs]; simp) hsp
      · rw [hno hcat]
        refine ⟨fun c => ⟨fun hc => by simp at hc, fun ⟨_, hbc, hc⟩ => ?_⟩,
          fun c n => ⟨fun hc => by simp at hc,
            fun ⟨_, _, c', r, hs, _⟩ => ?_⟩,
          Or.inr (Or.inr rfl)⟩
        · exact absurd (hbc ▸ hc) hcat
        · exact absurd (by rw [hs]; simp) hsp
  · rw [parse_total_not_ends _ (fun he => hl (hends.mp he))]
    exact ⟨fun c => ⟨fun hc => by simp at hc, fun ⟨h1, _⟩ => absurd h1 hl⟩,
      fun c n => ⟨fun hc => by simp at hc, fun ⟨h1, _⟩ => absurd h1 hl⟩,
      Or.inr (Or.inr rfl)⟩

/-- Witness of C14 as the code has it: `Total potion Black Blood ?` is
QueryTotalSpecific(potion, Black Blood). -/
theorem parse_command_internal_total_spec_witness :
    parse_command_internal "Total potion Black Blood ?".toList
      = .QUERY_TOTAL_SPECIFIC "potion".toList "Black Blood".toList :=
  ((parse_command_internal_total_spec "Total potion Black Blood ?".toList
      " potion Black Blood ?".toList ⟨by decide, by decide⟩).2.1
      "potion".toList "Black Blood".toList).mpr
    ⟨by decide, by decide, "potion".toList, "Black Blood".toList, by decide, by decide,
      by decide, by decide, by decide⟩

/-- C14, counterexample. In `Total potion<TAB> Rebis?` the body splits at its
first space into `potion<TAB>`, which is not a category word, and `Rebis`; the
result is nevertheless QueryTotalSpecific(potion, Rebis), because the category
part is trimmed before it is compared. -/
theorem parse_command_internal_total_trims_category :
    parse_command_internal "Total potion\t Rebis?".toList
      = .QUERY_TOTAL_SPECIFIC "potion".toList "Rebis".toList ∧
    trim_whitespace_str (" potion\t Rebis?".toList).dropLast
      = "potion\t".toList ++ ' ' :: "Rebis".toList ∧
    ' ' ∉ "potion\t".toList ∧ ¬ IsCategory "potion\t".toList := by
  decide

/-- C11, counterexample. `Geralt brews a<TAB>b` is Brew and carries the name
`a<TAB>b`, whose separator is a tab, not a space. -/
theorem parse_command_internal_brew_tab_name :
    parse_command_internal "Geralt brews a\tb".toList = .BREW "a\tb".toList ∧
    ¬ IsSpecName "a\tb".toList true := by
  decide

/-- Two successful `match_and_advance` calls in a row, on a view that does not
start with whitespace, have seen the two words. -/
theorem match_and_advance_two (t w₁ w₂ : Str)
    (ht : ∀ c, t.head? = some c → isspace c = false)
    (hw₂ : ∀ c, w₂.head? = some c → isspace c = false) (hne : w₂ ≠ [])
    (h₁ : (match_and_advance t w₁).1 = true)
    (h₂ : (match_and_advance (match_and_advance t w₁).2 w₂).1 = true) :
    ∃ rest, BeginsWithWords w₁ w₂ t rest ∧
      (match_and_advance (match_and_advance t w₁).2 w₂).2 = advance_past_whitespace rest := by
  obtain ⟨rest₁, ht₁, hr₁, hp₁⟩ := match_and_advance_true t w₁ h₁
  rw [advance_past_whitespace_eq_self t ht] at ht₁
  obtain ⟨rest₂, ht₂, hr₂, hp₂⟩ := match_and_advance_true _ w₂ h₂
  rw [hp₁, advance_past_whitespace_idem] at ht₂
  obtain ⟨ws, hsplit, hws⟩ := advance_past_whitespace_split rest₁
  rw [ht₂] at hsplit
  refine ⟨rest₂, ⟨ws, ?_, ?_, hws, hr₂⟩, hp₂⟩
  · rw [ht₁, hsplit]
    simp
  · rintro rfl
    obtain ⟨a, l, rfl⟩ := List.exists_cons_of_ne_nil hne
    have h1 := hr₁ a (by rw [hsplit]; simp)
    have h2 := hw₂ a rfl
    rw [h1] at h2
    exact absurd h2 (by decide)

/-- `parse_item_list` looks at the trimmed text only. -/
theorem parse_item_list_trim (s : Str) (allow : Bool) :
    parse_item_list (trim_whitespace_str s) allow = parse_item_list s allow := by
  unfold parse_item_list
  simp only [trim_whitespace_str_idem]

/-- A Trade result comes from the trade block only. -/
theorem parse_command_internal_trade_inv (line : Str) (give recv : List ItemInfo)
    (h : parse_command_internal line = .TRADE give recv) :
    ∃ rest, BeginsWithWords "Geralt".toList "trades".toList (trim_whitespace_str line) rest ∧
      parse_trades (advance_past_whitespace rest) = .TRADE give recv := by
  have hty : ∀ c : Command, c = .TRADE give recv → c.type = .TRADE := by
    rintro c rfl
    rfl
  unfold parse_command_internal at h
  simp only at h
  split at h
  · simp at h
  · split at h
    · simp at h
    · by_cases hg : (match_and_advance (trim_whitespace_str line) "Geralt".toList).1 = true
      · simp only [hg, if_true] at h
        unfold parse_geralt at h
        simp only at h
        by_cases hl : (match_and_advance
            (match_and_advance (trim_whitespace_str line) "Geralt".toList).2 "loots".toList).1
            = true
        · simp only [hl, if_true] at h
          have := hty _ h
          rcases parse_loots_type (match_and_advance
            (match_and_advance (trim_whitespace_str line) "Geralt".toList).2
            "loots".toList).2 with h1 | h1 <;> rw [h1] at this <;> simp at this
        · simp only [hl, Bool.false_eq_true, if_false] at h
          by_cases ht : (match_and_advance
              (match_and_advance (trim_whitespace_str line) "Geralt".toList).2
              "trades".toList).1 = true
          · simp only [ht, if_true] at h
            obtain ⟨rest, hb, hp⟩ := match_and_advance_two (trim_whitespace_str line)
              "Geralt".toList "trades".toList (trim_whitespace_str_head line)
              (by decide) (by decide) hg ht
            rw [hp] at h
            exact ⟨rest, hb, h⟩
          · simp only [ht, Bool.false_eq_true, if_false] at h
            exfalso
            split at h
            · have := hty _ h
              rcases parse_brews_type (match_and_advance
                (match_and_advance (trim_whitespace_str line) "Geralt".toList).2
                "brews".toList).2 with h1 | h1 <;> rw [h1] at this <;> simp at this
            · split at h
              · have := hty _ h
                rcases parse_learns_type (match_and_advance
                  (match_and_advance (trim_whitespace_str line) "Geralt".toList).2
                  "learns".toList).2 with h1 | h1 | h1 <;> rw [h1] at this <;> simp at this
              · split at h
                · have := hty _ h
                  rcases parse_encounters_type (match_and_advance
                    (match_and_advance (trim_whitespace_str line) "Geralt".toList).2
                    "encounters".toList).2 with h1 | h1 <;> rw [h1] at this <;> simp at this
                · simp at h
      · simp only [hg, Bool.false_eq_true, if_false] at h
        exfalso
        split at h
        · have := hty _ h
          rcases parse_total_type (match_and_advance (trim_whitespace_str line)
            "Total".toList).2 with h1 | h1 | h1 <;> rw [h1] at this <;> simp at this
        · split at h
          · have := hty _ h
            rcases parse_what_type (match_and_advance (trim_whitespace_str line)
              "What".toList).2 with h1 | h1 | h1 <;> rw [h1] at this <;> simp at this
          · simp at h

/-- What the trade block has found when it returns Trade. -/
theorem parse_trades_inv (p : Str) (give recv : List ItemInfo)
    (h : parse_trades p = .TRADE give recv) :
    ∃ after k after_for j,
      find_standalone_substring p "trophy".toList = some (after, k) ∧
      parse_item_list (p.take k) false = some give ∧ give ≠ [] ∧
      find_standalone_substring (advance_past_whitespace after) "for".toList
        = some (after_for, j) ∧
      parse_item_list (advance_past_whitespace after_for) false = some recv ∧ recv ≠ [] := by
  unfold parse_trades at h
  simp only at h
  split at h
  · simp at h
  · rename_i after k htrophy
    split at h
    · simp at h
    · split at h
      · simp at h
      · rename_i after_for j hfor
        split at h
        · rename_i trophies ingredients ht hi
          split at h
          · rename_i hne
            simp only [Command.TRADE.injEq] at h
            obtain ⟨rfl, rfl⟩ := h
            rw [parse_item_list_trim] at ht
            exact ⟨after, k, after_for, j, htrophy, ht, hne.1, hfor, hi, hne.2⟩
          · simp at h
        · simp at h

/-- C16, as the code has it. Every line that parses to Trade has the form
`Geralt trades <content>` where the first standalone `trophy` of the content
is found, the content before it is a non-empty valid item list, a standalone
`for` is found somewhere in the text after `trophy` (the text between the two
is not examined), and the text after that `for` is a non-empty valid item
list. -/
theorem parse_command_internal_trade_form (line : Str) (give recv : List ItemInfo)
    (h : parse_command_internal line = .TRADE give recv) :
    ∃ rest, BeginsWithWords "Geralt".toList "trades".toList (trim_whitespace_str line) rest ∧
      ∃ after k after_for j,
        find_standalone_substring (advance_past_whitespace rest) "trophy".toList
          = some (after, k) ∧
        parse_item_list ((advance_past_whitespace rest).take k) false = some give ∧
        IsValidItemList give ∧
        find_standalone_substring (advance_past_whitespace after) "for".toList
          = some (after_for, j) ∧
        parse_item_list (advance_past_whitespace after_for) false = some recv ∧
        IsValidItemList recv := by
  obtain ⟨rest, hb, hp⟩ := parse_command_internal_trade_inv line give recv h
  obtain ⟨after, k, after_for, j, h1, h2, h3, h4, h5, h6⟩ := parse_trades_inv _ give recv hp
  exact ⟨rest, hb, after, k, after_for, j, h1, h2,
    parse_item_list_isValidItemList _ give h2 h3, h4, h5,
    parse_item_list_isValidItemList _ recv h5 h6⟩

/-- C16, counterexample. In `Geralt trades 1 Wolf trophy xyz for 2 Rebis` the
word after `trophy` is `xyz`, not `for`, yet the line parses to Trade: the text
between `trophy` and `for` is skipped. -/
theorem parse_command_internal_trade_skips_text :
    parse_command_internal "Geralt trades 1 Wolf trophy xyz for 2 Rebis".toList
      = .TRADE [⟨"Wolf".toList, 1⟩] [⟨"Rebis".toList, 2⟩] := by
  decide

/-- Witness of C16 as the code has it, at the same line. -/
theorem parse_command_internal_trade_form_witness :
    ∃ rest, BeginsWithWords "Geralt".toList "trades".toList
        (trim_whitespace_str "Geralt trades 1 Wolf trophy xyz for 2 Rebis".toList) rest ∧
      ∃ after k after_for j,
        find_standalone_substring (advance_past_whitespace rest) "trophy".toList
          = some (after, k) ∧
        parse_item_list ((advance_past_whitespace rest).take k) false
          = some [⟨"Wolf".toList, 1⟩] ∧
        IsValidItemList [⟨"Wolf".toList, 1⟩] ∧
        find_standalone_substring (advance_past_whitespace after) "for".toList
          = some (after_for, j) ∧
        parse_item_list (advance_past_whitespace after_for) false
          = some [⟨"Rebis".toList, 2⟩] ∧
        IsValidItemList [⟨"Rebis".toList, 2⟩] :=
  parse_command_internal_trade_form "Geralt trades 1 Wolf trophy xyz for 2 Rebis".toList
    [⟨"Wolf".toList, 1⟩] [⟨"Rebis".toList, 2⟩] (by decide)

/-- The scan of `find` from a suffix: what it returns. -/
theorem sv_find_loop_spec (needle s : Str) (off : Nat) :
    (∀ p, sv_find_loop needle s off = some p ↔
      ∃ k, p = off + k ∧ k ≤ s.length ∧ needle <+: s.drop k ∧
        ∀ j < k, ¬ needle <+: s.drop j) ∧
    (sv_find_loop needle s off = none ↔ ∀ k ≤ s.length, ¬ needle <+: s.drop k) := by
  induction s generalizing off with
  | nil =>
    by_cases hn : needle = []
    · subst hn
      simp only [sv_find_loop, if_true, Option.some.injEq, List.length_nil, Nat.le_zero,
        List.drop_nil, List.nil_prefix, true_and, not_true, imp_false, not_lt]
      refine ⟨fun p => ⟨fun h => ⟨0, by omega, rfl, fun j => Nat.zero_le j⟩,
        fun ⟨k, hk, hk0, _⟩ => by omega⟩, ?_⟩
      simp
    · simp only [sv_find_loop, hn, if_false, List.length_nil, Nat.le_zero, List.drop_nil,
        List.prefix_nil, false_and, and_false, exists_false, iff_false, not_false_eq_true,
        implies_true, true_iff, reduceCtorEq]
      exact ⟨trivial, trivial⟩
  | cons c rest ih =>
    by_cases hpre : needle.isPrefixOf (c :: rest) = true
    · have hp : needle <+: c :: rest := List.isPrefixOf_iff_prefix.mp hpre
      simp only [sv_find_loop, hpre, if_true, Option.some.injEq, reduceCtorEq, false_iff,
        not_forall]
      refine ⟨fun p => ⟨fun h => ⟨0, by omega, Nat.zero_le _, by simpa using hp,
        fun j hj => absurd hj (Nat.not_lt_zero j)⟩, fun ⟨k, hk, _, _, hmin⟩ => ?_⟩, ?_⟩
      · by_cases hk0 : k = 0
        · omega
        · exact absurd (by simpa using hp) (hmin 0 (by omega))
      · exact ⟨0, Nat.zero_le _, by simpa using hp⟩
    · have hp : ¬ needle <+: c :: rest := fun h => hpre (List.isPrefixOf_iff_prefix.mpr h)
      obtain ⟨ih1, ih2⟩ := ih (off + 1)
      have hpre' : needle.isPrefixOf (c :: rest) = false := Bool.eq_false_iff.mpr hpre
      simp only [sv_find_loop, hpre', Bool.false_eq_true, if_false]
      refine ⟨fun p => ?_, ?_⟩
      · rw [ih1]
        constructor
        · rintro ⟨k, hk, hkl, hocc, hmin⟩
          refine ⟨k + 1, by omega, by simpa using hkl, by simpa using hocc, fun j hj => ?_⟩
          cases j with
          | zero => simpa using hp
          | succ j => simpa using hmin j (by omega)
        · rintro ⟨k, hk, hkl, hocc, hmin⟩
          cases k with
          | zero => exact absurd (by simpa using hocc) hp
          | succ k =>
            refine ⟨k, by omega, by simpa using hkl, by simpa using hocc, fun j hj => ?_⟩
            simpa using hmin (j + 1) (by omega)
      · rw [ih2]
        constructor
        · intro h k hk
          cases k with
          | zero => simpa using hp
          | succ k => simpa using h k (by simpa using hk)
        · intro h k hk
          simpa using h (k + 1) (by simpa using hk)

/-- `view.find(needle)` returns the first occurrence. -/
theorem sv_find_eq_some_iff (needle view : Str) (p : Nat) :
    sv_find view needle 0 = some p ↔ IsFirstOccurrence needle view p := by
  unfold sv_find IsFirstOccurrence
  simp only [Nat.not_lt_zero, if_false, List.drop_zero, gt_iff_lt]
  rw [(sv_find_loop_spec needle view 0).1 p]
  constructor
  · rintro ⟨k, hk, hkl, hocc, hmin⟩
    have : p = k := by omega
    subst this
    exact ⟨hkl, hocc, hmin⟩
  · rintro ⟨hkl, hocc, hmin⟩
    exact ⟨p, by omega, hkl, hocc, hmin⟩

/-- `view.find(needle)` is `npos` when the needle does not occur. -/
theorem sv_find_eq_none_iff (needle view : Str) :
    sv_find view needle 0 = none ↔ ∀ p, ¬ IsFirstOccurrence needle view p := by
  constructor
  · intro h p hp
    rw [← sv_find_eq_some_iff, h] at hp
    exact absurd hp (by simp)
  · intro h
    cases hs : sv_find view needle 0 with
    | none => rfl
    | some p => exact absurd ((sv_find_eq_some_iff needle view p).mp hs) (h p)

/-- The first occurrence is unique. -/
theorem IsFirstOccurrence.unique (needle view : Str) (p q : Nat)
    (hp : IsFirstOccurrence needle view p) (hq : IsFirstOccurrence needle view q) : p = q := by
  rcases Nat.lt_trichotomy p q with h | h | h
  · exact absurd hp.2.1 (hq.2.2 p h)
  · exact h
  · exact absurd hq.2.1 (hp.2.2 q h)

/-- The position `terminatorPosition` returns is the terminator position of
the specification-side notion. -/
theorem terminatorPosition_eq_some_iff (phrase view : Str) (p : Nat) :
    terminatorPosition phrase view = some p ↔ IsTerminatorAt phrase view p := by
  unfold terminatorPosition IsTerminatorAt
  cases hs : sv_find view phrase 0 with
  | none =>
    simp only [reduceCtorEq, false_iff, not_and]
    intro hocc
    rw [← sv_find_eq_some_iff, hs] at hocc
    exact absurd hocc (by simp)
  | some fp =>
    have hfp := (sv_find_eq_some_iff phrase view fp).mp hs
    simp only
    constructor
    · intro h
      split at h
      · rename_i hc
        simp only [Option.some.injEq] at h
        subst h
        exact ⟨hfp, hc⟩
      · simp at h
    · rintro ⟨hocc, hc⟩
      have := IsFirstOccurrence.unique phrase view fp p hfp hocc
      subst this
      rw [if_pos hc]

/-- One round of the terminator loop, for the two terminators of the
source. -/
theorem potion_terminator_step_eq (view : Str) (e : Option Nat) :
    potion_terminator_step view e " potion is effective against".toList
      = (match terminatorPosition "potion is effective against".toList view with
        | none => e
        | some p => update_end_pos e p) ∧
    potion_terminator_step view e " potion consists of".toList
      = (match terminatorPosition "potion consists of".toList view with
        | none => e
        | some p => update_end_pos e p) := by
  have h1 : sv_find " potion is effective against".toList "potion".toList 0 = some 1 := by
    decide
  have h2 : sv_find " potion consists of".toList "potion".toList 0 = some 1 := by decide
  have d1 : List.drop 1 " potion is effective against".toList
      = "potion is effective against".toList := rfl
  have d2 : List.drop 1 " potion consists of".toList = "potion consists of".toList := rfl
  unfold potion_terminator_step terminatorPosition
  simp only [h1, h2, d1, d2]
  constructor
  · cases sv_find view "potion is effective against".toList 0 with
    | none => rfl
    | some fp =>
      simp only
      split <;> rfl
  · cases sv_find view "potion consists of".toList 0 with
    | none => rfl
    | some fp =>
      simp only
      split <;> rfl

/-- `update_end_pos` with no position so far. -/
theorem update_end_pos_none (p : Nat) : update_end_pos none p = some p := rfl

/-- `update_end_pos` with a position so far. -/
theorem update_end_pos_some (e p : Nat) :
    update_end_pos (some e) p = if p < e then some p else some e := rfl

/-- The fold of `update_end_pos` returns the smallest candidate. -/
theorem minCandidate_spec (c₁ c₂ c₃ : Option Nat) :
    (minCandidate c₁ c₂ c₃ = none ∧ c₁ = none ∧ c₂ = none ∧ c₃ = none) ∨
    (∃ b, minCandidate c₁ c₂ c₃ = some b ∧ (c₁ = some b ∨ c₂ = some b ∨ c₃ = some b) ∧
      ∀ q, (c₁ = some q ∨ c₂ = some q ∨ c₃ = some q) → b ≤ q) := by
  cases c₁ <;> cases c₂ <;> cases c₃ <;>
    simp only [minCandidate, List.foldl, update_end_pos_none, update_end_pos_some] <;>
    (try split_ifs) <;>
    (try simp only [update_end_pos_some]) <;>
    (try split_ifs) <;>
    first
      | exact Or.inl ⟨trivial, trivial, trivial, trivial⟩
      | (right
         refine ⟨_, rfl, ?_, fun q hq => ?_⟩
         · simp
         · simp only [reduceCtorEq, Option.some.injEq, false_or, or_false] at hq
           omega)

/-- The end position `parse_potion_name_complex` computes is the smallest of
the three candidates. -/
theorem parse_potion_name_end_pos (view : Str) :
    (match sv_find view ['?'] 0 with
      | some q_mark_pos =>
        update_end_pos
          ([" potion is effective against".toList, " potion consists of".toList].foldl
            (potion_terminator_step view) none) q_mark_pos
      | none =>
        [" potion is effective against".toList, " potion consists of".toList].foldl
          (potion_terminator_step view) none)
    = minCandidate (terminatorPosition "potion is effective against".toList view)
        (terminatorPosition "potion consists of".toList view) (sv_find view ['?'] 0) := by
  simp only [List.foldl, (potion_terminator_step_eq view _).1,
    (potion_terminator_step_eq view _).2, minCandidate]
  cases terminatorPosition "potion is effective against".toList view <;>
    cases terminatorPosition "potion consists of".toList view <;>
    cases sv_find view ['?'] 0 <;> rfl

/-- The smallest candidate, or the length of the view when there is none, is
the boundary of the name, and the only one. -/
theorem isNameBoundary_minCandidate (view : Str) :
    IsNameBoundary view
      ((minCandidate (terminatorPosition "potion is effective against".toList view)
        (terminatorPosition "potion consists of".toList view)
        (sv_find view ['?'] 0)).getD view.length) ∧
    ∀ b', IsNameBoundary view b' →
      b' = (minCandidate (terminatorPosition "potion is effective against".toList view)
        (terminatorPosition "potion consists of".toList view)
        (sv_find view ['?'] 0)).getD view.length := by
  have hcand : ∀ q, IsNameEndCandidate view q ↔
      (terminatorPosition "potion is effective against".toList view = some q ∨
        terminatorPosition "potion consists of".toList view = some q ∨
        sv_find view ['?'] 0 = some q) := by
    intro q
    unfold IsNameEndCandidate
    rw [terminatorPosition_eq_some_iff, terminatorPosition_eq_some_iff, sv_find_eq_some_iff]
  have huniq : ∀ b b', IsNameBoundary view b → IsNameBoundary view b' → b' = b := by
    intro b b' hb hb'
    rcases hb with ⟨hc, hmin⟩ | ⟨hlen, hno⟩ <;> rcases hb' with ⟨hc', hmin'⟩ | ⟨hlen', hno'⟩
    · exact Nat.le_antisymm (hmin' b hc) (hmin b' hc')
    · exact absurd hc (hno' b)
    · exact absurd hc' (hno b')
    · rw [hlen, hlen']
  have hb : IsNameBoundary view
      ((minCandidate (terminatorPosition "potion is effective against".toList view)
        (terminatorPosition "potion consists of".toList view)
        (sv_find view ['?'] 0)).getD view.length) := by
    rcases minCandidate_spec (terminatorPosition "potion is effective against".toList view)
      (terminatorPosition "potion consists of".toList view) (sv_find view ['?'] 0)
      with ⟨hm, h1, h2, h3⟩ | ⟨b, hm, hin, hmin⟩
    · rw [hm]
      refine Or.inr ⟨rfl, fun q hq => ?_⟩
      rw [hcand, h1, h2, h3] at hq
      simp at hq
    · rw [hm]
      exact Or.inl ⟨(hcand b).mpr hin, fun q hq => hmin q ((hcand q).mp hq)⟩
  exact ⟨hb, fun b' hb' => huniq _ b' hb hb'⟩

/-- C17, as the code has it. After skipping leading whitespace the captured
span of `parse_potion_name_complex` ends at the boundary `b`: the smallest
position among the first occurrence of `potion is effective against` if that
occurrence is at the start or preceded by whitespace, the first occurrence of
`potion consists of` under the same condition, and the first `?`; the end of
the text if there is none.  The function succeeds iff the trimmed span is a
valid name with spaces allowed, and then returns that name and the remainder
that starts at `b`. -/
theorem parse_potion_name_complex_spec (text : Str) :
    ∃ b, IsNameBoundary (text.dropWhile isspace) b ∧
      (∀ b', IsNameBoundary (text.dropWhile isspace) b' → b' = b) ∧
      (IsValidName (trim_whitespace_str ((text.dropWhile isspace).take b)) true →
        parse_potion_name_complex text
          = (some (trim_whitespace_str ((text.dropWhile isspace).take b)),
              (text.dropWhile isspace).drop b)) ∧
      (¬ IsValidName (trim_whitespace_str ((text.dropWhile isspace).take b)) true →
        (parse_potion_name_complex text).1 = none) := by
  obtain ⟨hb, huniq⟩ := isNameBoundary_minCandidate (text.dropWhile isspace)
  refine ⟨_, hb, huniq, ?_, ?_⟩
  · intro hv
    have hne : text.dropWhile isspace ≠ [] := by
      intro hnil
      rw [hnil] at hv
      exact hv.1 (by simp [trim_whitespace_str])
    unfold parse_potion_name_complex
    simp only [hne, if_false, parse_potion_name_end_pos, parse_name_trim]
    cases hm : minCandidate
        (terminatorPosition "potion is effective against".toList (text.dropWhile isspace))
        (terminatorPosition "potion consists of".toList (text.dropWhile isspace))
        (sv_find (text.dropWhile isspace) ['?'] 0) with
    | none =>
      rw [hm] at hv
      simp only [Option.getD_none, List.take_length] at hv ⊢
      rw [parse_name_some_of_valid _ true hv]
      simp [hv.1]
    | some e =>
      rw [hm] at hv
      simp only [Option.getD_some] at hv ⊢
      rw [parse_name_some_of_valid _ true hv]
      simp [hv.1]
  · intro hv
    unfold parse_potion_name_complex
    simp only [parse_potion_name_end_pos, parse_name_trim]
    split
    · rfl
    · cases hm : minCandidate
          (terminatorPosition "potion is effective against".toList (text.dropWhile isspace))
          (terminatorPosition "potion consists of".toList (text.dropWhile isspace))
          (sv_find (text.dropWhile isspace) ['?'] 0) with
      | none =>
        rw [hm] at hv
        simp only [Option.getD_none, List.take_length] at hv ⊢
        rw [(parse_name_eq_ite _ true).2 hv]
      | some e =>
        rw [hm] at hv
        simp only [Option.getD_some] at hv ⊢
        rw [(parse_name_eq_ite _ true).2 hv]

/-- C17, counterexample. In `Swallow potion consists ofX` the phrase
`potion consists of` is followed by `X`, so no position of the text is a
standalone occurrence of a terminator or a `?`, and the whole text is a valid
name with spaces; yet `parse_potion_name_complex` ends the name at the phrase
and returns `Swallow` with the remainder `potion consists ofX`. -/
theorem parse_potion_name_complex_ignores_right_boundary :
    parse_potion_name_complex "Swallow potion consists ofX".toList
      = (some "Swallow".toList, "potion consists ofX".toList) ∧
    (∀ p ∈ List.range ("Swallow potion consists ofX".toList.length + 1),
      ¬ IsSpecNameEnd "Swallow potion consists ofX".toList p) ∧
    IsValidName (trim_whitespace_str "Swallow potion consists ofX".toList) true := by
  decide

/-- C19. A needle followed by the character `'\0'` is reported as standalone:
in the haystack `for<NUL>x` the needle `for` is found at position 0, although
the character after it exists and is not whitespace. -/
theorem find_standalone_substring_nul_after :
    find_standalone_substring ("for".toList ++ [NUL, 'x']) "for".toList
      = some ([NUL, 'x'], 0) ∧
    (∀ p ∈ List.range (("for".toList ++ [NUL, 'x']).length + 1),
      ¬ IsStandaloneOccurrence "for".toList ("for".toList ++ [NUL, 'x']) p) := by
  decide

/-- C20. With the single keyword `sign`, the text `sign<NUL>x` has no
standalone occurrence of the keyword (the character after it is not
whitespace), yet `find_keyword_sequence` succeeds at position 0. -/
theorem find_keyword_sequence_nul_after :
    find_keyword_sequence ("sign".toList ++ [NUL, 'x']) ["sign".toList]
      = some ([], [NUL, 'x']) ∧
    (∀ p ∈ List.range (("sign".toList ++ [NUL, 'x']).length + 1),
      ¬ IsStandaloneOccurrence "sign".toList ("sign".toList ++ [NUL, 'x']) p) := by
  decide

/-- `haystack.find(needle, off)` returns the first occurrence at or after
`off`. -/
theorem sv_find_offset_spec (haystack needle : Str) (off : Nat) (hoff : off ≤ haystack.length) :
    (∀ p, sv_find haystack needle off = some p ↔
      (off ≤ p ∧ p ≤ haystack.length ∧ needle.isPrefixOf (haystack.drop p) = true ∧
        ∀ j, off ≤ j → j < p → ¬ needle.isPrefixOf (haystack.drop j) = true)) ∧
    (sv_find haystack needle off = none ↔
      ∀ j, off ≤ j → j ≤ haystack.length → ¬ needle.isPrefixOf (haystack.drop j) = true) := by
  have hgt : ¬ (off > haystack.length) := by omega
  obtain ⟨h1, h2⟩ := sv_find_loop_spec needle (haystack.drop off) off
  unfold sv_find
  simp only [hgt, if_false]
  simp only [List.length_drop, List.drop_drop, ← List.isPrefixOf_iff_prefix] at h1 h2
  refine ⟨fun p => ?_, ?_⟩
  · rw [h1]
    constructor
    · rintro ⟨k, hk, hkl, hocc, hmin⟩
      subst hk
      refine ⟨by omega, by omega, hocc, fun j hj1 hj2 => ?_⟩
      have := hmin (j - off) (by omega)
      rwa [show off + (j - off) = j by omega] at this
    · rintro ⟨hp1, hp2, hocc, hmin⟩
      refine ⟨p - off, by omega, by omega, ?_, fun j hj => ?_⟩
      · rwa [show off + (p - off) = p by omega]
      · exact hmin (off + j) (by omega) (by omega)
  · rw [h2]
    constructor
    · intro h j hj1 hj2
      have := h (j - off) (by omega)
      rwa [show off + (j - off) = j by omega] at this
    · intro h k hk
      exact h (off + k) (by omega) (by omega)

/-- A non-empty needle occurs only at positions inside the haystack. -/
theorem lt_length_of_isPrefixOf_drop (needle haystack : Str) (q : Nat) (hn : needle ≠ [])
    (h : needle.isPrefixOf (haystack.drop q) = true) : q < haystack.length := by
  by_contra hq
  have : haystack.drop q = [] := List.drop_eq_nil_of_le (by omega)
  rw [this] at h
  obtain ⟨a, l, rfl⟩ := List.exists_cons_of_ne_nil hn
  simp [List.isPrefixOf] at h

/-- The test of `find_standalone_substring` on the characters around an
occurrence. -/
theorem standalone_check_iff (haystack : Str) (p len : Nat) :
    ((!(decide (p > 0) && !isspace (haystack.getD (p - 1) NUL)) &&
      !(decide ((if p + len < haystack.length then haystack.getD (p + len) NUL else NUL) ≠ NUL) &&
        !isspace (if p + len < haystack.length then haystack.getD (p + len) NUL else NUL)))
      = true) ↔
    ((p = 0 ∨ isspace (haystack.getD (p - 1) NUL) = true) ∧
      (haystack.length ≤ p + len ∨ haystack.getD (p + len) NUL = NUL ∨
        isspace (haystack.getD (p + len) NUL) = true)) := by
  by_cases hlen : p + len < haystack.length
  · simp only [hlen, if_true, Bool.and_eq_true, Bool.not_eq_true', Bool.and_eq_false_iff,
      decide_eq_false_iff_not, Bool.not_eq_false', ne_eq, not_not, gt_iff_lt, not_lt,
      Nat.le_zero]
    constructor
    · rintro ⟨h1, h2⟩
      exact ⟨h1, Or.inr h2⟩
    · rintro ⟨h1, h2 | h2⟩
      · omega
      · exact ⟨h1, h2⟩
  · simp only [hlen, if_false, Bool.and_eq_true, Bool.not_eq_true', Bool.and_eq_false_iff,
      decide_eq_false_iff_not, Bool.not_eq_false', ne_eq, not_not, gt_iff_lt, not_lt,
      Nat.le_zero, not_true_eq_false, decide_False, Bool.false_and, and_true, true_or]
    constructor
    · intro h1
      exact ⟨h1, Or.inl (by omega)⟩
    · rintro ⟨h1, -⟩
      exact h1

/-- The loop of `find_standalone_substring`, started at an offset below
which there is no standalone occurrence and with enough rounds left, returns
the first standalone occurrence (as the code tests it) and the text after
it. -/
theorem find_standalone_substring_loop_spec (haystack needle : Str) (hn : needle ≠ [])
    (fuel off : Nat) (hfuel : haystack.length + 1 ≤ off + fuel)
    (hbelow : ∀ q < off, ¬ IsStandaloneForCode needle haystack q) :
    (∀ rem p, find_standalone_substring_loop haystack needle fuel off = some (rem, p) ↔
      (IsStandaloneForCode needle haystack p ∧
        (∀ q < p, ¬ IsStandaloneForCode needle haystack q) ∧
        rem = haystack.drop (p + needle.length))) ∧
    (find_standalone_substring_loop haystack needle fuel off = none ↔
      ∀ q, ¬ IsStandaloneForCode needle haystack q) := by
  induction fuel generalizing off with
  | zero =>
    have hall : ∀ q, ¬ IsStandaloneForCode needle haystack q := by
      intro q hq
      by_cases hlt : q < off
      · exact hbelow q hlt hq
      · have := lt_length_of_isPrefixOf_drop needle haystack q hn hq.1
        omega
    simp only [find_standalone_substring_loop, reduceCtorEq, false_iff, true_iff]
    exact ⟨fun rem p h => hall p h.1, hall⟩
  | succ fuel ih =>
    unfold find_standalone_substring_loop
    by_cases hoff : off < haystack.length
    · simp only [hoff, if_true]
      obtain ⟨hs1, hs2⟩ := sv_find_offset_spec haystack needle off (by omega)
      cases hfind : sv_find haystack needle off with
      | none =>
        have hnone := hs2.mp hfind
        have hall : ∀ q, ¬ IsStandaloneForCode needle haystack q := by
          intro q hq
          by_cases hlt : q < off
          · exact hbelow q hlt hq
          · have := lt_length_of_isPrefixOf_drop needle haystack q hn hq.1
            exact hnone q (by omega) (by omega) hq.1
        simp only [reduceCtorEq, false_iff, true_iff]
        exact ⟨fun rem p h => hall p h.1, hall⟩
      | some fp =>
        obtain ⟨hfp1, hfp2, hocc, hmin⟩ := (hs1 fp).mp hfind
        have hbelow' : ∀ q < fp, ¬ IsStandaloneForCode needle haystack q := by
          intro q hq hst
          by_cases hlt : q < off
          · exact hbelow q hlt hst
          · exact hmin q (by omega) hq hst.1
        simp only
        by_cases hchk : IsStandaloneForCode needle haystack fp
        · have hc := (standalone_check_iff haystack fp needle.length).mpr hchk.2
          simp only [hc, if_true, Option.some.injEq, Prod.mk.injEq, reduceCtorEq, false_iff,
            not_forall, not_not]
          refine ⟨fun rem p => ⟨fun ⟨h1, h2⟩ => ?_, fun ⟨h1, h2, h3⟩ => ?_⟩, ⟨fp, hchk⟩⟩
          · subst h1 h2
            exact ⟨hchk, hbelow', rfl⟩
          · have : p = fp := by
              rcases Nat.lt_trichotomy p fp with h | h | h
              · exact absurd h1 (hbelow' p h)
              · exact h
              · exact absurd hchk (h2 fp h)
            subst this
            exact ⟨h3.symm, rfl⟩
        · have hc : ¬ ((!(decide (fp > 0) && !isspace (haystack.getD (fp - 1) NUL)) &&
              !(decide ((if fp + needle.length < haystack.length then
                  haystack.getD (fp + needle.length) NUL else NUL) ≠ NUL) &&
                !isspace (if fp + needle.length < haystack.length then
                  haystack.getD (fp + needle.length) NUL else NUL))) = true) := by
            intro h
            exact hchk ⟨hocc, (standalone_check_iff haystack fp needle.length).mp h⟩
          simp only [hc, if_false]
          apply ih (fp + 1) (by omega)
          intro q hq
          by_cases hqf : q = fp
          · subst hqf
            exact hchk
          · exact hbelow' q (by omega)
    · have hall : ∀ q, ¬ IsStandaloneForCode needle haystack q := by
        intro q hq
        by_cases hlt : q < off
        · exact hbelow q hlt hq
        · have := lt_length_of_isPrefixOf_drop needle haystack q hn hq.1
          omega
      simp only [hoff, if_false, reduceCtorEq, false_iff, true_iff]
      exact ⟨fun rem p h => hall p h.1, hall⟩

/-- What `find_standalone_substring` returns for a non-empty needle: the
smallest position at which the needle occurs with whitespace (or the edge of
the haystack) before it and whitespace, the edge or a `'\0'` after it, with
the text right after that occurrence; not-found iff there is no such
position. -/
theorem find_standalone_substring_spec (haystack needle : Str) (hn : needle ≠ []) :
    (∀ rem p, find_standalone_substring haystack needle = some (rem, p) ↔
      (IsStandaloneForCode needle haystack p ∧
        (∀ q < p, ¬ IsStandaloneForCode needle haystack q) ∧
        rem = haystack.drop (p + needle.length))) ∧
    (find_standalone_substring haystack needle = none ↔
      ∀ q, ¬ IsStandaloneForCode needle haystack q) := by
  unfold find_standalone_substring
  simp only [hn, if_false]
  exact find_standalone_substring_loop_spec haystack needle hn _ 0 (by omega)
    (fun q hq => absurd hq (Nat.not_lt_zero q))

/-- In a haystack without the character `'\0'` the test of the code is the
standalone occurrence of the specification. -/
theorem isStandaloneForCode_iff_of_no_nul (needle haystack : Str) (p : Nat)
    (hnul : NUL ∉ haystack) :
    IsStandaloneForCode needle haystack p ↔ IsStandaloneOccurrence needle haystack p := by
  unfold IsStandaloneForCode IsStandaloneOccurrence
  constructor
  · rintro ⟨h1, h2, h3 | h3 | h3⟩
    · exact ⟨h1, h2, Or.inl h3⟩
    · by_cases hlen : haystack.length ≤ p + needle.length
      · exact ⟨h1, h2, Or.inl hlen⟩
      · exfalso
        apply hnul
        rw [← h3, List.getD_eq_getElem _ _ (by omega)]
        exact List.getElem_mem _
    · exact ⟨h1, h2, Or.inr h3⟩
  · rintro ⟨h1, h2, h3 | h3⟩
    · exact ⟨h1, h2, Or.inl h3⟩
    · exact ⟨h1, h2, Or.inr (Or.inr h3)⟩

/-- For a haystack without the character `'\0'`, `find_standalone_substring`
is as the specification has it: the smallest standalone occurrence and the
text after it, or not-found when there is none. -/
theorem find_standalone_substring_spec_of_no_nul (haystack needle : Str) (hn : needle ≠ [])
    (hnul : NUL ∉ haystack) :
    (∀ rem p, find_standalone_substring haystack needle = some (rem, p) ↔
      (IsStandaloneOccurrence needle haystack p ∧
        (∀ q < p, ¬ IsStandaloneOccurrence needle haystack q) ∧
        rem = haystack.drop (p + needle.length))) ∧
    (find_standalone_substring haystack needle = none ↔
      ∀ q, ¬ IsStandaloneOccurrence needle haystack q) := by
  obtain ⟨h1, h2⟩ := find_standalone_substring_spec haystack needle hn
  simp only [isStandaloneForCode_iff_of_no_nul needle haystack _ hnul] at h1 h2
  exact ⟨h1, h2⟩

/-- The `for` loop over the remaining keywords succeeds exactly when they
follow as whole words. -/
theorem match_keywords_rest_eq_some_iff (kws : List Str) (hne : ∀ kw ∈ kws, kw ≠ [])
    (segment out : Str) :
    match_keywords_rest kws segment = some out ↔ FollowsWords kws segment out := by
  induction kws generalizing segment with
  | nil => simp [match_keywords_rest, FollowsWords, eq_comm]
  | cons kw rest ih =>
    have hkw : kw ≠ [] := hne kw (List.mem_cons_self _ _)
    have ih' := ih (fun k hk => hne k (List.mem_cons_of_mem _ hk))
    simp only [match_keywords_rest, hkw, if_false, FollowsWords]
    by_cases hpre : kw.isPrefixOf segment = true
    · obtain ⟨r, hr⟩ := List.isPrefixOf_iff_prefix.mp hpre
      subst hr
      simp only [hpre, if_true, List.length_append, List.append_cancel_left_eq,
        List.drop_left, exists_eq_left']
      have hword : ((kw.length + r.length = kw.length ∨
          isspace ((kw ++ r).getD kw.length NUL) = true)) ↔
          (∀ c, r.head? = some c → isspace c = true) := by
        cases r with
        | nil => simp
        | cons a l =>
          rw [getD_append_length]
          simp
      by_cases hw : ∀ c, r.head? = some c → isspace c = true
      · rw [if_pos (hword.mpr hw), ih']
        exact ⟨fun h => ⟨hw, h⟩, fun h => h.2⟩
      · rw [if_neg (fun h => hw (hword.mp h))]
        exact ⟨fun h => by simp at h, fun h => absurd h.1 hw⟩
    · have hpre' : kw.isPrefixOf segment = false := Bool.eq_false_iff.mpr hpre
      simp only [hpre', Bool.false_eq_true, if_false, reduceCtorEq, false_iff, not_exists,
        not_and]
      rintro r rfl
      exact absurd (List.isPrefixOf_iff_prefix.mpr (List.prefix_append _ _)) hpre

/-- The character at an index of a suffix. -/
theorem getD_drop (l : Str) (m i : Nat) (d : Char) : (l.drop m).getD i d = l.getD (m + i) d := by
  simp [List.getD_eq_getElem?_getD, List.getElem?_drop]

/-- A standalone occurrence in the suffix that starts at `total` is a
standalone occurrence in the text, provided the suffix is the whole text or
the needle does not occur right at its start. -/
theorem isStandaloneOccurrence_drop_iff (text kw : Str) (total q : Nat)
    (htot : total ≤ text.length)
    (hinv : total = 0 ∨ ¬ kw.isPrefixOf (text.drop total) = true) :
    IsStandaloneOccurrence kw (text.drop total) q ↔
      IsStandaloneOccurrence kw text (total + q) := by
  unfold IsStandaloneOccurrence
  rw [List.drop_drop, List.length_drop, getD_drop, getD_drop]
  have hlen : (text.length - total ≤ q + kw.length) ↔ (text.length ≤ total + q + kw.length) := by
    omega
  have hidx : total + (q + kw.length) = total + q + kw.length := by omega
  rw [hlen, hidx]
  by_cases hq : q = 0
  · subst hq
    rcases hinv with h0 | hno
    · subst h0
      simp
    · simp only [Nat.add_zero]
      constructor
      · intro h
        exact absurd h.1 hno
      · intro h
        exact absurd h.1 hno
  · have h1 : total + (q - 1) = total + q - 1 := by omega
    rw [h1]
    have h2 : (q = 0 ∨ isspace (text.getD (total + q - 1) NUL) = true) ↔
        (total + q = 0 ∨ isspace (text.getD (total + q - 1) NUL) = true) := by
      constructor
      · rintro (h | h)
        · exact absurd h hq
        · exact Or.inr h
      · rintro (h | h)
        · omega
        · exact Or.inr h
    rw [h2]

/-- A whitespace-free needle that occurs standalone at `k` does not occur at
`k + 1`. -/
theorem not_isPrefixOf_drop_succ (text kw : Str) (k : Nat) (hne : kw ≠ [])
    (hws : ∀ c ∈ kw, isspace c = false)
    (h : IsStandaloneOccurrence kw text k) : ¬ kw.isPrefixOf (text.drop (k + 1)) = true := by
  intro h2
  obtain ⟨hocc, -, hafter⟩ := h
  obtain ⟨r₁, hr₁⟩ := List.isPrefixOf_iff_prefix.mp hocc
  obtain ⟨r₂, hr₂⟩ := List.isPrefixOf_iff_prefix.mp h2
  cases kw with
  | nil => exact absurd rfl hne
  | cons a l =>
    have htail : text.drop (k + 1) = (text.drop k).tail := by
      rw [← List.drop_one, List.drop_drop]
    rw [← hr₁] at htail
    simp only [List.cons_append, List.tail_cons] at htail
    rw [htail] at hr₂
    -- `l ++ r₁ = a :: l ++ r₂`
    have hlen := congrArg List.length hr₂
    simp only [List.cons_append, List.length_cons, List.length_append] at hlen
    cases r₁ with
    | nil => simp at hlen; omega
    | cons b r₁' =>
      have hb : isspace b = true := by
        rcases hafter with ha | ha
        · have hl := congrArg List.length hr₁
          simp only [List.cons_append, List.length_cons, List.length_append,
            List.length_drop] at hl
          simp only [List.length_cons] at ha
          omega
        · have : text.getD (k + (a :: l).length) NUL = b := by
            rw [← getD_drop, ← hr₁]
            exact getD_append_length (a :: l) r₁' b NUL
          rwa [this] at ha
      have hsplit : (a :: l) ++ r₂ = (l ++ [b]) ++ r₁' := by
        rw [hr₂]
        simp
      have hinj := List.append_inj_left hsplit (by simp)
      have hmem : b ∈ a :: l := by
        rw [hinj]
        simp
      have := hws b hmem
      rw [hb] at this
      exact absurd this (by decide)

/-- No keyword sequence is found at or beyond the end of the text. -/
theorem isSequenceAt_lt_length (text kw₁ : Str) (kws : List Str) (k : Nat) (out : Str)
    (hne : kw₁ ≠ []) (h : IsSequenceAt text kw₁ kws k out) : k < text.length :=
  lt_length_of_isPrefixOf_drop kw₁ text k hne h.1.1

/-- The loop of `find_keyword_sequence` on a text without `'\0'`, restarted in
the suffix at `total`: it returns the first position at which the whole
sequence is found, judged in the original text. -/
theorem find_keyword_sequence_loop_spec (text kw₁ : Str) (kws : List Str) (hne : kw₁ ≠ [])
    (hws : ∀ c ∈ kw₁, isspace c = false) (hkws : ∀ kw ∈ kws, kw ≠ []) (hnul : NUL ∉ text)
    (fuel total : Nat) (hfuel : text.length + 1 ≤ total + fuel) (htot : total ≤ text.length)
    (hinv : total = 0 ∨ ¬ kw₁.isPrefixOf (text.drop total) = true)
    (hbelow : ∀ j < total, ∀ out, ¬ IsSequenceAt text kw₁ kws j out) :
    (∀ before after,
      find_keyword_sequence_loop text kw₁ kws fuel (text.drop total) total
        = some (before, after) ↔
      ∃ k, IsSequenceAt text kw₁ kws k after ∧
        (∀ j < k, ∀ out, ¬ IsSequenceAt text kw₁ kws j out) ∧ before = text.take k) ∧
    (find_keyword_sequence_loop text kw₁ kws fuel (text.drop total) total = none ↔
      ∀ k out, ¬ IsSequenceAt text kw₁ kws k out) := by
  induction fuel generalizing total with
  | zero => omega
  | succ fuel ih =>
    -- consequences of "nothing is found anywhere"
    have hnone_of : (∀ k out, ¬ IsSequenceAt text kw₁ kws k out) →
        ((∀ before after, (none : Option (Str × Str)) = some (before, after) ↔
          ∃ k, IsSequenceAt text kw₁ kws k after ∧
            (∀ j < k, ∀ out, ¬ IsSequenceAt text kw₁ kws j out) ∧ before = text.take k) ∧
        ((none : Option (Str × Str)) = none ↔ ∀ k out, ¬ IsSequenceAt text kw₁ kws k out)) := by
      intro hall
      refine ⟨fun before after => ⟨fun h => by simp at h, fun ⟨k, hk, _⟩ => ?_⟩,
        ⟨fun _ => hall, fun _ => rfl⟩⟩
      exact absurd hk (hall k after)
    by_cases horigin : text.drop total = []
    · have hval : find_keyword_sequence_loop text kw₁ kws (fuel + 1) (text.drop total) total
          = none := by
        unfold find_keyword_sequence_loop
        rw [if_pos horigin]
      rw [hval]
      apply hnone_of
      intro k out hk
      have hlt := isSequenceAt_lt_length text kw₁ kws k out hne hk
      have hge : text.length ≤ total := List.drop_eq_nil_iff.mp horigin
      exact hbelow k (by omega) out hk
    · have hnul' : NUL ∉ text.drop total := fun hm => hnul (List.mem_of_mem_drop hm)
      obtain ⟨hf1, hf2⟩ := find_standalone_substring_spec_of_no_nul (text.drop total) kw₁ hne hnul'
      cases hfss : find_standalone_substring (text.drop total) kw₁ with
      | none =>
        have hval : find_keyword_sequence_loop text kw₁ kws (fuel + 1) (text.drop total) total
            = none := by
          unfold find_keyword_sequence_loop
          rw [if_neg horigin, hfss]
        rw [hval]
        apply hnone_of
        intro k out hk
        by_cases hlt : k < total
        · exact hbelow k hlt out hk
        · have hq := hf2.mp hfss (k - total)
          rw [isStandaloneOccurrence_drop_iff text kw₁ total _ htot hinv,
            show total + (k - total) = k by omega] at hq
          exact hq hk.1
      | some res =>
        obtain ⟨rem, p⟩ := res
        obtain ⟨hst, hmin, hrem⟩ := (hf1 rem p).mp hfss
        rw [isStandaloneOccurrence_drop_iff text kw₁ total _ htot hinv] at hst
        have hrem' : rem = text.drop (total + p + kw₁.length) := by
          rw [hrem, List.drop_drop]
          congr 1
          omega
        have hbelowK : ∀ j < total + p, ∀ out, ¬ IsSequenceAt text kw₁ kws j out := by
          intro j hj out hk
          by_cases hlt : j < total
          · exact hbelow j hlt out hk
          · have hq := hmin (j - total) (by omega)
            rw [isStandaloneOccurrence_drop_iff text kw₁ total _ htot hinv,
              show total + (j - total) = j by omega] at hq
            exact hq hk.1
        cases hm : match_keywords_rest kws (advance_past_whitespace rem) with
        | some out =>
          have hval : find_keyword_sequence_loop text kw₁ kws (fuel + 1) (text.drop total) total
              = some (text.take (total + p), out) := by
            unfold find_keyword_sequence_loop
            rw [if_neg horigin, hfss]
            simp only []
            rw [hm]
          rw [hval]
          have hseq : IsSequenceAt text kw₁ kws (total + p) out := by
            refine ⟨hst, ?_⟩
            rw [← hrem']
            exact (match_keywords_rest_eq_some_iff kws hkws _ out).mp hm
          refine ⟨fun before after => ⟨fun h => ?_, fun ⟨k, hk, hkmin, hbefore⟩ => ?_⟩,
            ⟨fun h => by simp at h, fun h => absurd hseq (h _ _)⟩⟩
          · simp only [Option.some.injEq, Prod.mk.injEq] at h
            obtain ⟨h1, h2⟩ := h
            subst h1 h2
            exact ⟨total + p, hseq, hbelowK, rfl⟩
          · have hkK : k = total + p := by
              rcases Nat.lt_trichotomy k (total + p) with h | h | h
              · exact absurd hk (hbelowK k h after)
              · exact h
              · exact absurd hseq (hkmin (total + p) h out)
            subst hkK
            have hfw := hk.2
            rw [← hrem'] at hfw
            have := (match_keywords_rest_eq_some_iff kws hkws _ after).mpr hfw
            rw [hm] at this
            simp only [Option.some.injEq] at this
            rw [hbefore, this]
        | none =>
          have hnoK : ∀ out, ¬ IsSequenceAt text kw₁ kws (total + p) out := by
            intro out hk
            have hfw := hk.2
            rw [← hrem'] at hfw
            have := (match_keywords_rest_eq_some_iff kws hkws _ out).mpr hfw
            rw [hm] at this
            exact absurd this (by simp)
          have hbelowK' : ∀ j < total + (p + 1), ∀ out, ¬ IsSequenceAt text kw₁ kws j out := by
            intro j hj out hk
            by_cases hjK : j = total + p
            · subst hjK
              exact hnoK out hk
            · exact hbelowK j (by omega) out hk
          have hol : (text.drop total).length = text.length - total := List.length_drop _ _
          by_cases hadv : p + 1 ≥ (text.drop total).length
          · have hval : find_keyword_sequence_loop text kw₁ kws (fuel + 1) (text.drop total) total
                = none := by
              unfold find_keyword_sequence_loop
              rw [if_neg horigin, hfss]
              simp only []
              rw [hm]
              simp only []
              rw [if_pos hadv]
            rw [hval]
            apply hnone_of
            intro k out hk
            have hlt := isSequenceAt_lt_length text kw₁ kws k out hne hk
            exact hbelowK' k (by omega) out hk
          · have hval : find_keyword_sequence_loop text kw₁ kws (fuel + 1) (text.drop total) total
                = find_keyword_sequence_loop text kw₁ kws fuel (text.drop (total + (p + 1)))
                    (total + (p + 1)) := by
              conv_lhs => unfold find_keyword_sequence_loop
              rw [if_neg horigin, hfss]
              simp only []
              rw [hm]
              simp only []
              rw [if_neg hadv, List.drop_drop]
            rw [hval]
            apply ih (total + (p + 1)) (by omega) (by omega) (Or.inr ?_) hbelowK'
            have := not_isPrefixOf_drop_succ text kw₁ (total + p) hne hws hst
            rwa [show total + p + 1 = total + (p + 1) by omega] at this

/-- For a text without the character `'\0'` and non-empty keywords, the first
one free of whitespace: `find_keyword_sequence` succeeds iff the sequence is
found at some position of the original text; it then uses the smallest such
position `k` and returns the text before `k` and the text after the last
keyword with leading whitespace skipped. -/
theorem find_keyword_sequence_spec_of_no_nul (text kw₁ : Str) (kws : List Str) (hne : kw₁ ≠ [])
    (hws : ∀ c ∈ kw₁, isspace c = false) (hkws : ∀ kw ∈ kws, kw ≠ []) (hnul : NUL ∉ text) :
    (∀ before after, find_keyword_sequence text (kw₁ :: kws) = some (before, after) ↔
      ∃ k, IsSequenceAt text kw₁ kws k after ∧
        (∀ j < k, ∀ out, ¬ IsSequenceAt text kw₁ kws j out) ∧ before = text.take k) ∧
    (find_keyword_sequence text (kw₁ :: kws) = none ↔
      ∀ k out, ¬ IsSequenceAt text kw₁ kws k out) := by
  have h := find_keyword_sequence_loop_spec text kw₁ kws hne hws hkws hnul (text.length + 1) 0
    (by omega) (Nat.zero_le _) (Or.inl rfl) (fun j hj => absurd hj (Nat.not_lt_zero j))
  unfold find_keyword_sequence
  simp only [hne, if_false]
  simpa using h

/-! ## Sorting and string order: theorems -/

/-- No string is smaller than itself. -/
theorem string_lt_irrefl (a : Str) : string_lt a a = false := by
  induction a with
  | nil => rfl
  | cons c cs ih => simp [string_lt, ih]

/-- The order of strings is asymmetric. -/
theorem string_lt_asymm (a b : Str) (h : string_lt a b = true) : string_lt b a = false := by
  induction a generalizing b with
  | nil =>
    cases b with
    | nil => rfl
    | cons d ds => rfl
  | cons c cs ih =>
    cases b with
    | nil => simp [string_lt] at h
    | cons d ds =>
      simp only [string_lt] at h ⊢
      by_cases h1 : c.toNat < d.toNat
      · have h2 : ¬ d.toNat < c.toNat := by omega
        simp [h1, h2]
      · by_cases h2 : d.toNat < c.toNat
        · simp [h1, h2] at h
        · simp only [h1, h2, if_false] at h ⊢
          exact ih ds h

/-- Two strings neither of which is smaller than the other are equal. -/
theorem string_lt_antisymm (a b : Str) (h1 : string_lt a b = false) (h2 : string_lt b a = false) :
    a = b := by
  induction a generalizing b with
  | nil =>
    cases b with
    | nil => rfl
    | cons d ds => simp [string_lt] at h1
  | cons c cs ih =>
    cases b with
    | nil => simp [string_lt] at h2
    | cons d ds =>
      simp only [string_lt] at h1 h2
      by_cases hc : c.toNat < d.toNat
      · simp [hc] at h1
      · by_cases hd : d.toNat < c.toNat
        · simp [hd] at h2
        · simp only [hc, hd, if_false] at h1 h2
          have heq : c = d := Char.ext (UInt32.ext (by
            have : c.toNat = d.toNat := by omega
            simpa [Char.toNat, UInt32.toNat] using this))
          rw [heq, ih ds h1 h2]

/-- The relation "not greater" is transitive on strings. -/
theorem string_lt_neg_trans (a b c : Str) (h1 : string_lt b a = false)
    (h2 : string_lt c b = false) : string_lt c a = false := by
  induction a generalizing b c with
  | nil =>
    cases c with
    | nil => rfl
    | cons z zs => rfl
  | cons x xs ih =>
    cases c with
    | nil =>
      cases b with
      | nil => simp [string_lt] at h1
      | cons y ys => simp [string_lt] at h2
    | cons z zs =>
      cases b with
      | nil => simp [string_lt] at h1
      | cons y ys =>
        simp only [string_lt] at h1 h2 ⊢
        by_cases hyx : y.toNat < x.toNat
        · simp [hyx] at h1
        · by_cases hxy : x.toNat < y.toNat
          · by_cases hzy : z.toNat < y.toNat
            · simp [hzy] at h2
            · have hzx : ¬ z.toNat < x.toNat := by omega
              have hxz : x.toNat < z.toNat := by omega
              simp [hzx, hxz]
          · simp only [hyx, hxy, if_false] at h1
            by_cases hzy : z.toNat < y.toNat
            · simp [hzy] at h2
            · by_cases hyz : y.toNat < z.toNat
              · have hzx : ¬ z.toNat < x.toNat := by omega
                have hxz : x.toNat < z.toNat := by omega
                simp [hzx, hxz]
              · simp only [hzy, hyz, if_false] at h2
                have hzx : ¬ z.toNat < x.toNat := by omega
                have hxz : ¬ x.toNat < z.toNat := by omega
                simp only [hzx, hxz, if_false]
                exact ih ys zs h1 h2

/-- Inserting an element keeps the elements. -/
theorem sort_insert_perm {α : Type} (comp : α → α → Bool) (x : α) (l : List α) :
    (sort_insert comp x l).Perm (x :: l) := by
  induction l with
  | nil => exact List.Perm.refl _
  | cons y ys ih =>
    simp only [sort_insert]
    split
    · exact List.Perm.refl _
    · exact (List.Perm.cons y ih).trans (List.Perm.swap x y ys)

/-- The sorted list is a permutation of the list. -/
theorem std_sort_perm {α : Type} (comp : α → α → Bool) (l : List α) :
    (std_sort comp l).Perm l := by
  induction l with
  | nil => exact List.Perm.refl _
  | cons x xs ih =>
    simp only [std_sort]
    exact (sort_insert_perm comp x _).trans (List.Perm.cons x ih)

/-- Inserting into a sorted list gives a sorted list, for a comparison that is
asymmetric and whose negation is transitive (a strict weak ordering). -/
theorem sort_insert_sorted {α : Type} (comp : α → α → Bool)
    (hasymm : ∀ a b, comp a b = true → comp b a = false)
    (htrans : ∀ a b c, comp b a = false → comp c b = false → comp c a = false)
    (x : α) (l : List α) (hl : l.Pairwise (fun a b => comp b a = false)) :
    (sort_insert comp x l).Pairwise (fun a b => comp b a = false) := by
  induction l with
  | nil => simp [sort_insert]
  | cons y ys ih =>
    rw [List.pairwise_cons] at hl
    simp only [sort_insert]
    by_cases hxy : comp x y = true
    · rw [if_pos hxy]
      refine List.pairwise_cons.mpr ⟨fun z hz => ?_, List.pairwise_cons.mpr hl⟩
      rcases List.mem_cons.mp hz with rfl | hz
      · exact hasymm _ _ hxy
      · exact htrans x y z (hasymm _ _ hxy) (hl.1 z hz)
    · rw [if_neg hxy]
      refine List.pairwise_cons.mpr ⟨fun z hz => ?_, ih hl.2⟩
      rcases List.mem_cons.mp ((sort_insert_perm comp x ys).subset hz) with rfl | hz
      · simpa using hxy
      · exact hl.1 z hz

/-- The sorted list is sorted: no element is smaller than an earlier one. -/
theorem std_sort_sorted {α : Type} (comp : α → α → Bool)
    (hasymm : ∀ a b, comp a b = true → comp b a = false)
    (htrans : ∀ a b c, comp b a = false → comp c b = false → comp c a = false)
    (l : List α) : (std_sort comp l).Pairwise (fun a b => comp b a = false) := by
  induction l with
  | nil => simp [std_sort]
  | cons x xs ih =>
    simp only [std_sort]
    exact sort_insert_sorted comp hasymm htrans x _ ih

/-- In a list sorted by `compareByName` the names ascend. -/
theorem std_sort_compareByName_sorted (l : List InventoryItem) :
    (std_sort InventoryItem.compareByName l).Pairwise
      (fun a b => string_lt b.name a.name = false) :=
  std_sort_sorted InventoryItem.compareByName
    (fun _ _ h => string_lt_asymm _ _ h)
    (fun _ _ _ h1 h2 => string_lt_neg_trans _ _ _ h1 h2) l

/-- In a list of effective items sorted by `compareByName` the names ascend. -/
theorem std_sort_effective_sorted (l : List EffectiveItem) :
    (std_sort EffectiveItem.compareByName l).Pairwise
      (fun a b => string_lt b.name a.name = false) :=
  std_sort_sorted EffectiveItem.compareByName
    (fun _ _ h => string_lt_asymm _ _ h)
    (fun _ _ _ h1 h2 => string_lt_neg_trans _ _ _ h1 h2) l

/-- What `compareForFormula b a = false` says: `a` has the greater quantity, or
the same quantity and a name that is not greater. -/
theorem compareForFormula_eq_false_iff (a b : IngredientRequirement) :
    IngredientRequirement.compareForFormula b a = false ↔
      (a.quantity > b.quantity ∨
        (a.quantity = b.quantity ∧ string_lt b.ingredient_name a.ingredient_name = false)) := by
  unfold IngredientRequirement.compareForFormula
  by_cases h : b.quantity = a.quantity
  · simp only [h, ne_eq, not_true_eq_false, if_false, gt_iff_lt, lt_self_iff_false, false_or,
      true_and]
  · simp only [ne_eq, h, not_false_eq_true, if_true, decide_eq_false_iff_not, gt_iff_lt]
    constructor
    · intro h1
      left
      omega
    · rintro (h1 | ⟨h1, _⟩)
      · omega
      · exact absurd h1.symm h

/-- In a list sorted by `compareForFormula` the quantities descend and, among
equal quantities, the names ascend. -/
theorem std_sort_compareForFormula_sorted (l : List IngredientRequirement) :
    (std_sort IngredientRequirement.compareForFormula l).Pairwise
      (fun a b => a.quantity > b.quantity ∨
        (a.quantity = b.quantity ∧ string_lt b.ingredient_name a.ingredient_name = false)) := by
  have h := std_sort_sorted IngredientRequirement.compareForFormula
    (fun a b h => by
      rw [compareForFormula_eq_false_iff]
      unfold IngredientRequirement.compareForFormula at h
      by_cases hq : a.quantity = b.quantity
      · simp only [hq, ne_eq, not_true_eq_false, if_false] at h
        exact Or.inr ⟨hq, string_lt_asymm _ _ h⟩
      · simp only [ne_eq, hq, not_false_eq_true, if_true, decide_eq_true_eq] at h
        left
        omega)
    (fun a b c h1 h2 => by
      rw [compareForFormula_eq_false_iff] at h1 h2 ⊢
      rcases h1 with h1 | ⟨h1, h1n⟩
      · rcases h2 with h2 | ⟨h2, _⟩
        · left; omega
        · left; omega
      · rcases h2 with h2 | ⟨h2, h2n⟩
        · left; omega
        · exact Or.inr ⟨by omega, string_lt_neg_trans _ _ _ h1n h2n⟩) l
  exact h.imp (fun {a b} hab => (compareForFormula_eq_false_iff a b).mp hab)

/-! ## Query handlers: theorems -/

/-- The joined line starts like its first piece. -/
theorem join_comma_head (piece : Str) (rest : List Str) (hne : piece ≠ []) :
    (join_comma (piece :: rest)).head? = piece.head? := by
  obtain ⟨c, cs, rfl⟩ := List.exists_cons_of_ne_nil hne
  cases rest with
  | nil => rfl
  | cons p ps => simp [join_comma]

/-- A positive `int` is written as its decimal digits. -/
theorem ostream_int_head (value : Int) (h : value > 0) :
    ∃ c, (ostream_int value).head? = some c ∧ isdigit c = true := by
  have hn : ¬ value < 0 := by omega
  obtain ⟨hne, hdig, -⟩ := decimal_facts value.toNat (by omega)
  unfold ostream_int
  rw [if_neg hn]
  obtain ⟨c, cs, hcs⟩ := List.exists_cons_of_ne_nil hne
  exact ⟨c, by rw [hcs]; rfl, hdig c (by rw [hcs]; exact List.mem_cons_self _ _)⟩

/-- What `printAllItemsInternal` writes: the message for an empty list when no
item has a positive quantity, otherwise one line listing exactly the items with
a positive quantity, as `qty name`, by ascending name. -/
theorem printAllItemsInternal_spec (items : List InventoryItem) (none_message : Str) :
    ((∀ item ∈ items, ¬ item.quantity > 0) →
      printAllItemsInternal items none_message = [none_message]) ∧
    ((∃ item ∈ items, item.quantity > 0) →
      ∃ listed : List InventoryItem, listed ≠ [] ∧
        listed.Perm (items.filter (fun item => decide (item.quantity > 0))) ∧
        listed.Pairwise (fun a b => string_lt b.name a.name = false) ∧
        printAllItemsInternal items none_message =
          [join_comma (listed.map (fun item => ostream_int item.quantity ++ ' ' :: item.name))]) := by
  constructor
  · intro h
    have hf : items.filter (fun item => decide (item.quantity > 0)) = [] := by
      rw [List.filter_eq_nil_iff]
      intro item hitem
      simpa using h item hitem
    unfold printAllItemsInternal
    simp only [hf, if_true]
  · rintro ⟨item, hitem, hq⟩
    have hf : items.filter (fun item => decide (item.quantity > 0)) ≠ [] := by
      intro hnil
      rw [List.filter_eq_nil_iff] at hnil
      exact hnil item hitem (by simpa using hq)
    have hperm := std_sort_perm InventoryItem.compareByName
      (items.filter (fun item => decide (item.quantity > 0)))
    refine ⟨std_sort InventoryItem.compareByName
      (items.filter (fun item => decide (item.quantity > 0))), ?_, hperm,
      std_sort_compareByName_sorted _, ?_⟩
    · intro hnil
      rw [hnil] at hperm
      exact hf (List.nil_perm.mp hperm)
    · unfold printAllItemsInternal
      simp only [hf, if_false]

/-- C28. `Inventory.listAll` (QueryTotalAll), for every inventory and
category: the output is `None` iff no entry of the category has a positive
quantity; otherwise it is one line that lists exactly the entries with a
positive quantity, each as `qty name`, joined by `, `, by ascending name in
the byte order of `std::string`.  The state is not changed. -/
theorem handleQueryTotalAll_spec (g : WitcherGame) (category : Category) :
    (handleQueryTotalAll g (.QUERY_TOTAL_ALL category.word)).1 = g ∧
    ((handleQueryTotalAll g (.QUERY_TOTAL_ALL category.word)).2 = ["None".toList] ↔
      ∀ item ∈ g.inventory_.items category, ¬ item.quantity > 0) ∧
    ((∃ item ∈ g.inventory_.items category, item.quantity > 0) →
      ∃ listed : List InventoryItem,
        listed.Perm ((g.inventory_.items category).filter
          (fun item => decide (item.quantity > 0))) ∧
        listed.Pairwise (fun a b => string_lt b.name a.name = false) ∧
        (handleQueryTotalAll g (.QUERY_TOTAL_ALL category.word)).2 =
          [join_comma (listed.map
            (fun item => ostream_int item.quantity ++ ' ' :: item.name))]) := by
  have hval : handleQueryTotalAll g (.QUERY_TOTAL_ALL category.word)
      = (g, printAllItemsInternal (g.inventory_.items category) "None".toList) := by
    cases category <;> rfl
  rw [hval]
  obtain ⟨hnone, hsome⟩ := printAllItemsInternal_spec (g.inventory_.items category) "None".toList
  refine ⟨rfl, ⟨fun hout => ?_, fun h => hnone h⟩, fun h => ?_⟩
  · by_contra hex
    push_neg at hex
    obtain ⟨item, hitem, hq⟩ := hex
    obtain ⟨listed, hne, hperm, -, hprint⟩ := hsome ⟨item, hitem, hq⟩
    simp only at hout
    rw [hprint] at hout
    obtain ⟨first, others, rfl⟩ := List.exists_cons_of_ne_nil hne
    have hfq : first.quantity > 0 := by
      have hmem : first ∈ (g.inventory_.items category).filter
          (fun item => decide (item.quantity > 0)) :=
        hperm.subset (List.mem_cons_self _ _)
      simpa using (List.mem_filter.mp hmem).2
    obtain ⟨c, hc, hdig⟩ := ostream_int_head first.quantity hfq
    have hpiece : ostream_int first.quantity ++ ' ' :: first.name ≠ [] := by simp
    have hhead := join_comma_head (ostream_int first.quantity ++ ' ' :: first.name)
      (others.map (fun item => ostream_int item.quantity ++ ' ' :: item.name)) hpiece
    have hline : join_comma ((first :: others).map
        (fun item => ostream_int item.quantity ++ ' ' :: item.name)) = "None".toList := by
      simpa using hout
    rw [List.map_cons, ] at hline
    rw [hline] at hhead
    have hc2 : (ostream_int first.quantity ++ ' ' :: first.name).head? = some c := by
      obtain ⟨d, ds, hds⟩ := List.exists_cons_of_ne_nil
        (show ostream_int first.quantity ≠ [] by intro hnil; rw [hnil] at hc; simp at hc)
      rw [hds] at hc ⊢
      simpa using hc
    rw [hc2] at hhead
    have : c = 'N' := by
      have h2 : ("None".toList).head? = some 'N' := rfl
      rw [h2] at hhead
      exact (Option.some.inj hhead).symm
    rw [this] at hdig
    exact absurd hdig (by decide)
  · obtain ⟨listed, -, hperm, hsorted, hprint⟩ := hsome h
    exact ⟨listed, hperm, hsorted, hprint⟩

/-- C27. QueryWhatIsIn, for a known formula (with the non-empty requirement
list every stored formula has): the output is one line that lists every stored
requirement exactly once, as `qty name`, joined by `, `, such that of any two
listed requirements the earlier has the strictly greater quantity, or the same
quantity and a name that is not greater.  For an unknown potion the output is
`No formula for <name>`.  The state is not changed. -/
theorem handleQueryWhatIsIn_spec (g : WitcherGame) (potion_name : Str) :
    (∀ formula, g.alchemy_base_.findFormula potion_name = some formula →
      formula.requirements ≠ [] →
      ∃ listed : List IngredientRequirement,
        listed.Perm formula.requirements ∧
        listed.Pairwise (fun a b => a.quantity > b.quantity ∨
          (a.quantity = b.quantity ∧
            string_lt b.ingredient_name a.ingredient_name = false)) ∧
        handleQueryWhatIsIn g (.QUERY_WHAT_IS_IN potion_name) =
          (g, [join_comma (listed.map
            (fun req => ostream_int req.quantity ++ ' ' :: req.ingredient_name))])) ∧
    (g.alchemy_base_.findFormula potion_name = none →
      handleQueryWhatIsIn g (.QUERY_WHAT_IS_IN potion_name) =
        (g, ["No formula for ".toList ++ potion_name])) := by
  constructor
  · intro formula hfind hne
    refine ⟨std_sort IngredientRequirement.compareForFormula formula.requirements,
      std_sort_perm _ _, std_sort_compareForFormula_sorted _, ?_⟩
    unfold handleQueryWhatIsIn AlchemyBase.printFormulaForPotion PotionFormula.print
    simp only [hfind, hne, if_false]
  · intro hnone
    unfold handleQueryWhatIsIn AlchemyBase.printFormulaForPotion
    simp only [hnone]

/-- Witness of C27: with the formula `Swallow` of `1 Vitriol, 2 Rebis`, the
query lists a permutation of the two requirements in the stated order; the
potion `Cat` is unknown. -/
theorem handleQueryWhatIsIn_spec_witness :
    (∃ listed : List IngredientRequirement,
      listed.Perm [⟨"Vitriol".toList, 1⟩, ⟨"Rebis".toList, 2⟩] ∧
      listed.Pairwise (fun a b => a.quantity > b.quantity ∨
        (a.quantity = b.quantity ∧
          string_lt b.ingredient_name a.ingredient_name = false)) ∧
      handleQueryWhatIsIn
          ⟨⟨[], [], []⟩,
            ⟨[⟨"Swallow".toList, [⟨"Vitriol".toList, 1⟩, ⟨"Rebis".toList, 2⟩]⟩]⟩, ⟨[]⟩⟩
          (.QUERY_WHAT_IS_IN "Swallow".toList) =
        (⟨⟨[], [], []⟩,
            ⟨[⟨"Swallow".toList, [⟨"Vitriol".toList, 1⟩, ⟨"Rebis".toList, 2⟩]⟩]⟩, ⟨[]⟩⟩,
          [join_comma (listed.map
            (fun req => ostream_int req.quantity ++ ' ' :: req.ingredient_name))])) ∧
    handleQueryWhatIsIn
        ⟨⟨[], [], []⟩,
          ⟨[⟨"Swallow".toList, [⟨"Vitriol".toList, 1⟩, ⟨"Rebis".toList, 2⟩]⟩]⟩, ⟨[]⟩⟩
        (.QUERY_WHAT_IS_IN "Cat".toList) =
      (⟨⟨[], [], []⟩,
          ⟨[⟨"Swallow".toList, [⟨"Vitriol".toList, 1⟩, ⟨"Rebis".toList, 2⟩]⟩]⟩, ⟨[]⟩⟩,
        ["No formula for ".toList ++ "Cat".toList]) :=
  ⟨(handleQueryWhatIsIn_spec
      ⟨⟨[], [], []⟩,
        ⟨[⟨"Swallow".toList, [⟨"Vitriol".toList, 1⟩, ⟨"Rebis".toList, 2⟩]⟩]⟩, ⟨[]⟩⟩
      "Swallow".toList).1
      ⟨"Swallow".toList, [⟨"Vitriol".toList, 1⟩, ⟨"Rebis".toList, 2⟩]⟩ (by decide) (by decide),
   (handleQueryWhatIsIn_spec
      ⟨⟨[], [], []⟩,
        ⟨[⟨"Swallow".toList, [⟨"Vitriol".toList, 1⟩, ⟨"Rebis".toList, 2⟩]⟩]⟩, ⟨[]⟩⟩
      "Cat".toList).2 (by decide)⟩

/-- The order in which the sorted formula of the witness is printed: the
greater quantity first. -/
theorem std_sort_compareForFormula_example :
    std_sort IngredientRequirement.compareForFormula
        [⟨"Vitriol".toList, 1⟩, ⟨"Rebis".toList, 2⟩, ⟨"Aether".toList, 1⟩]
      = [⟨"Rebis".toList, 2⟩, ⟨"Aether".toList, 1⟩, ⟨"Vitriol".toList, 1⟩] := by
  decide

/-- C29, as the code has it. QueryEffectiveAgainst, for every bestiary and
monster name: if the monster has no entry or its entry has no effective items
the output is `No knowledge of <monster>`; otherwise the output is one line
with the names of all effective items recorded for the monster, each exactly
once, joined by `, `, by ascending name regardless of kind.  The state is not
changed. -/
theorem handleQueryEffectiveAgainst_spec (g : WitcherGame) (monster_name : Str) :
    (handleQueryEffectiveAgainst g (.QUERY_EFFECTIVE_AGAINST monster_name)).1 = g ∧
    ((g.bestiary_.findEntry monster_name = none ∨
        ∃ entry, g.bestiary_.findEntry monster_name = some entry ∧ entry.effective_items = []) →
      (handleQueryEffectiveAgainst g (.QUERY_EFFECTIVE_AGAINST monster_name)).2 =
        ["No knowledge of ".toList ++ monster_name]) ∧
    (∀ entry, g.bestiary_.findEntry monster_name = some entry → entry.effective_items ≠ [] →
      ∃ listed : List EffectiveItem,
        listed.Perm entry.effective_items ∧
        listed.Pairwise (fun a b => string_lt b.name a.name = false) ∧
        (handleQueryEffectiveAgainst g (.QUERY_EFFECTIVE_AGAINST monster_name)).2 =
          [join_comma (listed.map (fun eff_item => eff_item.name))]) := by
  refine ⟨rfl, ?_, ?_⟩
  · rintro (hnone | ⟨entry, hsome, hempty⟩)
    · unfold handleQueryEffectiveAgainst Bestiary.printEffectivenessForMonster
      simp only [hnone]
    · unfold handleQueryEffectiveAgainst Bestiary.printEffectivenessForMonster
      simp only [hsome, hempty, ne_eq, not_true_eq_false, if_false]
  · intro entry hsome hne
    refine ⟨std_sort EffectiveItem.compareByName entry.effective_items,
      std_sort_perm _ _, std_sort_effective_sorted _, ?_⟩
    unfold handleQueryEffectiveAgainst Bestiary.printEffectivenessForMonster
      BestiaryEntry.printEffectiveness
    simp only [hsome, hne, ne_eq, not_false_eq_true, if_true, if_false]

/-- C29, counterexample. After `Geralt learns No knowledge of Wolf potion is
effective against Wolf` the monster `Wolf` has an entry with one effective
item, and `What is effective against Wolf?` prints that item's name, which is
the line `No knowledge of Wolf`. -/
theorem handleQueryEffectiveAgainst_name_is_no_knowledge :
    WitcherGame.run
        ["Geralt learns No knowledge of Wolf potion is effective against Wolf".toList,
         "What is effective against Wolf?".toList]
      = (⟨⟨[], [], []⟩, ⟨[]⟩,
          ⟨[⟨"Wolf".toList, [⟨"No knowledge of Wolf".toList, .POTION⟩]⟩]⟩⟩,
         ["New bestiary entry added: Wolf".toList, "No knowledge of Wolf".toList]) ∧
    "No knowledge of Wolf".toList = "No knowledge of ".toList ++ "Wolf".toList := by
  decide

/-! ## Inventory reads after writes -/

/-- What `findItemInternal` finds after a write through the pointer. -/
theorem findItemInternal_writeItemInternal (items : List InventoryItem) (name : Str)
    (f : Int → Int) (n : Str) :
    findItemInternal (writeItemInternal items name f) n =
      if n = name then
        (findItemInternal items name).map (fun e => ⟨e.name, f e.quantity⟩)
      else findItemInternal items n := by
  induction items with
  | nil => simp [writeItemInternal, findItemInternal]
  | cons item rest ih =>
    by_cases hn : item.name = name
    · by_cases hnn : n = name
      · subst hnn
        simp [writeItemInternal, findItemInternal, hn]
      · have hin : ¬ item.name = n := fun h => hnn (h.symm.trans hn)
        have hin2 : ¬ name = n := fun h => hnn h.symm
        simp [writeItemInternal, findItemInternal, hn, hnn, hin2]
    · by_cases hin : item.name = n
      · have hnn : ¬ n = name := fun h => hn (hin.trans h)
        simp [writeItemInternal, findItemInternal, hn, hnn, hin]
      · simp only [writeItemInternal, findItemInternal, hn, hin, if_false, ih]

/-- A write changes no name. -/
theorem writeItemInternal_map_name (items : List InventoryItem) (name : Str) (f : Int → Int) :
    (writeItemInternal items name f).map (fun item => item.name)
      = items.map (fun item => item.name) := by
  induction items with
  | nil => rfl
  | cons item rest ih =>
    by_cases hn : item.name = name
    · simp [writeItemInternal, hn]
    · simp [writeItemInternal, hn, ih]

/-- The quantity of another name is not changed by a write. -/
theorem getItemQuantityInternal_write_other (items : List InventoryItem) (name : Str)
    (f : Int → Int) (n : Str) (h : n ≠ name) :
    getItemQuantityInternal (writeItemInternal items name f) n
      = getItemQuantityInternal items n := by
  unfold getItemQuantityInternal
  rw [findItemInternal_writeItemInternal, if_neg h]

/-- The quantity of the written name after a write. -/
theorem getItemQuantityInternal_write_same (items : List InventoryItem) (name : Str)
    (f : Int → Int) (e : InventoryItem) (h : findItemInternal items name = some e) :
    getItemQuantityInternal (writeItemInternal items name f) name = f e.quantity := by
  unfold getItemQuantityInternal
  rw [findItemInternal_writeItemInternal, if_pos rfl, h]
  rfl

/-- `findItemInternal` in a vector with one more item at the end. -/
theorem findItemInternal_append_singleton (items : List InventoryItem) (x : InventoryItem)
    (n : Str) :
    findItemInternal (items ++ [x]) n =
      match findItemInternal items n with
      | some e => some e
      | none => if x.name = n then some x else none := by
  induction items with
  | nil => simp [findItemInternal]
  | cons item rest ih =>
    by_cases hin : item.name = n
    · simp [findItemInternal, hin]
    · simp only [List.cons_append, findItemInternal, hin, if_false]
      exact ih

/-- The quantity of another name is not changed by `addOrUpdateItemInternal`. -/
theorem getItemQuantityInternal_addOrUpdate_other (items : List InventoryItem) (name : Str)
    (qc : Int) (n : Str) (h : n ≠ name) :
    getItemQuantityInternal (addOrUpdateItemInternal items name qc) n
      = getItemQuantityInternal items n := by
  unfold addOrUpdateItemInternal
  cases hfind : findItemInternal items name with
  | some e =>
    simp only []
    exact getItemQuantityInternal_write_other _ _ _ _ h
  | none =>
    simp only []
    split
    · unfold getItemQuantityInternal
      rw [findItemInternal_append_singleton]
      have hne : ¬ name = n := fun h2 => h h2.symm
      cases findItemInternal items n with
      | some e => rfl
      | none => simp [hne]
    · rfl

/-- The quantity of the credited name after `addOrUpdateItemInternal` with a
positive quantity, when the sum stays in the range of `int` and the name is
present or the vector has room. -/
theorem getItemQuantityInternal_addOrUpdate_same (items : List InventoryItem) (name : Str)
    (qc : Int) (hq : 1 ≤ qc) (h0 : 0 ≤ getItemQuantityInternal items name)
    (hsum : getItemQuantityInternal items name + qc ≤ INT_MAX)
    (hroom : (findItemInternal items name).isSome = true ∨ items.length < 128) :
    getItemQuantityInternal (addOrUpdateItemInternal items name qc) name
      = getItemQuantityInternal items name + qc := by
  unfold addOrUpdateItemInternal
  cases hfind : findItemInternal items name with
  | some e =>
    have hget : getItemQuantityInternal items name = e.quantity := by
      unfold getItemQuantityInternal
      rw [hfind]
    rw [hget] at h0 hsum ⊢
    simp only []
    rw [getItemQuantityInternal_write_same _ _ _ e hfind]
    have hw : wrapInt32 (e.quantity + qc) = e.quantity + qc :=
      wrapInt32_of_range _ (by omega) hsum
    have hnn : ¬ (e.quantity + qc < 0) := by omega
    simp only [hw, hnn, if_false]
  | none =>
    have hget : getItemQuantityInternal items name = 0 := by
      unfold getItemQuantityInternal
      rw [hfind]
    have hlen : items.length < 128 := by
      rcases hroom with h | h
      · rw [hfind] at h
        simp at h
      · exact h
    have hc : qc > 0 ∧ items.length < GameConstants.MAX_ITEMS :=
      ⟨by omega, by simpa [GameConstants.MAX_ITEMS] using hlen⟩
    simp only []
    rw [if_pos hc, hget]
    unfold getItemQuantityInternal
    rw [findItemInternal_append_singleton, hfind]
    simp

/-- A use of a positive quantity that is held succeeds and writes the
difference. -/
theorem useItemInternal_success (items : List InventoryItem) (name : Str) (k : Int)
    (e : InventoryItem) (hk : 0 < k) (hfind : findItemInternal items name = some e)
    (hq : k ≤ e.quantity) :
    useItemInternal items name k = (writeItemInternal items name (fun q => q - k), true) := by
  unfold useItemInternal
  have h1 : ¬ k ≤ 0 := by omega
  have h2 : e.quantity ≥ k := hq
  simp only [h1, if_false, hfind, h2, if_true]

/-- A positive held quantity belongs to an item that is found. -/
theorem findItemInternal_of_pos (items : List InventoryItem) (name : Str)
    (h : 0 < getItemQuantityInternal items name) :
    ∃ e, findItemInternal items name = some e ∧ e.quantity = getItemQuantityInternal items name := by
  unfold getItemQuantityInternal at h ⊢
  cases hfind : findItemInternal items name with
  | some e => exact ⟨e, rfl, rfl⟩
  | none =>
    rw [hfind] at h
    simp at h

/-! ## Encounter: theorems -/

/-- The first loop of `handleEncounter` finds a Sign iff one is recorded. -/
theorem encounter_sign_iff (entry : BestiaryEntry) :
    encounter_sign entry = true ↔ ∃ eff_item ∈ entry.effective_items, eff_item.type = .SIGN := by
  unfold encounter_sign
  simp only [List.any_eq_true, decide_eq_true_eq]

/-- The second loop of `handleEncounter` stops at the first recorded Potion
that is held. -/
theorem encounter_potion_eq_some_iff (inv : Inventory) (entry : BestiaryEntry)
    (p : EffectiveItem) :
    encounter_potion inv entry = some p ↔
      ∃ pre post, entry.effective_items = pre ++ p :: post ∧
        (p.type = .POTION ∧ inv.getPotionQuantity p.name > 0) ∧
        ∀ x ∈ pre, ¬ (x.type = .POTION ∧ inv.getPotionQuantity x.name > 0) := by
  unfold encounter_potion
  rw [List.find?_eq_some]
  constructor
  · rintro ⟨hp, pre, post, hsplit, hpre⟩
    simp only [Bool.and_eq_true, decide_eq_true_eq] at hp
    refine ⟨pre, post, hsplit, hp, fun x hx hx2 => ?_⟩
    have := hpre x hx
    simp [hx2.1, hx2.2] at this
  · rintro ⟨pre, post, hsplit, hp, hpre⟩
    refine ⟨by simpa using hp, pre, post, hsplit, fun x hx => ?_⟩
    have := hpre x hx
    by_cases h1 : x.type = .POTION
    · by_cases h2 : inv.getPotionQuantity x.name > 0
      · exact absurd ⟨h1, h2⟩ this
      · simp [h2]
    · simp [h1]

/-- The second loop of `handleEncounter` finds nothing iff no recorded Potion
is held. -/
theorem encounter_potion_eq_none_iff (inv : Inventory) (entry : BestiaryEntry) :
    encounter_potion inv entry = none ↔
      ∀ x ∈ entry.effective_items, ¬ (x.type = .POTION ∧ inv.getPotionQuantity x.name > 0) := by
  unfold encounter_potion
  rw [List.find?_eq_none]
  simp only [Bool.and_eq_true, decide_eq_true_eq]

/-- An encounter with a monster that has no entry is lost. -/
theorem handleEncounter_no_entry (g : WitcherGame) (monster_name : Str)
    (h : g.bestiary_.findEntry monster_name = none) :
    handleEncounter g (.ENCOUNTER monster_name)
      = (g, ["Geralt is unprepared and barely escapes with his life".toList]) := by
  unfold handleEncounter
  simp [h]

/-- An encounter with a monster for which a Sign is recorded. -/
theorem handleEncounter_sign (g : WitcherGame) (monster_name : Str) (entry : BestiaryEntry)
    (h : g.bestiary_.findEntry monster_name = some entry) (hs : encounter_sign entry = true) :
    handleEncounter g (.ENCOUNTER monster_name)
      = ({ g with inventory_ := g.inventory_.addTrophy monster_name 1 },
          ["Geralt defeats ".toList ++ monster_name]) := by
  unfold handleEncounter
  simp [h, hs]

/-- An encounter with a monster for which no Sign is recorded and no recorded
Potion is held is lost. -/
theorem handleEncounter_nothing (g : WitcherGame) (monster_name : Str) (entry : BestiaryEntry)
    (h : g.bestiary_.findEntry monster_name = some entry) (hs : encounter_sign entry = false)
    (hp : encounter_potion g.inventory_ entry = none) :
    handleEncounter g (.ENCOUNTER monster_name)
      = (g, ["Geralt is unprepared and barely escapes with his life".toList]) := by
  unfold handleEncounter
  simp [h, hs, hp]

/-- An encounter won with a held Potion `p`: one unit of it is used, which
succeeds. -/
theorem handleEncounter_potion (g : WitcherGame) (monster_name : Str) (entry : BestiaryEntry)
    (p : EffectiveItem)
    (h : g.bestiary_.findEntry monster_name = some entry) (hs : encounter_sign entry = false)
    (hp : encounter_potion g.inventory_ entry = some p) :
    handleEncounter g (.ENCOUNTER monster_name)
      = ({ g with inventory_ :=
            (if p.name ≠ [] then
              { g.inventory_ with potions_ :=
                  writeItemInternal g.inventory_.potions_ p.name (fun q => q - 1) }
             else g.inventory_).addTrophy monster_name 1 },
          ["Geralt defeats ".toList ++ monster_name]) := by
  obtain ⟨-, -, -, ⟨-, hq⟩, -⟩ := (encounter_potion_eq_some_iff _ _ _).mp hp
  obtain ⟨e, hfind, hqe⟩ := findItemInternal_of_pos g.inventory_.potions_ p.name hq
  have huse := useItemInternal_success g.inventory_.potions_ p.name 1 e (by decide) hfind
    (by
      unfold Inventory.getPotionQuantity at hq
      omega)
  unfold handleEncounter
  by_cases hn : p.name = []
  · simp [h, hs, hp, hn]
  · simp [h, hs, hp, hn, Inventory.usePotion, huse]

/-- The line of a won encounter is not the line of a lost one. -/
theorem defeats_ne_unprepared (monster_name : Str) :
    "Geralt defeats ".toList ++ monster_name
      ≠ "Geralt is unprepared and barely escapes with his life".toList := by
  intro h
  have := congrArg (fun s => s.getD 7 'x') h
  simp at this

/-- The code's test for a won encounter is the specification's. -/
theorem encounterWins_iff (g : WitcherGame) (monster_name : Str) :
    EncounterWins g monster_name ↔
      ∃ entry, g.bestiary_.findEntry monster_name = some entry ∧
        (encounter_sign entry = true ∨ (encounter_potion g.inventory_ entry).isSome = true) := by
  unfold EncounterWins
  constructor
  · rintro ⟨entry, he, hs | ⟨x, hx, hxp⟩⟩
    · exact ⟨entry, he, Or.inl ((encounter_sign_iff entry).mpr hs)⟩
    · refine ⟨entry, he, Or.inr ?_⟩
      cases hp : encounter_potion g.inventory_ entry with
      | some p => rfl
      | none => exact absurd hxp ((encounter_potion_eq_none_iff _ _).mp hp x hx)
  · rintro ⟨entry, he, hs | hp⟩
    · exact ⟨entry, he, Or.inl ((encounter_sign_iff entry).mp hs)⟩
    · cases hp2 : encounter_potion g.inventory_ entry with
      | none =>
        rw [hp2] at hp
        simp at hp
      | some p =>
        obtain ⟨pre, post, hsplit, hpp, -⟩ := (encounter_potion_eq_some_iff _ _ _).mp hp2
        exact ⟨entry, he, Or.inr ⟨p, by rw [hsplit]; simp, hpp⟩⟩

/-- C22. Encounter outcome, for every state and monster name:
`handleEncounter` prints `Geralt defeats <monster>` iff the monster has a
bestiary entry that records at least one Sign, or records at least one Potion
whose held quantity is positive; otherwise it prints
`Geralt is unprepared and barely escapes with his life` and the whole state is
unchanged. -/
theorem handleEncounter_outcome (g : WitcherGame) (monster_name : Str) :
    ((handleEncounter g (.ENCOUNTER monster_name)).2
        = ["Geralt defeats ".toList ++ monster_name] ↔ EncounterWins g monster_name) ∧
    (¬ EncounterWins g monster_name →
      handleEncounter g (.ENCOUNTER monster_name)
        = (g, ["Geralt is unprepared and barely escapes with his life".toList])) := by
  have hlost : ∀ out : WitcherGame × List Str,
      out = (g, ["Geralt is unprepared and barely escapes with his life".toList]) →
      out.2 ≠ ["Geralt defeats ".toList ++ monster_name] := by
    rintro out rfl h
    simp only [List.cons.injEq, and_true] at h
    exact defeats_ne_unprepared monster_name h.symm
  rw [encounterWins_iff]
  cases he : g.bestiary_.findEntry monster_name with
  | none =>
    have hv := handleEncounter_no_entry g monster_name he
    refine ⟨⟨fun h => absurd h (hlost _ hv), fun ⟨entry, h, _⟩ => by simp at h⟩,
      fun _ => hv⟩
  | some entry =>
    cases hs : encounter_sign entry with
    | true =>
      have hv := handleEncounter_sign g monster_name entry he hs
      refine ⟨⟨fun _ => ⟨entry, rfl, Or.inl hs⟩, fun _ => by rw [hv]⟩, fun hn => ?_⟩
      exact absurd ⟨entry, rfl, Or.inl hs⟩ hn
    | false =>
      cases hp : encounter_potion g.inventory_ entry with
      | some p =>
        have hv := handleEncounter_potion g monster_name entry p he hs hp
        refine ⟨⟨fun _ => ⟨entry, rfl, Or.inr (by rw [hp]; rfl)⟩, fun _ => by rw [hv]⟩, fun hn => ?_⟩
        exact absurd ⟨entry, rfl, Or.inr (by rw [hp]; rfl)⟩ hn
      | none =>
        have hv := handleEncounter_nothing g monster_name entry he hs hp
        refine ⟨⟨fun h => absurd h (hlost _ hv), ?_⟩, fun _ => hv⟩
        rintro ⟨entry2, h2, hs2 | hp2⟩
        · simp only [Option.some.injEq] at h2
          subst h2
          rw [hs] at hs2
          simp at hs2
        · simp only [Option.some.injEq] at h2
          subst h2
          rw [hp] at hp2
          simp at hp2

/-- C23. Encounter win effects, for a monster with the bestiary entry `entry`
whose item names are non-empty (as every Name is).  If the entry records a Sign
the potions are unchanged, even when an effective potion is held.  Otherwise,
when `p` is the first Potion in the entry's order whose held quantity is
positive, exactly one unit of `p` is consumed and no other potion entry
changes.  In both cases ingredients, formulas and bestiary are unchanged, the
trophy quantities of other names are unchanged, and the trophy quantity named
after the monster grows by exactly 1, given that the trophy entry exists or the
trophy category holds fewer than 128 entries and that the count is
non-negative and below 2147483647. -/
theorem handleEncounter_win_effects (g : WitcherGame) (monster_name : Str)
    (entry : BestiaryEntry)
    (hentry : g.bestiary_.findEntry monster_name = some entry)
    (hnames : ∀ eff_item ∈ entry.effective_items, eff_item.name ≠ []) :
    ((∃ eff_item ∈ entry.effective_items, eff_item.type = .SIGN) →
      (handleEncounter g (.ENCOUNTER monster_name)).1.inventory_.potions_
        = g.inventory_.potions_) ∧
    ((∀ eff_item ∈ entry.effective_items, eff_item.type ≠ .SIGN) →
      ∀ pre p post, entry.effective_items = pre ++ p :: post →
        p.type = .POTION → g.inventory_.getPotionQuantity p.name > 0 →
        (∀ x ∈ pre, ¬ (x.type = .POTION ∧ g.inventory_.getPotionQuantity x.name > 0)) →
        ∃ before e after, g.inventory_.potions_ = before ++ e :: after ∧
          e.name = p.name ∧ (∀ x ∈ before, x.name ≠ p.name) ∧
          (handleEncounter g (.ENCOUNTER monster_name)).1.inventory_.potions_
            = before ++ ⟨e.name, e.quantity - 1⟩ :: after) ∧
    (EncounterWins g monster_name →
      (handleEncounter g (.ENCOUNTER monster_name)).1.inventory_.ingredients_
        = g.inventory_.ingredients_ ∧
      (handleEncounter g (.ENCOUNTER monster_name)).1.alchemy_base_ = g.alchemy_base_ ∧
      (handleEncounter g (.ENCOUNTER monster_name)).1.bestiary_ = g.bestiary_ ∧
      (∀ n, n ≠ monster_name →
        (handleEncounter g (.ENCOUNTER monster_name)).1.inventory_.getTrophyQuantity n
          = g.inventory_.getTrophyQuantity n) ∧
      (((findItemInternal g.inventory_.trophies_ monster_name).isSome = true ∨
          g.inventory_.trophies_.length < 128) →
        0 ≤ g.inventory_.getTrophyQuantity monster_name →
        g.inventory_.getTrophyQuantity monster_name < 2147483647 →
        (handleEncounter g (.ENCOUNTER monster_name)).1.inventory_.getTrophyQuantity
            monster_name
          = g.inventory_.getTrophyQuantity monster_name + 1)) := by
  -- the trophy credit, for any inventory with the trophies of `g`
  have htrophy : ∀ inv : Inventory, inv.trophies_ = g.inventory_.trophies_ →
      (∀ n, n ≠ monster_name →
        (inv.addTrophy monster_name 1).getTrophyQuantity n
          = g.inventory_.getTrophyQuantity n) ∧
      (((findItemInternal g.inventory_.trophies_ monster_name).isSome = true ∨
          g.inventory_.trophies_.length < 128) →
        0 ≤ g.inventory_.getTrophyQuantity monster_name →
        g.inventory_.getTrophyQuantity monster_name < 2147483647 →
        (inv.addTrophy monster_name 1).getTrophyQuantity monster_name
          = g.inventory_.getTrophyQuantity monster_name + 1) := by
    intro inv hinv
    unfold Inventory.addTrophy Inventory.getTrophyQuantity
    simp only [hinv]
    refine ⟨fun n hn => getItemQuantityInternal_addOrUpdate_other _ _ _ _ hn,
      fun hroom h0 hmax => ?_⟩
    unfold Inventory.getTrophyQuantity at h0 hmax
    exact getItemQuantityInternal_addOrUpdate_same _ _ 1 (by decide) h0
      (by unfold INT_MAX; omega) hroom
  cases hs : encounter_sign entry with
  | true =>
    have hv := handleEncounter_sign g monster_name entry hentry hs
    have hsign := (encounter_sign_iff entry).mp hs
    refine ⟨fun _ => by rw [hv]; rfl, fun hno => ?_, fun _ => ?_⟩
    · obtain ⟨x, hx, hxs⟩ := hsign
      exact absurd hxs (hno x hx)
    · rw [hv]
      exact ⟨rfl, rfl, rfl, htrophy g.inventory_ rfl⟩
  | false =>
    have hnosign : ¬ ∃ eff_item ∈ entry.effective_items, eff_item.type = .SIGN := by
      intro h
      have := (encounter_sign_iff entry).mpr h
      rw [hs] at this
      simp at this
    cases hp : encounter_potion g.inventory_ entry with
    | none =>
      have hnone := (encounter_potion_eq_none_iff _ _).mp hp
      refine ⟨fun h => absurd h hnosign, fun _ pre p post hsplit hpt hpq _ => ?_, fun hwin => ?_⟩
      · exact absurd ⟨hpt, hpq⟩ (hnone p (by rw [hsplit]; simp))
      · exfalso
        obtain ⟨entry2, h2, hs2 | hp2⟩ := (encounterWins_iff g monster_name).mp hwin
        · rw [hentry] at h2
          simp only [Option.some.injEq] at h2
          subst h2
          rw [hs] at hs2
          simp at hs2
        · rw [hentry] at h2
          simp only [Option.some.injEq] at h2
          subst h2
          rw [hp] at hp2
          simp at hp2
    | some p₀ =>
      have hv := handleEncounter_potion g monster_name entry p₀ hentry hs hp
      obtain ⟨pre₀, post₀, hsplit₀, ⟨hpt₀, hpq₀⟩, hpre₀⟩ :=
        (encounter_potion_eq_some_iff _ _ _).mp hp
      have hne : p₀.name ≠ [] := hnames p₀ (by rw [hsplit₀]; simp)
      rw [if_pos hne] at hv
      refine ⟨fun h => absurd h hnosign, fun _ pre p post hsplit hpt hpq hpre => ?_, fun _ => ?_⟩
      · -- `p` is the potion the loop stops at
        have hp2 : encounter_potion g.inventory_ entry = some p :=
          (encounter_potion_eq_some_iff _ _ _).mpr ⟨pre, post, hsplit, ⟨hpt, hpq⟩, hpre⟩
        rw [hp] at hp2
        simp only [Option.some.injEq] at hp2
        subst hp2
        obtain ⟨e, hfind, -⟩ := findItemInternal_of_pos g.inventory_.potions_ p₀.name hpq
        obtain ⟨before, after, hsp, hbefore, hname, hwrite⟩ :=
          findItemInternal_split g.inventory_.potions_ p₀.name e hfind
        refine ⟨before, e, after, hsp, hname, hbefore, ?_⟩
        rw [hv]
        simp only [Inventory.addTrophy]
        exact hwrite _
      · rw [hv]
        exact ⟨rfl, rfl, rfl, htrophy _ rfl⟩

/-- Witness of C23: against a Drowner for which the potions `Cat` (not held)
and `Swallow` (2 held) are recorded, one `Swallow` is consumed and the trophy
count grows from 3 to 4. -/
theorem handleEncounter_win_effects_witness :
    (∃ before e after,
      [(⟨"Swallow".toList, 2⟩ : InventoryItem)] = before ++ e :: after ∧
        e.name = "Swallow".toList ∧ (∀ x ∈ before, x.name ≠ "Swallow".toList) ∧
        (handleEncounter
            ⟨⟨[], [⟨"Swallow".toList, 2⟩], [⟨"Drowner".toList, 3⟩]⟩, ⟨[]⟩,
              ⟨[⟨"Drowner".toList,
                  [⟨"Cat".toList, .POTION⟩, ⟨"Swallow".toList, .POTION⟩]⟩]⟩⟩
            (.ENCOUNTER "Drowner".toList)).1.inventory_.potions_
          = before ++ ⟨e.name, e.quantity - 1⟩ :: after) ∧
    (handleEncounter
        ⟨⟨[], [⟨"Swallow".toList, 2⟩], [⟨"Drowner".toList, 3⟩]⟩, ⟨[]⟩,
          ⟨[⟨"Drowner".toList,
              [⟨"Cat".toList, .POTION⟩, ⟨"Swallow".toList, .POTION⟩]⟩]⟩⟩
        (.ENCOUNTER "Drowner".toList)).1.inventory_.getTrophyQuantity "Drowner".toList
      = Inventory.getTrophyQuantity
          ⟨[], [⟨"Swallow".toList, 2⟩], [⟨"Drowner".toList, 3⟩]⟩ "Drowner".toList + 1 :=
  ⟨(handleEncounter_win_effects
      ⟨⟨[], [⟨"Swallow".toList, 2⟩], [⟨"Drowner".toList, 3⟩]⟩, ⟨[]⟩,
        ⟨[⟨"Drowner".toList, [⟨"Cat".toList, .POTION⟩, ⟨"Swallow".toList, .POTION⟩]⟩]⟩⟩
      "Drowner".toList
      ⟨"Drowner".toList, [⟨"Cat".toList, .POTION⟩, ⟨"Swallow".toList, .POTION⟩]⟩
      (by decide) (by decide)).2.1 (by decide)
      [⟨"Cat".toList, .POTION⟩] ⟨"Swallow".toList, .POTION⟩ [] (by decide) (by decide)
      (by decide) (by decide),
   ((handleEncounter_win_effects
      ⟨⟨[], [⟨"Swallow".toList, 2⟩], [⟨"Drowner".toList, 3⟩]⟩, ⟨[]⟩,
        ⟨[⟨"Drowner".toList, [⟨"Cat".toList, .POTION⟩, ⟨"Swallow".toList, .POTION⟩]⟩]⟩⟩
      "Drowner".toList
      ⟨"Drowner".toList, [⟨"Cat".toList, .POTION⟩, ⟨"Swallow".toList, .POTION⟩]⟩
      (by decide) (by decide)).2.2
      ⟨_, rfl, Or.inr ⟨⟨"Swallow".toList, .POTION⟩, by decide, by decide⟩⟩).2.2.2.2
      (by decide) (by decide) (by decide)⟩

/-- The scenario of the specification: after `Geralt learns Igni sign is
effective against Drowner`, `Geralt encounters a Drowner` prints
`Geralt defeats Drowner`, the trophy count of Drowner is 1 and no potion is
touched. -/
theorem run_sign_scenario :
    WitcherGame.run
        ["Geralt learns Igni sign is effective against Drowner".toList,
         "Geralt encounters a Drowner".toList]
      = (⟨⟨[], [], [⟨"Drowner".toList, 1⟩]⟩, ⟨[]⟩,
          ⟨[⟨"Drowner".toList, [⟨"Igni".toList, .SIGN⟩]⟩]⟩⟩,
         ["New bestiary entry added: Drowner".toList, "Geralt defeats Drowner".toList]) := by
  decide

/-! ## Bestiary and alchemy base: theorems -/

/-- The entry found by `findEntry` splits the vector: no entry before it has
the monster name, and a write through the pointer replaces that entry only. -/
theorem findEntry_split (b : Bestiary) (monster_name : Str) (entry : BestiaryEntry)
    (h : b.findEntry monster_name = some entry) :
    ∃ pre post, b.entries_ = pre ++ entry :: post ∧
      (∀ x ∈ pre, x.monster_name ≠ monster_name) ∧ entry.monster_name = monster_name ∧
      ∀ new_entry, writeEntryInternal b.entries_ monster_name new_entry
        = pre ++ new_entry :: post := by
  unfold Bestiary.findEntry at h
  generalize b.entries_ = entries at h ⊢
  induction entries with
  | nil => simp at h
  | cons x rest ih =>
    by_cases hx : x.monster_name = monster_name
    · simp only [List.find?_cons, hx, decide_True, Option.some.injEq] at h
      subst h
      exact ⟨[], rest, rfl, by simp, hx, fun new_entry => by simp [writeEntryInternal, hx]⟩
    · simp only [List.find?_cons, hx, decide_False] at h
      obtain ⟨pre, post, hsplit, hpre, hname, hwrite⟩ := ih h
      refine ⟨x :: pre, post, by rw [hsplit]; rfl, ?_, hname, fun new_entry => ?_⟩
      · intro y hy
        rcases List.mem_cons.mp hy with rfl | hy
        · exact hx
        · exact hpre y hy
      · simp [writeEntryInternal, hx, hwrite]

/-- `isEffectivenessKnown` is the test "an item with that name is recorded". -/
theorem isEffectivenessKnown_iff (entry : BestiaryEntry) (item_name : Str) :
    entry.isEffectivenessKnown item_name = true ↔
      ∃ eff_item ∈ entry.effective_items, eff_item.name = item_name := by
  unfold BestiaryEntry.isEffectivenessKnown
  simp only [List.any_eq_true, decide_eq_true_eq]

/-- The line `handleLearnEffectiveness` writes is chosen by the result code of
`addOrUpdateEffectiveness`, and the bestiary is the one that call leaves. -/
theorem handleLearnEffectiveness_eq (g : WitcherGame) (item_name monster_name : Str)
    (type : EffectivenessType) (b1 : Bestiary) (code : Int)
    (h : g.bestiary_.addOrUpdateEffectiveness monster_name item_name type = (b1, code)) :
    handleLearnEffectiveness g (.LEARN_EFFECTIVENESS item_name type monster_name)
      = ({ g with bestiary_ := b1 },
          if code = 2 then ["New bestiary entry added: ".toList ++ monster_name]
          else if code = 1 then ["Bestiary entry updated: ".toList ++ monster_name]
          else if code = 0 then ["Already known effectiveness".toList]
          else ["INVALID".toList]) := by
  unfold handleLearnEffectiveness
  simp only [h]

/-- C24. `Bestiary::addOrUpdateEffectiveness` has exactly four outcomes, and
`handleLearnEffectiveness` maps them to four pairwise distinct lines.  Monster
unknown and fewer than 128 entries: a new entry holding exactly the given item
is appended (`New bestiary entry added`).  Monster known, no item of that name
recorded for it (of either kind) and fewer than 64 items in its entry: the item
is appended to that entry (`Bestiary entry updated`).  An item of that name
already recorded for the monster, even as the other kind:
`Already known effectiveness`, bestiary unchanged.  Bestiary at capacity for an
unknown monster, or entry at capacity for a new item: `INVALID`, bestiary
unchanged. -/
theorem addOrUpdateEffectiveness_spec (g : WitcherGame) (monster_name item_name : Str)
    (type : EffectivenessType) :
    (g.bestiary_.findEntry monster_name = none → g.bestiary_.entries_.length < 128 →
      g.bestiary_.addOrUpdateEffectiveness monster_name item_name type
        = (⟨g.bestiary_.entries_ ++ [⟨monster_name, [⟨item_name, type⟩]⟩]⟩, 2) ∧
      handleLearnEffectiveness g (.LEARN_EFFECTIVENESS item_name type monster_name)
        = ({ g with bestiary_ :=
              ⟨g.bestiary_.entries_ ++ [⟨monster_name, [⟨item_name, type⟩]⟩]⟩ },
            ["New bestiary entry added: ".toList ++ monster_name])) ∧
    (∀ entry, g.bestiary_.findEntry monster_name = some entry →
      (∀ eff_item ∈ entry.effective_items, eff_item.name ≠ item_name) →
      entry.effective_items.length < 64 →
      ∃ pre post, g.bestiary_.entries_ = pre ++ entry :: post ∧
        (∀ x ∈ pre, x.monster_name ≠ monster_name) ∧
        g.bestiary_.addOrUpdateEffectiveness monster_name item_name type
          = (⟨pre ++ ⟨entry.monster_name, entry.effective_items ++ [⟨item_name, type⟩]⟩
                :: post⟩, 1) ∧
        handleLearnEffectiveness g (.LEARN_EFFECTIVENESS item_name type monster_name)
          = ({ g with bestiary_ :=
                ⟨pre ++ ⟨entry.monster_name, entry.effective_items ++ [⟨item_name, type⟩]⟩
                  :: post⟩ },
              ["Bestiary entry updated: ".toList ++ monster_name])) ∧
    (∀ entry, g.bestiary_.findEntry monster_name = some entry →
      (∃ eff_item ∈ entry.effective_items, eff_item.name = item_name) →
      g.bestiary_.addOrUpdateEffectiveness monster_name item_name type = (g.bestiary_, 0) ∧
      handleLearnEffectiveness g (.LEARN_EFFECTIVENESS item_name type monster_name)
        = (g, ["Already known effectiveness".toList])) ∧
    (g.bestiary_.findEntry monster_name = none → 128 ≤ g.bestiary_.entries_.length →
      g.bestiary_.addOrUpdateEffectiveness monster_name item_name type = (g.bestiary_, -1) ∧
      handleLearnEffectiveness g (.LEARN_EFFECTIVENESS item_name type monster_name)
        = (g, ["INVALID".toList])) ∧
    (∀ entry, g.bestiary_.findEntry monster_name = some entry →
      (∀ eff_item ∈ entry.effective_items, eff_item.name ≠ item_name) →
      64 ≤ entry.effective_items.length →
      g.bestiary_.addOrUpdateEffectiveness monster_name item_name type = (g.bestiary_, -1) ∧
      handleLearnEffectiveness g (.LEARN_EFFECTIVENESS item_name type monster_name)
        = (g, ["INVALID".toList])) ∧
    List.Pairwise (fun a b => a ≠ b)
      ["New bestiary entry added: ".toList ++ monster_name,
       "Bestiary entry updated: ".toList ++ monster_name,
       "Already known effectiveness".toList,
       "INVALID".toList] := by
  have hfin : ∀ (b1 : Bestiary) (code : Int) (line : Str),
      g.bestiary_.addOrUpdateEffectiveness monster_name item_name type = (b1, code) →
      (if code = 2 then ["New bestiary entry added: ".toList ++ monster_name]
        else if code = 1 then ["Bestiary entry updated: ".toList ++ monster_name]
        else if code = 0 then ["Already known effectiveness".toList]
        else ["INVALID".toList]) = [line] →
      g.bestiary_.addOrUpdateEffectiveness monster_name item_name type = (b1, code) ∧
      handleLearnEffectiveness g (.LEARN_EFFECTIVENESS item_name type monster_name)
        = ({ g with bestiary_ := b1 }, [line]) := by
    intro b1 code line h hline
    refine ⟨h, ?_⟩
    rw [handleLearnEffectiveness_eq g item_name monster_name type b1 code h, hline]
  refine ⟨fun hnone hlen => ?_, fun entry hsome hnew hlen => ?_, fun entry hsome hknown => ?_,
    fun hnone hlen => ?_, fun entry hsome hnew hlen => ?_, ?_⟩
  · have hl : g.bestiary_.entries_.length < GameConstants.MAX_ITEMS := by
      simpa [GameConstants.MAX_ITEMS] using hlen
    have h : g.bestiary_.addOrUpdateEffectiveness monster_name item_name type
        = (⟨g.bestiary_.entries_ ++ [⟨monster_name, [⟨item_name, type⟩]⟩]⟩, 2) := by
      unfold Bestiary.addOrUpdateEffectiveness BestiaryEntry.addKnownEffectiveness
        BestiaryEntry.isEffectivenessKnown
      simp [hnone, hl, GameConstants.MAX_EFFECTIVE_ITEMS]
    exact hfin _ _ _ h rfl
  · obtain ⟨pre, post, hsplit, hpre, hname, hwrite⟩ :=
      findEntry_split g.bestiary_ monster_name entry hsome
    refine ⟨pre, post, hsplit, hpre, ?_⟩
    have hk : entry.isEffectivenessKnown item_name = false := by
      rw [Bool.eq_false_iff]
      intro h
      obtain ⟨x, hx, hxn⟩ := (isEffectivenessKnown_iff entry item_name).mp h
      exact hnew x hx hxn
    have hl : entry.effective_items.length < GameConstants.MAX_EFFECTIVE_ITEMS := by
      simpa [GameConstants.MAX_EFFECTIVE_ITEMS] using hlen
    have h : g.bestiary_.addOrUpdateEffectiveness monster_name item_name type
        = (⟨pre ++ ⟨entry.monster_name, entry.effective_items ++ [⟨item_name, type⟩]⟩
              :: post⟩, 1) := by
      unfold Bestiary.addOrUpdateEffectiveness BestiaryEntry.addKnownEffectiveness
      simp [hsome, hk, hl, hwrite]
    exact hfin _ _ _ h rfl
  · have hk : entry.isEffectivenessKnown item_name = true :=
      (isEffectivenessKnown_iff entry item_name).mpr hknown
    have h : g.bestiary_.addOrUpdateEffectiveness monster_name item_name type
        = (g.bestiary_, 0) := by
      unfold Bestiary.addOrUpdateEffectiveness
      simp [hsome, hk]
    exact hfin _ _ _ h rfl
  · have hl : ¬ g.bestiary_.entries_.length < GameConstants.MAX_ITEMS := by
      simp only [GameConstants.MAX_ITEMS]
      omega
    have h : g.bestiary_.addOrUpdateEffectiveness monster_name item_name type
        = (g.bestiary_, -1) := by
      unfold Bestiary.addOrUpdateEffectiveness
      simp [hnone, hl]
    exact hfin _ _ _ h rfl
  · obtain ⟨pre, post, hsplit, hpre, hname, hwrite⟩ :=
      findEntry_split g.bestiary_ monster_name entry hsome
    have hk : entry.isEffectivenessKnown item_name = false := by
      rw [Bool.eq_false_iff]
      intro h
      obtain ⟨x, hx, hxn⟩ := (isEffectivenessKnown_iff entry item_name).mp h
      exact hnew x hx hxn
    have hl : ¬ entry.effective_items.length < GameConstants.MAX_EFFECTIVE_ITEMS := by
      simp only [GameConstants.MAX_EFFECTIVE_ITEMS]
      omega
    have h : g.bestiary_.addOrUpdateEffectiveness monster_name item_name type
        = (g.bestiary_, -1) := by
      unfold Bestiary.addOrUpdateEffectiveness BestiaryEntry.addKnownEffectiveness
      simp only [hsome, hk, hl, if_false, Bool.false_eq_true, hwrite]
      rw [← hsplit]
    exact hfin _ _ _ h rfl
  · have hhead : ∀ (a b : Str), a.head? ≠ b.head? → a ≠ b := fun a b h hab => h (by rw [hab])
    simp only [List.pairwise_cons, List.mem_cons, List.mem_singleton, List.not_mem_nil,
      forall_eq_or_imp, forall_eq, IsEmpty.forall_iff, implies_true, List.Pairwise.nil, and_true]
    refine ⟨⟨?_, ?_, ?_⟩, ⟨?_, ?_⟩, ?_⟩ <;> apply hhead <;> simp

/-- C25, as the code has it. In main.cpp `AlchemyBase::addFormula` fails and
leaves the base unchanged if the base already holds 128 formulas, if the
requirement list is empty or if it has more than 64 requirements; in every
other case, also when a formula with that potion name is already known, it
appends the formula with exactly the given requirements and succeeds. -/
theorem addFormula_spec (ab : AlchemyBase) (potion_name : Str)
    (reqs : List IngredientRequirement) :
    ((128 ≤ ab.formulae_.length ∨ reqs = [] ∨ 64 < reqs.length) →
      ab.addFormula potion_name reqs = (ab, false)) ∧
    (ab.formulae_.length < 128 → reqs ≠ [] → reqs.length ≤ 64 →
      ab.addFormula potion_name reqs
        = (⟨ab.formulae_ ++ [⟨potion_name, reqs⟩]⟩, true)) := by
  unfold AlchemyBase.addFormula
  simp only [GameConstants.MAX_ITEMS, GameConstants.MAX_RECIPE_INGREDIENTS]
  constructor
  · rintro (h | h | h)
    · rw [if_pos (by omega)]
    · split
      · rfl
      · rw [if_pos (Or.inl h)]
    · split
      · rfl
      · rw [if_pos (Or.inr (by omega))]
  · intro h1 h2 h3
    rw [if_neg (by omega), if_neg (by
      rintro (h | h)
      · exact h2 h
      · omega)]

/-- Witness of C25 as the code has it: a formula is appended to the empty
base. -/
theorem addFormula_spec_witness :
    AlchemyBase.addFormula ⟨[]⟩ "Swallow".toList [⟨"Rebis".toList, 2⟩]
      = (⟨[] ++ [⟨"Swallow".toList, [⟨"Rebis".toList, 2⟩]⟩]⟩, true) :=
  (addFormula_spec ⟨[]⟩ "Swallow".toList [⟨"Rebis".toList, 2⟩]).2
    (by decide) (by decide) (by decide)

/-- C25, counterexample. With the formula `Swallow` already known,
`addFormula` for `Swallow` succeeds and appends a second formula of that
name; and with 65 requirements, a name that is not known and a base with room
it fails. -/
theorem addFormula_known_name_appended :
    AlchemyBase.addFormula ⟨[⟨"Swallow".toList, [⟨"Rebis".toList, 2⟩]⟩]⟩ "Swallow".toList
        [⟨"Vitriol".toList, 1⟩]
      = (⟨[⟨"Swallow".toList, [⟨"Rebis".toList, 2⟩]⟩,
            ⟨"Swallow".toList, [⟨"Vitriol".toList, 1⟩]⟩]⟩, true) ∧
    AlchemyBase.findFormula ⟨[⟨"Swallow".toList, [⟨"Rebis".toList, 2⟩]⟩]⟩ "Swallow".toList
      = some ⟨"Swallow".toList, [⟨"Rebis".toList, 2⟩]⟩ ∧
    AlchemyBase.addFormula ⟨[]⟩ "Cat".toList (List.replicate 65 ⟨"Rebis".toList, 1⟩)
      = (⟨[]⟩, false) := by
  decide

/-! ## What the handlers leave unchanged -/

/-- `handleLoot` changes the inventory only. -/
theorem handleLoot_frame (g : WitcherGame) (cmd : Command) :
    (handleLoot g cmd).1.alchemy_base_ = g.alchemy_base_ ∧
    (handleLoot g cmd).1.bestiary_ = g.bestiary_ := by
  unfold handleLoot
  split <;> exact ⟨rfl, rfl⟩

/-- `handleTrade` changes the inventory only. -/
theorem handleTrade_frame (g : WitcherGame) (cmd : Command) :
    (handleTrade g cmd).1.alchemy_base_ = g.alchemy_base_ ∧
    (handleTrade g cmd).1.bestiary_ = g.bestiary_ := by
  unfold handleTrade
  split
  · simp only
    split
    · exact ⟨rfl, rfl⟩
    · split <;> exact ⟨rfl, rfl⟩
  · exact ⟨rfl, rfl⟩

/-- `handleBrew` changes the inventory only. -/
theorem handleBrew_frame (g : WitcherGame) (cmd : Command) :
    (handleBrew g cmd).1.alchemy_base_ = g.alchemy_base_ ∧
    (handleBrew g cmd).1.bestiary_ = g.bestiary_ := by
  unfold handleBrew
  split
  · split
    · exact ⟨rfl, rfl⟩
    · simp only
      split
      · exact ⟨rfl, rfl⟩
      · split <;> exact ⟨rfl, rfl⟩
  · exact ⟨rfl, rfl⟩

/-- `handleLearnEffectiveness` changes the bestiary only. -/
theorem handleLearnEffectiveness_frame (g : WitcherGame) (cmd : Command) :
    (handleLearnEffectiveness g cmd).1.alchemy_base_ = g.alchemy_base_ ∧
    (handleLearnEffectiveness g cmd).1.inventory_ = g.inventory_ := by
  unfold handleLearnEffectiveness
  split <;> exact ⟨rfl, rfl⟩

/-- `handleEncounter` changes the inventory only. -/
theorem handleEncounter_frame (g : WitcherGame) (cmd : Command) :
    (handleEncounter g cmd).1.alchemy_base_ = g.alchemy_base_ ∧
    (handleEncounter g cmd).1.bestiary_ = g.bestiary_ := by
  cases cmd <;> try exact ⟨rfl, rfl⟩
  rename_i monster_name
  simp only [handleEncounter]
  by_cases hc : ((match g.bestiary_.findEntry monster_name with
        | some e => encounter_sign e
        | none => false) ||
      (if (match g.bestiary_.findEntry monster_name with
            | some e => encounter_sign e
            | none => false) = true then none
        else
          match g.bestiary_.findEntry monster_name with
          | some e => encounter_potion g.inventory_ e
          | none => none).isSome) = true
  · rw [if_pos hc]
    exact ⟨rfl, rfl⟩
  · rw [if_neg hc]
    exact ⟨rfl, rfl⟩

/-- The query handlers change nothing. -/
theorem handleQuery_frame (g : WitcherGame) (cmd : Command) :
    (handleQueryTotalSpecific g cmd).1 = g ∧ (handleQueryTotalAll g cmd).1 = g ∧
    (handleQueryEffectiveAgainst g cmd).1 = g ∧ (handleQueryWhatIsIn g cmd).1 = g := by
  refine ⟨?_, ?_, ?_, ?_⟩
  · unfold handleQueryTotalSpecific
    split
    · split_ifs <;> rfl
    · rfl
  · unfold handleQueryTotalAll
    split
    · split_ifs <;> rfl
    · rfl
  · unfold handleQueryEffectiveAgainst
    split <;> rfl
  · unfold handleQueryWhatIsIn
    split <;> rfl

/-- `handleLearnFormula` changes the alchemy base only. -/
theorem handleLearnFormula_frame (g : WitcherGame) (cmd : Command) :
    (handleLearnFormula g cmd).1.inventory_ = g.inventory_ ∧
    (handleLearnFormula g cmd).1.bestiary_ = g.bestiary_ := by
  unfold handleLearnFormula
  split
  · split
    · exact ⟨rfl, rfl⟩
    · simp only
      split <;> exact ⟨rfl, rfl⟩
  · exact ⟨rfl, rfl⟩

/-- `addFormula` keeps every formula that `findFormula` finds. -/
theorem addFormula_findFormula (ab : AlchemyBase) (potion_name : Str)
    (reqs : List IngredientRequirement) (n : Str) (f : PotionFormula)
    (h : ab.findFormula n = some f) :
    (ab.addFormula potion_name reqs).1.findFormula n = some f := by
  unfold AlchemyBase.addFormula
  split
  · exact h
  · split
    · exact h
    · unfold AlchemyBase.findFormula at h ⊢
      simp only [List.find?_append, h, Option.or_some]

/-- A known formula stays known, with the same requirements, whatever command
is handled. -/
theorem dispatch_findFormula (g : WitcherGame) (cmd : Command) (n : Str) (f : PotionFormula)
    (h : g.alchemy_base_.findFormula n = some f) :
    (g.dispatch cmd).1.alchemy_base_.findFormula n = some f := by
  cases cmd <;> simp only [WitcherGame.dispatch, Command.type]
  · rw [(handleLoot_frame g _).1]; exact h
  · rw [(handleTrade_frame g _).1]; exact h
  · rw [(handleBrew_frame g _).1]; exact h
  · rw [(handleLearnEffectiveness_frame g _).1]; exact h
  · rename_i potion_name requirements
    unfold handleLearnFormula
    simp only
    split
    · exact h
    · split
      · exact addFormula_findFormula _ _ _ _ _ h
      · exact addFormula_findFormula _ _ _ _ _ h
  · rw [(handleEncounter_frame g _).1]; exact h
  · rw [(handleQuery_frame g _).1]; exact h
  · rw [(handleQuery_frame g _).2.1]; exact h
  · rw [(handleQuery_frame g _).2.2.1]; exact h
  · rw [(handleQuery_frame g _).2.2.2]; exact h
  · exact h
  · exact h
  · exact h

/-- A known formula stays known, with the same requirements, through any
further lines of the session. -/
theorem run_loop_findFormula (lines : List Str) (g : WitcherGame) (n : Str) (f : PotionFormula)
    (h : g.alchemy_base_.findFormula n = some f) :
    (g.run_loop lines).1.alchemy_base_.findFormula n = some f := by
  induction lines generalizing g with
  | nil => exact h
  | cons line rest ih =>
    unfold WitcherGame.run_loop
    cases hstep : g.step line with
    | none => exact h
    | some r =>
      simp only
      apply ih
      unfold WitcherGame.step at hstep
      simp only at hstep
      split at hstep
      · simp at hstep
      · simp only [Option.some.injEq] at hstep
        rw [← hstep]
        exact dispatch_findFormula g _ n f h

/-- Every command the parser returns carries validated fields. -/
theorem parse_command_internal_valid (line : Str) :
    (parse_command_internal line).FieldsValid := by
  unfold parse_command_internal
  simp only
  split
  · trivial
  · split
    · trivial
    · split
      · exact parse_geralt_fieldsValid _
      · split
        · exact parse_total_fieldsValid _
        · split
          · exact parse_what_fieldsValid _
          · trivial

/-- `addFormula` with room in the base and between 1 and 64 requirements
appends the formula. -/
theorem addFormula_spec_aux (ab : AlchemyBase) (potion_name : Str)
    (reqs : List IngredientRequirement) (h1 : ab.formulae_.length < 128) (h2 : reqs ≠ [])
    (h3 : reqs.length ≤ 64) :
    ab.addFormula potion_name reqs = (⟨ab.formulae_ ++ [⟨potion_name, reqs⟩]⟩, true) := by
  unfold AlchemyBase.addFormula
  simp only [GameConstants.MAX_ITEMS, GameConstants.MAX_RECIPE_INGREDIENTS]
  rw [if_neg (by omega), if_neg (by
    rintro (h | h)
    · exact h2 h
    · omega)]

/-- `handleLearnFormula` for a potion that is already known. -/
theorem handleLearnFormula_known (g : WitcherGame) (potion_name : Str)
    (requirements : List ItemInfo) (f : PotionFormula)
    (h : g.alchemy_base_.findFormula potion_name = some f) :
    handleLearnFormula g (.LEARN_FORMULA potion_name requirements)
      = (g, ["Already known formula".toList]) := by
  unfold handleLearnFormula
  simp [h]

/-- `handleLearnFormula` for an unknown potion, a base with room and between 1
and 64 requirements. -/
theorem handleLearnFormula_new (g : WitcherGame) (potion_name : Str)
    (requirements : List ItemInfo)
    (h : g.alchemy_base_.findFormula potion_name = none)
    (hroom : g.alchemy_base_.formulae_.length < 128)
    (hne : requirements ≠ []) (hlen : requirements.length ≤ 64) :
    handleLearnFormula g (.LEARN_FORMULA potion_name requirements)
      = ({ g with alchemy_base_ :=
            ⟨g.alchemy_base_.formulae_ ++
              [⟨potion_name, requirements.map (fun r => ⟨r.name, r.quantity⟩)⟩]⟩ },
          ["New alchemy formula obtained: ".toList ++ potion_name]) := by
  have hadd := (addFormula_spec_aux g.alchemy_base_ potion_name
    (requirements.map (fun r => (⟨r.name, r.quantity⟩ : IngredientRequirement)))) hroom
    (by simpa using hne) (by simpa using hlen)
  unfold handleLearnFormula
  simp [h, hadd]

/-- One round of the session loop for a line that parses to LearnFormula. -/
theorem step_learn_formula (g : WitcherGame) (line potion_name : Str)
    (requirements : List ItemInfo)
    (hparse : parse_command_internal line = .LEARN_FORMULA potion_name requirements) :
    g.step line = some (handleLearnFormula g (.LEARN_FORMULA potion_name requirements)) := by
  unfold WitcherGame.step
  simp only [hparse, Command.type, WitcherGame.dispatch]
  rfl

/-- C26. Learning a formula is idempotent: for a line that parses to
LearnFormula for a potion that is unknown, with fewer than 128 formulas in the
base, processing the line prints `New alchemy formula obtained: <potion>` and
the potion's formula becomes exactly the parsed requirement list; processing
the same line again, or, after any further lines, any LearnFormula line for
that potion with whatever requirements, prints `Already known formula` and
leaves the whole state, with the stored requirements of the potion,
unchanged. -/
theorem handleLearnFormula_idempotent (g : WitcherGame) (line potion_name : Str)
    (requirements : List ItemInfo)
    (hparse : parse_command_internal line = .LEARN_FORMULA potion_name requirements)
    (hunknown : g.alchemy_base_.findFormula potion_name = none)
    (hroom : g.alchemy_base_.formulae_.length < 128) :
    ∃ g1, g.step line = some (g1, ["New alchemy formula obtained: ".toList ++ potion_name]) ∧
      g1.inventory_ = g.inventory_ ∧ g1.bestiary_ = g.bestiary_ ∧
      g1.alchemy_base_.findFormula potion_name
        = some ⟨potion_name, requirements.map (fun r => ⟨r.name, r.quantity⟩)⟩ ∧
      g1.step line = some (g1, ["Already known formula".toList]) ∧
      ∀ (between : List Str) (line2 : Str) (requirements2 : List ItemInfo),
        parse_command_internal line2 = .LEARN_FORMULA potion_name requirements2 →
        (g1.run_loop between).1.step line2
          = some ((g1.run_loop between).1, ["Already known formula".toList]) ∧
        (g1.run_loop between).1.alchemy_base_.findFormula potion_name
          = some ⟨potion_name, requirements.map (fun r => ⟨r.name, r.quantity⟩)⟩ := by
  have hvalid := parse_command_internal_valid line
  rw [hparse] at hvalid
  obtain ⟨-, hne, hlen, -⟩ := hvalid
  have hnew := handleLearnFormula_new g potion_name requirements hunknown hroom hne hlen
  have hfind : AlchemyBase.findFormula
      ⟨g.alchemy_base_.formulae_ ++
        [⟨potion_name, requirements.map (fun r => (⟨r.name, r.quantity⟩ : IngredientRequirement))⟩]⟩
      potion_name
      = some ⟨potion_name, requirements.map (fun r => ⟨r.name, r.quantity⟩)⟩ := by
    unfold AlchemyBase.findFormula at hunknown ⊢
    simp only [List.find?_append, hunknown, Option.none_or]
    simp
  refine ⟨{ g with alchemy_base_ :=
      ⟨g.alchemy_base_.formulae_ ++
        [⟨potion_name, requirements.map (fun r => ⟨r.name, r.quantity⟩)⟩]⟩ },
    by rw [step_learn_formula g line potion_name requirements hparse, hnew],
    rfl, rfl, hfind, ?_, fun between line2 requirements2 hparse2 => ?_⟩
  · rw [step_learn_formula _ line potion_name requirements hparse,
      handleLearnFormula_known _ potion_name requirements _ hfind]
  · have hkept := run_loop_findFormula between
      { g with alchemy_base_ :=
        ⟨g.alchemy_base_.formulae_ ++
          [⟨potion_name, requirements.map (fun r => ⟨r.name, r.quantity⟩)⟩]⟩ }
      potion_name _ hfind
    refine ⟨?_, hkept⟩
    rw [step_learn_formula _ line2 potion_name requirements2 hparse2,
      handleLearnFormula_known _ potion_name requirements2 _ hkept]

/-- Witness of C26: the scenario of the specification, from the empty
session. -/
theorem handleLearnFormula_idempotent_witness :
    ∃ g1, WitcherGame.init.step
          "Geralt learns Swallow potion consists of 2 Rebis, 1 Vitriol".toList
        = some (g1, ["New alchemy formula obtained: ".toList ++ "Swallow".toList]) ∧
      g1.inventory_ = WitcherGame.init.inventory_ ∧ g1.bestiary_ = WitcherGame.init.bestiary_ ∧
      g1.alchemy_base_.findFormula "Swallow".toList
        = some ⟨"Swallow".toList,
            ([⟨"Rebis".toList, 2⟩, ⟨"Vitriol".toList, 1⟩] : List ItemInfo).map
              (fun r => ⟨r.name, r.quantity⟩)⟩ ∧
      g1.step "Geralt learns Swallow potion consists of 2 Rebis, 1 Vitriol".toList
        = some (g1, ["Already known formula".toList]) ∧
      ∀ (between : List Str) (line2 : Str) (requirements2 : List ItemInfo),
        parse_command_internal line2 = .LEARN_FORMULA "Swallow".toList requirements2 →
        (g1.run_loop between).1.step line2
          = some ((g1.run_loop between).1, ["Already known formula".toList]) ∧
        (g1.run_loop between).1.alchemy_base_.findFormula "Swallow".toList
          = some ⟨"Swallow".toList,
              ([⟨"Rebis".toList, 2⟩, ⟨"Vitriol".toList, 1⟩] : List ItemInfo).map
                (fun r => ⟨r.name, r.quantity⟩)⟩ :=
  handleLearnFormula_idempotent WitcherGame.init
    "Geralt learns Swallow potion consists of 2 Rebis, 1 Vitriol".toList "Swallow".toList
    [⟨"Rebis".toList, 2⟩, ⟨"Vitriol".toList, 1⟩] (by decide) (by decide) (by decide)

/-- The scenario of the specification for formulas, run as a session: the
second line, and a later line with other requirements, print
`Already known formula`. -/
theorem run_learn_formula_scenario :
    (WitcherGame.run
        ["Geralt learns Swallow potion consists of 2 Rebis, 1 Vitriol".toList,
         "Geralt learns Swallow potion consists of 2 Rebis, 1 Vitriol".toList,
         "Geralt learns Swallow potion consists of 5 Aether".toList]).2
      = ["New alchemy formula obtained: Swallow".toList, "Already known formula".toList,
         "Already known formula".toList] := by
  decide

/-! ## Brew: the successful case -/

/-- The commit loop of `handleBrew` for requirements with pairwise distinct
names and positive quantities that are all met: every call succeeds, each
required ingredient loses its required amount, and nothing else changes. -/
theorem useIngredients_spec (reqs : List IngredientRequirement) (inv : Inventory)
    (hdistinct : (reqs.map (fun req => req.ingredient_name)).Nodup)
    (hpos : ∀ req ∈ reqs, 0 < req.quantity)
    (hmet : ∀ req ∈ reqs, req.quantity ≤ inv.getIngredientQuantity req.ingredient_name) :
    (useIngredients inv reqs).2 = true ∧
    (useIngredients inv reqs).1.potions_ = inv.potions_ ∧
    (useIngredients inv reqs).1.trophies_ = inv.trophies_ ∧
    (useIngredients inv reqs).1.ingredients_.map (fun item => item.name)
      = inv.ingredients_.map (fun item => item.name) ∧
    (∀ req ∈ reqs,
      (useIngredients inv reqs).1.getIngredientQuantity req.ingredient_name
        = inv.getIngredientQuantity req.ingredient_name - req.quantity) ∧
    (∀ n, (∀ req ∈ reqs, req.ingredient_name ≠ n) →
      (useIngredients inv reqs).1.getIngredientQuantity n = inv.getIngredientQuantity n) := by
  induction reqs generalizing inv with
  | nil => exact ⟨rfl, rfl, rfl, rfl, fun _ h => by simp at h, fun _ _ => rfl⟩
  | cons req rest ih =>
    rw [List.map_cons, List.nodup_cons] at hdistinct
    obtain ⟨hnotin, hnodup⟩ := hdistinct
    have hq := hpos req (List.mem_cons_self _ _)
    have hm := hmet req (List.mem_cons_self _ _)
    obtain ⟨e, hfind, hqe⟩ := findItemInternal_of_pos inv.ingredients_ req.ingredient_name
      (by unfold Inventory.getIngredientQuantity at hm; omega)
    have huse := useItemInternal_success inv.ingredients_ req.ingredient_name req.quantity e hq
      hfind (by unfold Inventory.getIngredientQuantity at hm; omega)
    have hstep : inv.useIngredient req.ingredient_name req.quantity
        = ({ inv with ingredients_ :=
              (writeItemInternal inv.ingredients_ req.ingredient_name
                (fun q => q - req.quantity)) }, true) := by
      unfold Inventory.useIngredient
      rw [huse]
    have hother : ∀ n, n ≠ req.ingredient_name →
        Inventory.getIngredientQuantity
          { inv with ingredients_ :=
              (writeItemInternal inv.ingredients_ req.ingredient_name
                (fun q => q - req.quantity)) } n
          = inv.getIngredientQuantity n := by
      intro n hn
      unfold Inventory.getIngredientQuantity
      exact getItemQuantityInternal_write_other _ _ _ _ hn
    have hsame : Inventory.getIngredientQuantity
          { inv with ingredients_ :=
              (writeItemInternal inv.ingredients_ req.ingredient_name
                (fun q => q - req.quantity)) } req.ingredient_name
          = inv.getIngredientQuantity req.ingredient_name - req.quantity := by
      unfold Inventory.getIngredientQuantity
      rw [getItemQuantityInternal_write_same _ _ _ e hfind, hqe]
    have hrest_ne : ∀ r ∈ rest, r.ingredient_name ≠ req.ingredient_name := by
      intro r hr heq
      exact hnotin (List.mem_map.mpr ⟨r, hr, heq⟩)
    obtain ⟨h1, h2, h3, h4, h5, h6⟩ := ih
      { inv with ingredients_ :=
          (writeItemInternal inv.ingredients_ req.ingredient_name (fun q => q - req.quantity)) }
      hnodup (fun r hr => hpos r (List.mem_cons_of_mem _ hr))
      (fun r hr => by
        rw [hother r.ingredient_name (hrest_ne r hr)]
        exact hmet r (List.mem_cons_of_mem _ hr))
    have hval : useIngredients inv (req :: rest)
        = useIngredients
            { inv with ingredients_ :=
                (writeItemInternal inv.ingredients_ req.ingredient_name
                  (fun q => q - req.quantity)) } rest := by
      simp only [useIngredients, hstep, if_true]
    rw [hval]
    refine ⟨h1, h2, h3, ?_, ?_, ?_⟩
    · rw [h4]
      exact writeItemInternal_map_name _ _ _
    · intro r hr
      rcases List.mem_cons.mp hr with rfl | hr
      · rw [h6 _ (fun r2 hr2 => hrest_ne r2 hr2), hsame]
      · rw [h5 r hr, hother r.ingredient_name (hrest_ne r hr)]
    · intro n hn
      rw [h6 n (fun r hr => hn r (List.mem_cons_of_mem _ hr)),
        hother n (fun h => hn req (List.mem_cons_self _ _) h.symm)]

/-- C21, as the code has it. Successful brew: when a formula for the potion
is known, its ingredient names are pairwise distinct and its quantities
positive, every requirement is met by the held ingredient quantity, the potion
category has room for the potion (it already has an entry or holds fewer than
128 entries) and the held potion quantity is non-negative and below
2147483647, `handleBrew` prints `Alchemy item created: <name>`, each required
ingredient's quantity decreases by exactly its required amount, the potion's
quantity increases by exactly 1, and all other ingredients, all other potions,
all trophies, the formulas and the bestiary are unchanged. -/
theorem handleBrew_success (g : WitcherGame) (potion_name : Str) (formula : PotionFormula)
    (hformula : g.alchemy_base_.findFormula potion_name = some formula)
    (hdistinct : (formula.requirements.map (fun req => req.ingredient_name)).Nodup)
    (hpos : ∀ req ∈ formula.requirements, 0 < req.quantity)
    (hmet : ∀ req ∈ formula.requirements,
      req.quantity ≤ g.inventory_.getIngredientQuantity req.ingredient_name)
    (hroom : (findItemInternal g.inventory_.potions_ potion_name).isSome = true ∨
      g.inventory_.potions_.length < 128)
    (h0 : 0 ≤ g.inventory_.getPotionQuantity potion_name)
    (hmax : g.inventory_.getPotionQuantity potion_name < 2147483647) :
    (handleBrew g (.BREW potion_name)).2 = ["Alchemy item created: ".toList ++ potion_name] ∧
    (∀ req ∈ formula.requirements,
      (handleBrew g (.BREW potion_name)).1.inventory_.getIngredientQuantity req.ingredient_name
        = g.inventory_.getIngredientQuantity req.ingredient_name - req.quantity) ∧
    (∀ n, (∀ req ∈ formula.requirements, req.ingredient_name ≠ n) →
      (handleBrew g (.BREW potion_name)).1.inventory_.getIngredientQuantity n
        = g.inventory_.getIngredientQuantity n) ∧
    (handleBrew g (.BREW potion_name)).1.inventory_.ingredients_.map (fun item => item.name)
      = g.inventory_.ingredients_.map (fun item => item.name) ∧
    (handleBrew g (.BREW potion_name)).1.inventory_.getPotionQuantity potion_name
      = g.inventory_.getPotionQuantity potion_name + 1 ∧
    (∀ n, n ≠ potion_name →
      (handleBrew g (.BREW potion_name)).1.inventory_.getPotionQuantity n
        = g.inventory_.getPotionQuantity n) ∧
    (handleBrew g (.BREW potion_name)).1.inventory_.trophies_ = g.inventory_.trophies_ ∧
    (handleBrew g (.BREW potion_name)).1.alchemy_base_ = g.alchemy_base_ ∧
    (handleBrew g (.BREW potion_name)).1.bestiary_ = g.bestiary_ := by
  obtain ⟨h1, h2, h3, h4, h5, h6⟩ :=
    useIngredients_spec formula.requirements g.inventory_ hdistinct hpos hmet
  have hall : formula.requirements.all (fun req =>
      !decide (g.inventory_.getIngredientQuantity req.ingredient_name < req.quantity)) = true := by
    rw [List.all_eq_true]
    intro req hreq
    have := hmet req hreq
    simp only [Bool.not_eq_true', decide_eq_false_iff_not, not_lt]
    exact this
  have hval : handleBrew g (.BREW potion_name)
      = ({ g with inventory_ :=
            (useIngredients g.inventory_ formula.requirements).1.addPotion potion_name 1 },
          ["Alchemy item created: ".toList ++ potion_name]) := by
    unfold handleBrew
    simp only [hformula, hall, h1, Bool.not_true, Bool.false_eq_true, if_false]
  rw [hval]
  refine ⟨rfl, h5, h6, h4, ?_, fun n hn => ?_, h3, rfl, rfl⟩
  · simp only [Inventory.addPotion, Inventory.getPotionQuantity, h2]
    unfold Inventory.getPotionQuantity at h0 hmax
    exact getItemQuantityInternal_addOrUpdate_same _ _ 1 (by decide) h0
      (by unfold INT_MAX; omega) hroom
  · simp only [Inventory.addPotion, Inventory.getPotionQuantity, h2]
    exact getItemQuantityInternal_addOrUpdate_other _ _ _ _ hn

/-- Witness of C21 as the code has it: with 5 Rebis and 3 Vitriol held and
the formula `Swallow` of `2 Rebis, 1 Vitriol`, the brew succeeds and 3 Rebis
are left. -/
theorem handleBrew_success_witness :
    (handleBrew
        ⟨⟨[⟨"Rebis".toList, 5⟩, ⟨"Vitriol".toList, 3⟩], [], []⟩,
          ⟨[⟨"Swallow".toList, [⟨"Rebis".toList, 2⟩, ⟨"Vitriol".toList, 1⟩]⟩]⟩, ⟨[]⟩⟩
        (.BREW "Swallow".toList)).2
      = ["Alchemy item created: ".toList ++ "Swallow".toList] ∧
    (handleBrew
        ⟨⟨[⟨"Rebis".toList, 5⟩, ⟨"Vitriol".toList, 3⟩], [], []⟩,
          ⟨[⟨"Swallow".toList, [⟨"Rebis".toList, 2⟩, ⟨"Vitriol".toList, 1⟩]⟩]⟩, ⟨[]⟩⟩
        (.BREW "Swallow".toList)).1.inventory_.getPotionQuantity "Swallow".toList
      = Inventory.getPotionQuantity
          ⟨[⟨"Rebis".toList, 5⟩, ⟨"Vitriol".toList, 3⟩], [], []⟩ "Swallow".toList + 1 :=
  ⟨(handleBrew_success
      ⟨⟨[⟨"Rebis".toList, 5⟩, ⟨"Vitriol".toList, 3⟩], [], []⟩,
        ⟨[⟨"Swallow".toList, [⟨"Rebis".toList, 2⟩, ⟨"Vitriol".toList, 1⟩]⟩]⟩, ⟨[]⟩⟩
      "Swallow".toList ⟨"Swallow".toList, [⟨"Rebis".toList, 2⟩, ⟨"Vitriol".toList, 1⟩]⟩
      (by decide) (by decide) (by decide) (by decide) (by decide) (by decide) (by decide)).1,
   (handleBrew_success
      ⟨⟨[⟨"Rebis".toList, 5⟩, ⟨"Vitriol".toList, 3⟩], [], []⟩,
        ⟨[⟨"Swallow".toList, [⟨"Rebis".toList, 2⟩, ⟨"Vitriol".toList, 1⟩]⟩]⟩, ⟨[]⟩⟩
      "Swallow".toList ⟨"Swallow".toList, [⟨"Rebis".toList, 2⟩, ⟨"Vitriol".toList, 1⟩]⟩
      (by decide) (by decide) (by decide) (by decide) (by decide) (by decide)
      (by decide)).2.2.2.2.1⟩

/-- C21, counterexample. With the formula `Swallow` of `1 Rebis`, 1 Rebis held
and 2147483647 units of `Swallow` held (so the potion category has an entry
for it), the brew prints `Alchemy item created: Swallow` and the potion's
quantity becomes 0: the `int` sum wraps and is then set to 0. -/
theorem handleBrew_potion_count_wraps :
    handleBrew
        ⟨⟨[⟨"Rebis".toList, 1⟩], [⟨"Swallow".toList, 2147483647⟩], []⟩,
          ⟨[⟨"Swallow".toList, [⟨"Rebis".toList, 1⟩]⟩]⟩, ⟨[]⟩⟩
        (.BREW "Swallow".toList)
      = (⟨⟨[⟨"Rebis".toList, 0⟩], [⟨"Swallow".toList, 0⟩], []⟩,
            ⟨[⟨"Swallow".toList, [⟨"Rebis".toList, 1⟩]⟩]⟩, ⟨[]⟩⟩,
          ["Alchemy item created: Swallow".toList]) := by
  decide

/-! ## Loot, then query: theorems -/

/-- The canonical serialization of a non-empty list of valid items is
non-empty and has no whitespace at either end. -/
theorem serializeItems_ends (item : ItemInfo) (rest : List ItemInfo) (allow : Bool)
    (hv : ∀ it ∈ item :: rest, IsValidName it.name allow ∧ 1 ≤ it.quantity) :
    (∀ c, (serializeItems (item :: rest)).head? = some c → isspace c = false) ∧
    (∀ c, (serializeItems (item :: rest)).getLast? = some c → isspace c = false) ∧
    serializeItems (item :: rest) ≠ [] := by
  induction rest generalizing item with
  | nil =>
    have hf := serializeItem_facts item allow (hv item (List.mem_cons_self _ _)).1
      (hv item (List.mem_cons_self _ _)).2
    exact ⟨hf.2.2.1, hf.2.2.2, hf.1⟩
  | cons r rs ih =>
    have hf := serializeItem_facts item allow (hv item (List.mem_cons_self _ _)).1
      (hv item (List.mem_cons_self _ _)).2
    have ih2 := ih r (fun it hit => hv it (List.mem_cons_of_mem _ hit))
    have hstep : serializeItems (item :: r :: rs)
        = serializeItem item ++ ',' :: ' ' :: serializeItems (r :: rs) := rfl
    rw [hstep]
    refine ⟨fun c hc => ?_, fun c hc => ?_, by simp⟩
    · obtain ⟨a, l, ha⟩ := List.exists_cons_of_ne_nil hf.1
      rw [ha] at hc
      apply hf.2.2.1 c
      rw [ha]
      simpa using hc
    · obtain ⟨a, l, ha⟩ := List.exists_cons_of_ne_nil ih2.2.2
      rw [List.getLast?_append_of_ne_nil _ (by simp), ha] at hc
      apply ih2.2.1 c
      rw [ha]
      simpa [List.getLast?_cons_cons] using hc

/-- The line `Geralt loots <canonical serialization of L>` parses to Loot of
`L`, for a non-empty list of at most 64 valid items. -/
theorem parse_command_internal_loot_line (L : List ItemInfo) (hne : L ≠ [])
    (hlen : L.length ≤ 64)
    (hv : ∀ it ∈ L, IsValidName it.name false ∧ 1 ≤ it.quantity ∧ it.quantity ≤ 2147483647) :
    parse_command_internal ("Geralt loots ".toList ++ serializeItems L) = .LOOT L := by
  obtain ⟨item, rest, rfl⟩ := List.exists_cons_of_ne_nil hne
  obtain ⟨hhead, hlast, hsne⟩ := serializeItems_ends item rest false
    (fun it hit => ⟨(hv it hit).1, (hv it hit).2.1⟩)
  have htrim : trim_whitespace_str ("Geralt loots ".toList ++ serializeItems (item :: rest))
      = "Geralt loots ".toList ++ serializeItems (item :: rest) := by
    apply trim_whitespace_str_eq_self
    · intro c hc
      have : c = 'G' := by simpa using hc.symm
      rw [this]
      decide
    · intro c hc
      rw [List.getLast?_append_of_ne_nil _ hsne] at hc
      exact hlast c hc
  have hbegins : BeginsWithWords "Geralt".toList "loots".toList
      (trim_whitespace_str ("Geralt loots ".toList ++ serializeItems (item :: rest)))
      (' ' :: serializeItems (item :: rest)) := by
    refine ⟨[' '], ?_, by simp, by simp; decide, by simp; decide⟩
    rw [htrim]
    rfl
  rw [parse_command_internal_geralt _ "loots".toList _ (by decide) (by decide) hbegins,
    parse_geralt_loots _ (by simp; decide)]
  have hadv : advance_past_whitespace (' ' :: serializeItems (item :: rest))
      = serializeItems (item :: rest) :=
    (takeWhile_dropWhile_append_stop isspace [' '] (serializeItems (item :: rest))
      (by simp; decide) hhead).2
  rw [hadv]
  unfold parse_loots
  rw [parse_item_list_serializeItems_valid (item :: rest) false hlen hv]
  simp

/-- The line `Total ingredient <n>?` parses to QueryTotalSpecific of
`ingredient` and `n`, for a valid name without separators. -/
theorem parse_command_internal_total_ingredient_line (n : Str) (hn : IsValidName n false) :
    parse_command_internal ("Total ingredient ".toList ++ n ++ ['?'])
      = .QUERY_TOTAL_SPECIFIC "ingredient".toList n := by
  have hn2 : IsValidName n false := hn
  obtain ⟨hne, -, -, -, hnhead, hnlast, -⟩ := hn
  have htrim : trim_whitespace_str ("Total ingredient ".toList ++ n ++ ['?'])
      = "Total ingredient ".toList ++ n ++ ['?'] := by
    apply trim_whitespace_str_eq_self
    · intro c hc
      have : c = 'T' := by simpa using hc.symm
      rw [this]
      decide
    · intro c hc
      rw [List.getLast?_append_of_ne_nil _ (by simp)] at hc
      have : c = '?' := by simpa using hc.symm
      rw [this]
      decide
  have hbegins : BeginsWithWord "Total".toList
      (trim_whitespace_str ("Total ingredient ".toList ++ n ++ ['?']))
      (' ' :: ("ingredient ".toList ++ (n ++ ['?']))) := by
    refine ⟨?_, by simp; decide⟩
    rw [htrim]
    simp
  rw [parse_command_internal_total _ _ hbegins]
  have hadv : advance_past_whitespace (' ' :: ("ingredient ".toList ++ (n ++ ['?'])))
      = "ingredient ".toList ++ (n ++ ['?']) :=
    (takeWhile_dropWhile_append_stop isspace [' '] ("ingredient ".toList ++ (n ++ ['?']))
      (by simp; decide) (by
        intro c hc
        have : c = 'i' := by simpa using hc.symm
        rw [this]
        decide)).2
  rw [hadv]
  have hdrop : ("ingredient ".toList ++ (n ++ ['?'])).dropLast = "ingredient ".toList ++ n := by
    rw [← List.append_assoc, List.dropLast_concat]
  have htrim2 : trim_whitespace_str ("ingredient ".toList ++ n) = "ingredient ".toList ++ n := by
    apply trim_whitespace_str_eq_self
    · intro c hc
      have : c = 'i' := by simpa using hc.symm
      rw [this]
      decide
    · intro c hc
      rw [List.getLast?_append_of_ne_nil _ hne] at hc
      exact hnlast c hc
  have htrimn : trim_whitespace_str n = n := trim_whitespace_str_eq_self n hnhead hnlast
  have hcat : trim_whitespace_str "ingredient".toList = "ingredient".toList := by decide
  have h := (parse_total_space ("ingredient ".toList ++ (n ++ ['?'])) "ingredient".toList n
    ⟨by simp, by
      rw [← List.append_assoc, List.getLast?_append_of_ne_nil _ (by simp)]
      rfl⟩
    (by rw [hdrop, htrim2]; rfl) (by decide)).1
  rw [hcat, htrimn] at h
  exact h (by decide) (by simpa using hn2)

/-- `addOrUpdateItemInternal` adds at most one entry. -/
theorem addOrUpdateItemInternal_length_le (items : List InventoryItem) (name : Str) (qc : Int) :
    (addOrUpdateItemInternal items name qc).length ≤ items.length + 1 := by
  unfold addOrUpdateItemInternal
  split
  · have := congrArg List.length (writeItemInternal_map_name items name
      (fun q => if wrapInt32 (q + qc) < 0 then 0 else wrapInt32 (q + qc)))
    simp only [List.length_map] at this
    simp only []
    omega
  · split
    · simp
    · omega

/-- The sum listed for a name, item by item. -/
theorem listedTotal_cons (item : ItemInfo) (rest : List ItemInfo) (n : Str) :
    listedTotal (item :: rest) n
      = (if item.name = n then item.quantity else 0) + listedTotal rest n := by
  unfold listedTotal
  by_cases h : item.name = n
  · simp [List.filter_cons, h]
  · simp [List.filter_cons, h]

/-- The sum listed for a name is not negative when the quantities are
positive. -/
theorem listedTotal_nonneg (items : List ItemInfo) (n : Str)
    (hq : ∀ it ∈ items, 1 ≤ it.quantity) : 0 ≤ listedTotal items n := by
  induction items with
  | nil => simp [listedTotal]
  | cons item rest ih =>
    rw [listedTotal_cons]
    have h1 := hq item (List.mem_cons_self _ _)
    have h2 := ih (fun it hit => hq it (List.mem_cons_of_mem _ hit))
    split <;> omega

/-- A name that is not listed has the sum 0. -/
theorem listedTotal_of_not_mem (items : List ItemInfo) (n : Str)
    (h : ∀ it ∈ items, it.name ≠ n) : listedTotal items n = 0 := by
  induction items with
  | nil => simp [listedTotal]
  | cons item rest ih =>
    rw [listedTotal_cons, if_neg (h item (List.mem_cons_self _ _)),
      ih (fun it hit => h it (List.mem_cons_of_mem _ hit))]
    rfl

/-- The loop of `handleLoot`: with room for every item and sums within the
range of `int`, each name gains the sum of the quantities listed for it. -/
theorem addIngredients_quantity (L : List ItemInfo) (inv : Inventory)
    (hq : ∀ it ∈ L, 1 ≤ it.quantity)
    (hroom : inv.ingredients_.length + L.length ≤ 128)
    (h0 : ∀ m, 0 ≤ inv.getIngredientQuantity m)
    (hsum : ∀ m, inv.getIngredientQuantity m + listedTotal L m ≤ INT_MAX) :
    ∀ m, (addIngredients inv L).getIngredientQuantity m
      = inv.getIngredientQuantity m + listedTotal L m := by
  induction L generalizing inv with
  | nil =>
    intro m
    simp [addIngredients, listedTotal]
  | cons item rest ih =>
    intro m
    have hq1 := hq item (List.mem_cons_self _ _)
    have hrestq : ∀ it ∈ rest, 1 ≤ it.quantity := fun it hit => hq it (List.mem_cons_of_mem _ hit)
    simp only [List.length_cons] at hroom
    have hsame : (inv.addIngredient item.name item.quantity).getIngredientQuantity item.name
        = inv.getIngredientQuantity item.name + item.quantity := by
      unfold Inventory.addIngredient Inventory.getIngredientQuantity
      apply getItemQuantityInternal_addOrUpdate_same _ _ _ hq1 (h0 item.name)
      · have := hsum item.name
        rw [listedTotal_cons, if_pos rfl] at this
        have hnn := listedTotal_nonneg rest item.name hrestq
        unfold Inventory.getIngredientQuantity at this
        omega
      · right
        omega
    have hother : ∀ k, k ≠ item.name →
        (inv.addIngredient item.name item.quantity).getIngredientQuantity k
          = inv.getIngredientQuantity k := by
      intro k hk
      unfold Inventory.addIngredient Inventory.getIngredientQuantity
      exact getItemQuantityInternal_addOrUpdate_other _ _ _ _ hk
    have hget : ∀ k, (inv.addIngredient item.name item.quantity).getIngredientQuantity k
        = inv.getIngredientQuantity k + (if item.name = k then item.quantity else 0) := by
      intro k
      by_cases hk : item.name = k
      · subst hk
        rw [hsame, if_pos rfl]
      · rw [hother k (fun h => hk h.symm), if_neg hk]
        omega
    have hlen : (inv.addIngredient item.name item.quantity).ingredients_.length
        ≤ inv.ingredients_.length + 1 := by
      unfold Inventory.addIngredient
      exact addOrUpdateItemInternal_length_le _ _ _
    have := ih (inv.addIngredient item.name item.quantity) hrestq (by omega)
      (fun k => by
        rw [hget k]
        have := h0 k
        split <;> omega)
      (fun k => by
        rw [hget k]
        have := hsum k
        rw [listedTotal_cons] at this
        omega) m
    simp only [addIngredients]
    rw [this, hget m, listedTotal_cons]
    omega

/-- An `int` that is not negative is written as its plain decimal. -/
theorem ostream_int_of_nonneg (value : Int) (h : 0 ≤ value) :
    ostream_int value = decimal value.toNat := by
  unfold ostream_int
  rw [if_neg (by omega)]

/-- C30. Loot then query, end to end: for every non-empty list `L` of at most
64 items with valid names without spaces and quantities in `[1, 2147483647]`
whose per-name totals do not exceed 2147483647, the session that starts empty
and reads the line `Geralt loots <canonical serialization of L>` and then, for
a valid name `n`, the line `Total ingredient n?` prints
`Alchemy ingredients obtained` and then the sum of the quantities listed for
`n` in `L` in plain decimal (0 when `n` is not listed). -/
theorem run_loot_then_total (L : List ItemInfo) (n : Str) (hne : L ≠ [])
    (hlen : L.length ≤ 64)
    (hv : ∀ it ∈ L, IsSpecName it.name false ∧ 1 ≤ it.quantity ∧ it.quantity ≤ 2147483647)
    (htotal : ∀ it ∈ L, listedTotal L it.name ≤ 2147483647)
    (hn : IsSpecName n false) :
    (WitcherGame.run
        ["Geralt loots ".toList ++ serializeItems L,
         "Total ingredient ".toList ++ n ++ ['?']]).2
      = ["Alchemy ingredients obtained".toList, decimal (listedTotal L n).toNat] ∧
    ((∀ it ∈ L, it.name ≠ n) → listedTotal L n = 0) := by
  have hv2 : ∀ it ∈ L, IsValidName it.name false ∧ 1 ≤ it.quantity ∧
      it.quantity ≤ 2147483647 :=
    fun it hit => ⟨IsSpecName.isValidName _ _ (hv it hit).1, (hv it hit).2⟩
  have hq : ∀ it ∈ L, 1 ≤ it.quantity := fun it hit => (hv it hit).2.1
  have hp1 := parse_command_internal_loot_line L hne hlen hv2
  have hp2 := parse_command_internal_total_ingredient_line n (IsSpecName.isValidName _ _ hn)
  have hall : ∀ m, listedTotal L m ≤ 2147483647 := by
    intro m
    by_cases hm : ∃ it ∈ L, it.name = m
    · obtain ⟨it, hit, rfl⟩ := hm
      exact htotal it hit
    · push_neg at hm
      rw [listedTotal_of_not_mem L m hm]
      decide
  have hqty := addIngredients_quantity L ⟨[], [], []⟩ hq
    (by simp only [List.length_nil]; omega)
    (fun m => by simp [Inventory.getIngredientQuantity, getItemQuantityInternal, findItemInternal])
    (fun m => by
      have := hall m
      simp only [Inventory.getIngredientQuantity, getItemQuantityInternal, findItemInternal,
        INT_MAX]
      omega) n
  have hzero : Inventory.getIngredientQuantity ⟨[], [], []⟩ n = 0 := rfl
  rw [hzero, zero_add] at hqty
  refine ⟨?_, listedTotal_of_not_mem L n⟩
  have hs1 : WitcherGame.init.step ("Geralt loots ".toList ++ serializeItems L)
      = some (⟨addIngredients ⟨[], [], []⟩ L, ⟨[]⟩, ⟨[]⟩⟩,
          ["Alchemy ingredients obtained".toList]) := by
    unfold WitcherGame.step
    simp only [hp1, Command.type, WitcherGame.dispatch]
    rfl
  have hs2 : WitcherGame.step ⟨addIngredients ⟨[], [], []⟩ L, ⟨[]⟩, ⟨[]⟩⟩
        ("Total ingredient ".toList ++ n ++ ['?'])
      = some (⟨addIngredients ⟨[], [], []⟩ L, ⟨[]⟩, ⟨[]⟩⟩,
          [ostream_int ((addIngredients ⟨[], [], []⟩ L).getIngredientQuantity n)]) := by
    unfold WitcherGame.step
    simp only [hp2, Command.type, WitcherGame.dispatch]
    rfl
  unfold WitcherGame.run
  simp only [WitcherGame.run_loop, hs1, hs2]
  rw [hqty, ostream_int_of_nonneg _ (listedTotal_nonneg L n hq)]
  rfl

/-- Witness of C30: the scenario of the specification, with `Rebis` listed
twice. -/
theorem run_loot_then_total_witness :
    (WitcherGame.run
        ["Geralt loots ".toList ++
            serializeItems [⟨"Rebis".toList, 5⟩, ⟨"Vitriol".toList, 3⟩, ⟨"Rebis".toList, 2⟩],
         "Total ingredient ".toList ++ "Rebis".toList ++ ['?']]).2
      = ["Alchemy ingredients obtained".toList,
         decimal (listedTotal [⟨"Rebis".toList, 5⟩, ⟨"Vitriol".toList, 3⟩, ⟨"Rebis".toList, 2⟩]
           "Rebis".toList).toNat] ∧
    ((∀ it ∈ ([⟨"Rebis".toList, 5⟩, ⟨"Vitriol".toList, 3⟩, ⟨"Rebis".toList, 2⟩] : List ItemInfo),
        it.name ≠ "Rebis".toList) →
      listedTotal [⟨"Rebis".toList, 5⟩, ⟨"Vitriol".toList, 3⟩, ⟨"Rebis".toList, 2⟩]
        "Rebis".toList = 0) :=
  run_loot_then_total [⟨"Rebis".toList, 5⟩, ⟨"Vitriol".toList, 3⟩, ⟨"Rebis".toList, 2⟩]
    "Rebis".toList (by decide) (by decide) (by decide) (by decide) (by decide)

/-- The values in the witness of C30: the sum listed for `Rebis` is 7, written
`7`. -/
theorem run_loot_then_total_example :
    listedTotal [⟨"Rebis".toList, 5⟩, ⟨"Vitriol".toList, 3⟩, ⟨"Rebis".toList, 2⟩]
      "Rebis".toList = 7 ∧
    decimal 7 = "7".toList := by
  constructor
  · decide
  · simp [decimal, digitChar]

/-! ## Lines that do not parse, and empty lines -/

/-- C37. Unparseable lines do not affect the session: for every session
state and every line for which the parser returns Invalid, processing the
line prints exactly `INVALID` and leaves inventory, alchemy base and bestiary
unchanged; for every line that is empty after trimming the parser returns
Empty, nothing is printed and the state is unchanged. -/
theorem step_invalid_or_empty (g : WitcherGame) (line : Str) :
    (parse_command_internal line = .INVALID →
      g.step line = some (g, ["INVALID".toList])) ∧
    (trim_whitespace_str line = [] →
      parse_command_internal line = .EMPTY ∧ g.step line = some (g, [])) := by
  constructor
  · intro h
    unfold WitcherGame.step
    simp only [h, Command.type, WitcherGame.dispatch]
    rfl
  · intro h
    have hp : parse_command_internal line = .EMPTY := by
      unfold parse_command_internal
      simp only [h, if_true]
    refine ⟨hp, ?_⟩
    unfold WitcherGame.step
    simp only [hp, Command.type, WitcherGame.dispatch]
    rfl

/-- Witness of C37: `Geralt sleeps` is Invalid, and a line of blanks is
Empty. -/
theorem step_invalid_or_empty_witness :
    WitcherGame.init.step "Geralt sleeps".toList = some (WitcherGame.init, ["INVALID".toList]) ∧
    parse_command_internal " \t ".toList = .EMPTY ∧
    WitcherGame.init.step " \t ".toList = some (WitcherGame.init, []) :=
  ⟨(step_invalid_or_empty WitcherGame.init "Geralt sleeps".toList).1 (by decide),
   (step_invalid_or_empty WitcherGame.init " \t ".toList).2 (by decide)⟩

/-! ## Sorted output is determined by content -/

/-- Two sorted lists with the same elements are equal, when elements of which
neither is smaller than the other are equal. -/
theorem sorted_perm_unique {α : Type} (comp : α → α → Bool) (l1 l2 : List α)
    (hperm : l1.Perm l2)
    (hanti : ∀ a ∈ l1, ∀ b ∈ l1, comp a b = false → comp b a = false → a = b)
    (h1 : l1.Pairwise (fun a b => comp b a = false))
    (h2 : l2.Pairwise (fun a b => comp b a = false)) : l1 = l2 := by
  induction l1 generalizing l2 with
  | nil => exact (List.nil_perm.mp hperm).symm
  | cons a t1 ih =>
    cases l2 with
    | nil => exact absurd (List.perm_nil.mp hperm) (by simp)
    | cons b t2 =>
      rw [List.pairwise_cons] at h1 h2
      have hb : b ∈ a :: t1 := hperm.symm.subset (List.mem_cons_self _ _)
      have ha : a ∈ b :: t2 := hperm.subset (List.mem_cons_self _ _)
      have hab : a = b := by
        rcases List.mem_cons.mp hb with hba | hbt
        · exact hba.symm
        · rcases List.mem_cons.mp ha with hab | hat
          · exact hab
          · exact hanti a (List.mem_cons_self _ _) b hb (h2.1 a hat) (h1.1 b hbt)
      subst hab
      have hp2 : t1.Perm t2 := List.Perm.cons_inv hperm
      rw [ih t2 hp2 (fun x hx y hy => hanti x (List.mem_cons_of_mem _ hx) y
        (List.mem_cons_of_mem _ hy)) h1.2 h2.2]

/-- Items with unique names of which neither name is smaller are the same
item. -/
theorem inventoryItem_eq_of_names (l : List InventoryItem)
    (hnodup : (l.map (fun item => item.name)).Nodup) :
    ∀ a ∈ l, ∀ b ∈ l, InventoryItem.compareByName a b = false →
      InventoryItem.compareByName b a = false → a = b := by
  intro a ha b hb h1 h2
  exact List.inj_on_of_nodup_map hnodup ha hb (string_lt_antisymm _ _ h1 h2)

/-- Effective items with unique names of which neither name is smaller are
the same item. -/
theorem effectiveItem_eq_of_names (l : List EffectiveItem)
    (hnodup : (l.map (fun item => item.name)).Nodup) :
    ∀ a ∈ l, ∀ b ∈ l, EffectiveItem.compareByName a b = false →
      EffectiveItem.compareByName b a = false → a = b := by
  intro a ha b hb h1 h2
  exact List.inj_on_of_nodup_map hnodup ha hb (string_lt_antisymm _ _ h1 h2)

/-- Requirements of which neither comes before the other under
`compareForFormula` are equal. -/
theorem requirement_eq_of_compare (a b : IngredientRequirement)
    (h1 : IngredientRequirement.compareForFormula a b = false)
    (h2 : IngredientRequirement.compareForFormula b a = false) : a = b := by
  rw [compareForFormula_eq_false_iff] at h1 h2
  have hq : a.quantity = b.quantity := by
    rcases h1 with h1 | ⟨h1, -⟩
    · rcases h2 with h2 | ⟨h2, -⟩
      · omega
      · omega
    · exact h1.symm
  have hn : a.ingredient_name = b.ingredient_name := by
    rcases h1 with h1 | ⟨-, h1⟩
    · omega
    · rcases h2 with h2 | ⟨-, h2⟩
      · omega
      · exact string_lt_antisymm _ _ h1 h2
  cases a
  cases b
  simp only [IngredientRequirement.mk.injEq]
  exact ⟨hn, hq⟩

/-- C36. Sorted output is determined by content, not by insertion order or
sort stability.  Two inventory categories with unique names, two formulas, or
two bestiary entries with unique item names whose stored entries are
permutations of each other give the same output of `printAllItemsInternal`,
`PotionFormula::print` and `printEffectiveness`; and any two orderings of the
same entries that are sorted under the respective comparator (name; quantity
descending then name; name) are equal. -/
theorem sorted_output_determined :
    (∀ (items1 items2 : List InventoryItem) (none_message : Str), items1.Perm items2 →
      (items1.map (fun item => item.name)).Nodup →
      printAllItemsInternal items1 none_message = printAllItemsInternal items2 none_message) ∧
    (∀ f1 f2 : PotionFormula, f1.requirements.Perm f2.requirements → f1.print = f2.print) ∧
    (∀ e1 e2 : BestiaryEntry, e1.effective_items.Perm e2.effective_items →
      (e1.effective_items.map (fun item => item.name)).Nodup →
      e1.printEffectiveness = e2.printEffectiveness) ∧
    (∀ l1 l2 : List InventoryItem, l1.Perm l2 → (l1.map (fun item => item.name)).Nodup →
      l1.Pairwise (fun a b => InventoryItem.compareByName b a = false) →
      l2.Pairwise (fun a b => InventoryItem.compareByName b a = false) → l1 = l2) ∧
    (∀ l1 l2 : List IngredientRequirement, l1.Perm l2 →
      l1.Pairwise (fun a b => IngredientRequirement.compareForFormula b a = false) →
      l2.Pairwise (fun a b => IngredientRequirement.compareForFormula b a = false) → l1 = l2) ∧
    (∀ l1 l2 : List EffectiveItem, l1.Perm l2 → (l1.map (fun item => item.name)).Nodup →
      l1.Pairwise (fun a b => EffectiveItem.compareByName b a = false) →
      l2.Pairwise (fun a b => EffectiveItem.compareByName b a = false) → l1 = l2) := by
  have hitems : ∀ l1 l2 : List InventoryItem, l1.Perm l2 →
      (l1.map (fun item => item.name)).Nodup →
      l1.Pairwise (fun a b => InventoryItem.compareByName b a = false) →
      l2.Pairwise (fun a b => InventoryItem.compareByName b a = false) → l1 = l2 :=
    fun l1 l2 hp hn h1 h2 =>
      sorted_perm_unique InventoryItem.compareByName l1 l2 hp (inventoryItem_eq_of_names l1 hn)
        h1 h2
  have hreqs : ∀ l1 l2 : List IngredientRequirement, l1.Perm l2 →
      l1.Pairwise (fun a b => IngredientRequirement.compareForFormula b a = false) →
      l2.Pairwise (fun a b => IngredientRequirement.compareForFormula b a = false) → l1 = l2 :=
    fun l1 l2 hp h1 h2 =>
      sorted_perm_unique IngredientRequirement.compareForFormula l1 l2 hp
        (fun a _ b _ => requirement_eq_of_compare a b) h1 h2
  have heff : ∀ l1 l2 : List EffectiveItem, l1.Perm l2 →
      (l1.map (fun item => item.name)).Nodup →
      l1.Pairwise (fun a b => EffectiveItem.compareByName b a = false) →
      l2.Pairwise (fun a b => EffectiveItem.compareByName b a = false) → l1 = l2 :=
    fun l1 l2 hp hn h1 h2 =>
      sorted_perm_unique EffectiveItem.compareByName l1 l2 hp (effectiveItem_eq_of_names l1 hn)
        h1 h2
  have hsortedItems : ∀ l : List InventoryItem,
      (std_sort InventoryItem.compareByName l).Pairwise
        (fun a b => InventoryItem.compareByName b a = false) :=
    fun l => std_sort_sorted InventoryItem.compareByName
      (fun _ _ h => string_lt_asymm _ _ h)
      (fun _ _ _ h1 h2 => string_lt_neg_trans _ _ _ h1 h2) l
  have hsortedEff : ∀ l : List EffectiveItem,
      (std_sort EffectiveItem.compareByName l).Pairwise
        (fun a b => EffectiveItem.compareByName b a = false) :=
    fun l => std_sort_sorted EffectiveItem.compareByName
      (fun _ _ h => string_lt_asymm _ _ h)
      (fun _ _ _ h1 h2 => string_lt_neg_trans _ _ _ h1 h2) l
  have hsortedReqs : ∀ l : List IngredientRequirement,
      (std_sort IngredientRequirement.compareForFormula l).Pairwise
        (fun a b => IngredientRequirement.compareForFormula b a = false) :=
    fun l => (std_sort_compareForFormula_sorted l).imp
      (fun {a b} hab => (compareForFormula_eq_false_iff a b).mpr hab)
  refine ⟨fun items1 items2 none_message hperm hnodup => ?_, fun f1 f2 hperm => ?_,
    fun e1 e2 hperm hnodup => ?_, hitems, hreqs, heff⟩
  · have hfperm : (items1.filter (fun item => decide (item.quantity > 0))).Perm
        (items2.filter (fun item => decide (item.quantity > 0))) := hperm.filter _
    have hfnodup : ((items1.filter (fun item => decide (item.quantity > 0))).map
        (fun item => item.name)).Nodup :=
      (List.filter_sublist _).map _ |>.nodup hnodup
    have hsort : std_sort InventoryItem.compareByName
          (items1.filter (fun item => decide (item.quantity > 0)))
        = std_sort InventoryItem.compareByName
          (items2.filter (fun item => decide (item.quantity > 0))) := by
      apply hitems _ _ _ _ (hsortedItems _) (hsortedItems _)
      · exact ((std_sort_perm _ _).trans hfperm).trans (std_sort_perm _ _).symm
      · exact ((std_sort_perm InventoryItem.compareByName _).map _).nodup_iff.mpr hfnodup
    have hnil : items1.filter (fun item => decide (item.quantity > 0)) = [] ↔
        items2.filter (fun item => decide (item.quantity > 0)) = [] := by
      constructor
      · intro h
        rw [h] at hfperm
        exact List.nil_perm.mp hfperm
      · intro h
        rw [h] at hfperm
        exact List.perm_nil.mp hfperm
    unfold printAllItemsInternal
    simp only []
    by_cases h : items1.filter (fun item => decide (item.quantity > 0)) = []
    · rw [if_pos h, if_pos (hnil.mp h)]
    · rw [if_neg h, if_neg (fun h2 => h (hnil.mpr h2)), hsort]
  · have hsort : std_sort IngredientRequirement.compareForFormula f1.requirements
        = std_sort IngredientRequirement.compareForFormula f2.requirements :=
      hreqs _ _ (((std_sort_perm _ _).trans hperm).trans (std_sort_perm _ _).symm)
        (hsortedReqs _) (hsortedReqs _)
    have hnil : f1.requirements = [] ↔ f2.requirements = [] := by
      constructor
      · intro h
        rw [h] at hperm
        exact List.nil_perm.mp hperm
      · intro h
        rw [h] at hperm
        exact List.perm_nil.mp hperm
    unfold PotionFormula.print
    by_cases h : f1.requirements = []
    · rw [if_pos h, if_pos (hnil.mp h)]
    · rw [if_neg h, if_neg (fun h2 => h (hnil.mpr h2)), hsort]
  · have hsort : std_sort EffectiveItem.compareByName e1.effective_items
        = std_sort EffectiveItem.compareByName e2.effective_items := by
      apply heff _ _ _ _ (hsortedEff _) (hsortedEff _)
      · exact ((std_sort_perm _ _).trans hperm).trans (std_sort_perm _ _).symm
      · exact ((std_sort_perm EffectiveItem.compareByName _).map _).nodup_iff.mpr hnodup
    have hnil : e1.effective_items = [] ↔ e2.effective_items = [] := by
      constructor
      · intro h
        rw [h] at hperm
        exact List.nil_perm.mp hperm
      · intro h
        rw [h] at hperm
        exact List.perm_nil.mp hperm
    unfold BestiaryEntry.printEffectiveness
    by_cases h : e1.effective_items = []
    · rw [if_pos h, if_pos (hnil.mp h)]
    · rw [if_neg h, if_neg (fun h2 => h (hnil.mpr h2)), hsort]

/-! ## Inventory keys: theorems -/

/-- `findItemInternal` finds nothing iff no entry has the name. -/
theorem findItemInternal_eq_none_iff (items : List InventoryItem) (name : Str) :
    findItemInternal items name = none ↔ name ∉ items.map (fun item => item.name) := by
  induction items with
  | nil => simp [findItemInternal]
  | cons item rest ih =>
    by_cases h : item.name = name
    · simp [findItemInternal, h]
    · have h2 : ¬ name = item.name := fun h3 => h h3.symm
      simp only [findItemInternal, h, if_false, ih, List.map_cons, List.mem_cons, h2, false_or]

/-- The names after `addOrUpdateItemInternal`: the same names, or the new name
appended when it was absent and the vector had room. -/
theorem addOrUpdateItemInternal_names (items : List InventoryItem) (name : Str) (qc : Int) :
    (addOrUpdateItemInternal items name qc).map (fun item => item.name)
        = items.map (fun item => item.name) ∨
    ((addOrUpdateItemInternal items name qc).map (fun item => item.name)
        = items.map (fun item => item.name) ++ [name] ∧
      name ∉ items.map (fun item => item.name) ∧ items.length < 128) := by
  unfold addOrUpdateItemInternal
  cases hfind : findItemInternal items name with
  | some e =>
    left
    exact writeItemInternal_map_name _ _ _
  | none =>
    simp only []
    split
    · rename_i hc
      right
      refine ⟨by simp, (findItemInternal_eq_none_iff items name).mp hfind, ?_⟩
      simpa [GameConstants.MAX_ITEMS] using hc.2
    · left
      rfl

/-- The names after `useItemInternal` are the names before. -/
theorem useItemInternal_names (items : List InventoryItem) (name : Str) (k : Int) :
    (useItemInternal items name k).1.map (fun item => item.name)
      = items.map (fun item => item.name) := by
  unfold useItemInternal
  split
  · rfl
  · split
    · split
      · exact writeItemInternal_map_name _ _ _
      · rfl
    · rfl

/-- Vectors with the same names are keyed alike. -/
theorem uniqueNames_of_names_eq (l1 l2 : List InventoryItem)
    (h : l1.map (fun item => item.name) = l2.map (fun item => item.name))
    (h2 : UniqueNames l2) : UniqueNames l1 := by
  have hlen : l1.length = l2.length := by
    have := congrArg List.length h
    simpa using this
  exact ⟨h ▸ h2.1, hlen ▸ h2.2⟩

/-- `addOrUpdateItemInternal` keeps the names unique and the size within 128. -/
theorem addOrUpdateItemInternal_uniqueNames (items : List InventoryItem) (name : Str) (qc : Int)
    (h : UniqueNames items) : UniqueNames (addOrUpdateItemInternal items name qc) := by
  rcases addOrUpdateItemInternal_names items name qc with hn | ⟨hn, hnew, hlen⟩
  · exact uniqueNames_of_names_eq _ _ hn h
  · constructor
    · rw [hn]
      exact List.Nodup.append h.1 (List.nodup_singleton _)
        (by
          intro x hx hx2
          rw [List.mem_singleton] at hx2
          subst hx2
          exact hnew hx)
    · have := congrArg List.length hn
      simp only [List.length_map, List.length_append, List.length_singleton] at this
      omega

/-- `useItemInternal` keeps the names unique and the size within 128. -/
theorem useItemInternal_uniqueNames (items : List InventoryItem) (name : Str) (k : Int)
    (h : UniqueNames items) : UniqueNames (useItemInternal items name k).1 :=
  uniqueNames_of_names_eq _ _ (useItemInternal_names items name k) h

/-- An entry after `addOrUpdateItemInternal` has the credited name or a name
that was there before. -/
theorem addOrUpdateItemInternal_mem_name (items : List InventoryItem) (name : Str) (qc : Int)
    (x : InventoryItem) (hx : x ∈ addOrUpdateItemInternal items name qc) :
    x.name = name ∨ x.name ∈ items.map (fun item => item.name) := by
  have hmem : x.name ∈ (addOrUpdateItemInternal items name qc).map (fun item => item.name) :=
    List.mem_map.mpr ⟨x, hx, rfl⟩
  rcases addOrUpdateItemInternal_names items name qc with hn | ⟨hn, -, -⟩
  · rw [hn] at hmem
    exact Or.inr hmem
  · rw [hn, List.mem_append, List.mem_singleton] at hmem
    rcases hmem with h | h
    · exact Or.inr h
    · exact Or.inl h

/-- One call of the public interface leaves the other two categories
unchanged. -/
theorem Inventory.call_other (inv : Inventory) (c : InventoryCall) (category : Category)
    (h : category ≠ c.category) : (inv.call c).items category = inv.items category := by
  cases c with
  | add cat name quantity =>
    cases cat <;> cases category <;>
      first
        | exact absurd rfl h
        | rfl
  | use cat name quantity =>
    cases cat <;> cases category <;>
      first
        | exact absurd rfl h
        | rfl

/-- One call of the public interface keeps every category keyed by name. -/
theorem Inventory.call_uniqueNames (inv : Inventory) (c : InventoryCall)
    (h : ∀ category, UniqueNames (inv.items category)) :
    ∀ category, UniqueNames ((inv.call c).items category) := by
  have hi := h .ingredient
  have hp := h .potion
  have ht := h .trophy
  simp only [Inventory.items] at hi hp ht
  intro category
  cases c with
  | add cat name quantity =>
    cases cat <;> cases category <;>
      simp only [Inventory.call, Inventory.items, Inventory.addIngredient, Inventory.addPotion,
        Inventory.addTrophy] <;>
      first
        | assumption
        | exact addOrUpdateItemInternal_uniqueNames _ _ _ (by assumption)
  | use cat name quantity =>
    cases cat <;> cases category <;>
      simp only [Inventory.call, Inventory.items, Inventory.useIngredient, Inventory.usePotion,
        Inventory.useTrophy] <;>
      first
        | assumption
        | exact useItemInternal_uniqueNames _ _ _ (by assumption)

/-- The key invariant is kept along a sequence of calls. -/
theorem Inventory.foldl_call_uniqueNames (calls : List InventoryCall) (inv : Inventory)
    (h : ∀ category, UniqueNames (inv.items category)) :
    ∀ category, UniqueNames ((calls.foldl Inventory.call inv).items category) := by
  induction calls generalizing inv with
  | nil => exact h
  | cons c rest ih => exact ih (inv.call c) (Inventory.call_uniqueNames inv c h)

/-- C33. Inventory key uniqueness: in every state reached from the empty
inventory by any sequence of add and use calls, each of the three categories
holds at most one entry per distinct name and at most 128 entries; and an add
or use call on one category leaves the vectors of the other two categories
unchanged. -/
theorem Inventory.run_uniqueNames (calls : List InventoryCall) :
    (∀ category,
      ((Inventory.run calls).items category).map (fun item => item.name) |>.Nodup) ∧
    (∀ category, ((Inventory.run calls).items category).length ≤ 128) ∧
    (∀ (c : InventoryCall) (category : Category), category ≠ c.category →
      ((Inventory.run calls).call c).items category = (Inventory.run calls).items category) := by
  have h := Inventory.foldl_call_uniqueNames calls ⟨[], [], []⟩ (by
    intro category
    cases category <;> exact ⟨List.nodup_nil, by simp [Inventory.items]⟩)
  exact ⟨fun category => (h category).1, fun category => (h category).2,
    fun c category hc => Inventory.call_other _ c category hc⟩

/-! ## Session invariants: the inventory -/

/-- A formula is found iff its potion name is the name of a stored formula. -/
theorem findFormula_isSome_iff (ab : AlchemyBase) (n : Str) :
    (ab.findFormula n).isSome = true ↔
      n ∈ ab.formulae_.map (fun formula => formula.potion_name) := by
  unfold AlchemyBase.findFormula
  rw [List.find?_isSome]
  simp only [decide_eq_true_eq, List.mem_map]

/-- An entry is found iff the monster name is the name of a stored entry. -/
theorem findEntry_isSome_iff (b : Bestiary) (n : Str) :
    (b.findEntry n).isSome = true ↔ n ∈ b.entries_.map (fun entry => entry.monster_name) := by
  unfold Bestiary.findEntry
  rw [List.find?_isSome]
  simp only [decide_eq_true_eq, List.mem_map]

/-- A call that credits no potion and no trophy keeps the inventory
invariants. -/
theorem Inventory.WellFormed.call (inv : Inventory) (ab : AlchemyBase) (b : Bestiary)
    (c : InventoryCall) (h : inv.WellFormed ab b)
    (hp : ∀ n q, c = .add .potion n q → (ab.findFormula n).isSome = true)
    (ht : ∀ n q, c = .add .trophy n q → (b.findEntry n).isSome = true) :
    (inv.call c).WellFormed ab b := by
  obtain ⟨h1, h2, h3, h4⟩ := h
  refine ⟨Inventory.call_uniqueNames inv c h1, Inventory.call_nonneg inv c h2, ?_, ?_⟩
  · cases c with
    | use cat name quantity =>
      cases cat
      · exact h3
      · intro n hn
        apply h3 n
        simp only [Inventory.call, Inventory.usePotion] at hn
        rwa [useItemInternal_names] at hn
      · exact h3
    | add cat name quantity =>
      cases cat
      · exact h3
      · intro n hn
        simp only [Inventory.call, Inventory.addPotion, List.mem_map] at hn
        obtain ⟨x, hx, rfl⟩ := hn
        rcases addOrUpdateItemInternal_mem_name _ _ _ x hx with hx2 | hx2
        · rw [hx2]
          exact hp name quantity rfl
        · exact h3 _ hx2
      · exact h3
  · cases c with
    | use cat name quantity =>
      cases cat
      · exact h4
      · exact h4
      · intro n hn
        apply h4 n
        simp only [Inventory.call, Inventory.useTrophy] at hn
        rwa [useItemInternal_names] at hn
    | add cat name quantity =>
      cases cat
      · exact h4
      · exact h4
      · intro n hn
        simp only [Inventory.call, Inventory.addTrophy, List.mem_map] at hn
        obtain ⟨x, hx, rfl⟩ := hn
        rcases addOrUpdateItemInternal_mem_name _ _ _ x hx with hx2 | hx2
        · rw [hx2]
          exact ht name quantity rfl
        · exact h4 _ hx2

/-- The loop of `handleLoot` keeps the inventory invariants. -/
theorem addIngredients_wellFormed (L : List ItemInfo) (inv : Inventory) (ab : AlchemyBase)
    (b : Bestiary) (h : inv.WellFormed ab b) : (addIngredients inv L).WellFormed ab b := by
  induction L generalizing inv with
  | nil => exact h
  | cons item rest ih =>
    simp only [addIngredients]
    apply ih
    exact Inventory.WellFormed.call inv ab b (.add .ingredient item.name item.quantity) h
      (fun n q hc => by simp at hc) (fun n q hc => by simp at hc)

/-- The commit loop of `handleTrade` keeps the inventory invariants. -/
theorem useTrophies_wellFormed (L : List ItemInfo) (inv : Inventory) (ab : AlchemyBase)
    (b : Bestiary) (h : inv.WellFormed ab b) : (useTrophies inv L).1.WellFormed ab b := by
  induction L generalizing inv with
  | nil => exact h
  | cons item rest ih =>
    have hstep : (inv.useTrophy item.name item.quantity).1.WellFormed ab b :=
      Inventory.WellFormed.call inv ab b (.use .trophy item.name item.quantity) h
        (fun n q hc => by simp at hc) (fun n q hc => by simp at hc)
    simp only [useTrophies]
    split
    · exact ih _ hstep
    · exact hstep

/-- The commit loop of `handleBrew` keeps the inventory invariants. -/
theorem useIngredients_wellFormed (L : List IngredientRequirement) (inv : Inventory)
    (ab : AlchemyBase) (b : Bestiary) (h : inv.WellFormed ab b) :
    (useIngredients inv L).1.WellFormed ab b := by
  induction L generalizing inv with
  | nil => exact h
  | cons req rest ih =>
    have hstep : (inv.useIngredient req.ingredient_name req.quantity).1.WellFormed ab b :=
      Inventory.WellFormed.call inv ab b (.use .ingredient req.ingredient_name req.quantity) h
        (fun n q hc => by simp at hc) (fun n q hc => by simp at hc)
    simp only [useIngredients]
    split
    · exact ih _ hstep
    · exact hstep

/-- The inventory invariants survive when more formulas and more monsters are
known. -/
theorem Inventory.WellFormed.mono (inv : Inventory) (ab ab1 : AlchemyBase) (b b1 : Bestiary)
    (h : inv.WellFormed ab b)
    (hab : ∀ n, (ab.findFormula n).isSome = true → (ab1.findFormula n).isSome = true)
    (hb : ∀ n, (b.findEntry n).isSome = true → (b1.findEntry n).isSome = true) :
    inv.WellFormed ab1 b1 :=
  ⟨h.1, h.2.1, fun n hn => hab n (h.2.2.1 n hn), fun n hn => hb n (h.2.2.2 n hn)⟩

/-- `handleLoot` keeps the invariants. -/
theorem handleLoot_wellFormed (g : WitcherGame) (cmd : Command) (h : g.WellFormed) :
    (handleLoot g cmd).1.WellFormed := by
  unfold handleLoot
  split
  · exact ⟨addIngredients_wellFormed _ _ _ _ h.1, h.2⟩
  · exact h

/-- `handleTrade` keeps the invariants. -/
theorem handleTrade_wellFormed (g : WitcherGame) (cmd : Command) (h : g.WellFormed) :
    (handleTrade g cmd).1.WellFormed := by
  unfold handleTrade
  split
  · simp only
    split
    · exact h
    · split
      · exact ⟨useTrophies_wellFormed _ _ _ _ h.1, h.2⟩
      · exact ⟨addIngredients_wellFormed _ _ _ _ (useTrophies_wellFormed _ _ _ _ h.1), h.2⟩
  · exact h

/-- `handleBrew` keeps the invariants. -/
theorem handleBrew_wellFormed (g : WitcherGame) (cmd : Command) (h : g.WellFormed) :
    (handleBrew g cmd).1.WellFormed := by
  unfold handleBrew
  split
  · rename_i potion_name
    split
    · exact h
    · rename_i formula hformula
      simp only
      split
      · exact h
      · split
        · exact ⟨useIngredients_wellFormed _ _ _ _ h.1, h.2⟩
        · refine ⟨?_, h.2⟩
          exact Inventory.WellFormed.call _ _ _ (.add .potion potion_name 1)
            (useIngredients_wellFormed _ _ _ _ h.1)
            (fun n q hc => by
              simp only [InventoryCall.add.injEq, true_and] at hc
              rw [← hc.1, hformula]
              rfl)
            (fun n q hc => by simp at hc)
  · exact h

/-- `handleEncounter` keeps the invariants. -/
theorem handleEncounter_wellFormed (g : WitcherGame) (cmd : Command) (h : g.WellFormed) :
    (handleEncounter g cmd).1.WellFormed := by
  cases cmd <;> try exact h
  rename_i monster_name
  cases he : g.bestiary_.findEntry monster_name with
  | none =>
    rw [handleEncounter_no_entry g monster_name he]
    exact h
  | some entry =>
    have hsome : (g.bestiary_.findEntry monster_name).isSome = true := by
      rw [he]
      rfl
    cases hs : encounter_sign entry with
    | true =>
      rw [handleEncounter_sign g monster_name entry he hs]
      refine ⟨?_, h.2⟩
      exact Inventory.WellFormed.call _ _ _ (.add .trophy monster_name 1) h.1
        (fun n q hc => by simp at hc)
        (fun n q hc => by
          simp only [InventoryCall.add.injEq, true_and] at hc
          rw [← hc.1]
          exact hsome)
    | false =>
      cases hp : encounter_potion g.inventory_ entry with
      | none =>
        rw [handleEncounter_nothing g monster_name entry he hs hp]
        exact h
      | some p =>
        rw [handleEncounter_potion g monster_name entry p he hs hp]
        refine ⟨?_, h.2⟩
        apply Inventory.WellFormed.call _ _ _ (.add .trophy monster_name 1) _
          (fun n q hc => by simp at hc)
          (fun n q hc => by
            simp only [InventoryCall.add.injEq, true_and] at hc
            rw [← hc.1]
            exact hsome)
        split
        · obtain ⟨h1, h2, h3, h4⟩ := h.1
          have hnames := writeItemInternal_map_name g.inventory_.potions_ p.name
            (fun q => q - 1)
          obtain ⟨-, -, -, ⟨-, hq⟩, -⟩ := (encounter_potion_eq_some_iff _ _ _).mp hp
          obtain ⟨e, hfind, hqe⟩ := findItemInternal_of_pos g.inventory_.potions_ p.name hq
          have huse := useItemInternal_success g.inventory_.potions_ p.name 1 e (by decide)
            hfind (by
              unfold Inventory.getPotionQuantity at hq
              omega)
          have hcall : ({ g.inventory_ with potions_ :=
                (writeItemInternal g.inventory_.potions_ p.name (fun q => q - 1)) } : Inventory)
              = g.inventory_.call (.use .potion p.name 1) := by
            simp only [Inventory.call, Inventory.usePotion, huse]
          rw [hcall]
          exact Inventory.WellFormed.call _ _ _ _ h.1 (fun n q hc => by simp at hc)
            (fun n q hc => by simp at hc)
        · exact h.1

/-! ## Session invariants: alchemy base and bestiary -/

/-- `handleLearnFormula` keeps the invariants. -/
theorem handleLearnFormula_wellFormed (g : WitcherGame) (cmd : Command) (h : g.WellFormed) :
    (handleLearnFormula g cmd).1.WellFormed := by
  cases cmd <;> try exact h
  rename_i potion_name requirements
  cases hfind : g.alchemy_base_.findFormula potion_name with
  | some f =>
    rw [handleLearnFormula_known g potion_name requirements f hfind]
    exact h
  | none =>
    have hnotin : potion_name ∉ g.alchemy_base_.formulae_.map
        (fun formula => formula.potion_name) := by
      intro hmem
      have := (findFormula_isSome_iff g.alchemy_base_ potion_name).mpr hmem
      rw [hfind] at this
      simp at this
    unfold handleLearnFormula
    simp only [hfind, Option.isSome_none, Bool.false_eq_true, if_false]
    unfold AlchemyBase.addFormula
    simp only [GameConstants.MAX_ITEMS, GameConstants.MAX_RECIPE_INGREDIENTS]
    by_cases hfull : g.alchemy_base_.formulae_.length ≥ 128
    · simp only [hfull, if_true, Bool.false_eq_true, if_false]
      exact h
    · by_cases hreqs : List.map (fun parsed_req : ItemInfo =>
          ({ ingredient_name := parsed_req.name, quantity := parsed_req.quantity } :
            IngredientRequirement)) requirements = [] ∨
          (List.map (fun parsed_req : ItemInfo =>
            ({ ingredient_name := parsed_req.name, quantity := parsed_req.quantity } :
              IngredientRequirement)) requirements).length > 64
      · simp only [hfull, hreqs, if_true, if_false, Bool.false_eq_true]
        exact h
      · simp only [hfull, hreqs, if_true, if_false]
        push_neg at hreqs
        obtain ⟨hinv, ⟨hnodup, hlen, hforms⟩, hbest⟩ := h
        refine ⟨?_, ⟨?_, ?_, ?_⟩, hbest⟩
        · apply Inventory.WellFormed.mono _ _ _ _ _ hinv _ (fun n hn => hn)
          intro n hn
          rw [findFormula_isSome_iff] at hn ⊢
          simp only [List.map_append, List.mem_append]
          exact Or.inl hn
        · simp only [List.map_append, List.map_cons, List.map_nil]
          exact List.Nodup.append hnodup (List.nodup_singleton _)
            (by
              intro x hx hx2
              rw [List.mem_singleton] at hx2
              subst hx2
              exact hnotin hx)
        · simp only [List.length_append, List.length_singleton]
          omega
        · intro formula hformula
          rcases List.mem_append.mp hformula with hf | hf
          · exact hforms formula hf
          · rw [List.mem_singleton] at hf
            subst hf
            exact ⟨hreqs.1, hreqs.2⟩

/-- `addOrUpdateEffectiveness` keeps the bestiary keyed by name and never
forgets a monster. -/
theorem addOrUpdateEffectiveness_wellFormed (b : Bestiary) (monster_name item_name : Str)
    (type : EffectivenessType) (h : b.WellFormed) :
    (b.addOrUpdateEffectiveness monster_name item_name type).1.WellFormed ∧
    ∀ n, (b.findEntry n).isSome = true →
      ((b.addOrUpdateEffectiveness monster_name item_name type).1.findEntry n).isSome = true := by
  obtain ⟨hnodup, hlen, hentries⟩ := h
  unfold Bestiary.addOrUpdateEffectiveness
  cases hfind : b.findEntry monster_name with
  | none =>
    have hnotin : monster_name ∉ b.entries_.map (fun entry => entry.monster_name) := by
      intro hmem
      have := (findEntry_isSome_iff b monster_name).mpr hmem
      rw [hfind] at this
      simp at this
    simp only [GameConstants.MAX_ITEMS]
    by_cases hroom : b.entries_.length < 128
    · have hadd : BestiaryEntry.addKnownEffectiveness ⟨monster_name, []⟩ item_name type
          = (⟨monster_name, [⟨item_name, type⟩]⟩, true) := by
        simp [BestiaryEntry.addKnownEffectiveness, BestiaryEntry.isEffectivenessKnown,
          GameConstants.MAX_EFFECTIVE_ITEMS]
      simp only [hroom, if_true, hadd]
      refine ⟨⟨?_, ?_, ?_⟩, ?_⟩
      · simp only [List.map_append, List.map_cons, List.map_nil]
        exact List.Nodup.append hnodup (List.nodup_singleton _)
          (by
            intro x hx hx2
            rw [List.mem_singleton] at hx2
            subst hx2
            exact hnotin hx)
      · simp only [List.length_append, List.length_singleton]
        omega
      · intro entry hentry
        rcases List.mem_append.mp hentry with he | he
        · exact hentries entry he
        · rw [List.mem_singleton] at he
          subst he
          exact ⟨by simp, by simp, by simp⟩
      · intro n hn
        rw [findEntry_isSome_iff] at hn ⊢
        simp only [List.map_append, List.mem_append]
        exact Or.inl hn
    · simp only [hroom, if_false]
      exact ⟨⟨hnodup, hlen, hentries⟩, fun n hn => hn⟩
  | some entry =>
    obtain ⟨pre, post, hsplit, hpre, hname, hwrite⟩ := findEntry_split b monster_name entry hfind
    have hmem : entry ∈ b.entries_ := by
      rw [hsplit]
      simp
    obtain ⟨hne, hinodup, hilen⟩ := hentries entry hmem
    simp only []
    by_cases hknown : entry.isEffectivenessKnown item_name = true
    · simp only [hknown, if_true]
      exact ⟨⟨hnodup, hlen, hentries⟩, fun n hn => hn⟩
    · have hnew : item_name ∉ entry.effective_items.map (fun eff_item => eff_item.name) := by
        intro hin
        apply hknown
        rw [isEffectivenessKnown_iff]
        obtain ⟨x, hx, hxn⟩ := List.mem_map.mp hin
        exact ⟨x, hx, hxn⟩
      -- the entry after the call, whatever the outcome
      have hkey : ∀ new_entry : BestiaryEntry, new_entry.monster_name = entry.monster_name →
          (new_entry.effective_items ≠ [] ∧
            (new_entry.effective_items.map (fun eff_item => eff_item.name)).Nodup ∧
            new_entry.effective_items.length ≤ 64) →
          Bestiary.WellFormed ⟨writeEntryInternal b.entries_ monster_name new_entry⟩ ∧
          ∀ n, (b.findEntry n).isSome = true →
            (Bestiary.findEntry ⟨writeEntryInternal b.entries_ monster_name new_entry⟩
              n).isSome = true := by
        intro new_entry hnm hok
        have hnames : (writeEntryInternal b.entries_ monster_name new_entry).map
            (fun entry => entry.monster_name)
            = b.entries_.map (fun entry => entry.monster_name) := by
          rw [hwrite, hsplit]
          simp [hnm]
        refine ⟨⟨by rw [hnames]; exact hnodup, ?_, ?_⟩, ?_⟩
        · have := congrArg List.length hnames
          simp only [List.length_map] at this
          show (writeEntryInternal b.entries_ monster_name new_entry).length ≤ 128
          omega
        · intro e he
          change e ∈ writeEntryInternal b.entries_ monster_name new_entry at he
          rw [hwrite] at he
          rcases List.mem_append.mp he with he | he
          · exact hentries e (by rw [hsplit]; exact List.mem_append_left _ he)
          · rcases List.mem_cons.mp he with rfl | he
            · exact hok
            · exact hentries e (by
                rw [hsplit]
                exact List.mem_append_right _ (List.mem_cons_of_mem _ he))
        · intro n hn
          rw [findEntry_isSome_iff] at hn ⊢
          show n ∈ (writeEntryInternal b.entries_ monster_name new_entry).map
            (fun entry => entry.monster_name)
          rw [hnames]
          exact hn
      simp only [hknown, if_false, Bool.false_eq_true]
      unfold BestiaryEntry.addKnownEffectiveness
      simp only [hknown, if_false, Bool.false_eq_true, GameConstants.MAX_EFFECTIVE_ITEMS]
      by_cases hroom : entry.effective_items.length < 64
      · simp only [hroom, if_true]
        apply hkey ⟨entry.monster_name,
          entry.effective_items ++ [(⟨item_name, type⟩ : EffectiveItem)]⟩ rfl
        refine ⟨by simp, ?_, ?_⟩
        · simp only [List.map_append, List.map_cons, List.map_nil]
          exact List.Nodup.append hinodup (List.nodup_singleton _)
            (by
              intro x hx hx2
              rw [List.mem_singleton] at hx2
              subst hx2
              exact hnew hx)
        · simp only [List.length_append, List.length_singleton]
          omega
      · simp only [hroom, if_false, Bool.false_eq_true]
        exact hkey entry rfl ⟨hne, hinodup, hilen⟩

/-- `handleLearnEffectiveness` keeps the invariants. -/
theorem handleLearnEffectiveness_wellFormed (g : WitcherGame) (cmd : Command)
    (h : g.WellFormed) : (handleLearnEffectiveness g cmd).1.WellFormed := by
  cases cmd <;> try exact h
  rename_i item_name type monster_name
  obtain ⟨hwf, hmono⟩ :=
    addOrUpdateEffectiveness_wellFormed g.bestiary_ monster_name item_name type h.2.2
  unfold handleLearnEffectiveness
  exact ⟨Inventory.WellFormed.mono _ _ _ _ _ h.1 (fun n hn => hn) hmono, h.2.1, hwf⟩

/-- Every handler keeps the invariants. -/
theorem dispatch_wellFormed (g : WitcherGame) (cmd : Command) (h : g.WellFormed) :
    (g.dispatch cmd).1.WellFormed := by
  cases cmd <;> simp only [WitcherGame.dispatch, Command.type]
  · exact handleLoot_wellFormed g _ h
  · exact handleTrade_wellFormed g _ h
  · exact handleBrew_wellFormed g _ h
  · exact handleLearnEffectiveness_wellFormed g _ h
  · exact handleLearnFormula_wellFormed g _ h
  · exact handleEncounter_wellFormed g _ h
  · rw [(handleQuery_frame g _).1]; exact h
  · rw [(handleQuery_frame g _).2.1]; exact h
  · rw [(handleQuery_frame g _).2.2.1]; exact h
  · rw [(handleQuery_frame g _).2.2.2]; exact h
  · exact h
  · exact h
  · exact h

/-- The invariants hold along the session loop. -/
theorem run_loop_wellFormed (lines : List Str) (g : WitcherGame) (h : g.WellFormed) :
    (g.run_loop lines).1.WellFormed := by
  induction lines generalizing g with
  | nil => exact h
  | cons line rest ih =>
    unfold WitcherGame.run_loop
    cases hstep : g.step line with
    | none => exact h
    | some r =>
      simp only
      apply ih
      unfold WitcherGame.step at hstep
      simp only at hstep
      split at hstep
      · simp at hstep
      · simp only [Option.some.injEq] at hstep
        rw [← hstep]
        exact dispatch_wellFormed g _ h

/-- The invariants hold in every state reached from the empty session. -/
theorem run_wellFormed (lines : List Str) : (WitcherGame.run lines).1.WellFormed := by
  apply run_loop_wellFormed
  refine ⟨⟨?_, ?_, ?_, ?_⟩, ⟨?_, ?_, ?_⟩, ⟨?_, ?_, ?_⟩⟩
  · intro category
    cases category <;> exact ⟨List.nodup_nil, by simp [Inventory.items, WitcherGame.init]⟩
  · intro category item hitem
    cases category <;> simp [Inventory.items, WitcherGame.init] at hitem
  · intro n hn
    simp [WitcherGame.init] at hn
  · intro n hn
    simp [WitcherGame.init] at hn
  · exact List.nodup_nil
  · simp [WitcherGame.init]
  · intro f hf
    simp [WitcherGame.init] at hf
  · exact List.nodup_nil
  · simp [WitcherGame.init]
  · intro e he
    simp [WitcherGame.init] at he

/-! ## Key uniqueness in reachable session states -/

/-- C34. Formula and bestiary key uniqueness. In the state reached from the
empty session by processing any input lines: no two formulas have the same
potion name, no two bestiary entries have the same monster name, within each
entry no two effective items have the same name (whatever their kinds), every
entry has at least one effective item, and there are at most 128 formulas, 128
monsters and 64 items per monster. -/
theorem run_keys_unique (lines : List Str) :
    ((WitcherGame.run lines).1.alchemy_base_.formulae_.map
      (fun formula => formula.potion_name)).Nodup ∧
    ((WitcherGame.run lines).1.bestiary_.entries_.map
      (fun entry => entry.monster_name)).Nodup ∧
    (∀ entry ∈ (WitcherGame.run lines).1.bestiary_.entries_,
      (entry.effective_items.map (fun eff_item => eff_item.name)).Nodup ∧
      entry.effective_items ≠ [] ∧
      entry.effective_items.length ≤ 64) ∧
    (WitcherGame.run lines).1.alchemy_base_.formulae_.length ≤ 128 ∧
    (WitcherGame.run lines).1.bestiary_.entries_.length ≤ 128 := by
  obtain ⟨-, ⟨hf1, hf2, -⟩, ⟨hb1, hb2, hb3⟩⟩ := run_wellFormed lines
  exact ⟨hf1, hb1, fun entry he => ⟨(hb3 entry he).2.1, (hb3 entry he).1, (hb3 entry he).2.2⟩,
    hf2, hb2⟩

/-- A vector with pairwise distinct names, all taken from a list of at most
128 names, has an entry for each of those names or has room for one more. -/
theorem room_of_names_subset (items : List InventoryItem) (names : List Str)
    (hnodup : (items.map (fun item => item.name)).Nodup)
    (hsub : ∀ n ∈ items.map (fun item => item.name), n ∈ names)
    (hlen : names.length ≤ 128) (name : Str) (hname : name ∈ names) :
    (findItemInternal items name).isSome = true ∨ items.length < 128 := by
  cases hfind : findItemInternal items name with
  | some e => exact Or.inl rfl
  | none =>
    right
    have hnot := (findItemInternal_eq_none_iff items name).mp hfind
    have hnd : (name :: items.map (fun item => item.name)).Nodup :=
      List.nodup_cons.mpr ⟨hnot, hnodup⟩
    have hss : (name :: items.map (fun item => item.name)) ⊆ names := by
      intro x hx
      rcases List.mem_cons.mp hx with rfl | hx
      · exact hname
      · exact hsub x hx
    have := (List.subperm_of_subset hnd hss).length_le
    simp only [List.length_cons, List.length_map] at this
    omega

/-- The quantity read for a name is non-negative when every stored quantity
is. -/
theorem getItemQuantityInternal_nonneg_of_all (items : List InventoryItem) (name : Str)
    (h : ∀ item ∈ items, 0 ≤ item.quantity) : 0 ≤ getItemQuantityInternal items name := by
  unfold getItemQuantityInternal
  cases hfind : findItemInternal items name with
  | none => exact le_refl _
  | some e =>
    obtain ⟨pre, post, hsplit, -⟩ := findItemInternal_split items name e hfind
    apply h
    rw [hsplit]
    simp

/-- The commit loop of `handleBrew` touches the ingredients only. -/
theorem useIngredients_others (L : List IngredientRequirement) (inv : Inventory) :
    (useIngredients inv L).1.potions_ = inv.potions_ ∧
    (useIngredients inv L).1.trophies_ = inv.trophies_ := by
  induction L generalizing inv with
  | nil => exact ⟨rfl, rfl⟩
  | cons req rest ih =>
    simp only [useIngredients]
    split
    · exact ih _
    · exact ⟨rfl, rfl⟩

/-- In a well-formed session a potion with a known formula has an entry or the
potion category has room, and likewise a trophy of a known monster. -/
theorem WitcherGame.WellFormed.room (g : WitcherGame) (h : g.WellFormed) :
    (∀ potion_name, (g.alchemy_base_.findFormula potion_name).isSome = true →
      ((findItemInternal g.inventory_.potions_ potion_name).isSome = true ∨
        g.inventory_.potions_.length < 128)) ∧
    (∀ monster_name, (g.bestiary_.findEntry monster_name).isSome = true →
      ((findItemInternal g.inventory_.trophies_ monster_name).isSome = true ∨
        g.inventory_.trophies_.length < 128)) := by
  obtain ⟨⟨hu, -, hp, ht⟩, ⟨-, hfl, -⟩, ⟨-, hbl, -⟩⟩ := h
  constructor
  · intro potion_name hk
    exact room_of_names_subset g.inventory_.potions_
      (g.alchemy_base_.formulae_.map (fun formula => formula.potion_name))
      (hu .potion).1 (fun n hn => (findFormula_isSome_iff _ _).mp (hp n hn))
      (by simpa using hfl) potion_name ((findFormula_isSome_iff _ _).mp hk)
  · intro monster_name hk
    exact room_of_names_subset g.inventory_.trophies_
      (g.bestiary_.entries_.map (fun entry => entry.monster_name))
      (hu .trophy).1 (fun n hn => (findEntry_isSome_iff _ _).mp (ht n hn))
      (by simpa using hbl) monster_name ((findEntry_isSome_iff _ _).mp hk)

/-- A brew that prints the success line found a formula and credited the
potion on top of the unchanged potion vector. -/
theorem handleBrew_created (g : WitcherGame) (potion_name : Str)
    (h : (handleBrew g (.BREW potion_name)).2
      = ["Alchemy item created: ".toList ++ potion_name]) :
    (g.alchemy_base_.findFormula potion_name).isSome = true ∧
    (handleBrew g (.BREW potion_name)).1.inventory_.potions_
      = addOrUpdateItemInternal g.inventory_.potions_ potion_name 1 := by
  cases hf : g.alchemy_base_.findFormula potion_name with
  | none =>
    have hval : handleBrew g (.BREW potion_name)
        = (g, ["No formula for ".toList ++ potion_name]) := by
      simp only [handleBrew, hf]
    rw [hval] at h
    simp only [List.cons.injEq, and_true] at h
    have := congrArg (fun s => s.getD 0 'x') h
    simp at this
  | some formula =>
    refine ⟨rfl, ?_⟩
    by_cases h1 : (!formula.requirements.all (fun req =>
        !decide (g.inventory_.getIngredientQuantity req.ingredient_name < req.quantity))) = true
    · have hval : handleBrew g (.BREW potion_name)
          = (g, ["Not enough ingredients".toList]) := by
        simp only [handleBrew, hf]
        rw [if_pos h1]
      rw [hval] at h
      simp only [List.cons.injEq, and_true] at h
      have := congrArg (fun s => s.getD 1 'x') h
      simp at this
    · by_cases h2 : (!(useIngredients g.inventory_ formula.requirements).2) = true
      · have hval : handleBrew g (.BREW potion_name)
            = ({ g with inventory_ := (useIngredients g.inventory_ formula.requirements).1 },
                []) := by
          simp only [handleBrew, hf]
          rw [if_neg h1, if_pos h2]
        rw [hval] at h
        simp at h
      · have hval : handleBrew g (.BREW potion_name)
            = ({ g with inventory_ :=
                  (useIngredients g.inventory_ formula.requirements).1.addPotion potion_name 1 },
                ["Alchemy item created: ".toList ++ potion_name]) := by
          simp only [handleBrew, hf]
          rw [if_neg h1, if_neg h2]
        rw [hval]
        show addOrUpdateItemInternal (useIngredients g.inventory_ formula.requirements).1.potions_
          potion_name 1 = _
        rw [(useIngredients_others _ _).1]

/-- An encounter that prints the victory line found a bestiary entry and
credited the trophy on top of the unchanged trophy vector. -/
theorem handleEncounter_defeats (g : WitcherGame) (monster_name : Str)
    (h : (handleEncounter g (.ENCOUNTER monster_name)).2
      = ["Geralt defeats ".toList ++ monster_name]) :
    (g.bestiary_.findEntry monster_name).isSome = true ∧
    (handleEncounter g (.ENCOUNTER monster_name)).1.inventory_.trophies_
      = addOrUpdateItemInternal g.inventory_.trophies_ monster_name 1 := by
  have hne : ["Geralt is unprepared and barely escapes with his life".toList]
      ≠ ["Geralt defeats ".toList ++ monster_name] := by
    intro hc
    simp only [List.cons.injEq, and_true] at hc
    exact defeats_ne_unprepared monster_name hc.symm
  cases he : g.bestiary_.findEntry monster_name with
  | none =>
    rw [handleEncounter_no_entry g monster_name he] at h
    exact absurd h hne
  | some entry =>
    refine ⟨rfl, ?_⟩
    cases hs : encounter_sign entry with
    | true =>
      rw [handleEncounter_sign g monster_name entry he hs]
      rfl
    | false =>
      cases hp : encounter_potion g.inventory_ entry with
      | none =>
        rw [handleEncounter_nothing g monster_name entry he hs hp] at h
        exact absurd h hne
      | some p =>
        rw [handleEncounter_potion g monster_name entry p he hs hp]
        by_cases hn : p.name ≠ []
        · rw [if_pos hn]
          rfl
        · rw [if_neg hn]
          rfl

/-- C40. Credits for potions and trophies are never dropped in a reachable
state. In the state reached from the empty session by processing any input
lines: every potion name is the name of a known formula, every trophy name is
the name of a bestiary monster, both categories hold at most 128 entries;
whenever `handleBrew` prints its success line the potion already has an entry
or the potion category has room, and the potion quantity read afterwards is
the quantity before plus 1 (the count being below `INT_MAX`); whenever
`handleEncounter` prints its victory line the same holds for the trophy named
after the monster. -/
theorem run_credits_applied (lines : List Str) :
    (∀ n ∈ (WitcherGame.run lines).1.inventory_.potions_.map (fun item => item.name),
      (((WitcherGame.run lines).1.alchemy_base_.findFormula n).isSome = true)) ∧
    (∀ n ∈ (WitcherGame.run lines).1.inventory_.trophies_.map (fun item => item.name),
      (((WitcherGame.run lines).1.bestiary_.findEntry n).isSome = true)) ∧
    (WitcherGame.run lines).1.inventory_.potions_.length ≤ 128 ∧
    (WitcherGame.run lines).1.inventory_.trophies_.length ≤ 128 ∧
    (∀ potion_name,
      (handleBrew (WitcherGame.run lines).1 (.BREW potion_name)).2
        = ["Alchemy item created: ".toList ++ potion_name] →
      ((findItemInternal (WitcherGame.run lines).1.inventory_.potions_ potion_name).isSome = true ∨
        (WitcherGame.run lines).1.inventory_.potions_.length < 128) ∧
      ((WitcherGame.run lines).1.inventory_.getPotionQuantity potion_name < INT_MAX →
        (handleBrew (WitcherGame.run lines).1 (.BREW potion_name)).1.inventory_.getPotionQuantity
            potion_name
          = (WitcherGame.run lines).1.inventory_.getPotionQuantity potion_name + 1)) ∧
    (∀ monster_name,
      (handleEncounter (WitcherGame.run lines).1 (.ENCOUNTER monster_name)).2
        = ["Geralt defeats ".toList ++ monster_name] →
      ((findItemInternal (WitcherGame.run lines).1.inventory_.trophies_ monster_name).isSome
          = true ∨
        (WitcherGame.run lines).1.inventory_.trophies_.length < 128) ∧
      ((WitcherGame.run lines).1.inventory_.getTrophyQuantity monster_name < INT_MAX →
        (handleEncounter (WitcherGame.run lines).1
            (.ENCOUNTER monster_name)).1.inventory_.getTrophyQuantity monster_name
          = (WitcherGame.run lines).1.inventory_.getTrophyQuantity monster_name + 1)) := by
  have hwf := run_wellFormed lines
  obtain ⟨hroomp, hroomt⟩ := WitcherGame.WellFormed.room _ hwf
  obtain ⟨⟨hu, hnn, hp, ht⟩, -, -⟩ := hwf
  refine ⟨hp, ht, (hu .potion).2, (hu .trophy).2, ?_, ?_⟩
  · intro potion_name hout
    obtain ⟨hk, hstate⟩ := handleBrew_created _ potion_name hout
    refine ⟨hroomp potion_name hk, fun hlt => ?_⟩
    unfold Inventory.getPotionQuantity at hlt ⊢
    rw [hstate]
    exact getItemQuantityInternal_addOrUpdate_same _ _ 1 (le_refl _)
      (getItemQuantityInternal_nonneg_of_all _ _ (hnn .potion))
      (by unfold INT_MAX at hlt ⊢; omega) (hroomp potion_name hk)
  · intro monster_name hout
    obtain ⟨hk, hstate⟩ := handleEncounter_defeats _ monster_name hout
    refine ⟨hroomt monster_name hk, fun hlt => ?_⟩
    unfold Inventory.getTrophyQuantity at hlt ⊢
    rw [hstate]
    exact getItemQuantityInternal_addOrUpdate_same _ _ 1 (le_refl _)
      (getItemQuantityInternal_nonneg_of_all _ _ (hnn .trophy))
      (by unfold INT_MAX at hlt ⊢; omega) (hroomt monster_name hk)

/-! ## Lines that print nothing although they are not empty -/

/-- C31, failing session. After one Sign is learned and the Wolf is defeated
four times (five lines, five lines of output), the valid, non-empty line
`Geralt trades 3 Wolf, 3 Wolf trophy for 1 Rebis` is processed without any
output: the check passes for each listed trophy on its own (4 are held), the
first `useTrophy` leaves 1, the second one fails and `handleTrade` returns
before printing. One Wolf trophy is left and no Rebis is received. -/
theorem step_trade_prints_nothing :
    (WitcherGame.run
      ["Geralt learns Igni sign is effective against Wolf".toList,
       "Geralt encounters a Wolf".toList,
       "Geralt encounters a Wolf".toList,
       "Geralt encounters a Wolf".toList,
       "Geralt encounters a Wolf".toList]).2
      = ["New bestiary entry added: Wolf".toList,
         "Geralt defeats Wolf".toList,
         "Geralt defeats Wolf".toList,
         "Geralt defeats Wolf".toList,
         "Geralt defeats Wolf".toList] ∧
    trim_whitespace_str "Geralt trades 3 Wolf, 3 Wolf trophy for 1 Rebis".toList ≠ [] ∧
    (parse_command_internal "Geralt trades 3 Wolf, 3 Wolf trophy for 1 Rebis".toList).type
      = .TRADE ∧
    Option.map (fun r => (r.1.inventory_.trophies_, r.1.inventory_.ingredients_, r.2))
      ((WitcherGame.run
        ["Geralt learns Igni sign is effective against Wolf".toList,
         "Geralt encounters a Wolf".toList,
         "Geralt encounters a Wolf".toList,
         "Geralt encounters a Wolf".toList,
         "Geralt encounters a Wolf".toList]).1.step
        "Geralt trades 3 Wolf, 3 Wolf trophy for 1 Rebis".toList)
      = some ([⟨"Wolf".toList, 1⟩], [], []) := by
  refine ⟨?_, ?_, ?_, ?_⟩ <;> decide

/-! ## Formulas that name an ingredient twice -/

/-- C35, failing line. From the empty session the line
`Geralt learns Swallow potion consists of 3 Rebis, 3 Rebis` is accepted (it
prints `New alchemy formula obtained: Swallow`) and the stored formula names
the ingredient Rebis twice. -/
theorem run_learn_formula_duplicate_ingredient :
    WitcherGame.run ["Geralt learns Swallow potion consists of 3 Rebis, 3 Rebis".toList]
      = ({ WitcherGame.init with
            alchemy_base_ := ⟨[⟨"Swallow".toList,
              [⟨"Rebis".toList, 3⟩, ⟨"Rebis".toList, 3⟩]⟩]⟩ },
          ["New alchemy formula obtained: Swallow".toList]) ∧
    ¬ (([⟨"Rebis".toList, 3⟩, ⟨"Rebis".toList, 3⟩] : List IngredientRequirement).map
        (fun req => req.ingredient_name)).Nodup := by
  refine ⟨?_, ?_⟩ <;> decide

/-- A consequence of such a formula: with 4 Rebis held, `Geralt brews Swallow`
passes the check of each requirement on its own, uses 3 Rebis, fails at the
second requirement and returns without any output and without the potion:
three lines give two lines of output, 1 Rebis is left and no potion is
held. -/
theorem run_brew_duplicate_ingredient_silent :
    (WitcherGame.run
      ["Geralt learns Swallow potion consists of 3 Rebis, 3 Rebis".toList,
       "Geralt loots 4 Rebis".toList,
       "Geralt brews Swallow".toList]).2
      = ["New alchemy formula obtained: Swallow".toList,
         "Alchemy ingredients obtained".toList] ∧
    (WitcherGame.run
      ["Geralt learns Swallow potion consists of 3 Rebis, 3 Rebis".toList,
       "Geralt loots 4 Rebis".toList,
       "Geralt brews Swallow".toList]).1.inventory_
      = ⟨[⟨"Rebis".toList, 1⟩], [], []⟩ := by
  refine ⟨?_, ?_⟩ <;> decide

/-! ## Capacity limits -/

/-- Writing back the entry that `findEntry` returned changes nothing. -/
theorem writeEntryInternal_self (b : Bestiary) (monster_name : Str) (entry : BestiaryEntry)
    (h : b.findEntry monster_name = some entry) :
    writeEntryInternal b.entries_ monster_name entry = b.entries_ := by
  obtain ⟨pre, post, hsplit, -, -, hwrite⟩ := findEntry_split b monster_name entry h
  rw [hwrite, hsplit]

set_option maxRecDepth 100000 in
/-- C32, counterexample. A session of three valid loot lines: the first two
bring 64 new ingredient names each, so the ingredient category holds 128
names; the third, `Geralt loots 1 Rebis`, cannot insert the new name, the
category does not grow and Rebis is not held, and still the line printed is
the success message `Alchemy ingredients obtained`. -/
theorem run_loot_at_capacity :
    (WitcherGame.run
      ["Geralt loots ".toList ++ serializeItems (twoLetterItems 0 64),
       "Geralt loots ".toList ++ serializeItems (twoLetterItems 64 64)]).1.inventory_.ingredients_.length
      = 128 ∧
    (WitcherGame.run
      ["Geralt loots ".toList ++ serializeItems (twoLetterItems 0 64),
       "Geralt loots ".toList ++ serializeItems (twoLetterItems 64 64)]).1.step
        "Geralt loots 1 Rebis".toList
      = some ((WitcherGame.run
          ["Geralt loots ".toList ++ serializeItems (twoLetterItems 0 64),
           "Geralt loots ".toList ++ serializeItems (twoLetterItems 64 64)]).1,
        ["Alchemy ingredients obtained".toList]) := by
  have hp1 := parse_command_internal_loot_line (twoLetterItems 0 64) (by decide) (by decide)
    (by decide)
  have hp2 := parse_command_internal_loot_line (twoLetterItems 64 64) (by decide) (by decide)
    (by decide)
  have hp3 : parse_command_internal "Geralt loots 1 Rebis".toList
      = .LOOT [⟨"Rebis".toList, 1⟩] := by decide
  have hrun : WitcherGame.run
      ["Geralt loots ".toList ++ serializeItems (twoLetterItems 0 64),
       "Geralt loots ".toList ++ serializeItems (twoLetterItems 64 64)]
      = (⟨⟨twoLetterItems 0 128 |>.map (fun item => ⟨item.name, item.quantity⟩), [], []⟩,
          ⟨[]⟩, ⟨[]⟩⟩,
        ["Alchemy ingredients obtained".toList, "Alchemy ingredients obtained".toList]) := by
    unfold WitcherGame.run
    simp only [WitcherGame.run_loop, WitcherGame.step, hp1, hp2, Command.type,
      WitcherGame.dispatch, handleLoot]
    decide
  rw [hrun]
  constructor
  · decide
  · unfold WitcherGame.step
    simp only [hp3, Command.type, WitcherGame.dispatch, handleLoot]
    decide

/-- C32, as the code has it. At capacity no collection grows, and the failure
is reported for formulas, monsters and effective items but not for inventory
categories. With 128 formulas a formula for an unknown potion is not stored
and `INVALID` is printed; with 128 monsters an effectiveness for an unknown
monster is not stored and `INVALID` is printed; with 64 effective items for a
monster a further item is not stored and `INVALID` is printed; in each case
the whole state is unchanged. A vector of an inventory category with 128
entries is returned unchanged by `addOrUpdateItemInternal` for a new name, yet
`handleLoot` always prints `Alchemy ingredients obtained`, and what
`handleTrade` prints does not depend on the ingredients to receive. -/
theorem capacity_outcomes (g : WitcherGame) :
    (∀ potion_name requirements, g.alchemy_base_.formulae_.length ≥ 128 →
      g.alchemy_base_.findFormula potion_name = none →
      handleLearnFormula g (.LEARN_FORMULA potion_name requirements)
        = (g, ["INVALID".toList])) ∧
    (∀ item_name type monster_name, g.bestiary_.entries_.length ≥ 128 →
      g.bestiary_.findEntry monster_name = none →
      handleLearnEffectiveness g (.LEARN_EFFECTIVENESS item_name type monster_name)
        = (g, ["INVALID".toList])) ∧
    (∀ item_name type monster_name entry,
      g.bestiary_.findEntry monster_name = some entry →
      entry.effective_items.length ≥ 64 →
      entry.isEffectivenessKnown item_name = false →
      handleLearnEffectiveness g (.LEARN_EFFECTIVENESS item_name type monster_name)
        = (g, ["INVALID".toList])) ∧
    (∀ items name quantity, items.length ≥ 128 → findItemInternal items name = none →
      addOrUpdateItemInternal items name quantity = items) ∧
    (∀ items, (handleLoot g (.LOOT items)).2 = ["Alchemy ingredients obtained".toList]) ∧
    (∀ trophies_to_give received received2,
      (handleTrade g (.TRADE trophies_to_give received)).2
        = (handleTrade g (.TRADE trophies_to_give received2)).2) := by
  refine ⟨?_, ?_, ?_, ?_, ?_, ?_⟩
  · intro potion_name requirements hfull hnone
    unfold handleLearnFormula
    simp only [hnone, Option.isSome_none, Bool.false_eq_true, if_false]
    unfold AlchemyBase.addFormula
    simp only [GameConstants.MAX_ITEMS]
    rw [if_pos hfull]
    rfl
  · intro item_name type monster_name hfull hnone
    have hval : g.bestiary_.addOrUpdateEffectiveness monster_name item_name type
        = (g.bestiary_, -1) := by
      unfold Bestiary.addOrUpdateEffectiveness
      simp only [hnone, GameConstants.MAX_ITEMS]
      rw [if_neg (by omega)]
    unfold handleLearnEffectiveness
    simp only [hval]
    rfl
  · intro item_name type monster_name entry hentry hfull hknown
    have hval : g.bestiary_.addOrUpdateEffectiveness monster_name item_name type
        = (g.bestiary_, -1) := by
      unfold Bestiary.addOrUpdateEffectiveness
      simp only [hentry]
      unfold BestiaryEntry.addKnownEffectiveness
      simp only [hknown, Bool.false_eq_true, if_false, GameConstants.MAX_EFFECTIVE_ITEMS]
      rw [if_neg (show ¬ entry.effective_items.length < 64 by omega)]
      simp only [Bool.false_eq_true, if_false]
      rw [writeEntryInternal_self g.bestiary_ monster_name entry hentry]
    unfold handleLearnEffectiveness
    simp only [hval]
    rfl
  · intro items name quantity hfull hnone
    unfold addOrUpdateItemInternal
    simp only [hnone, GameConstants.MAX_ITEMS]
    rw [if_neg (by omega)]
  · intro items
    rfl
  · intro trophies_to_give received received2
    unfold handleTrade
    simp only
    split
    · rfl
    · split <;> rfl

/-! ## The C implementation: names and loot lines -/

/-- The loop of the C `parse_name` accepts a text of letters once a letter has
been seen or the text is non-empty. -/
theorem mainc_parse_name_loop_letters (allow_spaces : Bool) (t : Str) (cf lws : Bool)
    (halpha : ∀ c ∈ t, isalpha c = true) (h : cf = true ∨ t ≠ []) :
    MainC.parse_name_loop allow_spaces t cf lws = some true := by
  induction t generalizing cf lws with
  | nil =>
    rcases h with h | h
    · rw [h]
      rfl
    · exact absurd rfl h
  | cons c rest ih =>
    unfold MainC.parse_name_loop
    rw [if_pos (halpha c (List.mem_cons_self _ _))]
    exact ih true false (fun x hx => halpha x (List.mem_cons_of_mem _ hx)) (Or.inl rfl)

/-- C38, failing inputs. In `main.c`, `parse_name(token, dest, 128, 0)`
succeeds for every token of 128 or more letters, and the name stored is the
prefix of 127 characters: the token is cut to 127 characters when it is copied
to the validation buffer, before its length is compared with the bound. -/
theorem parse_name_truncates (token : Str) (hlen : 128 ≤ token.length)
    (halpha : ∀ c ∈ token, isalpha c = true) :
    MainC.parse_name token 128 false = some (token.take 127) ∧
    token.take 127 ≠ token := by
  have hne : token ≠ [] := by
    intro h
    rw [h] at hlen
    simp at hlen
  have hl : (token.take 127).length = 127 := by
    rw [List.length_take]
    omega
  have hmem : ∀ c ∈ token.take 127, isalpha c = true :=
    fun c hc => halpha c (List.mem_of_mem_take hc)
  have hne2 : token.take 127 ≠ [] := by
    intro h
    rw [h] at hl
    simp at hl
  have hget : ∀ i, i < 127 → isspace ((token.take 127).getD i NUL) = false := by
    intro i hi
    apply isspace_of_isalpha
    apply hmem
    rw [List.getD_eq_getElem _ _ (by omega)]
    exact List.getElem_mem _
  constructor
  · unfold MainC.parse_name
    simp only [MainC.MAX_NAME_LENGTH, hne, if_false, hl]
    rw [if_neg (by omega)]
    rw [if_neg (by
      rw [hget 0 (by omega), hget (127 - 1) (by omega)]
      simp)]
    rw [mainc_parse_name_loop_letters false _ false false hmem (Or.inr hne2)]
    simp
  · intro h
    have := congrArg List.length h
    rw [hl] at this
    omega

/-- Witness of C38: the token of 128 letters `a` is accepted as the name of
127 letters `a`. -/
theorem parse_name_truncates_witness :
    MainC.parse_name (List.replicate 128 'a') 128 false
      = some ((List.replicate 128 'a').take 127) ∧
    (List.replicate 128 'a').take 127 ≠ List.replicate 128 'a' :=
  parse_name_truncates (List.replicate 128 'a') (by simp)
    (fun c hc => by
      rw [List.eq_of_mem_replicate hc]
      decide)

/-- For a token of fewer than 128 characters the C `parse_name` stores the
whole token whenever it succeeds. -/
theorem mainc_parse_name_short (token name : Str) (allow_spaces : Bool)
    (hlen : token.length < 128)
    (h : MainC.parse_name token 128 allow_spaces = some name) : name = token := by
  have htake : token.take 127 = token := List.take_of_length_le (by omega)
  unfold MainC.parse_name at h
  simp only [MainC.MAX_NAME_LENGTH, htake] at h
  split at h
  · simp at h
  · split at h
    · simp at h
    · split at h
      · simp at h
      · split at h
        · simp at h
        · split at h
          · simp at h
          · simp only [Option.some.injEq] at h
            rw [← h]

/-- The text left after a call of `strtok_r` that returns a token is shorter
than the text before. -/
theorem strtok_r_rest_length (s : Str) (delim : Char) (tok rest : Str)
    (h : MainC.strtok_r s delim = some (tok, rest)) : rest.length < s.length := by
  unfold MainC.strtok_r at h
  simp only at h
  split at h
  · simp at h
  · rename_i hne
    simp only [Option.some.injEq, Prod.mk.injEq] at h
    rw [← h.2]
    have h1 : (List.dropWhile (fun c => c == delim) s).length ≤ s.length :=
      (List.dropWhile_suffix _).length_le
    have h2 : (List.dropWhile (fun c => c != delim)
        (List.dropWhile (fun c => c == delim) s)).length
        ≤ (List.dropWhile (fun c => c == delim) s).length :=
      (List.dropWhile_suffix _).length_le
    rw [List.length_drop]
    have h3 : 0 < (List.dropWhile (fun c => c == delim) s).length :=
      List.length_pos.mpr hne
    by_cases h4 : (List.dropWhile (fun c => c != delim)
        (List.dropWhile (fun c => c == delim) s)).length = 0
    · omega
    · omega

/-- The loop of the C `parse_ingredient_list` finishes within the rounds it is
given, when these exceed the length of the text left by at least 2. -/
theorem parse_ingredient_list_loop_isSome (max_items fuel : Nat) (tok : Option (Str × Str))
    (items : List ItemInfo)
    (h : match tok with
      | none => 1 ≤ fuel
      | some r => r.2.length + 2 ≤ fuel) :
    (MainC.parse_ingredient_list_loop max_items fuel tok items).isSome = true := by
  induction fuel generalizing tok items with
  | zero =>
    cases tok with
    | none => simp at h
    | some r => simp at h
  | succ fuel ih =>
    cases tok with
    | none => rfl
    | some r =>
      obtain ⟨token_in, saveptr⟩ := r
      simp only at h
      unfold MainC.parse_ingredient_list_loop
      split
      · rfl
      · simp only
        split
        · rfl
        · split
          · rfl
          · split
            · rfl
            · split
              · rfl
              · apply ih
                cases hs : MainC.strtok_r saveptr ',' with
                | none =>
                  simp only
                  omega
                | some r2 =>
                  obtain ⟨t2, rest2⟩ := r2
                  have := strtok_r_rest_length saveptr ',' t2 rest2 hs
                  simp only
                  omega

/-- The C `parse_ingredient_list` returns for every text. -/
theorem parse_ingredient_list_isSome (tokens : Str) (max_items : Nat) :
    (MainC.parse_ingredient_list tokens max_items).isSome = true := by
  unfold MainC.parse_ingredient_list
  apply parse_ingredient_list_loop_isSome
  cases hs : MainC.strtok_r tokens ',' with
  | none =>
    simp only
    omega
  | some r =>
    obtain ⟨t, rest⟩ := r
    have := strtok_r_rest_length tokens ',' t rest hs
    simp only
    omega

/-- C39, failing lines. For `Geralt loots 1 Rebis,,2 Vitriol` and for
`Geralt loots ,1 Rebis` the parser of `main.c` returns Loot (`strtok_r` skips
the empty segment of a doubled or leading comma) and the parser of `main.cpp`
returns Invalid. -/
theorem parse_command_loot_disagree :
    MainC.parse_command "Geralt loots 1 Rebis,,2 Vitriol".toList
      = some (.LOOT [⟨"Rebis".toList, 1⟩, ⟨"Vitriol".toList, 2⟩]) ∧
    parse_command_internal "Geralt loots 1 Rebis,,2 Vitriol".toList = .INVALID ∧
    MainC.parse_command "Geralt loots ,1 Rebis".toList = some (.LOOT [⟨"Rebis".toList, 1⟩]) ∧
    parse_command_internal "Geralt loots ,1 Rebis".toList = .INVALID := by
  refine ⟨?_, ?_, ?_, ?_⟩ <;> decide

/-- On a trailing comma the two parsers agree: both accept the line. -/
theorem parse_command_loot_trailing_comma :
    MainC.parse_command "Geralt loots 5 Rebis , 3 Vitriol,".toList
      = some (.LOOT [⟨"Rebis".toList, 5⟩, ⟨"Vitriol".toList, 3⟩]) ∧
    parse_command_internal "Geralt loots 5 Rebis , 3 Vitriol,".toList
      = .LOOT [⟨"Rebis".toList, 5⟩, ⟨"Vitriol".toList, 3⟩] := by
  refine ⟨?_, ?_⟩ <;> decide

set_option maxRecDepth 100000 in
/-- On a name of 128 letters the two parsers disagree as well: `main.c` cuts
the name to 127 letters and returns Loot, `main.cpp` returns Invalid. -/
theorem parse_command_loot_long_name :
    MainC.parse_command ("Geralt loots 1 ".toList ++ List.replicate 128 'a')
      = some (.LOOT [⟨List.replicate 127 'a', 1⟩]) ∧
    parse_command_internal ("Geralt loots 1 ".toList ++ List.replicate 128 'a') = .INVALID := by
  refine ⟨?_, ?_⟩ <;> decide

/-! ## How many lines a handler prints -/

/-- The formula that `findFormula` returns is one of the stored formulas. -/
theorem findFormula_mem (ab : AlchemyBase) (potion_name : Str) (formula : PotionFormula)
    (h : ab.findFormula potion_name = some formula) : formula ∈ ab.formulae_ := by
  unfold AlchemyBase.findFormula at h
  exact List.mem_of_find?_eq_some h

/-- In a state that satisfies the session invariants, every command other
than Empty makes its handler print exactly one line, with two exceptions in
which nothing is printed: a trade whose commit loop fails at some `useTrophy`
and a brew whose commit loop fails at some `useIngredient` (both after the
check loop has passed). -/
theorem dispatch_output_one_or_silent (g : WitcherGame) (cmd : Command) (h : g.WellFormed)
    (hcmd : cmd ≠ .EMPTY) :
    (g.dispatch cmd).2.length = 1 ∨
    ((g.dispatch cmd).2 = [] ∧
      ((∃ trophies_to_give ingredients_to_receive,
          cmd = .TRADE trophies_to_give ingredients_to_receive ∧
          (useTrophies g.inventory_ trophies_to_give).2 = false) ∨
        (∃ potion_name formula, cmd = .BREW potion_name ∧
          g.alchemy_base_.findFormula potion_name = some formula ∧
          (useIngredients g.inventory_ formula.requirements).2 = false))) := by
  cases cmd with
  | LOOT items => exact Or.inl rfl
  | TRADE trophies_to_give ingredients_to_receive =>
    simp only [WitcherGame.dispatch, Command.type, handleTrade]
    split
    · exact Or.inl rfl
    · split
      · rename_i h1 h2
        right
        refine ⟨rfl, Or.inl ⟨_, _, rfl, ?_⟩⟩
        simpa using h2
      · exact Or.inl rfl
  | BREW potion_name =>
    simp only [WitcherGame.dispatch, Command.type, handleBrew]
    cases hf : g.alchemy_base_.findFormula potion_name with
    | none => exact Or.inl rfl
    | some formula =>
      simp only
      split
      · exact Or.inl rfl
      · split
        · rename_i h1 h2
          right
          refine ⟨rfl, Or.inr ⟨_, formula, rfl, hf, ?_⟩⟩
          simpa using h2
        · exact Or.inl rfl
  | LEARN_EFFECTIVENESS item_name item_type monster_name =>
    left
    simp only [WitcherGame.dispatch, Command.type, handleLearnEffectiveness]
    split_ifs <;> rfl
  | LEARN_FORMULA potion_name requirements =>
    left
    simp only [WitcherGame.dispatch, Command.type, handleLearnFormula]
    split_ifs <;> rfl
  | ENCOUNTER monster_name =>
    left
    simp only [WitcherGame.dispatch, Command.type]
    cases he : g.bestiary_.findEntry monster_name with
    | none =>
      rw [handleEncounter_no_entry g monster_name he]
      rfl
    | some entry =>
      cases hs : encounter_sign entry with
      | true =>
        rw [handleEncounter_sign g monster_name entry he hs]
        rfl
      | false =>
        cases hp : encounter_potion g.inventory_ entry with
        | none =>
          rw [handleEncounter_nothing g monster_name entry he hs hp]
          rfl
        | some p =>
          rw [handleEncounter_potion g monster_name entry p he hs hp]
          rfl
  | QUERY_TOTAL_SPECIFIC category item_name =>
    left
    simp only [WitcherGame.dispatch, Command.type, handleQueryTotalSpecific]
    split_ifs <;> rfl
  | QUERY_TOTAL_ALL category =>
    left
    simp only [WitcherGame.dispatch, Command.type, handleQueryTotalAll,
      Inventory.printAllIngredients, Inventory.printAllPotions, Inventory.printAllTrophies,
      printAllItemsInternal]
    split_ifs <;> rfl
  | QUERY_EFFECTIVE_AGAINST monster_name =>
    left
    simp only [WitcherGame.dispatch, Command.type, handleQueryEffectiveAgainst,
      Bestiary.printEffectivenessForMonster]
    cases he : g.bestiary_.findEntry monster_name with
    | none => rfl
    | some entry =>
      simp only [BestiaryEntry.printEffectiveness]
      split_ifs <;> rfl
  | QUERY_WHAT_IS_IN potion_name =>
    left
    simp only [WitcherGame.dispatch, Command.type, handleQueryWhatIsIn,
      AlchemyBase.printFormulaForPotion]
    cases hf : g.alchemy_base_.findFormula potion_name with
    | none => rfl
    | some formula =>
      have hne := (h.2.1.2.2 formula (findFormula_mem _ _ _ hf)).1
      simp only [PotionFormula.print, hne, if_false]
      rfl
  | EXIT => exact Or.inl rfl
  | INVALID => exact Or.inl rfl
  | EMPTY => exact absurd rfl hcmd

/-- The part of the formula invariant that does hold in every reachable
state: each stored formula has between 1 and 64 requirements. -/
theorem run_formulas_nonempty (lines : List Str) (formula : PotionFormula)
    (h : formula ∈ (WitcherGame.run lines).1.alchemy_base_.formulae_) :
    formula.requirements ≠ [] ∧ formula.requirements.length ≤ 64 :=
  (run_wellFormed lines).2.1.2.2 formula h

end WitcherTracker
